import Mathlib

/-! # CommonLib (namespace `common`): streams, text codecs, ring buffer, files

A shallow embedding of parts of `Common/Stream.hpp` and `Common/Files.cpp`.

Conventions of the embedding:
* a `char` / `uint8` is a `Nat` below 256 (`IsBytes` states the range of a buffer);
  character constants are written as their ASCII codes;
* a buffer (`const void *Data, size_t Size`, `std::string`) is a `List Nat`;
* a function that can throw returns `Except Error _`; a static helper that
  reports failure through its return value returns `Option _`;
* a loop whose number of rounds depends on the stream takes a `fuel` argument
  and returns `Option (Except Error _)`, `none` meaning that the fuel ran out.

* a 32-bit or 64-bit machine integer is a `Nat` or an `Int` with an explicit
  wrap (`toInt32`, `toUInt64`, `toPtrdiff`); `int` has 32 bits, `long`,
  `ptrdiff_t` and `size_t` have 64;
* the operating system below `FileStream` and `DirLister` is a small model: an
  open file is its size and position, a directory is the list of entries that
  are enumerated, and the outcome of a read or write call is a parameter.

`Stream.hpp` holds declarations and inline member functions only; the bodies
that live in the library's `Stream.cpp` are modelled from the specification and
from the header's documentation, and every such definition says so.
-/

set_option autoImplicit false

namespace common

/-! ## Basic vocabulary -/

/-- Every element of the buffer is a byte value. -/
abbrev IsBytes (B : List Nat) : Prop := ∀ b ∈ B, b < 256

/-- Stream.hpp, `enum DECODE_TOLERANCE`: which unexpected characters a decoder
skips instead of reporting an error. -/
inductive DECODE_TOLERANCE
  | DECODE_TOLERANCE_NONE
  | DECODE_TOLERANCE_WHITESPACE
  | DECODE_TOLERANCE_ALL
  deriving DecidableEq, Repr

open DECODE_TOLERANCE

/-- Modelled from the spec: the library's whitespace test (`CharIsWhitespace`,
declared outside `Stream.hpp`): space, `\t`, `\n`, `\v`, `\r`. -/
def CharIsWhitespace (c : Nat) : Bool :=
  c == 32 || c == 10 || c == 13 || c == 9 || c == 11

/-- Modelled from the spec: the tolerance policy for a character that is outside
the codec's alphabet. `NONE`: never skipped; `WHITESPACE`: skipped when it is
whitespace; `ALL`: always skipped. -/
def Tolerated (Tolerance : DECODE_TOLERANCE) (c : Nat) : Bool :=
  match Tolerance with
  | DECODE_TOLERANCE_NONE => false
  | DECODE_TOLERANCE_WHITESPACE => CharIsWhitespace c
  | DECODE_TOLERANCE_ALL => true

/-! ## Static text codecs

The three codecs share one shape (spec, table of group sizes): the characters
of the alphabet carry a value, `GroupSize` of them form a group, and a group
decodes to at most three bytes, possibly ending the data (Base64 padding). -/

/-- Modelled from the spec: what distinguishes the Binary, Hex and Base64
decoders (`Stream.cpp` is not part of the sources): the group size in
characters, the value of an alphabet character (`none` outside the alphabet),
the bytes of a complete group with the flag "padding seen, data finished"
(`none` for a structurally invalid group), and the byte count of a group. -/
structure TextCodec where
  GroupSize : Nat
  Symbol : Nat → Option Nat
  DecodeGroup : List Nat → Option (List Nat × Bool)
  GroupLength : List Nat → Option (Nat × Bool)

/-- Modelled from the spec: the static `Decode` helpers. Characters are consumed
left to right; an alphabet character joins the current group `grp`, a complete
group is decoded, a group with padding ends the decoding (nothing after it is
parsed); a character outside the alphabet is skipped when the tolerance allows
it and is a format error otherwise; a partial group at the end of the input is
a format error. `none` is the documented error value (`MAXUINT32`). -/
def DecodeLoop (C : TextCodec) (Tolerance : DECODE_TOLERANCE) :
    List Nat → List Nat → Option (List Nat)
  | [], grp => if grp = [] then some [] else none
  | c :: cs, grp =>
    match C.Symbol c with
    | some v =>
      if (grp ++ [v]).length = C.GroupSize then
        match C.DecodeGroup (grp ++ [v]) with
        | none => none
        | some (bytes, true) => some bytes
        | some (bytes, false) => (DecodeLoop C Tolerance cs []).map (fun r => bytes ++ r)
      else DecodeLoop C Tolerance cs (grp ++ [v])
    | none => if Tolerated Tolerance c then DecodeLoop C Tolerance cs grp else none

/-- Modelled from the spec: the static `DecodeLength` helpers: the same scan as
`DecodeLoop`, counting the bytes of every group instead of producing them.
`none` stands for the return value `false`. -/
def DecodeLengthLoop (C : TextCodec) (Tolerance : DECODE_TOLERANCE) :
    List Nat → List Nat → Option Nat
  | [], grp => if grp = [] then some 0 else none
  | c :: cs, grp =>
    match C.Symbol c with
    | some v =>
      if (grp ++ [v]).length = C.GroupSize then
        match C.GroupLength (grp ++ [v]) with
        | none => none
        | some (n, true) => some n
        | some (n, false) => (DecodeLengthLoop C Tolerance cs []).map (fun r => n + r)
      else DecodeLengthLoop C Tolerance cs (grp ++ [v])
    | none => if Tolerated Tolerance c then DecodeLengthLoop C Tolerance cs grp else none

/-! ### Binary text: 8 characters `'0'`/`'1'` per byte, most significant bit first -/

/-- Modelled from the spec: the eight characters `BinEncoder` emits for one byte. -/
def BinEncoder.EncodeByte (b : Nat) : List Nat :=
  [48 + b / 128 % 2, 48 + b / 64 % 2, 48 + b / 32 % 2, 48 + b / 16 % 2,
   48 + b / 8 % 2, 48 + b / 4 % 2, 48 + b / 2 % 2, 48 + b % 2]

/-- Modelled from the spec: static `BinEncoder::Encode(string *Out, Data, DataLength)`. -/
def BinEncoder.Encode : List Nat → List Nat
  | [] => []
  | b :: bs => BinEncoder.EncodeByte b ++ BinEncoder.Encode bs

/-- Modelled from the spec: the Binary alphabet, `'0'` (48) and `'1'` (49). -/
def BinDecoder.Symbol (c : Nat) : Option Nat :=
  if c = 48 then some 0 else if c = 49 then some 1 else none

/-- Modelled from the spec: eight bits, most significant first, make one byte. -/
def BinDecoder.DecodeGroup (g : List Nat) : Option (List Nat × Bool) :=
  match g with
  | [b7, b6, b5, b4, b3, b2, b1, b0] =>
    some ([b7 * 128 + b6 * 64 + b5 * 32 + b4 * 16 + b3 * 8 + b2 * 4 + b1 * 2 + b0], false)
  | _ => none

/-- Modelled from the spec: a group of eight binary digits is one byte. -/
def BinDecoder.GroupLength (g : List Nat) : Option (Nat × Bool) :=
  if g.length = 8 then some (1, false) else none

/-- The Binary codec. -/
def BinDecoder.Codec : TextCodec :=
  ⟨8, BinDecoder.Symbol, BinDecoder.DecodeGroup, BinDecoder.GroupLength⟩

/-- Modelled from the spec: static `BinDecoder::Decode(OutData, s, Tolerance)`. -/
def BinDecoder.Decode (s : List Nat) (Tolerance : DECODE_TOLERANCE) : Option (List Nat) :=
  DecodeLoop BinDecoder.Codec Tolerance s []

/-- Modelled from the spec: static `BinDecoder::DecodeLength(OutLength, s, Tolerance)`. -/
def BinDecoder.DecodeLength (s : List Nat) (Tolerance : DECODE_TOLERANCE) : Option Nat :=
  DecodeLengthLoop BinDecoder.Codec Tolerance s []

/-! ### Hex: two digits per byte, most significant nibble first -/

/-- Modelled from the spec: the hex digit of a nibble, upper or lower case. -/
def HexEncoder.Digit (UpperCase : Bool) (v : Nat) : Nat :=
  if v < 10 then 48 + v else if UpperCase then 65 + (v - 10) else 97 + (v - 10)

/-- Modelled from the spec: the two characters `HexEncoder` emits for one byte. -/
def HexEncoder.EncodeByte (UpperCase : Bool) (b : Nat) : List Nat :=
  [HexEncoder.Digit UpperCase (b / 16 % 16), HexEncoder.Digit UpperCase (b % 16)]

/-- Modelled from the spec: static `HexEncoder::Encode(string *Out, Data, DataLength, UpperCase)`. -/
def HexEncoder.Encode (UpperCase : Bool) : List Nat → List Nat
  | [] => []
  | b :: bs => HexEncoder.EncodeByte UpperCase b ++ HexEncoder.Encode UpperCase bs

/-- Modelled from the spec: the Hex alphabet; both cases are accepted. -/
def HexDecoder.Symbol (c : Nat) : Option Nat :=
  if 48 ≤ c ∧ c ≤ 57 then some (c - 48)
  else if 65 ≤ c ∧ c ≤ 70 then some (c - 55)
  else if 97 ≤ c ∧ c ≤ 102 then some (c - 87)
  else none

/-- Modelled from the spec: two nibbles, most significant first, make one byte. -/
def HexDecoder.DecodeGroup (g : List Nat) : Option (List Nat × Bool) :=
  match g with
  | [hi, lo] => some ([hi * 16 + lo], false)
  | _ => none

/-- Modelled from the spec: a group of two hex digits is one byte. -/
def HexDecoder.GroupLength (g : List Nat) : Option (Nat × Bool) :=
  if g.length = 2 then some (1, false) else none

/-- The Hex codec. -/
def HexDecoder.Codec : TextCodec :=
  ⟨2, HexDecoder.Symbol, HexDecoder.DecodeGroup, HexDecoder.GroupLength⟩

/-- Modelled from the spec: static `HexDecoder::Decode(OutData, s, Tolerance)`. -/
def HexDecoder.Decode (s : List Nat) (Tolerance : DECODE_TOLERANCE) : Option (List Nat) :=
  DecodeLoop HexDecoder.Codec Tolerance s []

/-- Modelled from the spec: static `HexDecoder::DecodeLength(OutLength, s, Tolerance)`. -/
def HexDecoder.DecodeLength (s : List Nat) (Tolerance : DECODE_TOLERANCE) : Option Nat :=
  DecodeLengthLoop HexDecoder.Codec Tolerance s []

/-! ### Base64 (RFC 4648): three bytes per four characters, `=` padding -/

/-- Modelled from the spec: the RFC 4648 alphabet `A-Za-z0-9+/` as a map from
6-bit values to characters. -/
def Base64Encoder.NumberToChar (v : Nat) : Nat :=
  if v < 26 then 65 + v
  else if v < 52 then 97 + (v - 26)
  else if v < 62 then 48 + (v - 52)
  else if v = 62 then 43
  else 47

/-- Modelled from the spec: static `Base64Encoder::EncodeLength(DataLength)`,
four characters for every started group of three bytes. -/
def Base64Encoder.EncodeLength (DataLength : Nat) : Nat := (DataLength + 2) / 3 * 4

/-- Modelled from the spec: static `Base64Encoder::Encode(string *Out, Data, DataLength)`;
a trailing group of one byte gets two `=` (61), of two bytes one `=`. -/
def Base64Encoder.Encode : List Nat → List Nat
  | [] => []
  | [b0] =>
    [Base64Encoder.NumberToChar (b0 / 4 % 64), Base64Encoder.NumberToChar (b0 % 4 * 16), 61, 61]
  | [b0, b1] =>
    [Base64Encoder.NumberToChar (b0 / 4 % 64),
     Base64Encoder.NumberToChar (b0 % 4 * 16 + b1 / 16 % 16),
     Base64Encoder.NumberToChar (b1 % 16 * 4), 61]
  | b0 :: b1 :: b2 :: bs =>
    [Base64Encoder.NumberToChar (b0 / 4 % 64),
     Base64Encoder.NumberToChar (b0 % 4 * 16 + b1 / 16 % 16),
     Base64Encoder.NumberToChar (b1 % 16 * 4 + b2 / 64 % 4),
     Base64Encoder.NumberToChar (b2 % 64)] ++ Base64Encoder.Encode bs

/-- Modelled from the spec: the Base64 alphabet as a map from characters to
6-bit values; the padding character `=` is given the value 64. -/
def Base64Decoder.Symbol (c : Nat) : Option Nat :=
  if 65 ≤ c ∧ c ≤ 90 then some (c - 65)
  else if 97 ≤ c ∧ c ≤ 122 then some (c - 71)
  else if 48 ≤ c ∧ c ≤ 57 then some (c + 4)
  else if c = 43 then some 62
  else if c = 47 then some 63
  else if c = 61 then some 64
  else none

/-- Modelled from the spec: one group of four characters gives three bytes, or
two bytes and the end of the data (`xxx=`), or one byte and the end of the data
(`xx==`); any other placement of `=` is a format error. -/
def Base64Decoder.DecodeGroup (g : List Nat) : Option (List Nat × Bool) :=
  match g with
  | [n0, n1, n2, n3] =>
    if n0 < 64 ∧ n1 < 64 then
      if n2 < 64 ∧ n3 < 64 then
        some ([n0 * 4 + n1 / 16, n1 % 16 * 16 + n2 / 4, n2 % 4 * 64 + n3], false)
      else if n2 < 64 ∧ n3 = 64 then
        some ([n0 * 4 + n1 / 16, n1 % 16 * 16 + n2 / 4], true)
      else if n2 = 64 ∧ n3 = 64 then
        some ([n0 * 4 + n1 / 16], true)
      else none
    else none
  | _ => none

/-- Modelled from the spec: the byte count of one group of four characters,
from the position of the padding alone. -/
def Base64Decoder.GroupLength (g : List Nat) : Option (Nat × Bool) :=
  match g with
  | [n0, n1, n2, n3] =>
    if n0 < 64 ∧ n1 < 64 then
      if n2 < 64 ∧ n3 < 64 then some (3, false)
      else if n2 < 64 ∧ n3 = 64 then some (2, true)
      else if n2 = 64 ∧ n3 = 64 then some (1, true)
      else none
    else none
  | _ => none

/-- The Base64 codec. -/
def Base64Decoder.Codec : TextCodec :=
  ⟨4, Base64Decoder.Symbol, Base64Decoder.DecodeGroup, Base64Decoder.GroupLength⟩

/-- Modelled from the spec: static `Base64Decoder::Decode(OutData, s, Tolerance)`. -/
def Base64Decoder.Decode (s : List Nat) (Tolerance : DECODE_TOLERANCE) : Option (List Nat) :=
  DecodeLoop Base64Decoder.Codec Tolerance s []

/-- Modelled from the spec: static `Base64Decoder::DecodeLength(OutLength, s, Tolerance)`. -/
def Base64Decoder.DecodeLength (s : List Nat) (Tolerance : DECODE_TOLERANCE) : Option Nat :=
  DecodeLengthLoop Base64Decoder.Codec Tolerance s []

/-- The ASCII codes of a string literal. -/
def chars (s : String) : List Nat := s.toList.map Char.toNat

/-- The relation `WhitespaceInserted s t`: the text `t` is the text `s` with whitespace
characters inserted at arbitrary positions (possibly none). -/
inductive WhitespaceInserted : List Nat → List Nat → Prop
  | nil : WhitespaceInserted [] []
  | keep (c : Nat) {s t : List Nat} :
      WhitespaceInserted s t → WhitespaceInserted (c :: s) (c :: t)
  | insert (w : Nat) {s t : List Nat} :
      CharIsWhitespace w = true → WhitespaceInserted s t → WhitespaceInserted s (w :: t)

/-- A codec without padding: no group ends the data. -/
def NeverFinishes (C : TextCodec) : Prop := ∀ g bytes, C.DecodeGroup g ≠ some (bytes, true)

/-- A codec whose `GroupLength` is the number of bytes `DecodeGroup` produces. -/
def LengthAgrees (C : TextCodec) : Prop :=
  ∀ g, C.GroupLength g = (C.DecodeGroup g).map (fun p => (p.1.length, p.2))

/-- The characters `A-Za-z0-9+/` of the RFC 4648 alphabet (without the padding `=`). -/
def IsBase64Char (c : Nat) : Bool :=
  (65 ≤ c && c ≤ 90) || (97 ≤ c && c ≤ 122) || (48 ≤ c && c ≤ 57) || c == 43 || c == 47

/-- The number of `=` characters RFC 4648 appends to the encoding of `n` bytes. -/
def Base64PadCount (n : Nat) : Nat :=
  if n % 3 = 0 then 0 else if n % 3 = 1 then 2 else 1

/-! ### The Base64 encoding in the words of RFC 4648

A second definition of the encoding, written from section 4 of RFC 4648 and
independent of `Base64Encoder.Encode`: the input is a string of bits, read in
groups of six. -/

/-- RFC 4648, table 1: the Base 64 alphabet, the character of each 6-bit value
in order. -/
def RFC4648.Alphabet : List Nat :=
  chars "ABCDEFGHIJKLMNOPQRSTUVWXYZabcdefghijklmnopqrstuvwxyz0123456789+/"

/-- The eight bits of an octet, most significant first. -/
def RFC4648.OctetBits (b : Nat) : List Nat :=
  [b / 128 % 2, b / 64 % 2, b / 32 % 2, b / 16 % 2, b / 8 % 2, b / 4 % 2, b / 2 % 2, b % 2]

/-- The number that a group of bits spells, most significant bit first. -/
def RFC4648.BitsValue (bits : List Nat) : Nat :=
  bits.foldl (fun acc b => 2 * acc + b) 0

/-- RFC 4648, section 4: the bit string is cut into groups of six bits from
left to right; when fewer than six bits are left, "bits with value zero are
added (on the right) to form an integral number of 6-bit groups". -/
def RFC4648.Sextets : List Nat → List Nat
  | [] => []
  | b0 :: b1 :: b2 :: b3 :: b4 :: b5 :: rest =>
    RFC4648.BitsValue [b0, b1, b2, b3, b4, b5] :: RFC4648.Sextets rest
  | last => [RFC4648.BitsValue (last ++ List.replicate (6 - last.length) 0)]

/-- RFC 4648, section 4: every 6-bit group of the input bits is "translated
into a single character in the base 64 alphabet"; a final quantum of 8 bits is
followed by two `=` characters, one of 16 bits by one `=`, a full one by none. -/
def RFC4648.Encode (data : List Nat) : List Nat :=
  (RFC4648.Sextets (data.flatMap RFC4648.OctetBits)).map (fun v => RFC4648.Alphabet.getD v 0) ++
    List.replicate (Base64PadCount data.length) 61

/-! ## Streams, `CharWriter`, `CharReader` -/

/-- The kinds of `common::Error` the stream module raises (spec, error taxonomy):
premature end (`_ThrowBufEndError`), format error of a decoder, capacity
overflow of the ring buffer, and an error raised by an underlying stream,
which is opaque to the overlays and carried as a code. -/
inductive Error
  | BufEnd
  | Format
  | Overflow
  | Stream (code : Nat)
  deriving DecidableEq, Repr

/-- Stream.hpp, `class Stream`: the virtual operations an overlay calls on the
stream it is connected to, as functions on the state `σ` of that stream. An
operation either completes or throws (the error code of the stream). -/
structure Stream (σ : Type) where
  Write : σ → List Nat → Except Nat σ
  Read : σ → Nat → Except Nat (List Nat × σ)
  End : σ → Except Nat Bool
  Flush : σ → Except Nat σ

/-- An exception of the underlying stream passes through an overlay unchanged. -/
def liftStream {α : Type} : Except Nat α → Except Error α
  | .ok a => .ok a
  | .error code => .error (Error.Stream code)

/-- Stream.hpp, `class CharWriter`: the stream written to (`*m_Stream`), the
buffer of `BUFFER_SIZE` characters and the number of characters in it. -/
structure CharWriter (σ : Type) where
  m_Stream : σ
  m_Buf : List Nat
  m_BufIndex : Nat

/-- Stream.hpp, `class CharReader`: the stream read from (`*m_Stream`), the
buffer of `BUFFER_SIZE` characters, the place read up to (`m_BufBeg`) and the
place the buffer is filled up to (`m_BufEnd`). -/
structure CharReader (σ : Type) where
  m_Stream : σ
  m_Buf : List Nat
  m_BufBeg : Nat
  m_BufEnd : Nat

section Overlays

variable {σ : Type} (S : Stream σ) (BUFFER_SIZE : Nat)

/-- Source: `CharWriter::CharWriter(Stream *a_Stream)`. -/
def CharWriter.new (a_Stream : σ) : CharWriter σ :=
  { m_Stream := a_Stream, m_Buf := List.replicate BUFFER_SIZE 0, m_BufIndex := 0 }

/-- Source: `void DoFlush() { m_Stream->Write(&m_Buf[0], m_BufIndex); m_BufIndex = 0; }` -/
def CharWriter.DoFlush (w : CharWriter σ) : Except Error (CharWriter σ) :=
  match liftStream (S.Write w.m_Stream (w.m_Buf.take w.m_BufIndex)) with
  | .error e => .error e
  | .ok s => .ok { w with m_Stream := s, m_BufIndex := 0 }

/-- Source: `void WriteChar(char Ch) { if (m_BufIndex == BUFFER_SIZE) DoFlush(); m_Buf[m_BufIndex++] = Ch; }` -/
def CharWriter.WriteChar (w : CharWriter σ) (Ch : Nat) : Except Error (CharWriter σ) :=
  match (if w.m_BufIndex = BUFFER_SIZE then CharWriter.DoFlush S w else .ok w) with
  | .error e => .error e
  | .ok w1 => .ok { w1 with m_Buf := w1.m_Buf.set w1.m_BufIndex Ch, m_BufIndex := w1.m_BufIndex + 1 }

/-- Source: `void Flush() { if (m_BufIndex > 0) DoFlush(); }` -/
def CharWriter.Flush (w : CharWriter σ) : Except Error (CharWriter σ) :=
  if w.m_BufIndex > 0 then CharWriter.DoFlush S w else .ok w

/-- Writing the characters of a text one by one with `WriteChar`. -/
def CharWriter.WriteChars (w : CharWriter σ) : List Nat → Except Error (CharWriter σ)
  | [] => .ok w
  | c :: cs =>
    match CharWriter.WriteChar S BUFFER_SIZE w c with
    | .error e => .error e
    | .ok w1 => CharWriter.WriteChars w1 cs

/-- Source: `CharReader::CharReader(Stream *a_Stream)`. -/
def CharReader.new (a_Stream : σ) : CharReader σ :=
  { m_Stream := a_Stream, m_Buf := List.replicate BUFFER_SIZE 0, m_BufBeg := 0, m_BufEnd := 0 }

/-- Modelled from the spec: `CharReader::EnsureNewChars` (body in `Stream.cpp`).
Header: "loads a new portion of data; call only when the buffer is exhausted,
i.e. `m_BufBeg == m_BufEnd`; if the stream has ended and nothing could be read,
returns false; otherwise ensures that the buffer holds at least one character".
One `Read` of at most `BUFFER_SIZE` bytes into the start of the buffer. -/
def CharReader.EnsureNewChars (r : CharReader σ) : Except Error (Bool × CharReader σ) :=
  match liftStream (S.Read r.m_Stream BUFFER_SIZE) with
  | .error e => .error e
  | .ok (data, s) =>
    .ok (decide (data.length > 0),
      { m_Stream := s, m_Buf := data ++ r.m_Buf.drop data.length,
        m_BufBeg := 0, m_BufEnd := data.length })

/-- The common opening of the character functions:
`if (m_BufBeg == m_BufEnd) { if (!EnsureNewChars()) <give up> }`; the flag says
whether a character is available at `m_Buf[m_BufBeg]`. -/
def CharReader.Available (r : CharReader σ) : Except Error (Bool × CharReader σ) :=
  if r.m_BufBeg = r.m_BufEnd then CharReader.EnsureNewChars S BUFFER_SIZE r else .ok (true, r)

/-- Source: `bool ReadChar(char *Out) { if (m_BufBeg == m_BufEnd) { if (!EnsureNewChars()) return false; }
*Out = m_Buf[m_BufBeg++]; return true; }`; the result is the return value, `*Out`
and the reader. -/
def CharReader.ReadChar (r : CharReader σ) (Out : Nat) : Except Error (Bool × Nat × CharReader σ) :=
  match CharReader.Available S BUFFER_SIZE r with
  | .error e => .error e
  | .ok (false, r1) => .ok (false, Out, r1)
  | .ok (true, r1) => .ok (true, r1.m_Buf.getD r1.m_BufBeg 0, { r1 with m_BufBeg := r1.m_BufBeg + 1 })

/-- Source: `char MustReadChar() { if (m_BufBeg == m_BufEnd) { if (!EnsureNewChars())
_ThrowBufEndError(__TFILE__, __LINE__); } return m_Buf[m_BufBeg++]; }` -/
def CharReader.MustReadChar (r : CharReader σ) : Except Error (Nat × CharReader σ) :=
  match CharReader.Available S BUFFER_SIZE r with
  | .error e => .error e
  | .ok (false, _) => .error Error.BufEnd
  | .ok (true, r1) => .ok (r1.m_Buf.getD r1.m_BufBeg 0, { r1 with m_BufBeg := r1.m_BufBeg + 1 })

/-- Source: `bool PeekChar(char *Out) { if (m_BufBeg == m_BufEnd) { if (!EnsureNewChars()) return false; }
*Out = m_Buf[m_BufBeg]; return true; }` -/
def CharReader.PeekChar (r : CharReader σ) (Out : Nat) : Except Error (Bool × Nat × CharReader σ) :=
  match CharReader.Available S BUFFER_SIZE r with
  | .error e => .error e
  | .ok (false, r1) => .ok (false, Out, r1)
  | .ok (true, r1) => .ok (true, r1.m_Buf.getD r1.m_BufBeg 0, r1)

/-- Source: `char MustPeekChar() { if (m_BufBeg == m_BufEnd) { if (!EnsureNewChars())
_ThrowBufEndError(__TFILE__, __LINE__); } return m_Buf[m_BufBeg]; }` -/
def CharReader.MustPeekChar (r : CharReader σ) : Except Error (Nat × CharReader σ) :=
  match CharReader.Available S BUFFER_SIZE r with
  | .error e => .error e
  | .ok (false, _) => .error Error.BufEnd
  | .ok (true, r1) => .ok (r1.m_Buf.getD r1.m_BufBeg 0, r1)

/-- Source: `bool SkipChar() { if (m_BufBeg == m_BufEnd) { if (!EnsureNewChars()) return false; }
m_BufBeg++; return true; }` -/
def CharReader.SkipChar (r : CharReader σ) : Except Error (Bool × CharReader σ) :=
  match CharReader.Available S BUFFER_SIZE r with
  | .error e => .error e
  | .ok (false, r1) => .ok (false, r1)
  | .ok (true, r1) => .ok (true, { r1 with m_BufBeg := r1.m_BufBeg + 1 })

/-- Source: `void MustSkipChar() { if (m_BufBeg == m_BufEnd) { if (!EnsureNewChars())
_ThrowBufEndError(__TFILE__, __LINE__); } m_BufBeg++; }` -/
def CharReader.MustSkipChar (r : CharReader σ) : Except Error (CharReader σ) :=
  match CharReader.Available S BUFFER_SIZE r with
  | .error e => .error e
  | .ok (false, _) => .error Error.BufEnd
  | .ok (true, r1) => .ok { r1 with m_BufBeg := r1.m_BufBeg + 1 }

/-- Source: `bool End() { return (m_BufBeg == m_BufEnd) && m_Stream->End(); }` -/
def CharReader.End (r : CharReader σ) : Except Error Bool :=
  if r.m_BufBeg = r.m_BufEnd then liftStream (S.End r.m_Stream) else .ok false

/-- The characters held in the buffer that have not been read yet,
`m_Buf[m_BufBeg .. m_BufEnd)`: what lies between the read cursor and the
position of the underlying stream. -/
def CharReader.Pending (r : CharReader σ) : List Nat :=
  (r.m_Buf.drop r.m_BufBeg).take (r.m_BufEnd - r.m_BufBeg)

end Overlays

/-- Modelled from the spec: an in-memory stream that is read from (spec, external
interfaces: "in-memory streams"); the state is the data from the position to
the end. `Read` delivers at most `MaxLength` bytes and fewer only at the end of
the data; writing is not supported (code 1). -/
def MemoryReader : Stream (List Nat) where
  Write := fun _ _ => .error 1
  Read := fun s MaxLength => .ok (s.take MaxLength, s.drop MaxLength)
  End := fun s => .ok (decide (s = []))
  Flush := fun s => .ok s

/-- Modelled from the spec: an in-memory stream that is written to; the state is
the data written so far, `Write` appends. Reading is not supported (code 1). -/
def MemoryWriter : Stream (List Nat) where
  Write := fun s Data => .ok (s ++ Data)
  Read := fun _ _ => .error 1
  End := fun _ => .error 1
  Flush := fun s => .ok s

/-- The situation in which the character functions give up: the buffer is
exhausted (`m_BufBeg == m_BufEnd`) and the one refill attempt of
`EnsureNewChars` completes with no byte obtained. -/
def CharReader.Exhausted {σ : Type} (S : Stream σ) (BUFFER_SIZE : Nat) (r : CharReader σ) : Bool :=
  r.m_BufBeg == r.m_BufEnd &&
    match S.Read r.m_Stream BUFFER_SIZE with
    | .ok (data, _) => data.isEmpty
    | .error _ => false

/-! ## Streaming encoders and decoders -/

/-- Stream.hpp, `class BinEncoder : public OverlayStream`: the `CharWriter` on
the connected stream (the overlay's own `m_Stream` points to the same stream). -/
structure BinEncoder (σ : Type) where
  m_CharWriter : CharWriter σ

/-- Stream.hpp, `class HexEncoder : public OverlayStream`. -/
structure HexEncoder (σ : Type) where
  m_CharWriter : CharWriter σ
  m_UpperCase : Bool

/-- Stream.hpp, `class Base64Encoder : public OverlayStream`: the `CharWriter`,
the flag "data finished", the bytes waiting for their group (`uint8 m_Buf[2]`)
and their number. -/
structure Base64Encoder (σ : Type) where
  m_CharWriter : CharWriter σ
  m_Finished : Bool
  m_Buf : List Nat
  m_BufIndex : Nat

/-- Stream.hpp, `class BinDecoder : public OverlayStream`. -/
structure BinDecoder (σ : Type) where
  m_CharReader : CharReader σ
  m_Tolerance : DECODE_TOLERANCE

/-- Stream.hpp, `class HexDecoder : public OverlayStream`. -/
structure HexDecoder (σ : Type) where
  m_CharReader : CharReader σ
  m_Tolerance : DECODE_TOLERANCE

/-- Stream.hpp, `class Base64Decoder : public OverlayStream`: the `CharReader`,
the tolerance, the decoded bytes of the current group in the order
`[2][1][0]` (`uint8 m_Buf[3]`), their number, and the flag "a group with `=`
has been parsed". -/
structure Base64Decoder (σ : Type) where
  m_CharReader : CharReader σ
  m_Tolerance : DECODE_TOLERANCE
  m_Buf : List Nat
  m_BufLength : Nat
  m_Finished : Bool

section Codecs

variable {σ : Type} (S : Stream σ) (BUFFER_SIZE : Nat)

/-- Source: `BinEncoder(Stream *a_Stream) : OverlayStream(a_Stream), m_CharWriter(a_Stream) { }` -/
def BinEncoder.new (a_Stream : σ) : BinEncoder σ :=
  { m_CharWriter := CharWriter.new BUFFER_SIZE a_Stream }

/-- Modelled from the spec: `BinEncoder::Write`: every byte is encoded at once,
its eight characters go to the `CharWriter`. -/
def BinEncoder.Write (e : BinEncoder σ) : List Nat → Except Error (BinEncoder σ)
  | [] => .ok e
  | b :: bs =>
    match CharWriter.WriteChars S BUFFER_SIZE e.m_CharWriter (BinEncoder.EncodeByte b) with
    | .error err => .error err
    | .ok w => BinEncoder.Write { e with m_CharWriter := w } bs

/-- Source: `virtual void Flush() { m_CharWriter.Flush(); OverlayStream::Flush(); }` with
`OverlayStream::Flush() { m_Stream->Flush(); }`. -/
def BinEncoder.Flush (e : BinEncoder σ) : Except Error (BinEncoder σ) :=
  match CharWriter.Flush S e.m_CharWriter with
  | .error err => .error err
  | .ok w =>
    match liftStream (S.Flush w.m_Stream) with
    | .error err => .error err
    | .ok s => .ok { e with m_CharWriter := { w with m_Stream := s } }

/-- Source: `HexEncoder(Stream *a_Stream, bool UpperCase = true)`. -/
def HexEncoder.new (a_Stream : σ) (UpperCase : Bool) : HexEncoder σ :=
  { m_CharWriter := CharWriter.new BUFFER_SIZE a_Stream, m_UpperCase := UpperCase }

/-- Modelled from the spec: `HexEncoder::Write`: every byte is encoded at once,
its two digits go to the `CharWriter`. -/
def HexEncoder.Write (e : HexEncoder σ) : List Nat → Except Error (HexEncoder σ)
  | [] => .ok e
  | b :: bs =>
    match CharWriter.WriteChars S BUFFER_SIZE e.m_CharWriter
        (HexEncoder.EncodeByte e.m_UpperCase b) with
    | .error err => .error err
    | .ok w => HexEncoder.Write { e with m_CharWriter := w } bs

/-- Source: `virtual void Flush() { m_CharWriter.Flush(); OverlayStream::Flush(); }` -/
def HexEncoder.Flush (e : HexEncoder σ) : Except Error (HexEncoder σ) :=
  match CharWriter.Flush S e.m_CharWriter with
  | .error err => .error err
  | .ok w =>
    match liftStream (S.Flush w.m_Stream) with
    | .error err => .error err
    | .ok s => .ok { e with m_CharWriter := { w with m_Stream := s } }

/-- Source: `Base64Encoder(Stream *a_Stream) : ..., m_Finished(false), m_BufIndex(0) { }` -/
def Base64Encoder.new (a_Stream : σ) : Base64Encoder σ :=
  { m_CharWriter := CharWriter.new BUFFER_SIZE a_Stream, m_Finished := false,
    m_Buf := [0, 0], m_BufIndex := 0 }

/-- Modelled from the spec: one byte of `Base64Encoder::Write`: up to two bytes
are carried in `m_Buf`; the third byte completes the group, whose four
characters go to the `CharWriter`. -/
def Base64Encoder.WriteByte (e : Base64Encoder σ) (b : Nat) : Except Error (Base64Encoder σ) :=
  if e.m_BufIndex = 2 then
    match CharWriter.WriteChars S BUFFER_SIZE e.m_CharWriter
        (Base64Encoder.Encode [e.m_Buf.getD 0 0, e.m_Buf.getD 1 0, b]) with
    | .error err => .error err
    | .ok w => .ok { e with m_CharWriter := w, m_BufIndex := 0 }
  else .ok { e with m_Buf := e.m_Buf.set e.m_BufIndex b, m_BufIndex := e.m_BufIndex + 1 }

/-- Modelled from the spec: `Base64Encoder::Write(Data, Size)`. -/
def Base64Encoder.Write (e : Base64Encoder σ) : List Nat → Except Error (Base64Encoder σ)
  | [] => .ok e
  | b :: bs =>
    match Base64Encoder.WriteByte S BUFFER_SIZE e b with
    | .error err => .error err
    | .ok e1 => Base64Encoder.Write e1 bs

/-- Modelled from the spec: `Base64Encoder::DoFinish`: "flushes any partial
trailing group with correct padding": the one or two carried bytes are encoded
with `==` or `=`; nothing is emitted when no byte is carried. -/
def Base64Encoder.DoFinish (e : Base64Encoder σ) : Except Error (Base64Encoder σ) :=
  match CharWriter.WriteChars S BUFFER_SIZE e.m_CharWriter
      (Base64Encoder.Encode (e.m_Buf.take e.m_BufIndex)) with
  | .error err => .error err
  | .ok w => .ok { e with m_CharWriter := w }

/-- Source: `void Finish() { if (!m_Finished) { DoFinish(); m_Finished = true; } }` -/
def Base64Encoder.Finish (e : Base64Encoder σ) : Except Error (Base64Encoder σ) :=
  if !e.m_Finished then
    match Base64Encoder.DoFinish S BUFFER_SIZE e with
    | .error err => .error err
    | .ok e1 => .ok { e1 with m_Finished := true }
  else .ok e

/-- Source: `virtual void Flush() { m_CharWriter.Flush(); OverlayStream::Flush(); }` -/
def Base64Encoder.Flush (e : Base64Encoder σ) : Except Error (Base64Encoder σ) :=
  match CharWriter.Flush S e.m_CharWriter with
  | .error err => .error err
  | .ok w =>
    match liftStream (S.Flush w.m_Stream) with
    | .error err => .error err
    | .ok s => .ok { e with m_CharWriter := { w with m_Stream := s } }

/-- Modelled from the spec: the next alphabet character of a streaming decoder:
characters are read with `ReadChar`; a character outside the alphabet is
skipped when the tolerance allows it and is a format error otherwise. The
result is the value of the character, or `none` at the end of the stream. The
skipping loop runs at most `fuel` times: `none` (outermost) = out of fuel. -/
def ReadSymbol (C : TextCodec) (Tolerance : DECODE_TOLERANCE) :
    Nat → CharReader σ → Option (Except Error (Option Nat × CharReader σ))
  | 0, _ => none
  | fuel + 1, r =>
    match CharReader.ReadChar S BUFFER_SIZE r 0 with
    | .error e => some (.error e)
    | .ok (false, _, r1) => some (.ok (none, r1))
    | .ok (true, c, r1) =>
      match C.Symbol c with
      | some v => some (.ok (some v, r1))
      | none =>
        if Tolerated Tolerance c then ReadSymbol C Tolerance fuel r1
        else some (.error Error.Format)

/-- Modelled from the spec: the next group of a streaming decoder: `k` more
alphabet characters are read into `grp`. The end of the stream before the first
character of a group gives the empty group; the end of the stream inside a
group is a format error ("a partial group"). -/
def ReadGroup (C : TextCodec) (Tolerance : DECODE_TOLERANCE) (fuel : Nat) :
    Nat → List Nat → CharReader σ → Option (Except Error (List Nat × CharReader σ))
  | 0, grp, r => some (.ok (grp, r))
  | k + 1, grp, r =>
    match ReadSymbol S BUFFER_SIZE C Tolerance fuel r with
    | none => none
    | some (.error e) => some (.error e)
    | some (.ok (none, r1)) =>
      if grp = [] then some (.ok ([], r1)) else some (.error Error.Format)
    | some (.ok (some v, r1)) => ReadGroup C Tolerance fuel k (grp ++ [v]) r1

/-- Modelled from the spec: `Read(Out, Size)` of the Binary and Hex decoders:
"decode by consuming a fixed character-count-to-byte ratio": for each of the
`Size` bytes one group is read and decoded; the loop stops at the end of the
stream. The result is the bytes stored to `Out` (their number is the return
value) and the reader. -/
def ReadBytes (C : TextCodec) (Tolerance : DECODE_TOLERANCE) (fuel : Nat) :
    Nat → CharReader σ → Option (Except Error (List Nat × CharReader σ))
  | 0, r => some (.ok ([], r))
  | Size + 1, r =>
    match ReadGroup S BUFFER_SIZE C Tolerance fuel C.GroupSize [] r with
    | none => none
    | some (.error e) => some (.error e)
    | some (.ok (grp, r1)) =>
      if grp = [] then some (.ok ([], r1))
      else
        match C.DecodeGroup grp with
        | none => some (.error Error.Format)
        | some (bytes, _) =>
          match ReadBytes C Tolerance fuel Size r1 with
          | none => none
          | some (.error e) => some (.error e)
          | some (.ok (out, r2)) => some (.ok (bytes ++ out, r2))

/-- Modelled from the spec: the constructor
`BinDecoder(Stream *a_Stream, DECODE_TOLERANCE Tolerance = DECODE_TOLERANCE_NONE)`
(body in `Stream.cpp`). -/
def BinDecoder.new (a_Stream : σ) (Tolerance : DECODE_TOLERANCE) : BinDecoder σ :=
  { m_CharReader := CharReader.new BUFFER_SIZE a_Stream, m_Tolerance := Tolerance }

/-- Modelled from the spec: `BinDecoder::Read(Out, Size)`. -/
def BinDecoder.Read (fuel : Nat) (d : BinDecoder σ) (Size : Nat) :
    Option (Except Error (List Nat × BinDecoder σ)) :=
  match ReadBytes S BUFFER_SIZE BinDecoder.Codec d.m_Tolerance fuel Size d.m_CharReader with
  | none => none
  | some (.error e) => some (.error e)
  | some (.ok (out, r)) => some (.ok (out, { d with m_CharReader := r }))

/-- Modelled from the spec: the constructor
`HexDecoder(Stream *a_Stream, DECODE_TOLERANCE Tolerance = DECODE_TOLERANCE_NONE)`
(body in `Stream.cpp`). -/
def HexDecoder.new (a_Stream : σ) (Tolerance : DECODE_TOLERANCE) : HexDecoder σ :=
  { m_CharReader := CharReader.new BUFFER_SIZE a_Stream, m_Tolerance := Tolerance }

/-- Modelled from the spec: `HexDecoder::Read(Out, Size)`. -/
def HexDecoder.Read (fuel : Nat) (d : HexDecoder σ) (Size : Nat) :
    Option (Except Error (List Nat × HexDecoder σ)) :=
  match ReadBytes S BUFFER_SIZE HexDecoder.Codec d.m_Tolerance fuel Size d.m_CharReader with
  | none => none
  | some (.error e) => some (.error e)
  | some (.ok (out, r)) => some (.ok (out, { d with m_CharReader := r }))

/-- Modelled from the spec: the constructor `Base64Decoder(Stream *a_Stream, DECODE_TOLERANCE Tolerance = DECODE_TOLERANCE_NONE)`
(body in `Stream.cpp`): no decoded byte is held and the data is not finished. -/
def Base64Decoder.new (a_Stream : σ) (Tolerance : DECODE_TOLERANCE) : Base64Decoder σ :=
  { m_CharReader := CharReader.new BUFFER_SIZE a_Stream, m_Tolerance := Tolerance,
    m_Buf := [0, 0, 0], m_BufLength := 0, m_Finished := false }

/-- Modelled from the spec: `Base64Decoder::ReadNextBuf`. Header: "reads 4
characters from the connected stream (0 or 4, otherwise an error) and fills
`m_Buf` with at most 3 decoded bytes; sets `m_BufLength` and, if needed,
`m_Finished`". Once a group with `=` has been parsed nothing more is read. The
bytes are stored last first, so that `m_Buf[m_BufLength - 1]` is the next one. -/
def Base64Decoder.ReadNextBuf (fuel : Nat) (d : Base64Decoder σ) :
    Option (Except Error (Bool × Base64Decoder σ)) :=
  if d.m_Finished then some (.ok (false, d))
  else
    match ReadGroup S BUFFER_SIZE Base64Decoder.Codec d.m_Tolerance fuel 4 [] d.m_CharReader with
    | none => none
    | some (.error e) => some (.error e)
    | some (.ok (grp, r1)) =>
      if grp = [] then some (.ok (false, { d with m_CharReader := r1 }))
      else
        match Base64Decoder.DecodeGroup grp with
        | none => some (.error Error.Format)
        | some (bytes, fin) =>
          some (.ok (true, { d with m_CharReader := r1,
                                    m_Buf := bytes.reverse ++ d.m_Buf.drop bytes.length,
                                    m_BufLength := bytes.length, m_Finished := fin }))

/-- Source: `bool GetNextByte(uint8 *OutByte) { if (m_BufLength == 0) { if (!ReadNextBuf()) return false; }
*OutByte = m_Buf[--m_BufLength]; return true; }`; the result is the return value,
`*OutByte` and the decoder. -/
def Base64Decoder.GetNextByte (fuel : Nat) (d : Base64Decoder σ) (OutByte : Nat) :
    Option (Except Error (Bool × Nat × Base64Decoder σ)) :=
  match (if d.m_BufLength = 0 then Base64Decoder.ReadNextBuf S BUFFER_SIZE fuel d
         else some (.ok (true, d))) with
  | none => none
  | some (.error e) => some (.error e)
  | some (.ok (false, d1)) => some (.ok (false, OutByte, d1))
  | some (.ok (true, d1)) =>
    some (.ok (true, d1.m_Buf.getD (d1.m_BufLength - 1) 0,
      { d1 with m_BufLength := d1.m_BufLength - 1 }))

/-- Modelled from the spec: `Base64Decoder::Read(Out, Size)`: the bytes are
taken one by one with `GetNextByte` until `Size` bytes are stored or no byte is
left. -/
def Base64Decoder.Read (fuel : Nat) (d : Base64Decoder σ) :
    Nat → Option (Except Error (List Nat × Base64Decoder σ))
  | 0 => some (.ok ([], d))
  | Size + 1 =>
    match Base64Decoder.GetNextByte S BUFFER_SIZE fuel d 0 with
    | none => none
    | some (.error e) => some (.error e)
    | some (.ok (false, _, d1)) => some (.ok ([], d1))
    | some (.ok (true, b, d1)) =>
      match Base64Decoder.Read fuel d1 Size with
      | none => none
      | some (.error e) => some (.error e)
      | some (.ok (out, d2)) => some (.ok (b :: out, d2))

end Codecs

/-! ## Abstraction of the buffering overlays over in-memory streams -/

/-- The characters a `CharWriter` on an in-memory stream has been given so far:
those already in the stream, then those still in the buffer. -/
def CharWriter.Written (w : CharWriter (List Nat)) : List Nat :=
  w.m_Stream ++ w.m_Buf.take w.m_BufIndex

/-- The state of a `CharWriter` made by the constructor and used with
`BUFFER_SIZE > 0`: the buffer has `BUFFER_SIZE` places, the index is within it. -/
def CharWriter.WellFormed {σ : Type} (BUFFER_SIZE : Nat) (w : CharWriter σ) : Prop :=
  0 < BUFFER_SIZE ∧ w.m_Buf.length = BUFFER_SIZE ∧ w.m_BufIndex ≤ BUFFER_SIZE

/-- The characters a `CharReader` on an in-memory stream has yet to deliver:
the unread part of the buffer, then the rest of the stream. -/
def CharReader.Remaining (r : CharReader (List Nat)) : List Nat :=
  CharReader.Pending r ++ r.m_Stream

/-- The buffer window of a `CharReader` lies inside the buffer. -/
def CharReader.WellFormed {σ : Type} (r : CharReader σ) : Prop :=
  r.m_BufBeg ≤ r.m_BufEnd ∧ r.m_BufEnd ≤ r.m_Buf.length

/-- The state of a `Base64Encoder` made by the constructor and used with
`BUFFER_SIZE > 0`: `m_Buf` has two places, at most two bytes are carried. -/
def Base64Encoder.WellFormed {σ : Type} (BUFFER_SIZE : Nat) (e : Base64Encoder σ) : Prop :=
  CharWriter.WellFormed BUFFER_SIZE e.m_CharWriter ∧ e.m_Buf.length = 2 ∧ e.m_BufIndex ≤ 2

/-- The bytes a `Base64Encoder` carries until their group is complete. -/
def Base64Encoder.Carried {σ : Type} (e : Base64Encoder σ) : List Nat :=
  e.m_Buf.take e.m_BufIndex

/-- The bytes a `Base64Decoder` reading Base64 text from an in-memory stream
has yet to deliver are `X`: the decoded bytes held in `m_Buf` (the next one
last), then the bytes whose encoding remains in the stream; once a group with
`=` has been parsed nothing follows the held bytes. -/
def Base64Decoder.Holds (d : Base64Decoder (List Nat)) (X : List Nat) : Prop :=
  CharReader.WellFormed d.m_CharReader ∧ d.m_BufLength ≤ d.m_Buf.length ∧
    ∃ B, IsBytes B ∧ X = (d.m_Buf.take d.m_BufLength).reverse ++ B ∧
      ((d.m_Finished = false ∧ CharReader.Remaining d.m_CharReader = Base64Encoder.Encode B) ∨
        (d.m_Finished = true ∧ B = []))

/-! ## Driving a streaming codec end to end -/

section Drivers

variable {σ : Type} (S : Stream σ) (BUFFER_SIZE : Nat)

/-- A `BinEncoder` is constructed on `a_Stream`, given the data in the pieces
`chunks` (one `Write` each) and flushed; the result is the connected stream. -/
def BinEncoder.Run (a_Stream : σ) (chunks : List (List Nat)) : Except Error σ :=
  match chunks.foldlM (BinEncoder.Write S BUFFER_SIZE) (BinEncoder.new BUFFER_SIZE a_Stream) with
  | .error e => .error e
  | .ok e1 =>
    match BinEncoder.Flush S e1 with
    | .error e => .error e
    | .ok e2 => .ok e2.m_CharWriter.m_Stream

/-- A `HexEncoder` is constructed on `a_Stream`, given the data in the pieces
`chunks` (one `Write` each) and flushed; the result is the connected stream. -/
def HexEncoder.Run (a_Stream : σ) (UpperCase : Bool) (chunks : List (List Nat)) :
    Except Error σ :=
  match chunks.foldlM (HexEncoder.Write S BUFFER_SIZE)
      (HexEncoder.new BUFFER_SIZE a_Stream UpperCase) with
  | .error e => .error e
  | .ok e1 =>
    match HexEncoder.Flush S e1 with
    | .error e => .error e
    | .ok e2 => .ok e2.m_CharWriter.m_Stream

/-- A `Base64Encoder` is constructed on `a_Stream`, given the data in the pieces
`chunks` (one `Write` each), finished with `Finish` and flushed; the result is
the connected stream. -/
def Base64Encoder.Run (a_Stream : σ) (chunks : List (List Nat)) : Except Error σ :=
  match chunks.foldlM (Base64Encoder.Write S BUFFER_SIZE)
      (Base64Encoder.new BUFFER_SIZE a_Stream) with
  | .error e => .error e
  | .ok e1 =>
    match Base64Encoder.Finish S BUFFER_SIZE e1 with
    | .error e => .error e
    | .ok e2 =>
      match Base64Encoder.Flush S e2 with
      | .error e => .error e
      | .ok e3 => .ok e3.m_CharWriter.m_Stream

end Drivers

/-! ## `RingBuffer` -/

/-- Stream.hpp, `class RingBuffer : public Stream`: capacity, number of bytes
held, the backing array, and the begin and end indices into it. -/
structure RingBuffer where
  m_Capacity : Nat
  m_Size : Nat
  m_Buf : List Nat
  m_BegIndex : Nat
  m_EndIndex : Nat

/-- Modelled from the spec: `RingBuffer::RingBuffer(size_t Capacity)`:
"construction fixes capacity for the object's lifetime"; the buffer is empty. -/
def RingBuffer.new (Capacity : Nat) : RingBuffer :=
  { m_Capacity := Capacity, m_Size := 0, m_Buf := List.replicate Capacity 0,
    m_BegIndex := 0, m_EndIndex := 0 }

/-- Source: `uint64 GetSize() { return m_Size; }` -/
def RingBuffer.GetSize (rb : RingBuffer) : Nat := rb.m_Size

/-- Source: `size_t GetCapacity() { return m_Capacity; }` -/
def RingBuffer.GetCapacity (rb : RingBuffer) : Nat := rb.m_Capacity

/-- Source: `bool IsEmpty() { return GetSize() == 0; }` -/
def RingBuffer.IsEmpty (rb : RingBuffer) : Bool := rb.GetSize == 0

/-- Source: `bool IsFull() { return GetSize() == GetCapacity(); }` -/
def RingBuffer.IsFull (rb : RingBuffer) : Bool := rb.GetSize == rb.GetCapacity

/-- Modelled from the spec: the copy into the backing array of `Write`: the
bytes are stored one after another from the end index on, "modulo C". The
result is the array and the new end index. -/
def RingBuffer.Store (Capacity : Nat) : List Nat → Nat → List Nat → List Nat × Nat
  | buf, e, [] => (buf, e)
  | buf, e, b :: bs => RingBuffer.Store Capacity (buf.set e b) ((e + 1) % Capacity) bs

/-- Modelled from the spec: the copy out of the backing array of `Read`: `n`
bytes from the begin index on, "modulo C". -/
def RingBuffer.Fetch (Capacity : Nat) (buf : List Nat) : Nat → Nat → List Nat
  | _, 0 => []
  | beg, n + 1 => buf.getD beg 0 :: RingBuffer.Fetch Capacity buf ((beg + 1) % Capacity) n

/-- Modelled from the spec: `RingBuffer::Write(Data, Size)`: "writing beyond
remaining capacity is a fatal overflow error (no silent truncation, no
automatic growth)", raised before anything is stored; otherwise all the bytes
are appended. -/
def RingBuffer.Write (rb : RingBuffer) (Data : List Nat) : Except Error RingBuffer :=
  if Data.length > rb.m_Capacity - rb.m_Size then .error Error.Overflow
  else
    .ok { rb with m_Buf := (RingBuffer.Store rb.m_Capacity rb.m_Buf rb.m_EndIndex Data).1,
                  m_EndIndex := (RingBuffer.Store rb.m_Capacity rb.m_Buf rb.m_EndIndex Data).2,
                  m_Size := rb.m_Size + Data.length }

/-- Modelled from the spec: `RingBuffer::Read(Out, MaxLength)`: "consume from the
front, advancing size down and beginIndex forward (mod capacity)"; at most
`MaxLength` bytes, fewer when fewer are held. The result is the bytes stored
to `Out` (their number is the return value) and the buffer. -/
def RingBuffer.Read (rb : RingBuffer) (MaxLength : Nat) : List Nat × RingBuffer :=
  (RingBuffer.Fetch rb.m_Capacity rb.m_Buf rb.m_BegIndex (min MaxLength rb.m_Size),
   { rb with m_BegIndex := (rb.m_BegIndex + min MaxLength rb.m_Size) % rb.m_Capacity,
             m_Size := rb.m_Size - min MaxLength rb.m_Size })

/-- Modelled from the spec: `RingBuffer::MustRead(Out, Length)`: the premature-end
error when fewer than `Length` bytes are held, `Read` otherwise. -/
def RingBuffer.MustRead (rb : RingBuffer) (Length : Nat) : Except Error (List Nat × RingBuffer) :=
  if Length > rb.m_Size then .error Error.BufEnd else .ok (RingBuffer.Read rb Length)

/-- Modelled from the spec: `RingBuffer::End()`: "`End()` ⇔ `size == 0`". -/
def RingBuffer.End (rb : RingBuffer) : Bool := rb.m_Size == 0

/-- Modelled from the spec: `RingBuffer::Skip(MaxLength)`: "behaves as Read
without copying"; the result is the number of bytes skipped and the buffer. -/
def RingBuffer.Skip (rb : RingBuffer) (MaxLength : Nat) : Nat × RingBuffer :=
  (min MaxLength rb.m_Size, (RingBuffer.Read rb MaxLength).2)

/-- A call on a `RingBuffer`. -/
inductive RingBuffer.Op
  | Write (Data : List Nat)
  | Read (MaxLength : Nat)
  | MustRead (Length : Nat)
  | Skip (MaxLength : Nat)

/-- The call is a `Write` or a `Read`. -/
def RingBuffer.Op.IsWriteOrRead : RingBuffer.Op → Bool
  | .Write _ => true
  | .Read _ => true
  | _ => false

/-- One call: the bytes it returns through `Out` and the buffer afterwards. -/
def RingBuffer.Step (rb : RingBuffer) : RingBuffer.Op → Except Error (List Nat × RingBuffer)
  | .Write Data =>
    match RingBuffer.Write rb Data with
    | .error e => .error e
    | .ok rb1 => .ok ([], rb1)
  | .Read MaxLength => .ok (RingBuffer.Read rb MaxLength)
  | .MustRead Length => RingBuffer.MustRead rb Length
  | .Skip MaxLength => .ok ([], (RingBuffer.Skip rb MaxLength).2)

/-- A sequence of calls: all the bytes returned, in order, and the buffer. -/
def RingBuffer.Run (rb : RingBuffer) : List RingBuffer.Op → Except Error (List Nat × RingBuffer)
  | [] => .ok ([], rb)
  | op :: ops =>
    match RingBuffer.Step rb op with
    | .error e => .error e
    | .ok (out, rb1) =>
      match RingBuffer.Run rb1 ops with
      | .error e => .error e
      | .ok (outs, rb2) => .ok (out ++ outs, rb2)

/-- All the bytes given to the `Write` calls of a sequence, in order. -/
def RingBuffer.WrittenData : List RingBuffer.Op → List Nat
  | [] => []
  | .Write Data :: ops => Data ++ RingBuffer.WrittenData ops
  | _ :: ops => RingBuffer.WrittenData ops

/-- The bytes held by the buffer, oldest first. -/
def RingBuffer.Contents (rb : RingBuffer) : List Nat :=
  RingBuffer.Fetch rb.m_Capacity rb.m_Buf rb.m_BegIndex rb.m_Size

/-- The representation invariant (spec, data model): the array has `C` places,
`0 ≤ S ≤ C`, and the end index is the begin index plus the size modulo `C`. -/
def RingBuffer.Invariant (rb : RingBuffer) : Prop :=
  0 < rb.m_Capacity ∧ rb.m_Buf.length = rb.m_Capacity ∧ rb.m_BegIndex < rb.m_Capacity ∧
    rb.m_Size ≤ rb.m_Capacity ∧ rb.m_EndIndex = (rb.m_BegIndex + rb.m_Size) % rb.m_Capacity

/-- The states reachable from construction with capacity `Capacity` by
`Write`, `Read`, `MustRead` and `Skip` calls that complete. -/
inductive RingBuffer.Reachable (Capacity : Nat) : RingBuffer → Prop
  | new : RingBuffer.Reachable Capacity (RingBuffer.new Capacity)
  | step {rb rb1 : RingBuffer} (op : RingBuffer.Op) (out : List Nat) :
      RingBuffer.Reachable Capacity rb → RingBuffer.Step rb op = .ok (out, rb1) →
      RingBuffer.Reachable Capacity rb1

/-- The sequence of calls never holds more than `Capacity` bytes at once (and
never asks `MustRead` for more than is held), starting from `size` bytes held:
the bookkeeping of the sizes alone. -/
def RingBuffer.Fits (Capacity : Nat) : Nat → List RingBuffer.Op → Bool
  | _, [] => true
  | size, .Write Data :: ops =>
    decide (size + Data.length ≤ Capacity) && RingBuffer.Fits Capacity (size + Data.length) ops
  | size, .Read MaxLength :: ops => RingBuffer.Fits Capacity (size - MaxLength) ops
  | size, .MustRead Length :: ops =>
    decide (Length ≤ size) && RingBuffer.Fits Capacity (size - Length) ops
  | size, .Skip MaxLength :: ops => RingBuffer.Fits Capacity (size - MaxLength) ops

/-! ## The calls a `CharWriter` makes on its stream -/

/-- A stream that is written to and keeps the block of every `Write` call as one
entry, in the order of the calls: the state shows how many calls were made and
what each carried. Reading is not supported (code 1). -/
def RecordingWriter : Stream (List (List Nat)) where
  Write := fun s Data => .ok (s ++ [Data])
  Read := fun _ _ => .error 1
  End := fun _ => .error 1
  Flush := fun s => .ok s

/-- A call made on a `CharWriter`: `WriteChar(Ch)` or `Flush()`. -/
inductive CharWriter.Op
  | WriteChar (Ch : Nat)
  | Flush
  deriving DecidableEq, Repr

/-- The characters a call hands to the `CharWriter`. -/
def CharWriter.Op.Chars : CharWriter.Op → List Nat
  | .WriteChar Ch => [Ch]
  | .Flush => []

/-- One call on a `CharWriter`. -/
def CharWriter.Step {σ : Type} (S : Stream σ) (BUFFER_SIZE : Nat) (w : CharWriter σ) :
    CharWriter.Op → Except Error (CharWriter σ)
  | .WriteChar Ch => CharWriter.WriteChar S BUFFER_SIZE w Ch
  | .Flush => CharWriter.Flush S w

/-- A sequence of calls on a `CharWriter`, stopping at the first exception. -/
def CharWriter.RunOps {σ : Type} (S : Stream σ) (BUFFER_SIZE : Nat) (w : CharWriter σ) :
    List CharWriter.Op → Except Error (CharWriter σ)
  | [] => .ok w
  | op :: ops =>
    match CharWriter.Step S BUFFER_SIZE w op with
    | .error e => .error e
    | .ok w1 => CharWriter.RunOps S BUFFER_SIZE w1 ops

/-- Writing characters to a stream without a `CharWriter`: one `Write` of one
byte per character. -/
def WriteDirect {σ : Type} (S : Stream σ) (s : σ) : List Nat → Except Error σ
  | [] => .ok s
  | c :: cs =>
    match liftStream (S.Write s [c]) with
    | .error e => .error e
    | .ok s1 => WriteDirect S s1 cs

/-! ## `CRC32_Calc` -/

/-- Stream.hpp, `class CRC32_Calc : public Stream`: the register `uint m_CRC`
(32 bits). -/
structure CRC32_Calc where
  m_CRC : Nat
  deriving DecidableEq, Repr

/-- Source: `CRC32_Calc() { m_CRC = 0xFFFFFFFF; }` -/
def CRC32_Calc.new : CRC32_Calc :=
  { m_CRC := 0xFFFFFFFF }

/-- Source: `uint GetResult() { return ~m_CRC; }`; `~` on a 32-bit unsigned value
inverts each of its 32 bits. The result is the value returned and the object
after the call. -/
def CRC32_Calc.GetResult (c : CRC32_Calc) : Nat × CRC32_Calc :=
  (c.m_CRC ^^^ 0xFFFFFFFF, c)

/-- Source: `void Reset() { m_CRC = 0xFFFFFFFF; }` -/
def CRC32_Calc.Reset (_c : CRC32_Calc) : CRC32_Calc :=
  { m_CRC := 0xFFFFFFFF }

/-- A call made on a `CRC32_Calc`. -/
inductive CRC32_Calc.Op
  | Write (Data : List Nat)
  | GetResult
  | Reset
  deriving DecidableEq, Repr

/-- Whether a call is `GetResult()`. -/
def CRC32_Calc.Op.IsGetResult : CRC32_Calc.Op → Bool
  | .GetResult => true
  | _ => false

/-- One call on a `CRC32_Calc`, for a given behaviour `Write` of
`CRC32_Calc::Write` (declared in the header, body in `Stream.cpp`): the object
after the call. -/
def CRC32_Calc.Step (Write : CRC32_Calc → List Nat → CRC32_Calc) (c : CRC32_Calc) :
    CRC32_Calc.Op → CRC32_Calc
  | .Write Data => Write c Data
  | .GetResult => (CRC32_Calc.GetResult c).2
  | .Reset => CRC32_Calc.Reset c

/-- A sequence of calls on a `CRC32_Calc`. -/
def CRC32_Calc.RunOps (Write : CRC32_Calc → List Nat → CRC32_Calc) (c : CRC32_Calc) :
    List CRC32_Calc.Op → CRC32_Calc
  | [] => c
  | op :: ops => CRC32_Calc.RunOps Write (CRC32_Calc.Step Write c op) ops

/-- Modelled from the spec: one bit of the CRC-32 update, "standard CRC-32
(reflected, polynomial 0xEDB88320-table or equivalent bit-by-bit
implementation)". The body of `CRC32_Calc::Write` is in `Stream.cpp`. -/
def CRC32_Calc.UpdateBit (crc : Nat) : Nat :=
  if crc % 2 = 1 then (crc >>> 1) ^^^ 0xEDB88320 else crc >>> 1

/-- Modelled from the spec: folding one byte into the register, eight bit steps
after the byte is combined with the low byte of the register. -/
def CRC32_Calc.UpdateByte (crc b : Nat) : Nat :=
  CRC32_Calc.UpdateBit^[8] (crc ^^^ b)

/-- Modelled from the spec: `void CRC32_Calc::Write(const void *Data, size_t Size)`
(body in `Stream.cpp`); folds the bytes into the register in order. -/
def CRC32_Calc.Write (c : CRC32_Calc) (Data : List Nat) : CRC32_Calc :=
  { m_CRC := Data.foldl CRC32_Calc.UpdateByte c.m_CRC }

/-- Modelled from the spec: `static uint Calc(const void *Data, size_t DataLength)`
(body in `Stream.cpp`), the one-shot form: a fresh object, one `Write`, `GetResult`. -/
def CRC32_Calc.Calc (Data : List Nat) : Nat :=
  (CRC32_Calc.GetResult (CRC32_Calc.Write CRC32_Calc.new Data)).1

/-! ## Seekable in-memory streams -/

/-- The cast `(ptrdiff_t)pos` of an `int64` on a platform where `ptrdiff_t` has
64 bits: the value wrapped into the signed 64-bit range. -/
def toPtrdiff (pos : Int) : Int :=
  (pos + 2 ^ 63) % 2 ^ 64 - 2 ^ 63

/-- Stream.hpp, `class VectorStream : public SeekableStream`: the data
(`m_Data[0 .. m_Size)`), the size, the capacity and the position. -/
structure VectorStream where
  m_Data : List Nat
  m_Size : Nat
  m_Capacity : Nat
  m_Pos : Int
  deriving DecidableEq, Repr

/-- Source: `virtual uint64 GetSize() { return m_Size; }` -/
def VectorStream.GetSize (s : VectorStream) : Nat :=
  s.m_Size

/-- Source: `virtual int64 GetPos() { return m_Pos; }` -/
def VectorStream.GetPos (s : VectorStream) : Int :=
  s.m_Pos

/-- Source: `virtual void SetPos(int64 pos) { m_Pos = (ptrdiff_t)pos; }`; the
result says whether the call completes or throws. -/
def VectorStream.SetPos (s : VectorStream) (pos : Int) : Except Error VectorStream :=
  .ok { s with m_Pos := toPtrdiff pos }

/-- Stream.hpp, `class StringStream : public SeekableStream`: the string
(`*m_Data`) and the position. -/
structure StringStream where
  m_Data : List Nat
  m_Pos : Int
  deriving DecidableEq, Repr

/-- Source: `virtual uint64 GetSize() { return m_Data->length(); }` -/
def StringStream.GetSize (s : StringStream) : Nat :=
  s.m_Data.length

/-- Source: `virtual int64 GetPos() { return m_Pos; }` -/
def StringStream.GetPos (s : StringStream) : Int :=
  s.m_Pos

/-- Source: `virtual void SetPos(int64 pos) { m_Pos = (ptrdiff_t)pos; }`; the
result says whether the call completes or throws. -/
def StringStream.SetPos (s : StringStream) (pos : Int) : Except Error StringStream :=
  .ok { s with m_Pos := toPtrdiff pos }

/-! ## `CharReader::ReadLine` -/

section Lines

variable {σ : Type} (S : Stream σ) (BUFFER_SIZE : Nat)

/-- Modelled from the spec: the loop of `bool CharReader::ReadLine(string *Out)`
(declared in Stream.hpp, body in `Stream.cpp`). Header: "reads one line of text,
i.e. up to the end of the stream or the end of the line `\r`, `\n`, `\r\n`; skips
the end of line without appending it to `Out`; returns false if not a single
character could be read because the stream has ended". Each round reads one
character with `ReadChar`; after `\r` a following `\n` is looked at with
`PeekChar` and taken with `SkipChar`. The fuel bounds the number of rounds;
`none` means it ran out. -/
def CharReader.ReadLineLoop : Nat → CharReader σ → List Nat →
    Option (Except Error (Bool × List Nat × CharReader σ))
  | 0, _, _ => none
  | fuel + 1, r, Out =>
    match CharReader.ReadChar S BUFFER_SIZE r 0 with
    | .error e => some (.error e)
    | .ok (false, _, r1) => some (.ok (decide (Out ≠ []), Out, r1))
    | .ok (true, Ch, r1) =>
      if Ch = 13 then
        match CharReader.PeekChar S BUFFER_SIZE r1 Ch with
        | .error e => some (.error e)
        | .ok (false, _, r2) => some (.ok (true, Out, r2))
        | .ok (true, Ch2, r2) =>
          if Ch2 = 10 then
            match CharReader.SkipChar S BUFFER_SIZE r2 with
            | .error e => some (.error e)
            | .ok (_, r3) => some (.ok (true, Out, r3))
          else some (.ok (true, Out, r2))
      else if Ch = 10 then some (.ok (true, Out, r1))
      else CharReader.ReadLineLoop fuel r1 (Out ++ [Ch])

/-- Modelled from the spec: `bool CharReader::ReadLine(string *Out)`; `Out` is
emptied first. The result is the return value, `*Out` and the reader. -/
def CharReader.ReadLine (fuel : Nat) (r : CharReader σ) :
    Option (Except Error (Bool × List Nat × CharReader σ)) :=
  CharReader.ReadLineLoop S BUFFER_SIZE fuel r []

/-- Modelled from the spec: `void CharReader::MustReadLine(string *Out)`, "if
nothing could be read, throws an error". -/
def CharReader.MustReadLine (fuel : Nat) (r : CharReader σ) :
    Option (Except Error (List Nat × CharReader σ)) :=
  match CharReader.ReadLine S BUFFER_SIZE fuel r with
  | none => none
  | some (.error e) => some (.error e)
  | some (.ok (false, _, _)) => some (.error Error.BufEnd)
  | some (.ok (true, Out, r1)) => some (.ok (Out, r1))

/-- The results (return value and `*Out`) of `n` successive `ReadLine` calls;
`none` when a call runs out of fuel or throws. -/
def CharReader.ReadLines (fuel : Nat) : Nat → CharReader σ → Option (List (Bool × List Nat))
  | 0, _ => some []
  | n + 1, r =>
    match CharReader.ReadLine S BUFFER_SIZE fuel r with
    | some (.ok (b, Out, r1)) =>
      match CharReader.ReadLines fuel n r1 with
      | some rest => some ((b, Out) :: rest)
      | none => none
    | _ => none

end Lines

/-- What one `ReadLine` call makes of the text that remains, by the spec's words:
the return value, the line, and the text left. `Out` is the part of the line
collected so far. A terminator is `\r`, `\n` or `\r\n`; it ends the line, is
consumed and is not part of the line; at the end of the text the call succeeds
exactly when it has collected a character. -/
def SplitLine : List Nat → List Nat → Bool × List Nat × List Nat
  | [], Out => (decide (Out ≠ []), Out, [])
  | c :: cs, Out =>
    if c = 13 then
      (true, Out, match cs with
        | [] => []
        | c2 :: cs2 => if c2 = 10 then cs2 else c2 :: cs2)
    else if c = 10 then (true, Out, cs)
    else SplitLine cs (Out ++ [c])

/-- The lines of a text, by the spec's words: the maximal runs of characters
other than `\r` and `\n`, each ended by one terminator `\r`, `\n` or `\r\n`
(a `\n` right after a `\r` belongs to the same terminator), the last one
possibly ended by the end of the text; no line starts after the last
terminator when no character follows it. `cur` is the line begun so far and
`afterCR` says that the last character was a `\r`. -/
def LinesFrom : List Nat → List Nat → Bool → List (List Nat)
  | [], cur, _ => if cur = [] then [] else [cur]
  | c :: cs, cur, afterCR =>
    if c = 13 then cur :: LinesFrom cs [] true
    else if c = 10 then
      if afterCR then LinesFrom cs [] false else cur :: LinesFrom cs [] false
    else LinesFrom cs (cur ++ [c]) false

/-- The lines of a text. -/
def Lines (text : List Nat) : List (List Nat) :=
  LinesFrom text [] false

/-- The results expected of `n` successive `ReadLine` calls on a text with the
given lines: each line with the value true, then false (and an empty `*Out`)
for every further call. -/
def ExpectedLineCalls (n : Nat) (lines : List (List Nat)) : List (Bool × List Nat) :=
  ((lines.map (fun l => (true, l))) ++ List.replicate n (false, [])).take n
/-! ## `FileStream` and `NullStream` (Files.cpp, Stream.hpp) -/

/-- The exceptions `FileStream` throws: `Error`, `Win32Error`, `ErrnoError`. -/
inductive FileError
  | Error
  | Win32Error
  | ErrnoError
  deriving DecidableEq, Repr

/-- The operating system's view of an open file, as far as `End` depends on it:
the size of the file and the position of the file pointer. -/
structure OsFile where
  Size : Nat
  Pos : Nat
  deriving DecidableEq, Repr

/-- The conversion of an integer value to `int` (32 bits), as in
`int r = ftell(...)`: the value wrapped into the signed 32-bit range. -/
def toInt32 (x : Int) : Int :=
  (2 ^ 31 + x) % 2 ^ 32 - 2 ^ 31

/-- The conversion `(uint64)x`. -/
def toUInt64 (x : Int) : Nat :=
  (x % 2 ^ 64).toNat

/-- The origin of a seek: `SEEK_SET` / `FILE_BEGIN`, `SEEK_CUR` / `FILE_CURRENT`,
`SEEK_END` / `FILE_END`. -/
inductive Whence
  | SEEK_SET
  | SEEK_CUR
  | SEEK_END
  deriving DecidableEq, Repr

/-- The target of a seek on an open file. -/
def OsFile.Target (f : OsFile) (offset : Int) : Whence → Int
  | .SEEK_SET => offset
  | .SEEK_CUR => f.Pos + offset
  | .SEEK_END => f.Size + offset

/-- The C library call `ftell` on an open file: the position, as a `long` (64 bits). -/
def ftell (f : OsFile) : Int :=
  f.Pos

/-- The C library call `fseek` on an open file: 0 and the pointer moved, or -1
and nothing moved when the target is negative. -/
def fseek (f : OsFile) (offset : Int) (whence : Whence) : Int × OsFile :=
  if f.Target offset whence < 0 then (-1, f)
  else (0, { f with Pos := (f.Target offset whence).toNat })

/-- The Win32 call `GetFileSizeEx` on an open file: success and the size. -/
def GetFileSizeEx (f : OsFile) : Bool × Int :=
  (true, f.Size)

/-- The Win32 call `SetFilePointerEx` on an open file: success, the new pointer
and the file with the pointer moved; failure when the target is negative. -/
def SetFilePointerEx (f : OsFile) (distanceToMove : Int) (whence : Whence) :
    Bool × Int × OsFile :=
  if f.Target distanceToMove whence < 0 then (false, f.Pos, f)
  else (true, f.Target distanceToMove whence,
    { f with Pos := (f.Target distanceToMove whence).toNat })

/-- Source (Files.cpp, POSIX): `int64 FileStream::GetPos() { int r = ftell(pimpl->m_File);
if (r < 0) throw ErrnoError(...); return r; }` -/
def FileStream.Posix.GetPos (f : OsFile) : Except FileError (Int × OsFile) :=
  let r := toInt32 (ftell f)
  if r < 0 then .error .ErrnoError else .ok (r, f)

/-- Source (Files.cpp, POSIX): `void FileStream::SetPos(int64 pos) { int r = fseek(pimpl->m_File,
(long)pos, SEEK_SET); if (r < 0) throw ErrnoError(...); }` -/
def FileStream.Posix.SetPos (f : OsFile) (pos : Int) : Except FileError OsFile :=
  let r := fseek f pos .SEEK_SET
  if r.1 < 0 then .error .ErrnoError else .ok r.2

/-- Source (Files.cpp, POSIX): `void FileStream::SetPosFromEnd(int pos) { int r = fseek(pimpl->m_File,
(long)pos, SEEK_END); if (r < 0) throw ErrnoError(...); }` -/
def FileStream.Posix.SetPosFromEnd (f : OsFile) (pos : Int) : Except FileError OsFile :=
  let r := fseek f (toInt32 pos) .SEEK_END
  if r.1 < 0 then .error .ErrnoError else .ok r.2

/-- Source (Files.cpp, POSIX): `uint64 FileStream::GetSize() { int64 SavedPos = GetPos();
SetPosFromEnd(0); int64 EndPos = GetPos(); SetPos(SavedPos); return (uint64)EndPos; }` -/
def FileStream.Posix.GetSize (f : OsFile) : Except FileError (Nat × OsFile) :=
  match FileStream.Posix.GetPos f with
  | .error e => .error e
  | .ok (SavedPos, f1) =>
    match FileStream.Posix.SetPosFromEnd f1 0 with
    | .error e => .error e
    | .ok f2 =>
      match FileStream.Posix.GetPos f2 with
      | .error e => .error e
      | .ok (EndPos, f3) =>
        match FileStream.Posix.SetPos f3 SavedPos with
        | .error e => .error e
        | .ok f4 => .ok (toUInt64 EndPos, f4)

/-- Source (Files.cpp, POSIX): `bool FileStream::End() { return (uint64)GetPos() == GetSize(); }`;
the position is taken first, as the comment in the source asks. -/
def FileStream.Posix.End (f : OsFile) : Except FileError (Bool × OsFile) :=
  match FileStream.Posix.GetPos f with
  | .error e => .error e
  | .ok (p, f1) =>
    match FileStream.Posix.GetSize f1 with
    | .error e => .error e
    | .ok (s, f2) => .ok (toUInt64 p == s, f2)

/-- Source (Files.cpp, Win32): `uint64 FileStream::GetSize() { LARGE_INTEGER i;
if(!GetFileSizeEx(pimpl->m_File, &i)) throw Win32Error(...); return (uint64)i.QuadPart; }` -/
def FileStream.Win32.GetSize (f : OsFile) : Except FileError (Nat × OsFile) :=
  let r := GetFileSizeEx f
  if !r.1 then .error .Win32Error else .ok (toUInt64 r.2, f)

/-- Source (Files.cpp, Win32): `int64 FileStream::GetPos() { LARGE_INTEGER distanceToMove, newFilePointer;
distanceToMove.QuadPart = 0; if(!SetFilePointerEx(pimpl->m_File, distanceToMove, &newFilePointer,
FILE_CURRENT)) throw Win32Error(...); return newFilePointer.QuadPart; }` -/
def FileStream.Win32.GetPos (f : OsFile) : Except FileError (Int × OsFile) :=
  let r := SetFilePointerEx f 0 .SEEK_CUR
  if !r.1 then .error .Win32Error else .ok (r.2.1, r.2.2)

/-- Source (Files.cpp, Win32): `bool FileStream::End() { return GetSize() == (uint64)GetPos(); }` -/
def FileStream.Win32.End (f : OsFile) : Except FileError (Bool × OsFile) :=
  match FileStream.Win32.GetSize f with
  | .error e => .error e
  | .ok (s, f1) =>
    match FileStream.Win32.GetPos f1 with
    | .error e => .error e
    | .ok (p, f2) => .ok (s == toUInt64 p, f2)

/-- Source (Stream.hpp, `NullStream`): `virtual bool End() { return true; }` -/
def NullStream.End : Bool :=
  true

/-- Source (Stream.hpp, `NullStream`): `virtual uint64 GetSize() { return 0; }` -/
def NullStream.GetSize : Nat :=
  0

/-- Source (Stream.hpp, `NullStream`): `virtual int64 GetPos() { return 0; }` -/
def NullStream.GetPos : Int :=
  0

/-- Source (Stream.hpp, `NullStream`): `virtual size_t Read(void *Data, size_t MaxLength) { return 0; }` -/
def NullStream.Read (_MaxLength : Nat) : Nat :=
  0

/-- What the C library reports for one `fwrite` or `fread` call: the value
returned (the number of bytes transferred) and the value of
`ferror(pimpl->m_File)` after it. -/
structure StdioCall where
  Count : Nat
  ferror : Int
  deriving DecidableEq, Repr

/-- What Win32 reports for one `WriteFile` or `ReadFile` call: the value
returned (0 on failure) and the number of bytes transferred that it stores. -/
structure Win32Call where
  Return : Int
  Count : Nat
  deriving DecidableEq, Repr

/-- Source (Files.cpp, POSIX): `void FileStream::Write(const void *Data, size_t Size) {
size_t Written = fwrite(Data, 1, Size, pimpl->m_File);
if (Written != Size || ferror(pimpl->m_File) != 0) throw Error(...); }`;
`fwrite` gives the outcome of the call for a requested number of bytes. -/
def FileStream.Posix.Write (fwrite : Nat → StdioCall) (Size : Nat) : Except FileError Unit :=
  let os := fwrite Size
  let Written := os.Count
  if Written ≠ Size ∨ os.ferror ≠ 0 then .error .Error else .ok ()

/-- Source (Files.cpp, POSIX): `size_t FileStream::Read(void *Data, size_t Size) {
size_t BytesRead = fread(Data, 1, Size, pimpl->m_File);
if (ferror(pimpl->m_File) != 0) throw Error(...); return BytesRead; }` -/
def FileStream.Posix.Read (fread : Nat → StdioCall) (Size : Nat) : Except FileError Nat :=
  let os := fread Size
  let BytesRead := os.Count
  if os.ferror ≠ 0 then .error .Error else .ok BytesRead

/-- Source (Files.cpp, Win32): `void FileStream::Write(const void *Data, size_t Size) {
uint32 WrittenSize; assert(Size <= UINT_MAX);
if (WriteFile(pimpl->m_File, Data, (DWORD)Size, (LPDWORD)&WrittenSize, 0) == 0) throw Win32Error(...);
if (WrittenSize != Size) throw Error(...); }`; the request is `(DWORD)Size` and
`WrittenSize` holds 32 bits. The `assert` is a debugging aid and is not part of
the outcome. -/
def FileStream.Win32.Write (WriteFile : Nat → Win32Call) (Size : Nat) : Except FileError Unit :=
  let os := WriteFile (Size % 2 ^ 32)
  let WrittenSize := os.Count % 2 ^ 32
  if os.Return = 0 then .error .Win32Error
  else if WrittenSize ≠ Size then .error .Error
  else .ok ()

/-- Source (Files.cpp, Win32): `size_t FileStream::Read(void *Data, size_t Size) {
uint32 ReadSize; assert(Size <= UINT_MAX);
if (ReadFile(pimpl->m_File, Data, (DWORD)Size, (LPDWORD)&ReadSize, 0) == 0) throw Win32Error(...);
return ReadSize; }` -/
def FileStream.Win32.Read (ReadFile : Nat → Win32Call) (Size : Nat) : Except FileError Nat :=
  let os := ReadFile (Size % 2 ^ 32)
  let ReadSize := os.Count % 2 ^ 32
  if os.Return = 0 then .error .Win32Error else .ok ReadSize
/-! ## `DirLister` (Files.cpp) -/

/-- Files.hpp, `enum FILE_ITEM_TYPE`. -/
inductive FILE_ITEM_TYPE
  | IT_NONE
  | IT_DIR
  | IT_FILE
  deriving DecidableEq, Repr

/-- An entry as the operating system enumerates it: the name (`d_name`,
`cFileName`) and whether it is a directory (`d_type == DT_DIR`,
`dwFileAttributes & FILE_ATTRIBUTE_DIRECTORY`). -/
structure DirEntry where
  Name : String
  IsDirectory : Bool
  deriving DecidableEq, Repr

/-- The test both implementations make on a name: it is `"."` or `".."`. -/
def DirEntry.IsDots (e : DirEntry) : Bool :=
  e.Name == "." || e.Name == ".."

/-- The type reported for an entry: `IT_DIR` or `IT_FILE`. -/
def DirEntry.Type (e : DirEntry) : FILE_ITEM_TYPE :=
  if e.IsDirectory then .IT_DIR else .IT_FILE

/-- Source (Files.cpp, POSIX): `bool DirLister_pimpl::ReadNext(tstring *OutName, FILE_ITEM_TYPE *OutType) {
dirent DirEnt, *DirEntPtr; if ( readdir_r(m_DirHandle, &DirEnt, &DirEntPtr) != 0 ) throw ErrnoError(...);
if (DirEntPtr == NULL) return false;
if (strcmp(DirEnt.d_name, ".") == 0 || strcmp(DirEnt.d_name, "..") == 0) return ReadNext(OutName, OutType);
*OutName = DirEnt.d_name; *OutType = ( (DirEnt.d_type == DT_DIR) ? IT_DIR : IT_FILE ); return true; }`.
The state `m_DirHandle` is the list of entries the operating system has yet to
deliver; `readdir_r` delivers the first of them, or `NULL` when none is left.
The result is `none` for `false`, else `*OutName` and `*OutType`, and the state. -/
def DirLister.Posix.ReadNext :
    List DirEntry → Option (String × FILE_ITEM_TYPE) × List DirEntry
  | [] => (none, [])
  | DirEnt :: m_DirHandle =>
    if DirEnt.IsDots then DirLister.Posix.ReadNext m_DirHandle
    else (some (DirEnt.Name, DirEnt.Type), m_DirHandle)

/-- The results of `n` successive `ReadNext` calls (POSIX). -/
def DirLister.Posix.ReadNexts : Nat → List DirEntry → List (Option (String × FILE_ITEM_TYPE))
  | 0, _ => []
  | n + 1, m_DirHandle =>
    (DirLister.Posix.ReadNext m_DirHandle).1 ::
      DirLister.Posix.ReadNexts n (DirLister.Posix.ReadNext m_DirHandle).2

/-- Files.cpp (Win32), `class DirLister_pimpl`: `m_FindData`, `m_Handle` and
`m_ReachedEnd`; the find handle is the list of entries the operating system has
yet to deliver through it. -/
structure DirLister.Win32 where
  m_FindData : DirEntry
  m_Handle : List DirEntry
  m_ReachedEnd : Bool
  deriving DecidableEq, Repr

/-- The Win32 call `FindNextFile(m_Handle, &m_FindData)`: stores the next entry,
or fails with `ERROR_NO_MORE_FILES`, leaving `m_FindData` as it is, when none is
left. The flag is the return value. -/
def FindNextFile (d : DirLister.Win32) : Bool × DirLister.Win32 :=
  match d.m_Handle with
  | [] => (false, d)
  | e :: es => (true, { d with m_FindData := e, m_Handle := es })

/-- Source (Files.cpp, Win32), the first statement of `GetNext`:
`if (FindNextFile(m_Handle, &m_FindData) == 0) { if (GetLastError() == ERROR_NO_MORE_FILES)
m_ReachedEnd = true; else throw Win32Error(...); }` -/
def DirLister.Win32.Advance (d : DirLister.Win32) : DirLister.Win32 :=
  let r := FindNextFile d
  if r.1 then r.2 else { r.2 with m_ReachedEnd := true }

/-- Source (Files.cpp, Win32): the loop `while (!m_ReachedEnd && (m_FindData.cFileName == "." ||
m_FindData.cFileName == "..")) GetNext();` that ends `GetFirst` and `GetNext`. The
call `GetNext()` in its body is the first statement of `GetNext` followed by
this same loop. The fuel bounds the depth of the calls and the rounds of the
loop; `none` means it ran out. -/
def DirLister.Win32.SkipDots : Nat → DirLister.Win32 → Option DirLister.Win32
  | 0, _ => none
  | fuel + 1, d =>
    if !d.m_ReachedEnd && d.m_FindData.IsDots then
      match DirLister.Win32.SkipDots fuel (DirLister.Win32.Advance d) with
      | none => none
      | some d1 => DirLister.Win32.SkipDots fuel d1
    else some d

/-- Source (Files.cpp, Win32): `void DirLister_pimpl::GetNext() { if (FindNextFile(m_Handle, &m_FindData) == 0)
{ if (GetLastError() == ERROR_NO_MORE_FILES) m_ReachedEnd = true; else throw Win32Error(...); }
while (!m_ReachedEnd && (m_FindData.cFileName == "." || m_FindData.cFileName == "..")) GetNext(); }` -/
def DirLister.Win32.GetNext (fuel : Nat) (d : DirLister.Win32) : Option DirLister.Win32 :=
  DirLister.Win32.SkipDots fuel (DirLister.Win32.Advance d)

/-- Source (Files.cpp, Win32): `void DirLister_pimpl::GetFirst()`, called by the
constructor: `m_Handle = FindFirstFile(Path.c_str(), &m_FindData);
if (m_Handle == INVALID_HANDLE_VALUE) { if (GetLastError() == ERROR_NO_MORE_FILES) m_ReachedEnd = true;
else throw Win32Error(...); } else m_ReachedEnd = false;` and then the loop.
`FindFirstFile` stores the first entry the operating system enumerates; with no
entry at all it fails, here with the end-of-enumeration code the source tests
for, and `m_FindData` is left as it was (`Previous`). -/
def DirLister.Win32.GetFirst (fuel : Nat) (Previous : DirEntry) (Entries : List DirEntry) :
    Option DirLister.Win32 :=
  match Entries with
  | [] => DirLister.Win32.SkipDots fuel
      { m_FindData := Previous, m_Handle := [], m_ReachedEnd := true }
  | e :: es => DirLister.Win32.SkipDots fuel
      { m_FindData := e, m_Handle := es, m_ReachedEnd := false }

/-- Source (Files.cpp, Win32): `bool DirLister_pimpl::ReadNext(tstring *OutName, FILE_ITEM_TYPE *OutType) {
if (m_ReachedEnd) return false; *OutName = m_FindData.cFileName;
*OutType = ( ((m_FindData.dwFileAttributes & FILE_ATTRIBUTE_DIRECTORY) != 0) ? IT_DIR : IT_FILE );
GetNext(); return true; }` -/
def DirLister.Win32.ReadNext (fuel : Nat) (d : DirLister.Win32) :
    Option (Option (String × FILE_ITEM_TYPE) × DirLister.Win32) :=
  if d.m_ReachedEnd then some (none, d)
  else
    match DirLister.Win32.GetNext fuel d with
    | none => none
    | some d1 => some (some (d.m_FindData.Name, d.m_FindData.Type), d1)

/-- The results of `n` successive `ReadNext` calls (Win32); `none` when a call
runs out of fuel. -/
def DirLister.Win32.ReadNexts (fuel : Nat) : Nat → DirLister.Win32 →
    Option (List (Option (String × FILE_ITEM_TYPE)))
  | 0, _ => some []
  | n + 1, d =>
    match DirLister.Win32.ReadNext fuel d with
    | none => none
    | some (x, d1) =>
      match DirLister.Win32.ReadNexts fuel n d1 with
      | none => none
      | some rest => some (x :: rest)

/-- What the claim expects of a listing: the entries other than `"."` and
`".."`, each once, in the order of the operating system, as name and type. -/
def DirLister.Expected (Entries : List DirEntry) : List (String × FILE_ITEM_TYPE) :=
  (Entries.filter (fun e => !e.IsDots)).map (fun e => (e.Name, e.Type))

/-- The entries a Win32 lister has yet to return: none after the end was
reached, else the one held in `m_FindData` and those the handle has yet to
deliver, without `"."` and `".."`. -/
def DirLister.Win32.Pending (d : DirLister.Win32) : List DirEntry :=
  if d.m_ReachedEnd then [] else (d.m_FindData :: d.m_Handle).filter (fun e => !e.IsDots)

/-- The state between two calls on a Win32 lister: the end was reached, or
`m_FindData` holds an entry other than `"."` and `".."`. -/
def DirLister.Win32.Settled (d : DirLister.Win32) : Prop :=
  d.m_ReachedEnd = true ∨ d.m_FindData.IsDots = false

/-- The results expected of `n` successive `ReadNext` calls: the expected
entries, then `false` for every further call. -/
def DirLister.ExpectedCalls (n : Nat) (Entries : List DirEntry) :
    List (Option (String × FILE_ITEM_TYPE)) :=
  (((DirLister.Expected Entries).map some) ++ List.replicate n none).take n

/-! ## Rectangles of integers (Math.hpp) -/

/-- Math.hpp, `struct POINT_`: `int x, y`. -/
structure POINT_ where
  x : Int
  y : Int
  deriving DecidableEq, Repr

/-- Math.hpp, `struct RECTI`: `POINT_ Min, Max`. -/
structure RECTI where
  Min : POINT_
  Max : POINT_
  deriving DecidableEq, Repr

/-- Source: `bool IsValid() const { return Min.x < Max.x && Min.y < Max.y; }` -/
def RECTI.IsValid (r : RECTI) : Bool :=
  decide (r.Min.x < r.Max.x) && decide (r.Min.y < r.Max.y)

/-- Source: `inline bool PointInRect(const POINT_ &p, const RECTI &r) { return (p.x >= r.Min.x) &&
(p.x <= r.Max.x) && (p.y >= r.Min.y) && (p.y <= r.Max.y); }` -/
def PointInRect (p : POINT_) (r : RECTI) : Bool :=
  decide (p.x ≥ r.Min.x) && decide (p.x ≤ r.Max.x) && decide (p.y ≥ r.Min.y) &&
    decide (p.y ≤ r.Max.y)

/-- Source: `inline bool RectToRect(const RECTI &r1, const RECTI &r2) { return (r1.Min.x <= r2.Max.x) &&
(r1.Max.x >= r2.Min.x) && (r1.Min.y <= r2.Max.y) && (r1.Max.y >= r2.Min.y); }` -/
def RectToRect (r1 r2 : RECTI) : Bool :=
  decide (r1.Min.x ≤ r2.Max.x) && decide (r1.Max.x ≥ r2.Min.x) && decide (r1.Min.y ≤ r2.Max.y) &&
    decide (r1.Max.y ≥ r2.Min.y)

/-- Source: `inline bool Intersection(RECTI *Out, const RECTI &r1, const RECTI &r2) { *Out = RECTI(
std::max(r1.Min.x, r2.Min.x), std::max(r1.Min.y, r2.Min.y), std::min(r1.Max.x, r2.Max.x),
std::min(r1.Max.y, r2.Max.y)); return Out->IsValid(); }`; the result is the return
value and `*Out`. -/
def Intersection (r1 r2 : RECTI) : Bool × RECTI :=
  let Out : RECTI :=
    { Min := { x := max r1.Min.x r2.Min.x, y := max r1.Min.y r2.Min.y },
      Max := { x := min r1.Max.x r2.Max.x, y := min r1.Max.y r2.Max.y } }
  (Out.IsValid, Out)

/-! ## `COLOR` and the 16-bit colour format (Math.hpp) -/

/-- Math.hpp, `struct COLOR`: the components `uint8 B, G, R, A` of the format
A8R8G8B8. -/
structure COLOR where
  A : Nat
  R : Nat
  G : Nat
  B : Nat
  deriving DecidableEq, Repr

/-- The components of a `COLOR` are 8-bit values. -/
def COLOR.IsValid (c : COLOR) : Prop :=
  c.A < 256 ∧ c.R < 256 ∧ c.G < 256 ∧ c.B < 256

/-- Source: `inline uint16 ColorToR5G6B5(COLOR color) { return ((unsigned short)(color.R >> 3) << 11) |
((unsigned short)(color.G >> 2) << 5) | ((unsigned short)(color.B >> 3)); }`; the value
returned has 16 bits. -/
def ColorToR5G6B5 (color : COLOR) : Nat :=
  ((((color.R >>> 3) % 2 ^ 16) <<< 11) ||| (((color.G >>> 2) % 2 ^ 16) <<< 5) |||
    ((color.B >>> 3) % 2 ^ 16)) % 2 ^ 16

/-- Source: `inline COLOR R5G6B5ToColor(uint16 color) { return COLOR(255, (uint8)(color >> 11 << 3),
(uint8)(color >> 5 << 2), (uint8)(color << 3)); }` with the constructor
`COLOR(uint8 A, uint8 R, uint8 G, uint8 B)`. -/
def R5G6B5ToColor (color : Nat) : COLOR :=
  { A := 255,
    R := (color >>> 11 <<< 3) % 2 ^ 8,
    G := (color >>> 5 <<< 2) % 2 ^ 8,
    B := (color <<< 3) % 2 ^ 8 }

/-! ## `Hash_Calc` -/

/-- Stream.hpp, `class Hash_Calc : public Stream`: the register `uint32 m_Hash`. -/
structure Hash_Calc where
  m_Hash : Nat
  deriving DecidableEq, Repr

/-- Source: `Hash_Calc() : m_Hash(0) { }` -/
def Hash_Calc.new : Hash_Calc :=
  { m_Hash := 0 }

/-- Source: `void Reset() { m_Hash = 0; }` -/
def Hash_Calc.Reset (_c : Hash_Calc) : Hash_Calc :=
  { m_Hash := 0 }

/-- The object after the blocks `Blocks` are written one by one, for a given
behaviour `Write` of `Hash_Calc::Write` (declared in the header, body in
`Stream.cpp`). -/
def Hash_Calc.WriteAll (Write : Hash_Calc → List Nat → Hash_Calc) (c : Hash_Calc)
    (Blocks : List (List Nat)) : Hash_Calc :=
  Blocks.foldl Write c

/-- The object after the blocks `Blocks` are written one by one, for a given
behaviour `Write` of `CRC32_Calc::Write`. -/
def CRC32_Calc.WriteAll (Write : CRC32_Calc → List Nat → CRC32_Calc) (c : CRC32_Calc)
    (Blocks : List (List Nat)) : CRC32_Calc :=
  Blocks.foldl Write c

/-! ## `Base64Decoder::GetNextByte`, repeated -/

/-- The bytes delivered by `n` successive `GetNextByte` calls and the decoder
after them; the calls stop at the first one that returns false. -/
def Base64Decoder.GetNextBytes {σ : Type} (S : Stream σ) (BUFFER_SIZE : Nat) (fuel : Nat) :
    Nat → Base64Decoder σ → Option (Except Error (List Nat × Base64Decoder σ))
  | 0, d => some (.ok ([], d))
  | n + 1, d =>
    match Base64Decoder.GetNextByte S BUFFER_SIZE fuel d 0 with
    | none => none
    | some (.error e) => some (.error e)
    | some (.ok (false, _, d1)) => some (.ok ([], d1))
    | some (.ok (true, b, d1)) =>
      match Base64Decoder.GetNextBytes S BUFFER_SIZE fuel n d1 with
      | none => none
      | some (.error e) => some (.error e)
      | some (.ok (out, d2)) => some (.ok (b :: out, d2))

/-! ## `DATETIME` (DateTime.hpp) -/

/-- The value an `int64` variable holds after it is assigned the integer `x`:
`x` wrapped into the signed 64-bit range. -/
def toInt64 (x : Int) : Int :=
  (2 ^ 63 + x) % 2 ^ 64 - 2 ^ 63

/-- DateTime.hpp, `struct DATETIME`: `int64 m_Time`, the number of milliseconds
since the Unix epoch. -/
structure DATETIME where
  m_Time : Int
  deriving DecidableEq, Repr

/-- Source: `void SetMillisecond(uint Millisecond) { m_Time -= m_Time % 1000; m_Time += Millisecond; }`;
`%` on `int64` is the remainder of the division that truncates toward zero. -/
def DATETIME.SetMillisecond (d : DATETIME) (Millisecond : Nat) : DATETIME :=
  let t1 := toInt64 (d.m_Time - Int.tmod d.m_Time 1000)
  { m_Time := toInt64 (t1 + (Millisecond % 2 ^ 32 : Nat)) }

/-! ## Boxes and rectangles scaled by a vector (Math.hpp) -/

/-- Math.hpp, `struct VEC3`: `float x, y, z`; the component type is `F`. -/
structure VEC3 (F : Type) where
  x : F
  y : F
  z : F
  deriving DecidableEq, Repr

/-- Math.hpp, `struct VEC2`: `float x, y`; the component type is `F`. -/
structure VEC2 (F : Type) where
  x : F
  y : F
  deriving DecidableEq, Repr

/-- Math.hpp, `struct BOX`: `VEC3 Min, Max`. -/
structure BOX (F : Type) where
  Min : VEC3 F
  Max : VEC3 F
  deriving DecidableEq, Repr

/-- Math.hpp, `struct RECTF`: `VEC2 Min, Max`. -/
structure RECTF (F : Type) where
  Min : VEC2 F
  Max : VEC2 F
  deriving DecidableEq, Repr

section Scaling

variable {F : Type} (op : F → F → F)

/-- Source: `inline void Mul(VEC3 *Out, const VEC3 &v1, const VEC3 &v2) { Out->x = v1.x * v2.x;
Out->y = v1.y * v2.y; Out->z = v1.z * v2.z; }` and the same with `/` for `Div`, and
the in-place forms `inout->x *= v.x; ...`: `op` is the operation on `float`. -/
def VEC3.Scale (v1 v2 : VEC3 F) : VEC3 F :=
  { x := op v1.x v2.x, y := op v1.y v2.y, z := op v1.z v2.z }

/-- Source: `inline void Mul(VEC2 *Out, const VEC2 &v1, const VEC2 &v2) { Out->x = v1.x * v2.x;
Out->y = v1.y * v2.y; }` and the same with `/` for `Div`, and the in-place forms. -/
def VEC2.Scale (v1 v2 : VEC2 F) : VEC2 F :=
  { x := op v1.x v2.x, y := op v1.y v2.y }

/-- Source: `inline void Mul(BOX *Out, const BOX &b, const VEC3 &v) { Mul(&Out->Max, b.Max, v);
Mul(&Out->Max, b.Max, v); }` and `inline void Div(BOX *Out, const BOX &b, const VEC3 &v)
{ Div(&Out->Max, b.Max, v); Div(&Out->Max, b.Max, v); }`; `Out` is the box `*Out`
before the call, the result is `*Out` after it. -/
def BOX.Scale (Out b : BOX F) (v : VEC3 F) : BOX F :=
  let Out1 := { Out with Max := VEC3.Scale op b.Max v }
  { Out1 with Max := VEC3.Scale op b.Max v }

/-- Source: `inline void Mul(BOX *inout, const VEC3 &v) { Mul(&inout->Max, v); Mul(&inout->Max, v); }`
and `inline void Div(BOX *inout, const VEC3 &v) { Div(&inout->Max, v); Div(&inout->Max, v); }`. -/
def BOX.ScaleInPlace (inout : BOX F) (v : VEC3 F) : BOX F :=
  let b1 := { inout with Max := VEC3.Scale op inout.Max v }
  { b1 with Max := VEC3.Scale op b1.Max v }

/-- Source: `inline void Mul(RECTF *out, const RECTF &rect, const VEC2 &v) { Mul(&out->Min, rect.Min, v);
Mul(&out->Max, rect.Max, v); }`, the same for `Div`, and for `RECTI` with `POINT_`. -/
def RECTF.Scale (out rect : RECTF F) (v : VEC2 F) : RECTF F :=
  let out1 := { out with Min := VEC2.Scale op rect.Min v }
  { out1 with Max := VEC2.Scale op rect.Max v }

/-- Source: `inline void Mul(RECTF *inout, const VEC2 &v) { Mul(&inout->Min, v); Mul(&inout->Max, v); }`,
the same for `Div`, and for `RECTI` with `POINT_`. -/
def RECTF.ScaleInPlace (inout : RECTF F) (v : VEC2 F) : RECTF F :=
  let r1 := { inout with Min := VEC2.Scale op inout.Min v }
  { r1 with Max := VEC2.Scale op r1.Max v }

/-- What the claim expects of `Mul(&Out, b, v)` and `Div(&Out, b, v)` on boxes:
both corners scaled. -/
def BOX.ScaleExpected (b : BOX F) (v : VEC3 F) : BOX F :=
  { Min := VEC3.Scale op b.Min v, Max := VEC3.Scale op b.Max v }

end Scaling

/-! ## Unicode text files (Files.hpp, Files.cpp) -/

/-- Files.hpp, `enum FILE_ENCODING`: `FILE_ENCODING_UTF16_LE = 1`. -/
def FILE_ENCODING_UTF16_LE : Nat := 1

/-- Files.hpp, `enum FILE_ENCODING`: `FILE_ENCODING_UTF8 = 2`. -/
def FILE_ENCODING_UTF8 : Nat := 2

/-- Files.hpp, `enum FILE_ENCODING`: `FILE_ENCODING_ANSI = 3`. -/
def FILE_ENCODING_ANSI : Nat := 3

/-- Files.hpp, `enum FILE_ENCODING`: `FILE_ENCODING_FORCE_BOM = 0x00010000`. -/
def FILE_ENCODING_FORCE_BOM : Nat := 0x00010000

/-- Files.hpp, `enum FILE_ENCODING`: `FILE_ENCODING_NO_BOM = 0x00020000`. -/
def FILE_ENCODING_NO_BOM : Nat := 0x00020000

/-- Files.hpp, `enum FILE_ENCODING`: `FILE_ENCODING_AUTODETECT = 0x00040000`. -/
def FILE_ENCODING_AUTODETECT : Nat := 0x00040000

/-- The constant `BOM_UTF8` (a zero-terminated `const char *`; its declaration
is not in `Files.cpp`): the byte-order mark of UTF-8. -/
def BOM_UTF8 : List Nat := [0xEF, 0xBB, 0xBF, 0]

/-- The constant `BOM_UTF16_LE` (a zero-terminated `const char *`; its
declaration is not in `Files.cpp`): the byte-order mark of UTF-16 LE. -/
def BOM_UTF16_LE : List Nat := [0xFF, 0xFE, 0]

/-- The C library function `strlen`: the number of bytes before the first zero
byte. -/
def strlen (s : List Nat) : Nat :=
  (s.takeWhile (fun b => b != 0)).length

/-- The size of `wchar_t` on Windows, where this part of `Files.cpp` is compiled
(`#ifdef _WIN32`): `sizeof(wchar_t)`. -/
def sizeof_wchar_t : Nat := 2

/-- The bytes a sequence of `wchar_t` occupies in memory: two bytes per
character, the low byte first. -/
def RawBytes (Data : List Nat) : List Nat :=
  Data.flatMap (fun w => [w % 256, w / 256 % 256])

/-- The code pages passed to the conversion functions: `CP_ACP`, `CP_UTF8`. -/
inductive CodePage
  | CP_ACP
  | CP_UTF8
  deriving DecidableEq, Repr

/-- The exceptions of the Unicode file functions: a conversion that failed
(`throw Error("Cannot convert ...")`) and an exception of the stream written to. -/
inductive UnicodeError
  | Convert
  | Stream (code : Nat)
  deriving DecidableEq, Repr

/-- An exception of the stream passes through `SaveUnicodeToStream`. -/
def liftUnicode {α : Type} : Except Nat α → Except UnicodeError α
  | .ok a => .ok a
  | .error code => .error (UnicodeError.Stream code)

/-- Source: `bool HasBOM(const char *Data, size_t NumBytes, const char *BOM, size_t BOMNumBytes) {
if (NumBytes < BOMNumBytes) return false;
for (size_t i = 0; i < BOMNumBytes; i++) { if (Data[i] != BOM[i]) return false; } return true; }` -/
def HasBOM (Data : List Nat) (NumBytes : Nat) (BOM : List Nat) (BOMNumBytes : Nat) : Bool :=
  if NumBytes < BOMNumBytes then false
  else (List.range BOMNumBytes).all (fun i => Data.getD i 0 == BOM.getD i 0)

section Unicode

variable {σ : Type} (S : Stream σ) (Convert : List Nat → CodePage → Option (List Nat))

/-- Modelled from the spec: `void Stream::WriteStringF(const string &s)` (declared
in Stream.hpp, "writes the string without its length", body in `Stream.cpp`): one
`Write` of the characters. -/
def Stream.WriteStringF (Dest : σ) (s : List Nat) : Except Nat σ :=
  S.Write Dest s

/-- Modelled from the spec: `void Stream::WriteStringF(const wstring &s)` (declared
in Stream.hpp, body in `Stream.cpp`): one `Write` of the characters as they are
in memory, `s.length() * sizeof(wchar_t)` bytes. -/
def Stream.WriteStringFW (Dest : σ) (s : List Nat) : Except Nat σ :=
  S.Write Dest ((RawBytes s).take (s.length * sizeof_wchar_t))

/-- Source: the statement `if (<flag test>) Dest->Write(BOM, strlen(BOM));` of
`SaveUnicodeToStream`. -/
def WriteBOM (Dest : σ) (test : Bool) (BOM : List Nat) : Except UnicodeError σ :=
  if test then liftUnicode (S.Write Dest (BOM.take (strlen BOM))) else .ok Dest

/-- Source: `void SaveUnicodeToStream(Stream *Dest, const wstring &Data, unsigned Encoding)`:
`switch (Encoding & 0xFFFF)`;
case `FILE_ENCODING_UTF16_LE`: `if ((Encoding & FILE_ENCODING_NO_BOM) == 0) Dest->Write(BOM_UTF16_LE,
strlen(BOM_UTF16_LE)); Dest->WriteStringF(Data);`
case `FILE_ENCODING_UTF8`: `if ((Encoding & FILE_ENCODING_FORCE_BOM) != 0) Dest->Write(BOM_UTF8, strlen(BOM_UTF8));
string utf8_string; if (!ConvertUnicodeToChars(&utf8_string, Data, CP_UTF8)) throw Error(...);
Dest->WriteStringF(utf8_string);`
case `FILE_ENCODING_ANSI`: `string ansi_string; if (!ConvertUnicodeToChars(&ansi_string, Data, CP_ACP))
throw Error(...); Dest->WriteStringF(ansi_string);`
default: `assert(0 && ...)`, which does nothing when assertions are compiled out.
`Convert` is `ConvertUnicodeToChars` (not in the sources): the converted text,
or `none` when it returns false. -/
def SaveUnicodeToStream (Dest : σ) (Data : List Nat) (Encoding : Nat) : Except UnicodeError σ :=
  if Encoding &&& 0xFFFF = FILE_ENCODING_UTF16_LE then
    match WriteBOM S Dest (Encoding &&& FILE_ENCODING_NO_BOM == 0) BOM_UTF16_LE with
    | .error e => .error e
    | .ok d1 => liftUnicode (Stream.WriteStringFW S d1 Data)
  else if Encoding &&& 0xFFFF = FILE_ENCODING_UTF8 then
    match WriteBOM S Dest (Encoding &&& FILE_ENCODING_FORCE_BOM != 0) BOM_UTF8 with
    | .error e => .error e
    | .ok d1 =>
      match Convert Data .CP_UTF8 with
      | none => .error .Convert
      | some utf8_string => liftUnicode (Stream.WriteStringF S d1 utf8_string)
  else if Encoding &&& 0xFFFF = FILE_ENCODING_ANSI then
    match Convert Data .CP_ACP with
    | none => .error .Convert
    | some ansi_string => liftUnicode (Stream.WriteStringF S Dest ansi_string)
  else .ok Dest

/-- Source: `void SaveUnicodeToStream(Stream *Dest, const wchar_t *Data, unsigned NumChars, unsigned Encoding)`:
as the overload for `wstring`, with `Dest->Write(Data, NumChars * sizeof(wchar_t));` in
the UTF-16 case and `ConvertUnicodeToChars(&..., Data, NumChars, ...)` in the other
two. `Data` is the array of characters that the pointer refers to. -/
def SaveUnicodeToStreamChars (Dest : σ) (Data : List Nat) (NumChars : Nat) (Encoding : Nat) :
    Except UnicodeError σ :=
  if Encoding &&& 0xFFFF = FILE_ENCODING_UTF16_LE then
    match WriteBOM S Dest (Encoding &&& FILE_ENCODING_NO_BOM == 0) BOM_UTF16_LE with
    | .error e => .error e
    | .ok d1 => liftUnicode (S.Write d1 ((RawBytes Data).take (NumChars * sizeof_wchar_t)))
  else if Encoding &&& 0xFFFF = FILE_ENCODING_UTF8 then
    match WriteBOM S Dest (Encoding &&& FILE_ENCODING_FORCE_BOM != 0) BOM_UTF8 with
    | .error e => .error e
    | .ok d1 =>
      match Convert (Data.take NumChars) .CP_UTF8 with
      | none => .error .Convert
      | some utf8_string => liftUnicode (Stream.WriteStringF S d1 utf8_string)
  else if Encoding &&& 0xFFFF = FILE_ENCODING_ANSI then
    match Convert (Data.take NumChars) .CP_ACP with
    | none => .error .Convert
    | some ansi_string => liftUnicode (Stream.WriteStringF S Dest ansi_string)
  else .ok Dest

end Unicode

/-- Source (`LoadUnicodeFromStream` with `string *Out`, no `AUTODETECT`, case
`FILE_ENCODING_UTF16_LE`): `size_t BOMSize = strlen(BOM_UTF16_LE); size_t Index = 0;
if (HasBOM(VS.Data(), (size_t)VS.GetSize(), BOM_UTF16_LE, BOMSize)) Index = BOMSize;`, the
index at which the text starts; `Data` is the content of the stream. -/
def LoadUnicodeFromStream.Index (Data : List Nat) : Nat :=
  let BOMSize := strlen BOM_UTF16_LE
  if HasBOM Data Data.length BOM_UTF16_LE BOMSize then BOMSize else 0

/-- Source (same branch): the number of characters handed to the conversion,
`ConvertUnicodeToChars(Out, (const wchar_t*)&VS.Data()[Index], ((size_t)VS.GetSize() / Index) / sizeof(wchar_t), CP_ACP)`;
`none` stands for the division by zero. -/
def LoadUnicodeFromStream.ExplicitCount (Data : List Nat) : Option Nat :=
  let Index := LoadUnicodeFromStream.Index Data
  if Index = 0 then none else some ((Data.length / Index) / sizeof_wchar_t)

/-- Source (`LoadUnicodeFromStream` with `string *Out`, `AUTODETECT`, encoding
found to be UTF-16 LE): the number of characters handed to the conversion,
`((size_t)VS.GetSize() - BomSize) / sizeof(wchar_t)`, for the size `BomSize` of the
mark that `DetectEncoding` reports. -/
def LoadUnicodeFromStream.AutodetectCount (Data : List Nat) (BomSize : Nat) : Nat :=
  ((2 ^ 64 + Data.length - BomSize) % 2 ^ 64) / sizeof_wchar_t

/-- What the claim expects of the explicit branch: `(size - bomSize) / sizeof(wchar_t)`
with `bomSize` the length of the mark if the content starts with it and 0
otherwise. -/
def LoadUnicodeFromStream.ExpectedCount (Data : List Nat) : Nat :=
  (Data.length - LoadUnicodeFromStream.Index Data) / sizeof_wchar_t

/-! ## `FlatProfiler` (Profiler.hpp) -/

/-- Profiler.hpp, `struct FlatProfiler::ENTRY`: `GameTime SumTime` (an `int64`
count, DateTime.hpp `struct GameTime`) and `size_t Count`. -/
structure FlatProfiler.ENTRY where
  SumTime : Int
  Count : Nat
  deriving DecidableEq, Repr

/-- Source: `ENTRY() : SumTime(GameTime::ZERO), Count(0) { }`; `GameTime::ZERO` is
the zero count. -/
def FlatProfiler.ENTRY.new : FlatProfiler.ENTRY :=
  { SumTime := 0, Count := 0 }

/-- Source: `GameTime GetAvgTime() const { return SumTime / (int64)Count; }` with
`GameTime operator / (int64 v) const { return GameTime(m_PerfCount / v); }`;
`none` stands for the division by zero. -/
def FlatProfiler.ENTRY.GetAvgTime (e : FlatProfiler.ENTRY) : Option Int :=
  let v := toInt64 (e.Count : Int)
  if v = 0 then none else some (toInt64 (Int.tdiv e.SumTime v))

/-- Profiler.hpp, `class FlatProfiler`: the map `m_Entries` from keys to entries
(`std::map<KeyT, ENTRY, KeyTraits>`). -/
structure FlatProfiler (KeyT : Type) where
  m_Entries : KeyT → Option FlatProfiler.ENTRY

/-- Source: `FlatProfiler() : m_Mutex(0) { }`: the map is empty. -/
def FlatProfiler.new {KeyT : Type} : FlatProfiler KeyT :=
  { m_Entries := fun _ => none }

/-- Source: `void FlatProfiler::Clear() { MutexLock lock(m_Mutex); m_Entries.clear(); }` -/
def FlatProfiler.Clear {KeyT : Type} (_p : FlatProfiler KeyT) : FlatProfiler KeyT :=
  { m_Entries := fun _ => none }

/-- Source: `void FlatProfiler::AddSample(const KeyT &key, GameTime timeInterval) { MutexLock lock(m_Mutex);
ENTRY &entry = m_Entries[key]; entry.SumTime += timeInterval; entry.Count++; }`;
`m_Entries[key]` makes a new entry when the key has none. -/
def FlatProfiler.AddSample {KeyT : Type} [DecidableEq KeyT] (p : FlatProfiler KeyT)
    (key : KeyT) (timeInterval : Int) : FlatProfiler KeyT :=
  let entry := (p.m_Entries key).getD FlatProfiler.ENTRY.new
  let entry1 : FlatProfiler.ENTRY :=
    { SumTime := toInt64 (entry.SumTime + timeInterval), Count := (entry.Count + 1) % 2 ^ 64 }
  { m_Entries := fun k => if k = key then some entry1 else p.m_Entries k }

/-- A call made on a `FlatProfiler`. -/
inductive FlatProfiler.Op (KeyT : Type)
  | Clear
  | AddSample (key : KeyT) (timeInterval : Int)

/-- A sequence of calls on a `FlatProfiler`. -/
def FlatProfiler.Run {KeyT : Type} [DecidableEq KeyT] (p : FlatProfiler KeyT) :
    List (FlatProfiler.Op KeyT) → FlatProfiler KeyT
  | [] => p
  | .Clear :: ops => FlatProfiler.Run (FlatProfiler.Clear p) ops
  | .AddSample key t :: ops => FlatProfiler.Run (FlatProfiler.AddSample p key t) ops

/-- The samples added for a key since the last `Clear`, in a sequence of calls
that follows the samples `acc`. -/
def FlatProfiler.Samples {KeyT : Type} [DecidableEq KeyT] (key : KeyT) (acc : List Int) :
    List (FlatProfiler.Op KeyT) → List Int
  | [] => acc
  | .Clear :: ops => FlatProfiler.Samples key [] ops
  | .AddSample k t :: ops => FlatProfiler.Samples key (if k = key then acc ++ [t] else acc) ops
/-! ## `CreateDirectoryChain` (Files.cpp) -/

/-- The value `tstring::npos`, the greatest `size_t`. -/
def npos : Nat := 2 ^ 64 - 1

/-- The value of `i - 1` for a `size_t i`: below zero it wraps to `npos`. -/
def size_t_pred (i : Nat) : Nat :=
  if i = 0 then npos else i - 1

/-- The greatest index below `n` at which the character `ch` stands in `s`. -/
def lastIndexBelow (s : List Char) (ch : Char) : Nat → Option Nat
  | 0 => none
  | n + 1 => if s.getD n ' ' = ch then some n else lastIndexBelow s ch n

/-- The standard library function `std::basic_string::find_last_of(ch, pos)`:
the greatest index not above `pos` (and within the string) at which `ch`
stands, `npos` when there is none. -/
def find_last_of (s : List Char) (ch : Char) (pos : Nat) : Nat :=
  match lastIndexBelow s ch (min (pos + 1) s.length) with
  | some j => j
  | none => npos

section DirectoryChain

variable {φ : Type} (DIR_SEP : Char) (IsDir : φ → List Char → Bool)
  (CreateDirectory : φ → List Char → Bool × φ)

/-- Source: the loop of `CreateDirectoryChain` and `MustCreateDirectoryChain` that
looks for the ancestors to create: `for (;;) { i2 = Path.find_last_of(DIR_SEP, i-1);
if (i2 == tstring::npos) break; if (GetFileItemType(Path.substr(0, i2)) == IT_DIR) break;
DirSepStack.push(i2); i = i2; }`. `fs` is the state of the file system,
`IsDir fs p` says that `GetFileItemType(p) == IT_DIR`, the stack has its top
first. The fuel bounds the number of rounds; `none` means it ran out. -/
def CreateDirectoryChain.Scan (fs : φ) (Path : List Char) :
    Nat → Nat → List Nat → Option (List Nat)
  | 0, _, _ => none
  | fuel + 1, i, DirSepStack =>
    let i2 := find_last_of Path DIR_SEP (size_t_pred i)
    if i2 = npos then some DirSepStack
    else if IsDir fs (Path.take i2) then some DirSepStack
    else CreateDirectoryChain.Scan fs Path fuel i2 (i2 :: DirSepStack)

/-- Source: the second part of `CreateDirectoryChain`:
`while (!DirSepStack.empty()) { if ( !CreateDirectory(Path.substr(0, DirSepStack.top())) ) return false;
DirSepStack.pop(); } if ( !CreateDirectory(Path) ) return false; return true;`. -/
def CreateDirectoryChain.Create (Path : List Char) : List Nat → φ → Bool × φ
  | [], fs => CreateDirectory fs Path
  | top :: rest, fs =>
    let r := CreateDirectory fs (Path.take top)
    if !r.1 then (false, r.2) else CreateDirectoryChain.Create Path rest r.2

/-- Source: `bool CreateDirectoryChain(const tstring &Path) { if (GetFileItemType(Path) == IT_DIR) return true;
size_t i2, i = Path.length()-1; std::stack<size_t> DirSepStack; <loop> <second part> }`. -/
def CreateDirectoryChain (fuel : Nat) (fs : φ) (Path : List Char) : Option (Bool × φ) :=
  if IsDir fs Path then some (true, fs)
  else
    match CreateDirectoryChain.Scan DIR_SEP IsDir fs Path fuel (size_t_pred Path.length) [] with
    | none => none
    | some DirSepStack => some (CreateDirectoryChain.Create CreateDirectory Path DirSepStack fs)

/-- Source: the second part of `MustCreateDirectoryChain`:
`while (!DirSepStack.empty()) { MustCreateDirectory(Path.substr(0, DirSepStack.top())); DirSepStack.pop(); }
MustCreateDirectory(Path);` with `void MustCreateDirectory(const tstring &Path)
{ if (!CreateDirectory(Path)) throw ErrnoError(...); }`. -/
def MustCreateDirectoryChain.Create (Path : List Char) : List Nat → φ → Except FileError φ
  | [], fs =>
    let r := CreateDirectory fs Path
    if !r.1 then .error .ErrnoError else .ok r.2
  | top :: rest, fs =>
    let r := CreateDirectory fs (Path.take top)
    if !r.1 then .error .ErrnoError else MustCreateDirectoryChain.Create Path rest r.2

/-- Source: `void MustCreateDirectoryChain(const tstring &Path)`, with the same
loop as `CreateDirectoryChain`. -/
def MustCreateDirectoryChain (fuel : Nat) (fs : φ) (Path : List Char) :
    Option (Except FileError φ) :=
  if IsDir fs Path then some (.ok fs)
  else
    match CreateDirectoryChain.Scan DIR_SEP IsDir fs Path fuel (size_t_pred Path.length) [] with
    | none => none
    | some DirSepStack =>
      some (MustCreateDirectoryChain.Create CreateDirectory Path DirSepStack fs)

end DirectoryChain

/-- A file system given by the table of the answers of `GetFileItemType`: the
list of all path strings `p` for which `GetFileItemType(p) == IT_DIR`. -/
def DirList.IsDir (fs : List (List Char)) (p : List Char) : Bool :=
  fs.contains p

/-! # Theorems -/

/-! ## Generic facts about the decoding scan -/

theorem DecodeLoop_nil (C : TextCodec) (tol : DECODE_TOLERANCE) :
    DecodeLoop C tol [] [] = some [] := by
  simp [DecodeLoop]

theorem DecodeLoop_skip (C : TextCodec) (tol : DECODE_TOLERANCE) (w : Nat) (t grp : List Nat)
    (hw : C.Symbol w = none) (ht : Tolerated tol w = true) :
    DecodeLoop C tol (w :: t) grp = DecodeLoop C tol t grp := by
  simp [DecodeLoop, hw, ht]

theorem DecodeLoop_reject (C : TextCodec) (w : Nat) (t grp : List Nat)
    (hw : C.Symbol w = none) :
    DecodeLoop C DECODE_TOLERANCE_NONE (w :: t) grp = none := by
  simp [DecodeLoop, hw, Tolerated]

theorem DecodeLoop_symbol_more (C : TextCodec) (tol : DECODE_TOLERANCE) (c v : Nat)
    (t grp : List Nat) (hc : C.Symbol c = some v) (hlen : grp.length + 1 ≠ C.GroupSize) :
    DecodeLoop C tol (c :: t) grp = DecodeLoop C tol t (grp ++ [v]) := by
  simp [DecodeLoop, hc, hlen]

theorem DecodeLoop_symbol_last (C : TextCodec) (tol : DECODE_TOLERANCE) (c v : Nat)
    (t grp : List Nat) (hc : C.Symbol c = some v) (hlen : grp.length + 1 = C.GroupSize) :
    DecodeLoop C tol (c :: t) grp =
      match C.DecodeGroup (grp ++ [v]) with
      | none => none
      | some (bytes, true) => some bytes
      | some (bytes, false) => (DecodeLoop C tol t []).map (fun r => bytes ++ r) := by
  simp [DecodeLoop, hc, hlen]

/-- Inserted whitespace does not change what a tolerant decoder returns. -/
theorem DecodeLoop_whitespace (C : TextCodec) (tol : DECODE_TOLERANCE)
    (hws : ∀ w, CharIsWhitespace w = true → C.Symbol w = none)
    (htol : tol ≠ DECODE_TOLERANCE_NONE) {s t : List Nat} (h : WhitespaceInserted s t) :
    ∀ grp, DecodeLoop C tol t grp = DecodeLoop C tol s grp := by
  induction h with
  | nil => intro grp; rfl
  | keep c _ ih =>
    intro grp
    simp only [DecodeLoop]
    cases C.Symbol c with
    | none => simp only [ih]
    | some v => simp only [ih]
  | insert w hw _ ih =>
    intro grp
    rw [DecodeLoop_skip C tol w _ grp (hws w hw), ih]
    cases tol with
    | DECODE_TOLERANCE_NONE => exact absurd rfl htol
    | DECODE_TOLERANCE_WHITESPACE => simpa [Tolerated] using hw
    | DECODE_TOLERANCE_ALL => rfl

/-- Without tolerance and without padding, any inserted whitespace is an error. -/
theorem DecodeLoop_none_reject (C : TextCodec)
    (hws : ∀ w, CharIsWhitespace w = true → C.Symbol w = none)
    (hnf : NeverFinishes C) {s t : List Nat} (h : WhitespaceInserted s t) :
    t ≠ s → ∀ grp, DecodeLoop C DECODE_TOLERANCE_NONE t grp = none := by
  induction h with
  | nil => intro hne; exact absurd rfl hne
  | @keep c s t _ ih =>
    intro hne grp
    have hne2 : t ≠ s := fun h => hne (by rw [h])
    simp only [DecodeLoop]
    cases hc : C.Symbol c with
    | none => simp [Tolerated]
    | some v =>
      simp only
      split
      · cases hg : C.DecodeGroup (grp ++ [v]) with
        | none => rfl
        | some p =>
          obtain ⟨bytes, fin⟩ := p
          cases fin with
          | true => exact absurd hg (hnf _ _)
          | false => simp [ih hne2]
      · exact ih hne2 _
  | insert w hw _ _ =>
    intro _ grp
    exact DecodeLoop_reject C w _ grp (hws w hw)

/-- Without tolerance, a decoder that does not fail on a text with inserted
whitespace has found the next characters of the group in place. -/
theorem DecodeLoop_none_peel (C : TextCodec)
    (hws : ∀ w, CharIsWhitespace w = true → C.Symbol w = none) :
    ∀ (cs r t grp : List Nat), (∀ c ∈ cs, C.Symbol c ≠ none) →
      grp.length + cs.length ≤ C.GroupSize → WhitespaceInserted (cs ++ r) t →
      DecodeLoop C DECODE_TOLERANCE_NONE t grp = none ∨
        ∃ t1, t = cs ++ t1 ∧ WhitespaceInserted r t1 := by
  intro cs
  induction cs with
  | nil => intro r t grp _ _ h; exact Or.inr ⟨t, rfl, h⟩
  | cons c cs ih =>
    intro r t grp hsym hlen h
    cases h with
    | insert w hw h1 => exact Or.inl (DecodeLoop_reject C w _ grp (hws w hw))
    | keep _ h1 =>
      rename_i t1
      cases hc : C.Symbol c with
      | none => exact absurd hc (hsym c (List.mem_cons_self _ _))
      | some v =>
        by_cases hfull : grp.length + 1 = C.GroupSize
        · have hcs : cs = [] := by
            apply List.eq_nil_of_length_eq_zero
            simp only [List.length_cons] at hlen
            omega
          subst hcs
          exact Or.inr ⟨t1, rfl, h1⟩
        · rw [DecodeLoop_symbol_more C _ c v t1 grp hc hfull]
          have hlen2 : (grp ++ [v]).length + cs.length ≤ C.GroupSize := by
            simp only [List.length_cons, List.length_append, List.length_nil] at hlen ⊢
            omega
          rcases ih r t1 (grp ++ [v]) (fun x hx => hsym x (List.mem_cons_of_mem _ hx)) hlen2 h1 with
            hn | ⟨t2, ht2, hw2⟩
          · exact Or.inl hn
          · exact Or.inr ⟨t2, by rw [ht2]; rfl, hw2⟩

/-- The scan of `DecodeLength` reports the number of bytes `Decode` produces, on every input. -/
theorem DecodeLengthLoop_eq (C : TextCodec) (tol : DECODE_TOLERANCE) (hC : LengthAgrees C) :
    ∀ (s grp : List Nat),
      DecodeLengthLoop C tol s grp = (DecodeLoop C tol s grp).map List.length := by
  intro s
  induction s with
  | nil => intro grp; simp only [DecodeLengthLoop, DecodeLoop]; split <;> rfl
  | cons c cs ih =>
    intro grp
    simp only [DecodeLengthLoop, DecodeLoop]
    cases hc : C.Symbol c with
    | none => simp only [ih]; split <;> rfl
    | some v =>
      simp only
      split
      · rw [hC (grp ++ [v])]
        cases hg : C.DecodeGroup (grp ++ [v]) with
        | none => rfl
        | some p =>
          obtain ⟨bytes, fin⟩ := p
          cases fin with
          | true => rfl
          | false =>
            simp only [Option.map_some', ih]
            cases DecodeLoop C tol cs [] with
            | none => rfl
            | some r => simp
      · exact ih _

/-! ## The three codecs -/

theorem BinDecoder_whitespace_no_symbol (w : Nat) (hw : CharIsWhitespace w = true) :
    BinDecoder.Codec.Symbol w = none := by
  simp only [CharIsWhitespace, Bool.or_eq_true, beq_iff_eq] at hw
  simp only [BinDecoder.Codec, BinDecoder.Symbol]
  split_ifs <;> first | rfl | omega

theorem HexDecoder_whitespace_no_symbol (w : Nat) (hw : CharIsWhitespace w = true) :
    HexDecoder.Codec.Symbol w = none := by
  simp only [CharIsWhitespace, Bool.or_eq_true, beq_iff_eq] at hw
  simp only [HexDecoder.Codec, HexDecoder.Symbol]
  split_ifs <;> first | rfl | omega

theorem Base64Decoder_whitespace_no_symbol (w : Nat) (hw : CharIsWhitespace w = true) :
    Base64Decoder.Codec.Symbol w = none := by
  simp only [CharIsWhitespace, Bool.or_eq_true, beq_iff_eq] at hw
  simp only [Base64Decoder.Codec, Base64Decoder.Symbol]
  split_ifs <;> first | rfl | omega

theorem BinDecoder_neverFinishes : NeverFinishes BinDecoder.Codec := by
  intro g bytes h
  simp only [BinDecoder.Codec, BinDecoder.DecodeGroup] at h
  split at h <;> simp at h

theorem HexDecoder_neverFinishes : NeverFinishes HexDecoder.Codec := by
  intro g bytes h
  simp only [HexDecoder.Codec, HexDecoder.DecodeGroup] at h
  split at h <;> simp at h

theorem BinDecoder_lengthAgrees : LengthAgrees BinDecoder.Codec := by
  intro g
  rcases g with _ | ⟨_, _ | ⟨_, _ | ⟨_, _ | ⟨_, _ | ⟨_, _ | ⟨_, _ | ⟨_, _ | ⟨_, _ | ⟨_, _⟩⟩⟩⟩⟩⟩⟩⟩⟩ <;>
    simp [BinDecoder.Codec, BinDecoder.DecodeGroup, BinDecoder.GroupLength]

theorem HexDecoder_lengthAgrees : LengthAgrees HexDecoder.Codec := by
  intro g
  rcases g with _ | ⟨_, _ | ⟨_, _ | ⟨_, _⟩⟩⟩ <;>
    simp [HexDecoder.Codec, HexDecoder.DecodeGroup, HexDecoder.GroupLength]

theorem Base64Decoder_lengthAgrees : LengthAgrees Base64Decoder.Codec := by
  intro g
  simp only [Base64Decoder.Codec, Base64Decoder.DecodeGroup, Base64Decoder.GroupLength]
  split
  · split_ifs <;> simp
  · rfl

theorem BinDecoder.symbol_bit (x : Nat) : BinDecoder.Symbol (48 + x % 2) = some (x % 2) := by
  rcases Nat.mod_two_eq_zero_or_one x with h | h <;> simp [BinDecoder.Symbol, h]

theorem HexDecoder.symbol_digit :
    ∀ (up : Bool) (v : Nat), v < 16 → HexDecoder.Symbol (HexEncoder.Digit up v) = some v := by
  decide

theorem Base64Decoder.symbol_char :
    ∀ v : Nat, v < 64 → Base64Decoder.Symbol (Base64Encoder.NumberToChar v) = some v := by
  decide

/-- One encoded byte in front of any text decodes to that byte. -/
theorem BinDecoder_step (tol : DECODE_TOLERANCE) (b : Nat) (hb : b < 256) (u : List Nat) :
    DecodeLoop BinDecoder.Codec tol (BinEncoder.EncodeByte b ++ u) [] =
      (DecodeLoop BinDecoder.Codec tol u []).map (fun r => [b] ++ r) := by
  have e : b / 128 % 2 * 128 + b / 64 % 2 * 64 + b / 32 % 2 * 32 + b / 16 % 2 * 16 +
      b / 8 % 2 * 8 + b / 4 % 2 * 4 + b / 2 % 2 * 2 + b % 2 = b := by omega
  simp [BinEncoder.EncodeByte, DecodeLoop, BinDecoder.Codec, BinDecoder.symbol_bit,
    BinDecoder.DecodeGroup, e]

/-- One encoded byte in front of any text decodes to that byte. -/
theorem HexDecoder_step (tol : DECODE_TOLERANCE) (up : Bool) (b : Nat) (hb : b < 256)
    (u : List Nat) :
    DecodeLoop HexDecoder.Codec tol (HexEncoder.EncodeByte up b ++ u) [] =
      (DecodeLoop HexDecoder.Codec tol u []).map (fun r => [b] ++ r) := by
  have h1 := HexDecoder.symbol_digit up (b / 16 % 16) (by omega)
  have h2 := HexDecoder.symbol_digit up (b % 16) (by omega)
  have e : b / 16 % 16 * 16 + b % 16 = b := by omega
  simp [HexEncoder.EncodeByte, DecodeLoop, HexDecoder.Codec, h1, h2,
    HexDecoder.DecodeGroup, e]

/-- A full group of three encoded bytes in front of any text decodes to them. -/
theorem Base64Decoder_step (tol : DECODE_TOLERANCE) (b0 b1 b2 : Nat)
    (h0 : b0 < 256) (h1 : b1 < 256) (h2 : b2 < 256) (u : List Nat) :
    DecodeLoop Base64Decoder.Codec tol
        ([Base64Encoder.NumberToChar (b0 / 4 % 64),
          Base64Encoder.NumberToChar (b0 % 4 * 16 + b1 / 16 % 16),
          Base64Encoder.NumberToChar (b1 % 16 * 4 + b2 / 64 % 4),
          Base64Encoder.NumberToChar (b2 % 64)] ++ u) [] =
      (DecodeLoop Base64Decoder.Codec tol u []).map (fun r => [b0, b1, b2] ++ r) := by
  have s0 := Base64Decoder.symbol_char (b0 / 4 % 64) (by omega)
  have s1 := Base64Decoder.symbol_char (b0 % 4 * 16 + b1 / 16 % 16) (by omega)
  have s2 := Base64Decoder.symbol_char (b1 % 16 * 4 + b2 / 64 % 4) (by omega)
  have s3 := Base64Decoder.symbol_char (b2 % 64) (by omega)
  have l0 : b0 / 4 % 64 < 64 := by omega
  have l1 : b0 % 4 * 16 + b1 / 16 % 16 < 64 := by omega
  have l2 : b1 % 16 * 4 + b2 / 64 % 4 < 64 := by omega
  have l3 : b2 % 64 < 64 := by omega
  have e0 : b0 / 4 % 64 * 4 + (b0 % 4 * 16 + b1 / 16 % 16) / 16 = b0 := by omega
  have e1 : (b0 % 4 * 16 + b1 / 16 % 16) % 16 * 16 + (b1 % 16 * 4 + b2 / 64 % 4) / 4 = b1 := by
    omega
  have e2 : (b1 % 16 * 4 + b2 / 64 % 4) % 4 * 64 + b2 % 64 = b2 := by omega
  simp [DecodeLoop, Base64Decoder.Codec, s0, s1, s2, s3, Base64Decoder.DecodeGroup,
    l0, l1, l2, l3, e0]
  congr 1
  funext r
  simp only [List.cons.injEq, true_and, and_true]
  constructor <;> omega

theorem Base64Decoder.symbol_pad : Base64Decoder.Symbol 61 = some 64 := by decide

/-- A trailing group of one encoded byte decodes to it and ends the decoding. -/
theorem Base64Decoder_tail1 (tol : DECODE_TOLERANCE) (b0 : Nat) (h0 : b0 < 256) (u : List Nat) :
    DecodeLoop Base64Decoder.Codec tol
        ([Base64Encoder.NumberToChar (b0 / 4 % 64),
          Base64Encoder.NumberToChar (b0 % 4 * 16), 61, 61] ++ u) [] = some [b0] := by
  have s0 := Base64Decoder.symbol_char (b0 / 4 % 64) (by omega)
  have s1 := Base64Decoder.symbol_char (b0 % 4 * 16) (by omega)
  have l0 : b0 / 4 % 64 < 64 := by omega
  have l1 : b0 % 4 * 16 < 64 := by omega
  have e0 : b0 / 4 % 64 * 4 + b0 % 4 * 16 / 16 = b0 := by omega
  simp [DecodeLoop, Base64Decoder.Codec, s0, s1, Base64Decoder.symbol_pad,
    Base64Decoder.DecodeGroup, l0, l1]
  omega

/-- A trailing group of two encoded bytes decodes to them and ends the decoding. -/
theorem Base64Decoder_tail2 (tol : DECODE_TOLERANCE) (b0 b1 : Nat)
    (h0 : b0 < 256) (h1 : b1 < 256) (u : List Nat) :
    DecodeLoop Base64Decoder.Codec tol
        ([Base64Encoder.NumberToChar (b0 / 4 % 64),
          Base64Encoder.NumberToChar (b0 % 4 * 16 + b1 / 16 % 16),
          Base64Encoder.NumberToChar (b1 % 16 * 4), 61] ++ u) [] = some [b0, b1] := by
  have s0 := Base64Decoder.symbol_char (b0 / 4 % 64) (by omega)
  have s1 := Base64Decoder.symbol_char (b0 % 4 * 16 + b1 / 16 % 16) (by omega)
  have s2 := Base64Decoder.symbol_char (b1 % 16 * 4) (by omega)
  have l0 : b0 / 4 % 64 < 64 := by omega
  have l1 : b0 % 4 * 16 + b1 / 16 % 16 < 64 := by omega
  have l2 : b1 % 16 * 4 < 64 := by omega
  have e0 : b0 / 4 % 64 * 4 + (b0 % 4 * 16 + b1 / 16 % 16) / 16 = b0 := by omega
  have e1 : (b0 % 4 * 16 + b1 / 16 % 16) % 16 * 16 + b1 % 16 * 4 / 4 = b1 := by omega
  simp [DecodeLoop, Base64Decoder.Codec, s0, s1, s2, Base64Decoder.symbol_pad,
    Base64Decoder.DecodeGroup, l0, l1, l2, e0]
  omega

/-- Decoding an encoded buffer followed by any text: the buffer, then the rest. -/
theorem BinDecoder_decode_append (tol : DECODE_TOLERANCE) (B : List Nat) (hB : IsBytes B)
    (u : List Nat) :
    DecodeLoop BinDecoder.Codec tol (BinEncoder.Encode B ++ u) [] =
      (DecodeLoop BinDecoder.Codec tol u []).map (fun r => B ++ r) := by
  induction B with
  | nil => simp [BinEncoder.Encode]
  | cons b bs ih =>
    have hb : b < 256 := hB b (List.mem_cons_self _ _)
    have hbs : IsBytes bs := fun x hx => hB x (List.mem_cons_of_mem _ hx)
    rw [BinEncoder.Encode, List.append_assoc, BinDecoder_step tol b hb, ih hbs]
    cases DecodeLoop BinDecoder.Codec tol u [] <;> simp

/-- Decoding an encoded buffer followed by any text: the buffer, then the rest. -/
theorem HexDecoder_decode_append (tol : DECODE_TOLERANCE) (up : Bool) (B : List Nat)
    (hB : IsBytes B) (u : List Nat) :
    DecodeLoop HexDecoder.Codec tol (HexEncoder.Encode up B ++ u) [] =
      (DecodeLoop HexDecoder.Codec tol u []).map (fun r => B ++ r) := by
  induction B with
  | nil => simp [HexEncoder.Encode]
  | cons b bs ih =>
    have hb : b < 256 := hB b (List.mem_cons_self _ _)
    have hbs : IsBytes bs := fun x hx => hB x (List.mem_cons_of_mem _ hx)
    rw [HexEncoder.Encode, List.append_assoc, HexDecoder_step tol up b hb, ih hbs]
    cases DecodeLoop HexDecoder.Codec tol u [] <;> simp

/-- Decoding an encoded buffer followed by any text: without padding the buffer,
then the rest; with padding the buffer alone. -/
theorem Base64Decoder_decode_append (tol : DECODE_TOLERANCE) (B : List Nat) (hB : IsBytes B)
    (u : List Nat) :
    DecodeLoop Base64Decoder.Codec tol (Base64Encoder.Encode B ++ u) [] =
      if B.length % 3 = 0 then (DecodeLoop Base64Decoder.Codec tol u []).map (fun r => B ++ r)
      else some B := by
  induction B using Base64Encoder.Encode.induct with
  | case1 => simp [Base64Encoder.Encode]
  | case2 b0 =>
    rw [Base64Encoder.Encode, Base64Decoder_tail1 tol b0 (hB b0 (by simp))]
    simp
  | case3 b0 b1 =>
    rw [Base64Encoder.Encode, Base64Decoder_tail2 tol b0 b1 (hB b0 (by simp)) (hB b1 (by simp))]
    simp
  | case4 b0 b1 b2 bs ih =>
    have hbs : IsBytes bs := fun x hx => hB x (by simp [hx])
    rw [Base64Encoder.Encode, List.append_assoc,
      Base64Decoder_step tol b0 b1 b2 (hB b0 (by simp)) (hB b1 (by simp)) (hB b2 (by simp)),
      ih hbs]
    have hl : (b0 :: b1 :: b2 :: bs).length % 3 = bs.length % 3 := by
      simp only [List.length_cons]; omega
    rw [hl]
    split
    · cases DecodeLoop Base64Decoder.Codec tol u [] <;> simp
    · simp

/-! ## C2: the Base64 encoder -/

theorem Base64Encoder.length_Encode (B : List Nat) :
    (Base64Encoder.Encode B).length = Base64Encoder.EncodeLength B.length := by
  induction B using Base64Encoder.Encode.induct with
  | case1 => rfl
  | case2 b0 => simp [Base64Encoder.Encode, Base64Encoder.EncodeLength]
  | case3 b0 b1 => simp [Base64Encoder.Encode, Base64Encoder.EncodeLength]
  | case4 b0 b1 b2 bs ih =>
    simp only [Base64Encoder.Encode, List.length_append, List.length_cons, List.length_nil, ih,
      Base64Encoder.EncodeLength]
    omega

theorem Base64Encoder.EncodeLength_ceil (n : Nat) :
    Base64Encoder.EncodeLength n = 4 * ⌈(n : ℚ) / 3⌉₊ := by
  have h : ⌈(n : ℚ) / 3⌉₊ = (n + 2) / 3 := by
    apply le_antisymm
    · rw [Nat.ceil_le, div_le_iff₀ (by norm_num)]
      have h1 : n ≤ (n + 2) / 3 * 3 := by omega
      exact_mod_cast h1
    · by_contra hlt
      have h1 := Nat.le_ceil ((n : ℚ) / 3)
      rw [div_le_iff₀ (by norm_num)] at h1
      have h2 : n ≤ ⌈(n : ℚ) / 3⌉₊ * 3 := by exact_mod_cast h1
      omega
  rw [h, Base64Encoder.EncodeLength]
  omega

theorem Base64Encoder.isBase64Char_NumberToChar (v : Nat) :
    IsBase64Char (Base64Encoder.NumberToChar v) = true := by
  simp only [IsBase64Char, Base64Encoder.NumberToChar, Bool.or_eq_true, Bool.and_eq_true,
    decide_eq_true_eq, beq_iff_eq]
  split_ifs <;> omega

theorem Base64Encoder.Encode_shape (B : List Nat) :
    ∃ body, Base64Encoder.Encode B = body ++ List.replicate (Base64PadCount B.length) 61 ∧
      ∀ c ∈ body, IsBase64Char c = true := by
  induction B using Base64Encoder.Encode.induct with
  | case1 => exact ⟨[], rfl, by simp⟩
  | case2 b0 =>
    exact ⟨[Base64Encoder.NumberToChar (b0 / 4 % 64), Base64Encoder.NumberToChar (b0 % 4 * 16)],
      rfl, by simp [Base64Encoder.isBase64Char_NumberToChar]⟩
  | case3 b0 b1 =>
    exact ⟨[Base64Encoder.NumberToChar (b0 / 4 % 64),
      Base64Encoder.NumberToChar (b0 % 4 * 16 + b1 / 16 % 16),
      Base64Encoder.NumberToChar (b1 % 16 * 4)],
      rfl, by simp [Base64Encoder.isBase64Char_NumberToChar]⟩
  | case4 b0 b1 b2 bs ih =>
    obtain ⟨body, hb, hc⟩ := ih
    refine ⟨[Base64Encoder.NumberToChar (b0 / 4 % 64),
      Base64Encoder.NumberToChar (b0 % 4 * 16 + b1 / 16 % 16),
      Base64Encoder.NumberToChar (b1 % 16 * 4 + b2 / 64 % 4),
      Base64Encoder.NumberToChar (b2 % 64)] ++ body, ?_, ?_⟩
    · have hl : Base64PadCount (b0 :: b1 :: b2 :: bs).length = Base64PadCount bs.length := by
        have : (bs.length + 1 + 1 + 1) % 3 = bs.length % 3 := by omega
        simp only [Base64PadCount, List.length_cons, this]
      rw [Base64Encoder.Encode, hb, hl, List.append_assoc]
    · intro c hcm
      simp only [List.cons_append, List.nil_append, List.mem_cons] at hcm
      rcases hcm with h | h | h | h | h
      · rw [h]; exact Base64Encoder.isBase64Char_NumberToChar _
      · rw [h]; exact Base64Encoder.isBase64Char_NumberToChar _
      · rw [h]; exact Base64Encoder.isBase64Char_NumberToChar _
      · rw [h]; exact Base64Encoder.isBase64Char_NumberToChar _
      · exact hc c h

/-! ## `CharReader`: peeking and the end of the data -/

section CharReaderFacts

variable {σ : Type} (S : Stream σ) (BUFFER_SIZE : Nat)

theorem CharReader.Available_of_ne (r : CharReader σ) (h : r.m_BufBeg ≠ r.m_BufEnd) :
    CharReader.Available S BUFFER_SIZE r = .ok (true, r) := by
  simp [CharReader.Available, h]

/-- After `Available` has reported a character, the buffer is not exhausted. -/
theorem CharReader.Available_true (r r1 : CharReader σ)
    (h : CharReader.Available S BUFFER_SIZE r = .ok (true, r1)) :
    r1.m_BufBeg ≠ r1.m_BufEnd ∧ (r.m_BufBeg ≠ r.m_BufEnd → r1 = r) ∧
      (r.m_BufBeg = r.m_BufEnd → ∃ data s, S.Read r.m_Stream BUFFER_SIZE = .ok (data, s) ∧
        data ≠ [] ∧
        r1 = { m_Stream := s, m_Buf := data ++ r.m_Buf.drop data.length,
               m_BufBeg := 0, m_BufEnd := data.length }) := by
  unfold CharReader.Available at h
  split at h
  · rename_i heq
    unfold CharReader.EnsureNewChars at h
    cases hr : S.Read r.m_Stream BUFFER_SIZE with
    | error c => simp [hr, liftStream] at h
    | ok p =>
      obtain ⟨data, s⟩ := p
      simp only [hr, liftStream, Except.ok.injEq, Prod.mk.injEq, decide_eq_true_eq] at h
      obtain ⟨hpos, h1⟩ := h
      subst h1
      refine ⟨?_, fun hne => absurd heq hne, fun _ => ⟨data, s, rfl, ?_, rfl⟩⟩
      · simp only; omega
      · intro hd; simp [hd] at hpos
  · rename_i hne
    simp only [Except.ok.injEq, Prod.mk.injEq, true_and] at h
    subst h
    exact ⟨hne, fun _ => rfl, fun heq => absurd heq hne⟩

/-- The test `Available` reports "no character" exactly in the exhausted situation, and
then leaves an empty buffer window behind. -/
theorem CharReader.Available_false (r : CharReader σ) :
    (∃ r1, CharReader.Available S BUFFER_SIZE r = .ok (false, r1)) ↔
      CharReader.Exhausted S BUFFER_SIZE r = true := by
  unfold CharReader.Available CharReader.EnsureNewChars CharReader.Exhausted
  by_cases heq : r.m_BufBeg = r.m_BufEnd
  · cases hr : S.Read r.m_Stream BUFFER_SIZE with
    | error c => simp [heq, liftStream]
    | ok p =>
      obtain ⟨data, s⟩ := p
      cases data with
      | nil => simp [heq, liftStream]
      | cons d ds => simp [heq, liftStream]
  · simp [heq]

theorem CharReader.Available_false_state (r r1 : CharReader σ)
    (h : CharReader.Available S BUFFER_SIZE r = .ok (false, r1)) :
    r.m_BufBeg = r.m_BufEnd ∧ ∃ s, S.Read r.m_Stream BUFFER_SIZE = .ok ([], s) ∧
      r1 = { m_Stream := s, m_Buf := r.m_Buf, m_BufBeg := 0, m_BufEnd := 0 } := by
  unfold CharReader.Available CharReader.EnsureNewChars at h
  by_cases heq : r.m_BufBeg = r.m_BufEnd
  · cases hr : S.Read r.m_Stream BUFFER_SIZE with
    | error c => simp [heq, hr, liftStream] at h
    | ok p =>
      obtain ⟨data, s⟩ := p
      cases data with
      | nil =>
        simp only [heq, hr, liftStream, if_true, Except.ok.injEq, Prod.mk.injEq] at h
        exact ⟨heq, s, rfl, by rw [← h.2]; simp⟩
      | cons d ds => simp [heq, hr, liftStream] at h
  · simp [heq] at h

theorem CharReader.Pending_of_eq (r : CharReader σ) (h : r.m_BufBeg = r.m_BufEnd) :
    CharReader.Pending r = [] := by
  simp [CharReader.Pending, h]

end CharReaderFacts

/-- Over an in-memory stream the opening test, refilling or not, leaves the
sequence of characters yet to deliver as it was. -/
theorem CharReader.Available_memory (BUFFER_SIZE : Nat) (m m1 : CharReader (List Nat))
    (f : Bool) (h : CharReader.Available MemoryReader BUFFER_SIZE m = .ok (f, m1)) :
    CharReader.Remaining m1 = CharReader.Remaining m := by
  unfold CharReader.Available at h
  split at h
  · rename_i heq
    simp only [CharReader.EnsureNewChars, MemoryReader, liftStream, Except.ok.injEq,
      Prod.mk.injEq] at h
    rw [← h.2]
    simp [CharReader.Remaining, CharReader.Pending, heq]
  · simp only [Except.ok.injEq, Prod.mk.injEq] at h
    rw [← h.2]

theorem CharReader.PeekChar_Available {σ : Type} (S : Stream σ) (BUFFER_SIZE : Nat)
    (r r1 : CharReader σ) (Out o : Nat) (f : Bool)
    (h : CharReader.PeekChar S BUFFER_SIZE r Out = .ok (f, o, r1)) :
    CharReader.Available S BUFFER_SIZE r = .ok (f, r1) := by
  unfold CharReader.PeekChar at h
  cases ha : CharReader.Available S BUFFER_SIZE r with
  | error e => simp [ha] at h
  | ok p =>
    obtain ⟨g, r2⟩ := p
    cases g <;> simp only [ha, Except.ok.injEq, Prod.mk.injEq] at h <;>
      rw [← h.1, ← h.2.2]

theorem CharReader.ReadChar_false_Available {σ : Type} (S : Stream σ) (BUFFER_SIZE : Nat)
    (r r1 : CharReader σ) (Out o : Nat)
    (h : CharReader.ReadChar S BUFFER_SIZE r Out = .ok (false, o, r1)) :
    CharReader.Available S BUFFER_SIZE r = .ok (false, r1) := by
  unfold CharReader.ReadChar at h
  cases ha : CharReader.Available S BUFFER_SIZE r with
  | error e => simp [ha] at h
  | ok p =>
    obtain ⟨g, r2⟩ := p
    cases g <;> simp only [ha, Except.ok.injEq, Prod.mk.injEq] at h
    · rw [← h.2.2]
    · exact absurd h.1 (by decide)

theorem CharReader.SkipChar_false_Available {σ : Type} (S : Stream σ) (BUFFER_SIZE : Nat)
    (r r1 : CharReader σ)
    (h : CharReader.SkipChar S BUFFER_SIZE r = .ok (false, r1)) :
    CharReader.Available S BUFFER_SIZE r = .ok (false, r1) := by
  unfold CharReader.SkipChar at h
  cases ha : CharReader.Available S BUFFER_SIZE r with
  | error e => simp [ha] at h
  | ok p =>
    obtain ⟨g, r2⟩ := p
    cases g <;> simp only [ha, Except.ok.injEq, Prod.mk.injEq] at h
    · rw [← h.2]
    · exact absurd h.1 (by decide)

section CharReaderClaims

variable {σ : Type} (S : Stream σ) (BUFFER_SIZE : Nat)

theorem CharReader.PeekChar_true (r r1 : CharReader σ) (Out b : Nat)
    (h : CharReader.PeekChar S BUFFER_SIZE r Out = .ok (true, b, r1)) :
    CharReader.Available S BUFFER_SIZE r = .ok (true, r1) ∧ r1.m_Buf.getD r1.m_BufBeg 0 = b := by
  unfold CharReader.PeekChar at h
  cases ha : CharReader.Available S BUFFER_SIZE r with
  | error e => simp [ha] at h
  | ok p =>
    obtain ⟨f, r2⟩ := p
    cases f with
    | false => simp [ha] at h
    | true =>
      simp only [ha, Except.ok.injEq, Prod.mk.injEq, true_and] at h
      obtain ⟨hb, hr⟩ := h
      subst hr
      exact ⟨rfl, hb⟩

/-- C9: when `PeekChar` returns true with byte `b`, the read cursor is not
advanced. If the buffer held unread characters the reader is unchanged; if the
call had to refill the exhausted buffer (for instance at a stream offset that is
a multiple of `BUFFER_SIZE`), `b` is the first byte the stream delivered and the
cursor stands on it (`m_BufBeg = 0`). In both cases, in the reader `r1` left
behind, `b` is the character under the cursor, a second `PeekChar` returns `b`
again and changes nothing, an immediately following `ReadChar` (or
`MustReadChar`) returns `b`, and an immediately following `SkipChar` skips
exactly the position holding `b`. Over an in-memory stream, where the
characters still to come can be named, a successful `PeekChar` leaves that
sequence as it was. -/
theorem CharReader.PeekChar_stable (r r1 : CharReader σ) (Out b : Nat)
    (h : CharReader.PeekChar S BUFFER_SIZE r Out = .ok (true, b, r1)) :
    (r.m_BufBeg ≠ r.m_BufEnd → r1 = r) ∧
    (r.m_BufBeg = r.m_BufEnd → ∃ rest s,
        S.Read r.m_Stream BUFFER_SIZE = .ok (b :: rest, s) ∧ r1.m_Stream = s ∧
        r1.m_BufBeg = 0 ∧ r1.m_BufEnd = rest.length + 1) ∧
    r1.m_Buf.getD r1.m_BufBeg 0 = b ∧
    (∀ Out2, CharReader.PeekChar S BUFFER_SIZE r1 Out2 = .ok (true, b, r1)) ∧
    (∀ Out2, CharReader.ReadChar S BUFFER_SIZE r1 Out2 =
        .ok (true, b, { r1 with m_BufBeg := r1.m_BufBeg + 1 })) ∧
    CharReader.SkipChar S BUFFER_SIZE r1 = .ok (true, { r1 with m_BufBeg := r1.m_BufBeg + 1 }) ∧
    CharReader.MustPeekChar S BUFFER_SIZE r1 = .ok (b, r1) ∧
    CharReader.MustReadChar S BUFFER_SIZE r1 =
        .ok (b, { r1 with m_BufBeg := r1.m_BufBeg + 1 }) ∧
    (∀ (m m1 : CharReader (List Nat)) (o c : Nat),
      CharReader.PeekChar MemoryReader BUFFER_SIZE m o = .ok (true, c, m1) →
      CharReader.Remaining m1 = CharReader.Remaining m) := by
  obtain ⟨ha, hb⟩ := CharReader.PeekChar_true S BUFFER_SIZE r r1 Out b h
  obtain ⟨hne, hsame, hrefill⟩ := CharReader.Available_true S BUFFER_SIZE r r1 ha
  have ha1 := CharReader.Available_of_ne S BUFFER_SIZE r1 hne
  refine ⟨hsame, ?_, hb, ?_, ?_, ?_, ?_, ?_, fun m m1 o c hm =>
    CharReader.Available_memory BUFFER_SIZE m m1 true
      (CharReader.PeekChar_Available MemoryReader BUFFER_SIZE m m1 o c true hm)⟩
  · intro heq
    obtain ⟨data, s, hr, hd, hr1⟩ := hrefill heq
    cases data with
    | nil => exact absurd rfl hd
    | cons d rest =>
      subst hr1
      simp only [List.cons_append, List.getD_cons_zero] at hb
      subst hb
      exact ⟨rest, s, hr, rfl, rfl, rfl⟩
  · intro Out2; simp only [CharReader.PeekChar, ha1, hb]
  · intro Out2; simp only [CharReader.ReadChar, ha1, hb]
  · simp only [CharReader.SkipChar, ha1]
  · simp only [CharReader.MustPeekChar, ha1, hb]
  · simp only [CharReader.MustReadChar, ha1, hb]

/-- C9, at a concrete input: a reader over an in-memory stream with
`BUFFER_SIZE = 2` whose buffer is exhausted at stream offset 2; `PeekChar`
refills and returns the byte 99. -/
theorem CharReader.PeekChar_stable_witness :
    CharReader.PeekChar MemoryReader 2
        { m_Stream := [99, 100, 101], m_Buf := [97, 98], m_BufBeg := 2, m_BufEnd := 2 } 0 =
      .ok (true, 99, { m_Stream := [101], m_Buf := [99, 100], m_BufBeg := 0, m_BufEnd := 2 }) ∧
    CharReader.ReadChar MemoryReader 2
        { m_Stream := [101], m_Buf := [99, 100], m_BufBeg := 0, m_BufEnd := 2 } 0 =
      .ok (true, 99, { m_Stream := [101], m_Buf := [99, 100], m_BufBeg := 1, m_BufEnd := 2 }) :=
  ⟨rfl,
   (CharReader.PeekChar_stable MemoryReader 2
      { m_Stream := [99, 100, 101], m_Buf := [97, 98], m_BufBeg := 2, m_BufEnd := 2 }
      { m_Stream := [101], m_Buf := [99, 100], m_BufBeg := 0, m_BufEnd := 2 } 0 99 rfl).2.2.2.2.1 0⟩

end CharReaderClaims

section CharReaderEnd

variable {σ : Type} (S : Stream σ) (BUFFER_SIZE : Nat)

/-- C10: `ReadChar`, `PeekChar` and `SkipChar` return false exactly when the
buffer is exhausted (`m_BufBeg == m_BufEnd`) and the one refill attempt obtains
no byte (`Exhausted`); they then raise nothing, leave `*Out` as it was and
consume nothing (the window of unread characters is empty before and after, the
buffer content is untouched). `MustReadChar`, `MustPeekChar` and `MustSkipChar`
raise the premature-end error exactly in that situation, and otherwise do what
the non-throwing variants do: the same character and reader on success, the
same propagated stream error on failure. Over an in-memory stream, where the
characters still to come can be named, a false return leaves that sequence as
it was. -/
theorem CharReader.false_iff_Exhausted (r : CharReader σ) (Out : Nat) :
    (((∃ o r1, CharReader.ReadChar S BUFFER_SIZE r Out = .ok (false, o, r1)) ↔
        CharReader.Exhausted S BUFFER_SIZE r = true) ∧
    ((∃ o r1, CharReader.PeekChar S BUFFER_SIZE r Out = .ok (false, o, r1)) ↔
        CharReader.Exhausted S BUFFER_SIZE r = true) ∧
    ((∃ r1, CharReader.SkipChar S BUFFER_SIZE r = .ok (false, r1)) ↔
        CharReader.Exhausted S BUFFER_SIZE r = true) ∧
    (∀ o r1, (CharReader.ReadChar S BUFFER_SIZE r Out = .ok (false, o, r1) ∨
          CharReader.PeekChar S BUFFER_SIZE r Out = .ok (false, o, r1) ∨
          (CharReader.SkipChar S BUFFER_SIZE r = .ok (false, r1) ∧ o = Out)) →
        o = Out ∧ CharReader.Pending r = [] ∧ CharReader.Pending r1 = [] ∧
          r1.m_Buf = r.m_Buf) ∧
    (CharReader.MustReadChar S BUFFER_SIZE r = .error Error.BufEnd ↔
        CharReader.Exhausted S BUFFER_SIZE r = true) ∧
    (CharReader.MustPeekChar S BUFFER_SIZE r = .error Error.BufEnd ↔
        CharReader.Exhausted S BUFFER_SIZE r = true) ∧
    (CharReader.MustSkipChar S BUFFER_SIZE r = .error Error.BufEnd ↔
        CharReader.Exhausted S BUFFER_SIZE r = true) ∧
    (∀ b r1, CharReader.MustReadChar S BUFFER_SIZE r = .ok (b, r1) ↔
        CharReader.ReadChar S BUFFER_SIZE r Out = .ok (true, b, r1)) ∧
    (∀ b r1, CharReader.MustPeekChar S BUFFER_SIZE r = .ok (b, r1) ↔
        CharReader.PeekChar S BUFFER_SIZE r Out = .ok (true, b, r1)) ∧
    (∀ r1, CharReader.MustSkipChar S BUFFER_SIZE r = .ok r1 ↔
        CharReader.SkipChar S BUFFER_SIZE r = .ok (true, r1)) ∧
    (∀ e, CharReader.ReadChar S BUFFER_SIZE r Out = .error e →
        CharReader.MustReadChar S BUFFER_SIZE r = .error e) ∧
    (∀ e, CharReader.PeekChar S BUFFER_SIZE r Out = .error e →
        CharReader.MustPeekChar S BUFFER_SIZE r = .error e) ∧
    (∀ e, CharReader.SkipChar S BUFFER_SIZE r = .error e →
        CharReader.MustSkipChar S BUFFER_SIZE r = .error e)) ∧
    (∀ (m m1 : CharReader (List Nat)) (o : Nat),
      (CharReader.ReadChar MemoryReader BUFFER_SIZE m Out = .ok (false, o, m1) ∨
        CharReader.PeekChar MemoryReader BUFFER_SIZE m Out = .ok (false, o, m1) ∨
        CharReader.SkipChar MemoryReader BUFFER_SIZE m = .ok (false, m1)) →
      CharReader.Remaining m1 = CharReader.Remaining m) := by
  have hmem : ∀ (m m1 : CharReader (List Nat)) (o : Nat),
      (CharReader.ReadChar MemoryReader BUFFER_SIZE m Out = .ok (false, o, m1) ∨
        CharReader.PeekChar MemoryReader BUFFER_SIZE m Out = .ok (false, o, m1) ∨
        CharReader.SkipChar MemoryReader BUFFER_SIZE m = .ok (false, m1)) →
      CharReader.Remaining m1 = CharReader.Remaining m := by
    intro m m1 o hm
    apply CharReader.Available_memory BUFFER_SIZE m m1 false
    rcases hm with hm | hm | hm
    · exact CharReader.ReadChar_false_Available MemoryReader BUFFER_SIZE m m1 Out o hm
    · exact CharReader.PeekChar_Available MemoryReader BUFFER_SIZE m m1 Out o false hm
    · exact CharReader.SkipChar_false_Available MemoryReader BUFFER_SIZE m m1 hm
  refine ⟨?_, hmem⟩
  have hiff := CharReader.Available_false S BUFFER_SIZE r
  cases ha : CharReader.Available S BUFFER_SIZE r with
  | error e =>
    have hE : ¬ CharReader.Exhausted S BUFFER_SIZE r = true := by
      intro hE
      obtain ⟨r2, h2⟩ := hiff.mpr hE
      rw [ha] at h2
      cases h2
    have hne : e ≠ Error.BufEnd := by
      intro he
      subst he
      unfold CharReader.Available CharReader.EnsureNewChars at ha
      split at ha
      · cases hr : S.Read r.m_Stream BUFFER_SIZE with
        | error c => simp [hr, liftStream] at ha
        | ok p => simp [hr, liftStream] at ha
      · cases ha
    simp only [CharReader.ReadChar, CharReader.PeekChar, CharReader.SkipChar,
      CharReader.MustReadChar, CharReader.MustPeekChar, CharReader.MustSkipChar, ha, hE]
    simp [hne]
  | ok p =>
    obtain ⟨f, r2⟩ := p
    cases f with
    | false =>
      have hE : CharReader.Exhausted S BUFFER_SIZE r = true := hiff.mp ⟨r2, ha⟩
      obtain ⟨heq, s, _, hr2⟩ := CharReader.Available_false_state S BUFFER_SIZE r r2 ha
      have hp := CharReader.Pending_of_eq r heq
      have hp2 : CharReader.Pending r2 = [] := by rw [hr2]; rfl
      have hb2 : r2.m_Buf = r.m_Buf := by rw [hr2]
      simp only [CharReader.ReadChar, CharReader.PeekChar, CharReader.SkipChar,
        CharReader.MustReadChar, CharReader.MustPeekChar, CharReader.MustSkipChar, ha, hE]
      simp only [Except.ok.injEq, Prod.mk.injEq, true_and, reduceCtorEq, false_and,
        exists_eq_left', exists_eq', exists_eq, implies_true, and_true, iff_self, and_self,
        false_implies, Bool.false_eq_true, exists_eq_left]
      refine ⟨⟨fun _ => trivial, fun _ => ⟨Out, r2, rfl, rfl⟩⟩,
        ⟨fun _ => trivial, fun _ => ⟨Out, r2, rfl, rfl⟩⟩, ?_⟩
      intro o r1 h
      rcases h with ⟨h1, h2⟩ | ⟨h1, h2⟩ | ⟨h1, h2⟩
      · subst h2; exact ⟨h1.symm, hp, hp2, hb2⟩
      · subst h2; exact ⟨h1.symm, hp, hp2, hb2⟩
      · subst h1; exact ⟨h2, hp, hp2, hb2⟩
    | true =>
      have hE : ¬ CharReader.Exhausted S BUFFER_SIZE r = true := by
        intro hE
        obtain ⟨r3, h3⟩ := hiff.mpr hE
        rw [ha] at h3
        cases h3
      simp only [CharReader.ReadChar, CharReader.PeekChar, CharReader.SkipChar,
        CharReader.MustReadChar, CharReader.MustPeekChar, CharReader.MustSkipChar, ha, hE]
      simp

/-- C10 at a concrete input: a reader over an in-memory stream whose buffer
and stream are both exhausted; `ReadChar` returns false. -/
theorem CharReader.false_iff_Exhausted_witness :
    CharReader.Exhausted MemoryReader 2
        { m_Stream := [], m_Buf := [97, 98], m_BufBeg := 2, m_BufEnd := 2 } = true ∧
      ∃ o r1, CharReader.ReadChar MemoryReader 2
        { m_Stream := [], m_Buf := [97, 98], m_BufBeg := 2, m_BufEnd := 2 } 7 =
          .ok (false, o, r1) :=
  ⟨rfl, (CharReader.false_iff_Exhausted MemoryReader 2
    { m_Stream := [], m_Buf := [97, 98], m_BufBeg := 2, m_BufEnd := 2 } 7).1.1.mpr rfl⟩

end CharReaderEnd

/-! ## `CharWriter` and `CharReader` over in-memory streams -/

theorem take_set_succ (l : List Nat) (i c : Nat) (h : i < l.length) :
    (l.set i c).take (i + 1) = l.take i ++ [c] := by
  induction l generalizing i with
  | nil => simp at h
  | cons a l ih =>
    cases i with
    | zero => simp
    | succ i =>
      simp only [List.length_cons] at h
      simp [ih i (by omega)]

theorem drop_take_succ (l : List Nat) (i n : Nat) (h : i < l.length) :
    (l.drop i).take (n + 1) = l.getD i 0 :: (l.drop (i + 1)).take n := by
  induction l generalizing i with
  | nil => simp at h
  | cons a l ih =>
    cases i with
    | zero => simp
    | succ i =>
      simp only [List.length_cons] at h
      simpa using ih i (by omega)

theorem CharWriter_WellFormed_new (BUFFER_SIZE : Nat) (h : 0 < BUFFER_SIZE) (s : List Nat) :
    CharWriter.WellFormed BUFFER_SIZE (CharWriter.new BUFFER_SIZE s) ∧
      CharWriter.Written (CharWriter.new BUFFER_SIZE s) = s := by
  simp [CharWriter.WellFormed, CharWriter.new, CharWriter.Written, h]

/-- On an in-memory stream `WriteChar` succeeds and appends the character to the
text written. -/
theorem CharWriter.WriteChar_memory (BUFFER_SIZE : Nat) (w : CharWriter (List Nat)) (c : Nat)
    (hw : CharWriter.WellFormed BUFFER_SIZE w) :
    ∃ w1, CharWriter.WriteChar MemoryWriter BUFFER_SIZE w c = .ok w1 ∧
      CharWriter.WellFormed BUFFER_SIZE w1 ∧
      CharWriter.Written w1 = CharWriter.Written w ++ [c] := by
  obtain ⟨hpos, hlen, hidx⟩ := hw
  by_cases hfull : w.m_BufIndex = BUFFER_SIZE
  · refine ⟨{ m_Stream := w.m_Stream ++ w.m_Buf.take w.m_BufIndex, m_Buf := w.m_Buf.set 0 c,
               m_BufIndex := 0 + 1 }, ?_, ?_, ?_⟩
    · simp only [CharWriter.WriteChar, hfull, if_true, CharWriter.DoFlush,
        MemoryWriter, liftStream]
    · simp only [CharWriter.WellFormed, List.length_set]
      exact ⟨hpos, hlen, by omega⟩
    · have h0 : 0 < w.m_Buf.length := by omega
      have := take_set_succ w.m_Buf 0 c h0
      simp only [Nat.zero_add, List.take_zero, List.nil_append] at this
      simp only [CharWriter.Written, Nat.zero_add, this, hfull]
  · refine ⟨{ w with m_Buf := w.m_Buf.set w.m_BufIndex c, m_BufIndex := w.m_BufIndex + 1 },
      ?_, ?_, ?_⟩
    · simp only [CharWriter.WriteChar, hfull, if_false]
    · simp only [CharWriter.WellFormed, List.length_set]
      exact ⟨hpos, hlen, by omega⟩
    · have h0 : w.m_BufIndex < w.m_Buf.length := by omega
      simp only [CharWriter.Written, take_set_succ w.m_Buf _ c h0, List.append_assoc]

theorem CharWriter.WriteChars_memory (BUFFER_SIZE : Nat) (cs : List Nat) :
    ∀ (w : CharWriter (List Nat)), CharWriter.WellFormed BUFFER_SIZE w →
      ∃ w1, CharWriter.WriteChars MemoryWriter BUFFER_SIZE w cs = .ok w1 ∧
        CharWriter.WellFormed BUFFER_SIZE w1 ∧
        CharWriter.Written w1 = CharWriter.Written w ++ cs := by
  induction cs with
  | nil => intro w hw; exact ⟨w, rfl, hw, by simp⟩
  | cons c cs ih =>
    intro w hw
    obtain ⟨w1, h1, hw1, hW1⟩ := CharWriter.WriteChar_memory BUFFER_SIZE w c hw
    obtain ⟨w2, h2, hw2, hW2⟩ := ih w1 hw1
    refine ⟨w2, ?_, hw2, ?_⟩
    · simp only [CharWriter.WriteChars, h1, h2]
    · rw [hW2, hW1, List.append_assoc]; rfl

/-- On an in-memory stream `Flush` succeeds; afterwards the stream holds the
whole text written and the buffer is empty. -/
theorem CharWriter.Flush_memory (BUFFER_SIZE : Nat) (w : CharWriter (List Nat))
    (hw : CharWriter.WellFormed BUFFER_SIZE w) :
    ∃ w1, CharWriter.Flush MemoryWriter w = .ok w1 ∧
      CharWriter.WellFormed BUFFER_SIZE w1 ∧
      w1.m_Stream = CharWriter.Written w ∧ CharWriter.Written w1 = CharWriter.Written w := by
  by_cases h0 : w.m_BufIndex > 0
  · refine ⟨{ w with m_Stream := w.m_Stream ++ w.m_Buf.take w.m_BufIndex, m_BufIndex := 0 },
      ?_, ?_, rfl, ?_⟩
    · simp only [CharWriter.Flush, h0, if_true, CharWriter.DoFlush, MemoryWriter, liftStream]
    · exact ⟨hw.1, hw.2.1, Nat.zero_le _⟩
    · simp [CharWriter.Written]
  · have h00 : w.m_BufIndex = 0 := by omega
    refine ⟨w, by simp only [CharWriter.Flush, h0, if_false], hw, ?_, rfl⟩
    simp [CharWriter.Written, h00]

theorem CharReader_WellFormed_new (BUFFER_SIZE : Nat) (s : List Nat) :
    CharReader.WellFormed (CharReader.new BUFFER_SIZE s) ∧
      CharReader.Remaining (CharReader.new BUFFER_SIZE s) = s := by
  simp [CharReader.WellFormed, CharReader.new, CharReader.Remaining, CharReader.Pending]

/-- On an in-memory stream `ReadChar` delivers the next character of the text
that remains, and reports the end when nothing remains. -/
theorem CharReader.ReadChar_memory (BUFFER_SIZE : Nat) (hpos : 0 < BUFFER_SIZE)
    (r : CharReader (List Nat)) (Out : Nat) (hr : CharReader.WellFormed r) :
    (∀ c L, CharReader.Remaining r = c :: L →
      ∃ r1, CharReader.ReadChar MemoryReader BUFFER_SIZE r Out = .ok (true, c, r1) ∧
        CharReader.WellFormed r1 ∧ CharReader.Remaining r1 = L) ∧
    (CharReader.Remaining r = [] →
      ∃ r1, CharReader.ReadChar MemoryReader BUFFER_SIZE r Out = .ok (false, Out, r1) ∧
        CharReader.WellFormed r1 ∧ CharReader.Remaining r1 = []) := by
  have key : ∀ (q : CharReader (List Nat)), CharReader.WellFormed q →
      q.m_BufBeg ≠ q.m_BufEnd → ∀ c L, CharReader.Remaining q = c :: L →
      q.m_Buf.getD q.m_BufBeg 0 = c ∧
        CharReader.WellFormed { q with m_BufBeg := q.m_BufBeg + 1 } ∧
        CharReader.Remaining { q with m_BufBeg := q.m_BufBeg + 1 } = L := by
    intro q hq hne c L hrem
    obtain ⟨h1, h2⟩ := hq
    have hlt : q.m_BufBeg < q.m_Buf.length := by omega
    have hsub : q.m_BufEnd - q.m_BufBeg = (q.m_BufEnd - (q.m_BufBeg + 1)) + 1 := by omega
    simp only [CharReader.Remaining, CharReader.Pending] at hrem ⊢
    rw [hsub, drop_take_succ _ _ _ hlt, List.cons_append, List.cons.injEq] at hrem
    exact ⟨hrem.1, ⟨by simp only; omega, h2⟩, hrem.2⟩
  by_cases heq : r.m_BufBeg = r.m_BufEnd
  · have hrem : CharReader.Remaining r = r.m_Stream := by
      simp [CharReader.Remaining, CharReader.Pending, heq]
    constructor
    · intro c L hcl
      rw [hrem] at hcl
      have hd : (r.m_Stream.take BUFFER_SIZE).length > 0 := by
        rw [hcl, List.length_take, List.length_cons]; omega
      let q : CharReader (List Nat) :=
        { m_Stream := r.m_Stream.drop BUFFER_SIZE,
          m_Buf := r.m_Stream.take BUFFER_SIZE ++ r.m_Buf.drop (r.m_Stream.take BUFFER_SIZE).length,
          m_BufBeg := 0, m_BufEnd := (r.m_Stream.take BUFFER_SIZE).length }
      have hq : CharReader.WellFormed q := by
        simp only [CharReader.WellFormed, q, List.length_append]
        omega
      have hqrem : CharReader.Remaining q = c :: L := by
        simp only [CharReader.Remaining, CharReader.Pending, q, List.drop_zero, Nat.sub_zero,
          List.take_left', List.take_append_drop]
        exact hcl
      have hqne : q.m_BufBeg ≠ q.m_BufEnd := by simp only [q]; omega
      obtain ⟨k1, k2, k3⟩ := key q hq hqne c L hqrem
      refine ⟨{ q with m_BufBeg := q.m_BufBeg + 1 }, ?_, k2, k3⟩
      simp only [CharReader.ReadChar, CharReader.Available, heq, if_true,
        CharReader.EnsureNewChars, MemoryReader, liftStream, hd, decide_True]
      rw [← k1]
    · intro hnil
      rw [hrem] at hnil
      refine ⟨{ m_Stream := [], m_Buf := r.m_Buf, m_BufBeg := 0, m_BufEnd := 0 }, ?_, ?_, ?_⟩
      · simp [CharReader.ReadChar, CharReader.Available, heq, CharReader.EnsureNewChars,
          MemoryReader, liftStream, hnil]
      · simp [CharReader.WellFormed]
      · simp [CharReader.Remaining, CharReader.Pending]
  · constructor
    · intro c L hcl
      obtain ⟨k1, k2, k3⟩ := key r hr heq c L hcl
      refine ⟨{ r with m_BufBeg := r.m_BufBeg + 1 }, ?_, k2, k3⟩
      simp only [CharReader.ReadChar, CharReader.Available, heq, if_false]
      rw [← k1]
    · intro hnil
      exfalso
      obtain ⟨h1, h2⟩ := hr
      have hlt : r.m_BufBeg < r.m_Buf.length := by omega
      have hsub : r.m_BufEnd - r.m_BufBeg = (r.m_BufEnd - (r.m_BufBeg + 1)) + 1 := by omega
      simp only [CharReader.Remaining, CharReader.Pending] at hnil
      rw [hsub, drop_take_succ _ _ _ hlt] at hnil
      simp at hnil

/-! ## Streaming encoders over an in-memory stream -/

theorem BinEncoder_Encode_append (a b : List Nat) :
    BinEncoder.Encode (a ++ b) = BinEncoder.Encode a ++ BinEncoder.Encode b := by
  induction a with
  | nil => rfl
  | cons x a ih => rw [List.cons_append, BinEncoder.Encode, BinEncoder.Encode, ih, List.append_assoc]

theorem HexEncoder_Encode_append (up : Bool) (a b : List Nat) :
    HexEncoder.Encode up (a ++ b) = HexEncoder.Encode up a ++ HexEncoder.Encode up b := by
  induction a with
  | nil => rfl
  | cons x a ih => rw [List.cons_append, HexEncoder.Encode, HexEncoder.Encode, ih, List.append_assoc]

theorem BinEncoder_Write_memory (BUFFER_SIZE : Nat) (B : List Nat) :
    ∀ (e : BinEncoder (List Nat)), CharWriter.WellFormed BUFFER_SIZE e.m_CharWriter →
      ∃ e1, BinEncoder.Write MemoryWriter BUFFER_SIZE e B = .ok e1 ∧
        CharWriter.WellFormed BUFFER_SIZE e1.m_CharWriter ∧
        CharWriter.Written e1.m_CharWriter =
          CharWriter.Written e.m_CharWriter ++ BinEncoder.Encode B := by
  induction B with
  | nil => intro e he; exact ⟨e, rfl, he, by simp [BinEncoder.Encode]⟩
  | cons b bs ih =>
    intro e he
    obtain ⟨w, h1, hw, hW⟩ :=
      CharWriter.WriteChars_memory BUFFER_SIZE (BinEncoder.EncodeByte b) e.m_CharWriter he
    obtain ⟨e2, h2, hw2, hW2⟩ := ih { e with m_CharWriter := w } hw
    refine ⟨e2, ?_, hw2, ?_⟩
    · simp only [BinEncoder.Write, h1, h2]
    · rw [hW2, hW, BinEncoder.Encode, List.append_assoc]

theorem HexEncoder_Write_memory (BUFFER_SIZE : Nat) (B : List Nat) :
    ∀ (e : HexEncoder (List Nat)), CharWriter.WellFormed BUFFER_SIZE e.m_CharWriter →
      ∃ e1, HexEncoder.Write MemoryWriter BUFFER_SIZE e B = .ok e1 ∧
        CharWriter.WellFormed BUFFER_SIZE e1.m_CharWriter ∧
        e1.m_UpperCase = e.m_UpperCase ∧
        CharWriter.Written e1.m_CharWriter =
          CharWriter.Written e.m_CharWriter ++ HexEncoder.Encode e.m_UpperCase B := by
  induction B with
  | nil => intro e he; exact ⟨e, rfl, he, rfl, by simp [HexEncoder.Encode]⟩
  | cons b bs ih =>
    intro e he
    obtain ⟨w, h1, hw, hW⟩ := CharWriter.WriteChars_memory BUFFER_SIZE
      (HexEncoder.EncodeByte e.m_UpperCase b) e.m_CharWriter he
    obtain ⟨e2, h2, hw2, hu2, hW2⟩ := ih { e with m_CharWriter := w } hw
    refine ⟨e2, ?_, hw2, hu2, ?_⟩
    · simp only [HexEncoder.Write, h1, h2]
    · rw [hW2, hW, HexEncoder.Encode, List.append_assoc]

/-- Any sequence of `Write` calls on a `BinEncoder` over an in-memory stream
succeeds and has written the encoding of all the data. -/
theorem BinEncoder_WriteAll_memory (BUFFER_SIZE : Nat) (chunks : List (List Nat)) :
    ∀ (e : BinEncoder (List Nat)), CharWriter.WellFormed BUFFER_SIZE e.m_CharWriter →
      ∃ e1, chunks.foldlM (BinEncoder.Write MemoryWriter BUFFER_SIZE) e = .ok e1 ∧
        CharWriter.WellFormed BUFFER_SIZE e1.m_CharWriter ∧
        CharWriter.Written e1.m_CharWriter =
          CharWriter.Written e.m_CharWriter ++ BinEncoder.Encode chunks.flatten := by
  induction chunks with
  | nil => intro e he; exact ⟨e, rfl, he, by simp [BinEncoder.Encode]⟩
  | cons c cs ih =>
    intro e he
    obtain ⟨e1, h1, hw1, hW1⟩ := BinEncoder_Write_memory BUFFER_SIZE c e he
    obtain ⟨e2, h2, hw2, hW2⟩ := ih e1 hw1
    refine ⟨e2, ?_, hw2, ?_⟩
    · rw [List.foldlM_cons, h1]; exact h2
    · rw [hW2, hW1, List.flatten_cons, BinEncoder_Encode_append, List.append_assoc]

/-- Any sequence of `Write` calls on a `HexEncoder` over an in-memory stream
succeeds and has written the encoding of all the data. -/
theorem HexEncoder_WriteAll_memory (BUFFER_SIZE : Nat) (chunks : List (List Nat)) :
    ∀ (e : HexEncoder (List Nat)), CharWriter.WellFormed BUFFER_SIZE e.m_CharWriter →
      ∃ e1, chunks.foldlM (HexEncoder.Write MemoryWriter BUFFER_SIZE) e = .ok e1 ∧
        CharWriter.WellFormed BUFFER_SIZE e1.m_CharWriter ∧
        CharWriter.Written e1.m_CharWriter =
          CharWriter.Written e.m_CharWriter ++ HexEncoder.Encode e.m_UpperCase chunks.flatten := by
  induction chunks with
  | nil => intro e he; exact ⟨e, rfl, he, by simp [HexEncoder.Encode]⟩
  | cons c cs ih =>
    intro e he
    obtain ⟨e1, h1, hw1, hu1, hW1⟩ := HexEncoder_Write_memory BUFFER_SIZE c e he
    obtain ⟨e2, h2, hw2, hW2⟩ := ih e1 hw1
    refine ⟨e2, ?_, hw2, ?_⟩
    · rw [List.foldlM_cons, h1]; exact h2
    · rw [hW2, hW1, hu1, List.flatten_cons, HexEncoder_Encode_append, List.append_assoc]

theorem BinEncoder_Flush_memory (BUFFER_SIZE : Nat) (e : BinEncoder (List Nat))
    (he : CharWriter.WellFormed BUFFER_SIZE e.m_CharWriter) :
    ∃ e1, BinEncoder.Flush MemoryWriter e = .ok e1 ∧
      e1.m_CharWriter.m_Stream = CharWriter.Written e.m_CharWriter := by
  obtain ⟨w, h1, _, hs, _⟩ := CharWriter.Flush_memory BUFFER_SIZE e.m_CharWriter he
  exact ⟨{ e with m_CharWriter := { w with m_Stream := w.m_Stream } },
    by simp only [BinEncoder.Flush, h1]; rfl, hs⟩

theorem HexEncoder_Flush_memory (BUFFER_SIZE : Nat) (e : HexEncoder (List Nat))
    (he : CharWriter.WellFormed BUFFER_SIZE e.m_CharWriter) :
    ∃ e1, HexEncoder.Flush MemoryWriter e = .ok e1 ∧
      e1.m_CharWriter.m_Stream = CharWriter.Written e.m_CharWriter := by
  obtain ⟨w, h1, _, hs, _⟩ := CharWriter.Flush_memory BUFFER_SIZE e.m_CharWriter he
  exact ⟨{ e with m_CharWriter := { w with m_Stream := w.m_Stream } },
    by simp only [HexEncoder.Flush, h1]; rfl, hs⟩

theorem Base64Encoder_WriteByte_memory (BUFFER_SIZE : Nat) (e : Base64Encoder (List Nat))
    (b : Nat) (he : Base64Encoder.WellFormed BUFFER_SIZE e) :
    ∃ e1, Base64Encoder.WriteByte MemoryWriter BUFFER_SIZE e b = .ok e1 ∧
      Base64Encoder.WellFormed BUFFER_SIZE e1 ∧ e1.m_Finished = e.m_Finished ∧
      ∀ T, CharWriter.Written e1.m_CharWriter ++
            Base64Encoder.Encode (Base64Encoder.Carried e1 ++ T) =
          CharWriter.Written e.m_CharWriter ++
            Base64Encoder.Encode (Base64Encoder.Carried e ++ [b] ++ T) := by
  obtain ⟨hw, hlen, hidx⟩ := he
  by_cases h2 : e.m_BufIndex = 2
  · obtain ⟨w, h1, hw1, hW1⟩ := CharWriter.WriteChars_memory BUFFER_SIZE
      (Base64Encoder.Encode [e.m_Buf.getD 0 0, e.m_Buf.getD 1 0, b]) e.m_CharWriter hw
    refine ⟨{ e with m_CharWriter := w, m_BufIndex := 0 }, ?_, ⟨hw1, hlen, Nat.zero_le _⟩, rfl, ?_⟩
    · simp only [Base64Encoder.WriteByte, h2, if_true, h1]
    · intro T
      match hb : e.m_Buf, hlen with
      | [x0, x1], _ =>
        simp only [Base64Encoder.Carried, hW1, hb, h2, List.take_zero, List.nil_append,
          List.getD_cons_zero, List.getD_cons_succ, List.take_succ_cons, List.cons_append,
          Base64Encoder.Encode, List.append_assoc, List.append_nil]
  · refine ⟨{ e with m_Buf := e.m_Buf.set e.m_BufIndex b, m_BufIndex := e.m_BufIndex + 1 },
      ?_, ⟨hw, ?_, ?_⟩, rfl, ?_⟩
    · simp only [Base64Encoder.WriteByte, h2, if_false]
    · simp only [List.length_set, hlen]
    · simp only; omega
    · intro T
      have hlt : e.m_BufIndex < e.m_Buf.length := by omega
      simp only [Base64Encoder.Carried, take_set_succ e.m_Buf _ b hlt]

theorem Base64Encoder_Write_memory (BUFFER_SIZE : Nat) (B : List Nat) :
    ∀ (e : Base64Encoder (List Nat)), Base64Encoder.WellFormed BUFFER_SIZE e →
      ∃ e1, Base64Encoder.Write MemoryWriter BUFFER_SIZE e B = .ok e1 ∧
        Base64Encoder.WellFormed BUFFER_SIZE e1 ∧ e1.m_Finished = e.m_Finished ∧
        ∀ T, CharWriter.Written e1.m_CharWriter ++
              Base64Encoder.Encode (Base64Encoder.Carried e1 ++ T) =
            CharWriter.Written e.m_CharWriter ++
              Base64Encoder.Encode (Base64Encoder.Carried e ++ B ++ T) := by
  induction B with
  | nil => intro e he; exact ⟨e, rfl, he, rfl, fun T => by simp⟩
  | cons b bs ih =>
    intro e he
    obtain ⟨e1, h1, hw1, hf1, hT1⟩ := Base64Encoder_WriteByte_memory BUFFER_SIZE e b he
    obtain ⟨e2, h2, hw2, hf2, hT2⟩ := ih e1 hw1
    refine ⟨e2, ?_, hw2, hf2.trans hf1, ?_⟩
    · simp only [Base64Encoder.Write, h1, h2]
    · intro T
      rw [hT2 T, List.append_assoc (Base64Encoder.Carried e1), hT1 (bs ++ T)]
      simp only [List.append_assoc, List.singleton_append, List.cons_append, List.nil_append]

/-- Any sequence of `Write` calls on a `Base64Encoder` over an in-memory stream
succeeds; what has been written, followed by the encoding of the carried bytes,
is the encoding of all the data. -/
theorem Base64Encoder_WriteAll_memory (BUFFER_SIZE : Nat) (chunks : List (List Nat)) :
    ∀ (e : Base64Encoder (List Nat)), Base64Encoder.WellFormed BUFFER_SIZE e →
      ∃ e1, chunks.foldlM (Base64Encoder.Write MemoryWriter BUFFER_SIZE) e = .ok e1 ∧
        Base64Encoder.WellFormed BUFFER_SIZE e1 ∧ e1.m_Finished = e.m_Finished ∧
        ∀ T, CharWriter.Written e1.m_CharWriter ++
              Base64Encoder.Encode (Base64Encoder.Carried e1 ++ T) =
            CharWriter.Written e.m_CharWriter ++
              Base64Encoder.Encode (Base64Encoder.Carried e ++ chunks.flatten ++ T) := by
  induction chunks with
  | nil => intro e he; exact ⟨e, rfl, he, rfl, fun T => by simp⟩
  | cons c cs ih =>
    intro e he
    obtain ⟨e1, h1, hw1, hf1, hT1⟩ := Base64Encoder_Write_memory BUFFER_SIZE c e he
    obtain ⟨e2, h2, hw2, hf2, hT2⟩ := ih e1 hw1
    refine ⟨e2, ?_, hw2, hf2.trans hf1, ?_⟩
    · rw [List.foldlM_cons, h1]; exact h2
    · intro T
      rw [hT2 T, List.append_assoc (Base64Encoder.Carried e1), hT1 (cs.flatten ++ T)]
      simp only [List.append_assoc, List.flatten_cons]

theorem Base64Encoder_Finish_memory (BUFFER_SIZE : Nat) (e : Base64Encoder (List Nat))
    (he : Base64Encoder.WellFormed BUFFER_SIZE e) (hf : e.m_Finished = false) :
    ∃ e1, Base64Encoder.Finish MemoryWriter BUFFER_SIZE e = .ok e1 ∧
      Base64Encoder.WellFormed BUFFER_SIZE e1 ∧ e1.m_Finished = true ∧
      CharWriter.Written e1.m_CharWriter =
        CharWriter.Written e.m_CharWriter ++ Base64Encoder.Encode (Base64Encoder.Carried e) := by
  obtain ⟨w, h1, hw1, hW1⟩ := CharWriter.WriteChars_memory BUFFER_SIZE
      (Base64Encoder.Encode (e.m_Buf.take e.m_BufIndex)) e.m_CharWriter he.1
  refine ⟨{ e with m_CharWriter := w, m_Finished := true }, ?_, ⟨hw1, he.2.1, he.2.2⟩, rfl, hW1⟩
  simp only [Base64Encoder.Finish, hf, Bool.not_false, if_true, Base64Encoder.DoFinish, h1]

theorem Base64Encoder_Flush_memory (BUFFER_SIZE : Nat) (e : Base64Encoder (List Nat))
    (he : CharWriter.WellFormed BUFFER_SIZE e.m_CharWriter) :
    ∃ e1, Base64Encoder.Flush MemoryWriter e = .ok e1 ∧
      e1.m_CharWriter.m_Stream = CharWriter.Written e.m_CharWriter := by
  obtain ⟨w, h1, _, hs, _⟩ := CharWriter.Flush_memory BUFFER_SIZE e.m_CharWriter he
  exact ⟨{ e with m_CharWriter := { w with m_Stream := w.m_Stream } },
    by simp only [Base64Encoder.Flush, h1]; rfl, hs⟩

/-! ## Streaming decoders over an in-memory stream -/

section DecoderFacts

variable (BUFFER_SIZE : Nat) (hpos : 0 < BUFFER_SIZE) (C : TextCodec) (tol : DECODE_TOLERANCE)
  (fuel : Nat)

include hpos

theorem ReadSymbol_memory (r : CharReader (List Nat)) (hr : CharReader.WellFormed r) :
    (∀ c L v, CharReader.Remaining r = c :: L → C.Symbol c = some v →
      ∃ r1, ReadSymbol MemoryReader BUFFER_SIZE C tol (fuel + 1) r = some (.ok (some v, r1)) ∧
        CharReader.WellFormed r1 ∧ CharReader.Remaining r1 = L) ∧
    (CharReader.Remaining r = [] →
      ∃ r1, ReadSymbol MemoryReader BUFFER_SIZE C tol (fuel + 1) r = some (.ok (none, r1)) ∧
        CharReader.WellFormed r1 ∧ CharReader.Remaining r1 = []) := by
  obtain ⟨h1, h2⟩ := CharReader.ReadChar_memory BUFFER_SIZE hpos r 0 hr
  constructor
  · intro c L v hrem hc
    obtain ⟨r1, e1, w1, m1⟩ := h1 c L hrem
    exact ⟨r1, by simp only [ReadSymbol, e1, hc], w1, m1⟩
  · intro hrem
    obtain ⟨r1, e1, w1, m1⟩ := h2 hrem
    exact ⟨r1, by simp only [ReadSymbol, e1], w1, m1⟩

theorem ReadGroup_memory (cs : List Nat) :
    ∀ (vs grp L : List Nat) (r : CharReader (List Nat)), CharReader.WellFormed r →
      CharReader.Remaining r = cs ++ L → cs.map C.Symbol = vs.map some →
      ∃ r1, ReadGroup MemoryReader BUFFER_SIZE C tol (fuel + 1) cs.length grp r =
          some (.ok (grp ++ vs, r1)) ∧
        CharReader.WellFormed r1 ∧ CharReader.Remaining r1 = L := by
  induction cs with
  | nil =>
    intro vs grp L r hr hrem hvs
    cases vs with
    | nil => exact ⟨r, by simp [ReadGroup], hr, by simpa using hrem⟩
    | cons v vs => simp at hvs
  | cons c cs ih =>
    intro vs grp L r hr hrem hvs
    cases vs with
    | nil => simp at hvs
    | cons v vs =>
      simp only [List.map_cons, List.cons.injEq] at hvs
      obtain ⟨r1, e1, w1, m1⟩ :=
        (ReadSymbol_memory BUFFER_SIZE hpos C tol fuel r hr).1 c (cs ++ L) v hrem hvs.1
      obtain ⟨r2, e2, w2, m2⟩ := ih vs (grp ++ [v]) L r1 w1 m1 hvs.2
      refine ⟨r2, ?_, w2, m2⟩
      simp only [List.length_cons, ReadGroup, e1, e2, List.append_assoc, List.singleton_append]

theorem ReadGroup_memory_end (k : Nat) (r : CharReader (List Nat))
    (hr : CharReader.WellFormed r) (hrem : CharReader.Remaining r = []) :
    ∃ r1, ReadGroup MemoryReader BUFFER_SIZE C tol (fuel + 1) (k + 1) [] r = some (.ok ([], r1)) ∧
      CharReader.WellFormed r1 ∧ CharReader.Remaining r1 = [] := by
  obtain ⟨r1, e1, w1, m1⟩ := (ReadSymbol_memory BUFFER_SIZE hpos C tol fuel r hr).2 hrem
  exact ⟨r1, by simp only [ReadGroup, e1, if_true], w1, m1⟩

/-- A decoder with one byte per group, reading from an in-memory stream the
text in which every byte `b` of `B` is written as `enc b`, delivers the first
`Size` bytes of `B` and leaves the text of the other bytes in the stream. -/
theorem ReadBytes_memory (enc : Nat → List Nat)
    (henc : ∀ b, b < 256 → ∃ vs, (enc b).length = C.GroupSize ∧ vs ≠ [] ∧
      (enc b).map C.Symbol = vs.map some ∧ C.DecodeGroup vs = some ([b], false)) :
    ∀ (Size : Nat) (B : List Nat) (r : CharReader (List Nat)), IsBytes B →
      CharReader.WellFormed r → CharReader.Remaining r = (B.map enc).flatten →
      ∃ r1, ReadBytes MemoryReader BUFFER_SIZE C tol (fuel + 1) Size r =
          some (.ok (B.take Size, r1)) ∧
        CharReader.WellFormed r1 ∧ CharReader.Remaining r1 = ((B.drop Size).map enc).flatten := by
  intro Size
  induction Size with
  | zero => intro B r _ hr hrem; exact ⟨r, by simp [ReadBytes], hr, by simpa using hrem⟩
  | succ n ih =>
    intro B r hB hr hrem
    cases B with
    | nil =>
      obtain ⟨vs0, hl0, hne0, _, _⟩ := henc 0 (by omega)
      have hk : C.GroupSize = (C.GroupSize - 1) + 1 := by
        have : 0 < (enc 0).length := by
          cases h : enc 0 with
          | nil =>
            rename_i hm _
            rw [h] at hm
            cases vs0 with
            | nil => exact absurd rfl hne0
            | cons v vs => simp at hm
          | cons x xs => simp
        omega
      obtain ⟨r1, e1, w1, m1⟩ := ReadGroup_memory_end BUFFER_SIZE hpos C tol fuel
        (C.GroupSize - 1) r hr (by simpa using hrem)
      rw [← hk] at e1
      exact ⟨r1, by simp only [ReadBytes, e1, if_true, List.take_nil], w1, by simpa using m1⟩
    | cons b bs =>
      have hb : b < 256 := hB b (List.mem_cons_self _ _)
      have hbs : IsBytes bs := fun x hx => hB x (List.mem_cons_of_mem _ hx)
      obtain ⟨vs, hl, hne, hsym, hdec⟩ := henc b hb
      simp only [List.map_cons, List.flatten_cons] at hrem
      obtain ⟨r1, e1, w1, m1⟩ :=
        ReadGroup_memory BUFFER_SIZE hpos C tol fuel (enc b) vs [] _ r hr hrem hsym
      rw [hl, List.nil_append] at e1
      obtain ⟨r2, e2, w2, m2⟩ := ih bs r1 hbs w1 m1
      refine ⟨r2, ?_, w2, by simpa using m2⟩
      simp only [ReadBytes, e1, hne, if_false, hdec, e2, List.take_succ_cons,
        List.singleton_append]

end DecoderFacts

theorem BinEncoder_Encode_flatten (B : List Nat) :
    BinEncoder.Encode B = (B.map BinEncoder.EncodeByte).flatten := by
  induction B with
  | nil => rfl
  | cons b bs ih => rw [BinEncoder.Encode, ih, List.map_cons, List.flatten_cons]

theorem HexEncoder_Encode_flatten (up : Bool) (B : List Nat) :
    HexEncoder.Encode up B = (B.map (HexEncoder.EncodeByte up)).flatten := by
  induction B with
  | nil => rfl
  | cons b bs ih => rw [HexEncoder.Encode, ih, List.map_cons, List.flatten_cons]

theorem BinDecoder_group (b : Nat) (hb : b < 256) :
    ∃ vs, (BinEncoder.EncodeByte b).length = BinDecoder.Codec.GroupSize ∧ vs ≠ [] ∧
      (BinEncoder.EncodeByte b).map BinDecoder.Codec.Symbol = vs.map some ∧
      BinDecoder.Codec.DecodeGroup vs = some ([b], false) := by
  refine ⟨[b / 128 % 2, b / 64 % 2, b / 32 % 2, b / 16 % 2, b / 8 % 2, b / 4 % 2, b / 2 % 2,
    b % 2], rfl, by simp, ?_, ?_⟩
  · simp [BinEncoder.EncodeByte, BinDecoder.Codec, BinDecoder.symbol_bit]
  · simp only [BinDecoder.Codec, BinDecoder.DecodeGroup, Option.some.injEq, Prod.mk.injEq,
      List.cons.injEq, and_true]
    omega

theorem HexDecoder_group (up : Bool) (b : Nat) (hb : b < 256) :
    ∃ vs, (HexEncoder.EncodeByte up b).length = HexDecoder.Codec.GroupSize ∧ vs ≠ [] ∧
      (HexEncoder.EncodeByte up b).map HexDecoder.Codec.Symbol = vs.map some ∧
      HexDecoder.Codec.DecodeGroup vs = some ([b], false) := by
  refine ⟨[b / 16 % 16, b % 16], rfl, by simp, ?_, ?_⟩
  · simp [HexEncoder.EncodeByte, HexDecoder.Codec,
      HexDecoder.symbol_digit up (b / 16 % 16) (by omega),
      HexDecoder.symbol_digit up (b % 16) (by omega)]
  · simp only [HexDecoder.Codec, HexDecoder.DecodeGroup, Option.some.injEq, Prod.mk.injEq,
      List.cons.injEq, and_true]
    omega

/-- A `BinDecoder` reading the encoding of `B` from an in-memory stream
delivers `B`, whatever its tolerance. -/
theorem BinDecoder_Read_memory (BUFFER_SIZE : Nat) (hpos : 0 < BUFFER_SIZE)
    (tol : DECODE_TOLERANCE) (fuel Size : Nat) (B : List Nat) (hB : IsBytes B) :
    ∃ d1, BinDecoder.Read MemoryReader BUFFER_SIZE (fuel + 1)
        (BinDecoder.new BUFFER_SIZE (BinEncoder.Encode B) tol) Size =
      some (.ok (B.take Size, d1)) := by
  obtain ⟨hw, hr⟩ := CharReader_WellFormed_new BUFFER_SIZE (BinEncoder.Encode B)
  obtain ⟨r1, e1, _, _⟩ := ReadBytes_memory BUFFER_SIZE hpos BinDecoder.Codec tol fuel
    BinEncoder.EncodeByte BinDecoder_group Size B _ hB hw
    (hr.trans (BinEncoder_Encode_flatten B))
  exact ⟨{ m_CharReader := r1, m_Tolerance := tol },
    by simp only [BinDecoder.Read, BinDecoder.new, e1]⟩

/-- A `HexDecoder` reading the encoding of `B` (in either case) from an
in-memory stream delivers `B`, whatever its tolerance. -/
theorem HexDecoder_Read_memory (BUFFER_SIZE : Nat) (hpos : 0 < BUFFER_SIZE)
    (tol : DECODE_TOLERANCE) (up : Bool) (fuel Size : Nat) (B : List Nat) (hB : IsBytes B) :
    ∃ d1, HexDecoder.Read MemoryReader BUFFER_SIZE (fuel + 1)
        (HexDecoder.new BUFFER_SIZE (HexEncoder.Encode up B) tol) Size =
      some (.ok (B.take Size, d1)) := by
  obtain ⟨hw, hr⟩ := CharReader_WellFormed_new BUFFER_SIZE (HexEncoder.Encode up B)
  obtain ⟨r1, e1, _, _⟩ := ReadBytes_memory BUFFER_SIZE hpos HexDecoder.Codec tol fuel
    (HexEncoder.EncodeByte up) (HexDecoder_group up) Size B _ hB hw
    (hr.trans (HexEncoder_Encode_flatten up B))
  exact ⟨{ m_CharReader := r1, m_Tolerance := tol },
    by simp only [HexDecoder.Read, HexDecoder.new, e1]⟩

theorem Base64Decoder_group3 (b0 b1 b2 : Nat) (h0 : b0 < 256) (h1 : b1 < 256) (h2 : b2 < 256) :
    ∃ vs, [Base64Encoder.NumberToChar (b0 / 4 % 64),
          Base64Encoder.NumberToChar (b0 % 4 * 16 + b1 / 16 % 16),
          Base64Encoder.NumberToChar (b1 % 16 * 4 + b2 / 64 % 4),
          Base64Encoder.NumberToChar (b2 % 64)].map Base64Decoder.Codec.Symbol = vs.map some ∧
      vs ≠ [] ∧ Base64Decoder.DecodeGroup vs = some ([b0, b1, b2], false) := by
  refine ⟨[b0 / 4 % 64, b0 % 4 * 16 + b1 / 16 % 16, b1 % 16 * 4 + b2 / 64 % 4, b2 % 64],
    ?_, by simp, ?_⟩
  · simp [Base64Decoder.Codec, Base64Decoder.symbol_char (b0 / 4 % 64) (by omega),
      Base64Decoder.symbol_char (b0 % 4 * 16 + b1 / 16 % 16) (by omega),
      Base64Decoder.symbol_char (b1 % 16 * 4 + b2 / 64 % 4) (by omega),
      Base64Decoder.symbol_char (b2 % 64) (by omega)]
  · have l0 : b0 / 4 % 64 < 64 := by omega
    have l1 : b0 % 4 * 16 + b1 / 16 % 16 < 64 := by omega
    have l2 : b1 % 16 * 4 + b2 / 64 % 4 < 64 := by omega
    have l3 : b2 % 64 < 64 := by omega
    simp only [Base64Decoder.DecodeGroup, l0, l1, l2, l3, and_self, if_true, Option.some.injEq,
      Prod.mk.injEq, List.cons.injEq, and_true]
    omega

theorem Base64Decoder_group2 (b0 b1 : Nat) (h0 : b0 < 256) (h1 : b1 < 256) :
    ∃ vs, [Base64Encoder.NumberToChar (b0 / 4 % 64),
          Base64Encoder.NumberToChar (b0 % 4 * 16 + b1 / 16 % 16),
          Base64Encoder.NumberToChar (b1 % 16 * 4), 61].map Base64Decoder.Codec.Symbol =
        vs.map some ∧
      vs ≠ [] ∧ Base64Decoder.DecodeGroup vs = some ([b0, b1], true) := by
  refine ⟨[b0 / 4 % 64, b0 % 4 * 16 + b1 / 16 % 16, b1 % 16 * 4, 64], ?_, by simp, ?_⟩
  · simp [Base64Decoder.Codec, Base64Decoder.symbol_char (b0 / 4 % 64) (by omega),
      Base64Decoder.symbol_char (b0 % 4 * 16 + b1 / 16 % 16) (by omega),
      Base64Decoder.symbol_char (b1 % 16 * 4) (by omega), Base64Decoder.symbol_pad]
  · have l0 : b0 / 4 % 64 < 64 := by omega
    have l1 : b0 % 4 * 16 + b1 / 16 % 16 < 64 := by omega
    have l2 : b1 % 16 * 4 < 64 := by omega
    simp only [Base64Decoder.DecodeGroup, l0, l1, l2, and_self, if_true, Option.some.injEq,
      Prod.mk.injEq, List.cons.injEq, and_true, lt_self_iff_false, and_false, if_false]
    omega

theorem Base64Decoder_group1 (b0 : Nat) (h0 : b0 < 256) :
    ∃ vs, [Base64Encoder.NumberToChar (b0 / 4 % 64),
          Base64Encoder.NumberToChar (b0 % 4 * 16), 61, 61].map Base64Decoder.Codec.Symbol =
        vs.map some ∧
      vs ≠ [] ∧ Base64Decoder.DecodeGroup vs = some ([b0], true) := by
  refine ⟨[b0 / 4 % 64, b0 % 4 * 16, 64, 64], ?_, by simp, ?_⟩
  · simp [Base64Decoder.Codec, Base64Decoder.symbol_char (b0 / 4 % 64) (by omega),
      Base64Decoder.symbol_char (b0 % 4 * 16) (by omega), Base64Decoder.symbol_pad]
  · have l0 : b0 / 4 % 64 < 64 := by omega
    have l1 : b0 % 4 * 16 < 64 := by omega
    simp only [Base64Decoder.DecodeGroup, l0, l1, and_self, if_true, Option.some.injEq,
      Prod.mk.injEq, List.cons.injEq, and_true, lt_self_iff_false, false_and, and_false,
      if_false]
    omega

theorem reverse_take_succ (l : List Nat) (n : Nat) (h : n < l.length) :
    (l.take (n + 1)).reverse = l.getD n 0 :: (l.take n).reverse := by
  rw [List.take_succ, List.reverse_append]
  simp [List.getD, List.getElem?_eq_getElem h]

theorem Base64Decoder_Holds_new (BUFFER_SIZE : Nat) (tol : DECODE_TOLERANCE) (B : List Nat)
    (hB : IsBytes B) :
    Base64Decoder.Holds (Base64Decoder.new BUFFER_SIZE (Base64Encoder.Encode B) tol) B := by
  obtain ⟨hw, hr⟩ := CharReader_WellFormed_new BUFFER_SIZE (Base64Encoder.Encode B)
  exact ⟨hw, Nat.zero_le _, B, hB, by simp [Base64Decoder.new], Or.inl ⟨rfl, hr⟩⟩

/-- The call `GetNextByte` on a decoder holding the bytes `X` delivers the first of them,
or reports the end when `X` is empty. -/
theorem Base64Decoder_GetNextByte_memory (BUFFER_SIZE : Nat) (hpos : 0 < BUFFER_SIZE)
    (fuel : Nat) (d : Base64Decoder (List Nat)) (X : List Nat) (Out : Nat)
    (h : Base64Decoder.Holds d X) :
    (∀ x X1, X = x :: X1 →
      ∃ d1, Base64Decoder.GetNextByte MemoryReader BUFFER_SIZE (fuel + 1) d Out =
          some (.ok (true, x, d1)) ∧ Base64Decoder.Holds d1 X1) ∧
    (X = [] →
      ∃ d1, Base64Decoder.GetNextByte MemoryReader BUFFER_SIZE (fuel + 1) d Out =
          some (.ok (false, Out, d1)) ∧ Base64Decoder.Holds d1 []) := by
  obtain ⟨hwf, hlen, B, hB, hX, hcase⟩ := h
  by_cases hz : d.m_BufLength = 0
  · have hXB : X = B := by rw [hX, hz]; simp
    rcases hcase with ⟨hf, hrem⟩ | ⟨hf, hnil⟩
    · match B, hB, hrem, hXB with
      | [], _, hrem, hXB =>
        obtain ⟨r1, e1, w1, m1⟩ := ReadGroup_memory_end BUFFER_SIZE hpos Base64Decoder.Codec
          d.m_Tolerance fuel 3 d.m_CharReader hwf hrem
        constructor
        · intro x X1 hx; rw [hXB] at hx; cases hx
        · intro _
          refine ⟨{ d with m_CharReader := r1 }, ?_, w1, hlen, [], (fun _ hy => absurd hy (List.not_mem_nil _)),
            by simp only [hz, List.take_zero]; rfl, Or.inl ⟨hf, m1⟩⟩
          simp [Base64Decoder.GetNextByte, Base64Decoder.ReadNextBuf, hz, hf, e1]
      | [b0], hB, hrem, hXB =>
        obtain ⟨vs, hsym, hne, hdec⟩ := Base64Decoder_group1 b0 (hB b0 (by simp))
        obtain ⟨r1, e1, w1, m1⟩ := ReadGroup_memory BUFFER_SIZE hpos Base64Decoder.Codec
          d.m_Tolerance fuel _ vs [] [] d.m_CharReader hwf
          (by rw [hrem, Base64Encoder.Encode, List.append_nil]) hsym
        have e2 : ReadGroup MemoryReader BUFFER_SIZE Base64Decoder.Codec d.m_Tolerance (fuel + 1)
            4 [] d.m_CharReader = some (.ok (vs, r1)) := e1
        constructor
        · intro x X1 hx
          rw [hXB] at hx
          simp only [List.cons.injEq] at hx
          obtain ⟨hx1, hx2⟩ := hx
          subst hx1 hx2
          refine ⟨{ d with m_CharReader := r1, m_Buf := [b0] ++ d.m_Buf.drop 1,
                           m_BufLength := 0, m_Finished := true }, ?_, w1, by simp, [],
            (fun _ hy => absurd hy (List.not_mem_nil _)), by simp, Or.inr ⟨rfl, rfl⟩⟩
          simp [Base64Decoder.GetNextByte, Base64Decoder.ReadNextBuf, hz, hf, e2, hne, hdec]
        · intro hx; rw [hXB] at hx; cases hx
      | [b0, b1], hB, hrem, hXB =>
        obtain ⟨vs, hsym, hne, hdec⟩ :=
          Base64Decoder_group2 b0 b1 (hB b0 (by simp)) (hB b1 (by simp))
        obtain ⟨r1, e1, w1, m1⟩ := ReadGroup_memory BUFFER_SIZE hpos Base64Decoder.Codec
          d.m_Tolerance fuel _ vs [] [] d.m_CharReader hwf
          (by rw [hrem, Base64Encoder.Encode, List.append_nil]) hsym
        have e2 : ReadGroup MemoryReader BUFFER_SIZE Base64Decoder.Codec d.m_Tolerance (fuel + 1)
            4 [] d.m_CharReader = some (.ok (vs, r1)) := e1
        constructor
        · intro x X1 hx
          rw [hXB] at hx
          simp only [List.cons.injEq] at hx
          obtain ⟨hx1, hx2⟩ := hx
          subst hx1 hx2
          refine ⟨{ d with m_CharReader := r1, m_Buf := [b1, b0] ++ d.m_Buf.drop 2,
                           m_BufLength := 1, m_Finished := true }, ?_, w1, by simp, [],
            (fun _ hy => absurd hy (List.not_mem_nil _)), by simp, Or.inr ⟨rfl, rfl⟩⟩
          simp [Base64Decoder.GetNextByte, Base64Decoder.ReadNextBuf, hz, hf, e2, hne, hdec]
        · intro hx; rw [hXB] at hx; cases hx
      | b0 :: b1 :: b2 :: bs, hB, hrem, hXB =>
        obtain ⟨vs, hsym, hne, hdec⟩ :=
          Base64Decoder_group3 b0 b1 b2 (hB b0 (by simp)) (hB b1 (by simp)) (hB b2 (by simp))
        obtain ⟨r1, e1, w1, m1⟩ := ReadGroup_memory BUFFER_SIZE hpos Base64Decoder.Codec
          d.m_Tolerance fuel _ vs [] (Base64Encoder.Encode bs) d.m_CharReader hwf
          (by rw [hrem, Base64Encoder.Encode]) hsym
        have e2 : ReadGroup MemoryReader BUFFER_SIZE Base64Decoder.Codec d.m_Tolerance (fuel + 1)
            4 [] d.m_CharReader = some (.ok (vs, r1)) := e1
        constructor
        · intro x X1 hx
          rw [hXB] at hx
          simp only [List.cons.injEq] at hx
          obtain ⟨hx1, hx2⟩ := hx
          subst hx1 hx2
          refine ⟨{ d with m_CharReader := r1, m_Buf := [b2, b1, b0] ++ d.m_Buf.drop 3,
                           m_BufLength := 2, m_Finished := false }, ?_, w1, by simp, bs,
            fun y hy => hB y (by simp [hy]), by simp, Or.inl ⟨rfl, m1⟩⟩
          simp [Base64Decoder.GetNextByte, Base64Decoder.ReadNextBuf, hz, hf, e2, hne, hdec]
        · intro hx; rw [hXB] at hx; cases hx
    · constructor
      · intro x X1 hx; rw [hXB, hnil] at hx; cases hx
      · intro _
        refine ⟨d, ?_, hwf, hlen, [], (fun _ hy => absurd hy (List.not_mem_nil _)),
          by simp only [hz, List.take_zero]; rfl, Or.inr ⟨hf, rfl⟩⟩
        simp [Base64Decoder.GetNextByte, Base64Decoder.ReadNextBuf, hz, hf]
  · have hlt : d.m_BufLength - 1 < d.m_Buf.length := by omega
    have hsucc : d.m_BufLength = (d.m_BufLength - 1) + 1 := by omega
    have hQ := reverse_take_succ d.m_Buf (d.m_BufLength - 1) hlt
    rw [← hsucc] at hQ
    rw [hQ, List.cons_append] at hX
    constructor
    · intro x X1 hx
      rw [hX, List.cons.injEq] at hx
      obtain ⟨hx1, hx2⟩ := hx
      refine ⟨{ d with m_BufLength := d.m_BufLength - 1 }, ?_, hwf, by simp only; omega, B, hB,
        hx2.symm, hcase⟩
      simp only [Base64Decoder.GetNextByte, hz, if_false, hx1]
    · intro hx; rw [hX] at hx; cases hx

/-- The call `Read(Out, Size)` on a decoder holding the bytes `X` delivers the first
`Size` of them (all of them when `Size` is not smaller than their number). -/
theorem Base64Decoder_Read_memory (BUFFER_SIZE : Nat) (hpos : 0 < BUFFER_SIZE) (fuel : Nat)
    (Size : Nat) :
    ∀ (d : Base64Decoder (List Nat)) (X : List Nat), Base64Decoder.Holds d X →
      ∃ d1, Base64Decoder.Read MemoryReader BUFFER_SIZE (fuel + 1) d Size =
          some (.ok (X.take Size, d1)) ∧ Base64Decoder.Holds d1 (X.drop Size) := by
  induction Size with
  | zero => intro d X h; exact ⟨d, by simp [Base64Decoder.Read], by simpa using h⟩
  | succ n ih =>
    intro d X h
    obtain ⟨g1, g2⟩ := Base64Decoder_GetNextByte_memory BUFFER_SIZE hpos fuel d X 0 h
    cases X with
    | nil =>
      obtain ⟨d1, e1, h1⟩ := g2 rfl
      exact ⟨d1, by simp only [Base64Decoder.Read, e1, List.take_nil], by simpa using h1⟩
    | cons x X1 =>
      obtain ⟨d1, e1, h1⟩ := g1 x X1 rfl
      obtain ⟨d2, e2, h2⟩ := ih d1 X1 h1
      exact ⟨d2, by simp only [Base64Decoder.Read, e1, e2, List.take_succ_cons],
        by simpa using h2⟩

/-! ## The claims about the codecs -/

theorem BinEncoder_Run_memory (BUFFER_SIZE : Nat) (hpos : 0 < BUFFER_SIZE)
    (chunks : List (List Nat)) :
    BinEncoder.Run MemoryWriter BUFFER_SIZE [] chunks = .ok (BinEncoder.Encode chunks.flatten) := by
  obtain ⟨hw, hW⟩ := CharWriter_WellFormed_new BUFFER_SIZE hpos []
  obtain ⟨e1, h1, hw1, hW1⟩ :=
    BinEncoder_WriteAll_memory BUFFER_SIZE chunks (BinEncoder.new BUFFER_SIZE []) hw
  obtain ⟨e2, h2, hs2⟩ := BinEncoder_Flush_memory BUFFER_SIZE e1 hw1
  simp only [BinEncoder.Run, h1, h2, hs2, hW1]
  simp only [BinEncoder.new, hW, List.nil_append]

theorem HexEncoder_Run_memory (BUFFER_SIZE : Nat) (hpos : 0 < BUFFER_SIZE) (up : Bool)
    (chunks : List (List Nat)) :
    HexEncoder.Run MemoryWriter BUFFER_SIZE [] up chunks =
      .ok (HexEncoder.Encode up chunks.flatten) := by
  obtain ⟨hw, hW⟩ := CharWriter_WellFormed_new BUFFER_SIZE hpos []
  obtain ⟨e1, h1, hw1, hW1⟩ :=
    HexEncoder_WriteAll_memory BUFFER_SIZE chunks (HexEncoder.new BUFFER_SIZE [] up) hw
  obtain ⟨e2, h2, hs2⟩ := HexEncoder_Flush_memory BUFFER_SIZE e1 hw1
  simp only [HexEncoder.Run, h1, h2, hs2, hW1]
  simp only [HexEncoder.new, hW, List.nil_append]

theorem Base64Encoder_Run_memory (BUFFER_SIZE : Nat) (hpos : 0 < BUFFER_SIZE)
    (chunks : List (List Nat)) :
    Base64Encoder.Run MemoryWriter BUFFER_SIZE [] chunks =
      .ok (Base64Encoder.Encode chunks.flatten) := by
  obtain ⟨hw, hW⟩ := CharWriter_WellFormed_new BUFFER_SIZE hpos []
  have he : Base64Encoder.WellFormed BUFFER_SIZE (Base64Encoder.new BUFFER_SIZE []) :=
    ⟨hw, rfl, Nat.zero_le _⟩
  obtain ⟨e1, h1, hw1, hf1, hT1⟩ :=
    Base64Encoder_WriteAll_memory BUFFER_SIZE chunks (Base64Encoder.new BUFFER_SIZE []) he
  obtain ⟨e2, h2, hw2, _, hW2⟩ := Base64Encoder_Finish_memory BUFFER_SIZE e1 hw1 hf1
  obtain ⟨e3, h3, hs3⟩ := Base64Encoder_Flush_memory BUFFER_SIZE e2 hw2.1
  have hT := hT1 []
  simp only [List.append_nil] at hT
  simp only [Base64Encoder.Run, h1, h2, h3, hs3, hW2, hT]
  simp only [Base64Encoder.new, Base64Encoder.Carried, hW, List.take_zero, List.nil_append]

/-- C1: decoding the encoding of a byte sequence `B` returns exactly `B`, for
every tolerance setting and for each of the Base64, Hex (upper- or lower-case
output) and Binary codecs: through the static `Encode`/`Decode` helpers, and
through a streaming encoder (given `B` in any pieces, finished and flushed, on
an in-memory stream) whose output is read back by the matching streaming
decoder with a `Read` of at least `len(B)` bytes (with enough fuel for the
decoder's skipping loop: any positive amount). -/
theorem codec_round_trip (B : List Nat) (hB : IsBytes B) (tol : DECODE_TOLERANCE) :
    Base64Decoder.Decode (Base64Encoder.Encode B) tol = some B ∧
    (∀ up, HexDecoder.Decode (HexEncoder.Encode up B) tol = some B) ∧
    BinDecoder.Decode (BinEncoder.Encode B) tol = some B ∧
    (∀ (BUFFER_SIZE : Nat) (chunks : List (List Nat)) (fuel Size : Nat),
      0 < BUFFER_SIZE → chunks.flatten = B → B.length ≤ Size →
      (∃ s d, Base64Encoder.Run MemoryWriter BUFFER_SIZE [] chunks = .ok s ∧
        Base64Decoder.Read MemoryReader BUFFER_SIZE (fuel + 1)
          (Base64Decoder.new BUFFER_SIZE s tol) Size = some (.ok (B, d))) ∧
      (∀ up, ∃ s d, HexEncoder.Run MemoryWriter BUFFER_SIZE [] up chunks = .ok s ∧
        HexDecoder.Read MemoryReader BUFFER_SIZE (fuel + 1)
          (HexDecoder.new BUFFER_SIZE s tol) Size = some (.ok (B, d))) ∧
      (∃ s d, BinEncoder.Run MemoryWriter BUFFER_SIZE [] chunks = .ok s ∧
        BinDecoder.Read MemoryReader BUFFER_SIZE (fuel + 1)
          (BinDecoder.new BUFFER_SIZE s tol) Size = some (.ok (B, d)))) := by
  refine ⟨?_, ?_, ?_, ?_⟩
  · have h := Base64Decoder_decode_append tol B hB []
    rw [List.append_nil, DecodeLoop_nil] at h
    rw [Base64Decoder.Decode, h]
    split <;> simp
  · intro up
    have h := HexDecoder_decode_append tol up B hB []
    rw [List.append_nil, DecodeLoop_nil] at h
    rw [HexDecoder.Decode, h]
    simp
  · have h := BinDecoder_decode_append tol B hB []
    rw [List.append_nil, DecodeLoop_nil] at h
    rw [BinDecoder.Decode, h]
    simp
  · intro BUFFER_SIZE chunks fuel Size hpos hch hSize
    subst hch
    refine ⟨?_, ?_, ?_⟩
    · obtain ⟨d, hd, _⟩ := Base64Decoder_Read_memory BUFFER_SIZE hpos fuel Size _ _
        (Base64Decoder_Holds_new BUFFER_SIZE tol chunks.flatten hB)
      rw [List.take_of_length_le hSize] at hd
      exact ⟨_, d, Base64Encoder_Run_memory BUFFER_SIZE hpos chunks, hd⟩
    · intro up
      obtain ⟨d, hd⟩ := HexDecoder_Read_memory BUFFER_SIZE hpos tol up fuel Size _ hB
      rw [List.take_of_length_le hSize] at hd
      exact ⟨_, d, HexEncoder_Run_memory BUFFER_SIZE hpos up chunks, hd⟩
    · obtain ⟨d, hd⟩ := BinDecoder_Read_memory BUFFER_SIZE hpos tol fuel Size _ hB
      rw [List.take_of_length_le hSize] at hd
      exact ⟨_, d, BinEncoder_Run_memory BUFFER_SIZE hpos chunks, hd⟩

/-- C1 at a concrete input: the byte sequence `[255, 0, 16]`, no tolerance;
for the streaming part `BUFFER_SIZE = 4`, the data written as `[255]` and
`[0, 16]`, and one `Read` of three bytes. -/
theorem codec_round_trip_witness :
    IsBytes [255, 0, 16] ∧
      Base64Decoder.Decode (Base64Encoder.Encode [255, 0, 16]) DECODE_TOLERANCE_NONE =
        some [255, 0, 16] ∧
      ∃ s d, Base64Encoder.Run MemoryWriter 4 [] [[255], [0, 16]] = .ok s ∧
        Base64Decoder.Read MemoryReader 4 1 (Base64Decoder.new 4 s DECODE_TOLERANCE_NONE) 3 =
          some (.ok ([255, 0, 16], d)) :=
  ⟨by decide, (codec_round_trip [255, 0, 16] (by decide) DECODE_TOLERANCE_NONE).1,
   ((codec_round_trip [255, 0, 16] (by decide) DECODE_TOLERANCE_NONE).2.2.2
      4 [[255], [0, 16]] 0 3 (by decide) rfl (by decide)).1⟩

/-- The map `NumberToChar` is table 1 of RFC 4648. -/
theorem Base64Encoder_NumberToChar_table :
    ∀ v, v < 64 → Base64Encoder.NumberToChar v = RFC4648.Alphabet.getD v 0 := by
  decide

theorem Base64PadCount_add_three (n : Nat) : Base64PadCount (n + 3) = Base64PadCount n := by
  simp only [Base64PadCount, Nat.add_mod_right]

/-- The four 6-bit groups of three octets, as the arithmetic of the encoder
has them. -/
theorem RFC4648_Sextets_three (b0 b1 b2 : Nat) (rest : List Nat) :
    RFC4648.Sextets (RFC4648.OctetBits b0 ++ (RFC4648.OctetBits b1 ++
        (RFC4648.OctetBits b2 ++ rest))) =
      [b0 / 4 % 64, b0 % 4 * 16 + b1 / 16 % 16, b1 % 16 * 4 + b2 / 64 % 4, b2 % 64] ++
        RFC4648.Sextets rest := by
  simp only [RFC4648.OctetBits, List.cons_append, List.nil_append, RFC4648.Sextets,
    RFC4648.BitsValue, List.foldl_cons, List.foldl_nil]
  congr 1
  · omega
  congr 1
  · omega
  congr 1
  · omega
  congr 1
  omega

theorem RFC4648_Sextets_one (b0 : Nat) :
    RFC4648.Sextets (RFC4648.OctetBits b0) = [b0 / 4 % 64, b0 % 4 * 16] := by
  simp only [RFC4648.OctetBits, RFC4648.Sextets, RFC4648.BitsValue, List.foldl_cons,
    List.foldl_nil, List.length_cons, List.length_nil, List.replicate, List.cons_append,
    List.nil_append]
  congr 1
  · omega
  congr 1
  omega

theorem RFC4648_Sextets_two (b0 b1 : Nat) :
    RFC4648.Sextets (RFC4648.OctetBits b0 ++ RFC4648.OctetBits b1) =
      [b0 / 4 % 64, b0 % 4 * 16 + b1 / 16 % 16, b1 % 16 * 4] := by
  simp only [RFC4648.OctetBits, RFC4648.Sextets, RFC4648.BitsValue, List.foldl_cons,
    List.foldl_nil, List.length_cons, List.length_nil, List.replicate, List.cons_append,
    List.nil_append]
  congr 1
  · omega
  congr 1
  · omega
  congr 1
  omega

/-- The encoder produces the RFC 4648 encoding: its output is, for every input,
the text that the definition written from the words of the RFC gives. -/
theorem Base64Encoder_Encode_eq_RFC4648 (B : List Nat) :
    Base64Encoder.Encode B = RFC4648.Encode B := by
  induction B using Base64Encoder.Encode.induct with
  | case1 => rfl
  | case2 b0 =>
    have h := RFC4648_Sextets_one b0
    simp only [RFC4648.Encode, List.flatMap_cons, List.flatMap_nil, List.append_nil, h,
      Base64Encoder.Encode, List.map_cons, List.map_nil]
    rw [Base64Encoder_NumberToChar_table _ (by omega),
      Base64Encoder_NumberToChar_table _ (by omega)]
    rfl
  | case3 b0 b1 =>
    have h := RFC4648_Sextets_two b0 b1
    simp only [RFC4648.Encode, List.flatMap_cons, List.flatMap_nil, List.append_nil, h,
      Base64Encoder.Encode, List.map_cons, List.map_nil]
    rw [Base64Encoder_NumberToChar_table _ (by omega),
      Base64Encoder_NumberToChar_table _ (by omega),
      Base64Encoder_NumberToChar_table _ (by omega)]
    rfl
  | case4 b0 b1 b2 bs ih =>
    have h := RFC4648_Sextets_three b0 b1 b2 (bs.flatMap RFC4648.OctetBits)
    have hl : (b0 :: b1 :: b2 :: bs).length = bs.length + 3 := rfl
    rw [Base64Encoder.Encode, ih]
    simp only [RFC4648.Encode, List.flatMap_cons, hl, Base64PadCount_add_three]
    rw [h]
    simp only [List.map_append, List.map_cons, List.map_nil, List.append_assoc]
    rw [Base64Encoder_NumberToChar_table _ (by omega),
      Base64Encoder_NumberToChar_table _ (by omega),
      Base64Encoder_NumberToChar_table _ (by omega),
      Base64Encoder_NumberToChar_table _ (by omega)]

/-- C2: for every byte sequence of length `n`, `Base64Encoder::Encode` produces
the RFC 4648 encoding: its output is the text that section 4 of the RFC
defines (the bits of the input cut into 6-bit groups, each replaced by its
character of the alphabet, `=` appended for an incomplete final quantum). It
has exactly `EncodeLength(n) = 4 * ceil(n / 3)` characters: characters of
`A-Za-z0-9+/` followed by 0, 2 or 1 characters `=` when `n mod 3` is 0, 1 or 2,
with no line break (`\n`, `\r`) anywhere; `[0x00, 0x01, 0x02]` encodes to
`"AAEC"` and `[0xFF]` to `"/w=="`, and the test vectors of section 10 of the
RFC come out as printed there. -/
theorem Base64Encoder_Encode_rfc4648 (B : List Nat) :
    Base64Encoder.Encode B = RFC4648.Encode B ∧
    (Base64Encoder.Encode B).length = Base64Encoder.EncodeLength B.length ∧
    Base64Encoder.EncodeLength B.length = 4 * ⌈(B.length : ℚ) / 3⌉₊ ∧
    (∃ body, Base64Encoder.Encode B = body ++ List.replicate (Base64PadCount B.length) 61 ∧
      ∀ c ∈ body, IsBase64Char c = true) ∧
    10 ∉ Base64Encoder.Encode B ∧ 13 ∉ Base64Encoder.Encode B ∧
    Base64Encoder.Encode [0, 1, 2] = chars "AAEC" ∧
    Base64Encoder.Encode [255] = chars "/w==" ∧
    (RFC4648.Encode (chars "") = chars "" ∧ RFC4648.Encode (chars "f") = chars "Zg==" ∧
      RFC4648.Encode (chars "fo") = chars "Zm8=" ∧ RFC4648.Encode (chars "foo") = chars "Zm9v" ∧
      RFC4648.Encode (chars "foob") = chars "Zm9vYg==" ∧
      RFC4648.Encode (chars "fooba") = chars "Zm9vYmE=" ∧
      RFC4648.Encode (chars "foobar") = chars "Zm9vYmFy") := by
  obtain ⟨body, hb, hc⟩ := Base64Encoder.Encode_shape B
  have hno : ∀ x, x ∈ Base64Encoder.Encode B → x = 61 ∨ IsBase64Char x = true := by
    intro x hx
    rw [hb, List.mem_append] at hx
    rcases hx with h | h
    · exact Or.inr (hc x h)
    · exact Or.inl (List.eq_of_mem_replicate h)
  refine ⟨Base64Encoder_Encode_eq_RFC4648 B, Base64Encoder.length_Encode B,
    Base64Encoder.EncodeLength_ceil _, ⟨body, hb, hc⟩, ?_, ?_, by decide, by decide,
    by decide, by decide, by decide, by decide, by decide, by decide, by decide⟩
  · intro h
    rcases hno 10 h with h1 | h1
    · omega
    · simp [IsBase64Char] at h1
  · intro h
    rcases hno 13 h with h1 | h1
    · omega
    · simp [IsBase64Char] at h1

/-- C2 at a concrete input: the three bytes of `"Man"` encode to `"TWFu"`, the
text the RFC derives from their 24 bits, and the two bytes `[0xFF, 0x00]` to
four characters, the last of them `=`. -/
theorem Base64Encoder_Encode_rfc4648_witness :
    Base64Encoder.Encode (chars "Man") = RFC4648.Encode (chars "Man") ∧
      RFC4648.Encode (chars "Man") = chars "TWFu" ∧
      RFC4648.Sextets ((chars "Man").flatMap RFC4648.OctetBits) = [19, 22, 5, 46] ∧
      (Base64Encoder.Encode [255, 0]).length = Base64Encoder.EncodeLength 2 ∧
      Base64Encoder.Encode [255, 0] = chars "/wA=" :=
  ⟨(Base64Encoder_Encode_rfc4648 (chars "Man")).1, by decide, by decide,
    (Base64Encoder_Encode_rfc4648 [255, 0]).2.1, by decide⟩

theorem Base64Decoder_Decode_Encode (tol : DECODE_TOLERANCE) (B : List Nat) (hB : IsBytes B) :
    DecodeLoop Base64Decoder.Codec tol (Base64Encoder.Encode B) [] = some B := by
  have h := Base64Decoder_decode_append tol B hB []
  rw [List.append_nil, DecodeLoop_nil] at h
  rw [h]
  split <;> simp

theorem HexDecoder_Decode_Encode (tol : DECODE_TOLERANCE) (up : Bool) (B : List Nat)
    (hB : IsBytes B) :
    DecodeLoop HexDecoder.Codec tol (HexEncoder.Encode up B) [] = some B := by
  have h := HexDecoder_decode_append tol up B hB []
  rw [List.append_nil, DecodeLoop_nil] at h
  rw [h]
  simp

theorem BinDecoder_Decode_Encode (tol : DECODE_TOLERANCE) (B : List Nat) (hB : IsBytes B) :
    DecodeLoop BinDecoder.Codec tol (BinEncoder.Encode B) [] = some B := by
  have h := BinDecoder_decode_append tol B hB []
  rw [List.append_nil, DecodeLoop_nil] at h
  rw [h]
  simp

theorem Base64Decoder_symbol_ne_none (v : Nat) :
    Base64Decoder.Codec.Symbol (Base64Encoder.NumberToChar v) ≠ none := by
  have h := Base64Encoder.isBase64Char_NumberToChar v
  generalize Base64Encoder.NumberToChar v = c at h
  simp only [IsBase64Char, Bool.or_eq_true, Bool.and_eq_true, decide_eq_true_eq,
    beq_iff_eq] at h
  simp only [Base64Decoder.Codec, Base64Decoder.Symbol]
  split_ifs <;> first | exact Option.some_ne_none _ | (exfalso; omega)

/-- Without tolerance, Base64 text with inserted whitespace is rejected when
whitespace stands before the end of the encoded text, or when the text has no
padding. -/
theorem Base64Decoder_none_reject (B : List Nat) (hB : IsBytes B) :
    ∀ t, WhitespaceInserted (Base64Encoder.Encode B) t →
      (¬ (Base64Encoder.Encode B <+: t) →
        DecodeLoop Base64Decoder.Codec DECODE_TOLERANCE_NONE t [] = none) ∧
      (B.length % 3 = 0 → t ≠ Base64Encoder.Encode B →
        DecodeLoop Base64Decoder.Codec DECODE_TOLERANCE_NONE t [] = none) := by
  have hpad : Base64Decoder.Codec.Symbol 61 ≠ none := by
    simp [Base64Decoder.Codec, Base64Decoder.symbol_pad]
  induction B using Base64Encoder.Encode.induct with
  | case1 =>
    intro t ht
    refine ⟨fun h => absurd (List.nil_prefix) h, fun _ hne => ?_⟩
    cases ht with
    | nil => exact absurd rfl hne
    | insert w hw _ =>
      exact DecodeLoop_reject _ w _ [] (Base64Decoder_whitespace_no_symbol w hw)
  | case2 b0 =>
    intro t ht
    rw [Base64Encoder.Encode] at ht ⊢
    rcases DecodeLoop_none_peel Base64Decoder.Codec Base64Decoder_whitespace_no_symbol
      [Base64Encoder.NumberToChar (b0 / 4 % 64), Base64Encoder.NumberToChar (b0 % 4 * 16), 61, 61]
      [] t [] (by
        intro c hc
        simp only [List.mem_cons, List.mem_singleton, List.not_mem_nil, or_false] at hc
        rcases hc with h | h | h | h <;> rw [h]
        · exact Base64Decoder_symbol_ne_none _
        · exact Base64Decoder_symbol_ne_none _
        · exact hpad
        · exact hpad) (by simp [Base64Decoder.Codec])
      (by rw [List.append_nil]; exact ht) with hn | ⟨t1, ht1, _⟩
    · exact ⟨fun _ => hn, fun _ _ => hn⟩
    · refine ⟨fun h => absurd ⟨t1, ht1.symm⟩ h, fun h => ?_⟩
      simp at h
  | case3 b0 b1 =>
    intro t ht
    rw [Base64Encoder.Encode] at ht ⊢
    rcases DecodeLoop_none_peel Base64Decoder.Codec Base64Decoder_whitespace_no_symbol
      [Base64Encoder.NumberToChar (b0 / 4 % 64),
       Base64Encoder.NumberToChar (b0 % 4 * 16 + b1 / 16 % 16),
       Base64Encoder.NumberToChar (b1 % 16 * 4), 61]
      [] t [] (by
        intro c hc
        simp only [List.mem_cons, List.mem_singleton, List.not_mem_nil, or_false] at hc
        rcases hc with h | h | h | h <;> rw [h]
        · exact Base64Decoder_symbol_ne_none _
        · exact Base64Decoder_symbol_ne_none _
        · exact Base64Decoder_symbol_ne_none _
        · exact hpad) (by simp [Base64Decoder.Codec])
      (by rw [List.append_nil]; exact ht) with hn | ⟨t1, ht1, _⟩
    · exact ⟨fun _ => hn, fun _ _ => hn⟩
    · refine ⟨fun h => absurd ⟨t1, ht1.symm⟩ h, fun h => ?_⟩
      simp at h
  | case4 b0 b1 b2 bs ih =>
    intro t ht
    have hbs : IsBytes bs := fun x hx => hB x (by simp [hx])
    rw [Base64Encoder.Encode] at ht ⊢
    rcases DecodeLoop_none_peel Base64Decoder.Codec Base64Decoder_whitespace_no_symbol
      _ (Base64Encoder.Encode bs) t [] (by
        intro c hc
        simp only [List.mem_cons, List.mem_singleton, List.not_mem_nil, or_false] at hc
        rcases hc with h | h | h | h <;> rw [h] <;> exact Base64Decoder_symbol_ne_none _)
      (by simp [Base64Decoder.Codec]) ht with hn | ⟨t1, ht1, hw1⟩
    · exact ⟨fun _ => hn, fun _ _ => hn⟩
    · obtain ⟨ih1, ih2⟩ := ih hbs t1 hw1
      have hstep := Base64Decoder_step DECODE_TOLERANCE_NONE b0 b1 b2 (hB b0 (by simp))
        (hB b1 (by simp)) (hB b2 (by simp)) t1
      rw [← ht1] at hstep
      have hl : (b0 :: b1 :: b2 :: bs).length % 3 = bs.length % 3 := by
        simp only [List.length_cons]; omega
      constructor
      · intro hnp
        have : ¬ (Base64Encoder.Encode bs <+: t1) := by
          intro hp
          apply hnp
          rw [ht1]
          exact (List.prefix_append_right_inj _).mpr hp
        rw [hstep, ih1 this]; rfl
      · intro h3 hne
        have : t1 ≠ Base64Encoder.Encode bs := by
          intro h
          apply hne
          rw [ht1, h]
        rw [hstep, ih2 (by omega) this]; rfl

/-- What the modelled decoders do with `Encode(B)` after whitespace characters
are inserted at arbitrary positions. Under `DECODE_TOLERANCE_WHITESPACE` and
under `DECODE_TOLERANCE_ALL` they return exactly `B`, for Base64, Hex and Binary.
Under `DECODE_TOLERANCE_NONE`, Hex and Binary return the error value whenever
at least one whitespace character was inserted, and so does Base64 when
whitespace was inserted before the end of the encoded text, or anywhere when
the text has no `=` padding. The last conjunct for Base64 (whitespace only
after the padding, the data returned) holds of the model because `DecodeLoop`
stops at a group with `=`, as the header of `Base64Decoder` says the functions
do while warning not to rely on it; it is a fact about the model alone, the
body of `Decode` not being among the sources. -/
theorem Decode_with_whitespace (B : List Nat) (hB : IsBytes B) (t : List Nat) :
    (WhitespaceInserted (Base64Encoder.Encode B) t →
      Base64Decoder.Decode t DECODE_TOLERANCE_WHITESPACE = some B ∧
      Base64Decoder.Decode t DECODE_TOLERANCE_ALL = some B ∧
      (¬ (Base64Encoder.Encode B <+: t) →
        Base64Decoder.Decode t DECODE_TOLERANCE_NONE = none) ∧
      (B.length % 3 = 0 → t ≠ Base64Encoder.Encode B →
        Base64Decoder.Decode t DECODE_TOLERANCE_NONE = none) ∧
      (B.length % 3 ≠ 0 → Base64Encoder.Encode B <+: t →
        Base64Decoder.Decode t DECODE_TOLERANCE_NONE = some B)) ∧
    (∀ up, WhitespaceInserted (HexEncoder.Encode up B) t →
      HexDecoder.Decode t DECODE_TOLERANCE_WHITESPACE = some B ∧
      HexDecoder.Decode t DECODE_TOLERANCE_ALL = some B ∧
      (t ≠ HexEncoder.Encode up B → HexDecoder.Decode t DECODE_TOLERANCE_NONE = none)) ∧
    (WhitespaceInserted (BinEncoder.Encode B) t →
      BinDecoder.Decode t DECODE_TOLERANCE_WHITESPACE = some B ∧
      BinDecoder.Decode t DECODE_TOLERANCE_ALL = some B ∧
      (t ≠ BinEncoder.Encode B → BinDecoder.Decode t DECODE_TOLERANCE_NONE = none)) := by
  refine ⟨fun h => ⟨?_, ?_, ?_, ?_, ?_⟩, fun up h => ⟨?_, ?_, ?_⟩, fun h => ⟨?_, ?_, ?_⟩⟩
  · rw [Base64Decoder.Decode, DecodeLoop_whitespace _ _ Base64Decoder_whitespace_no_symbol
      (by decide) h, Base64Decoder_Decode_Encode _ B hB]
  · rw [Base64Decoder.Decode, DecodeLoop_whitespace _ _ Base64Decoder_whitespace_no_symbol
      (by decide) h, Base64Decoder_Decode_Encode _ B hB]
  · exact (Base64Decoder_none_reject B hB t h).1
  · exact (Base64Decoder_none_reject B hB t h).2
  · intro h3 hp
    obtain ⟨u, hu⟩ := hp
    rw [Base64Decoder.Decode, ← hu, Base64Decoder_decode_append _ B hB u, if_neg h3]
  · rw [HexDecoder.Decode, DecodeLoop_whitespace _ _ HexDecoder_whitespace_no_symbol
      (by decide) h, HexDecoder_Decode_Encode _ up B hB]
  · rw [HexDecoder.Decode, DecodeLoop_whitespace _ _ HexDecoder_whitespace_no_symbol
      (by decide) h, HexDecoder_Decode_Encode _ up B hB]
  · intro hne
    exact DecodeLoop_none_reject _ HexDecoder_whitespace_no_symbol HexDecoder_neverFinishes h
      hne []
  · rw [BinDecoder.Decode, DecodeLoop_whitespace _ _ BinDecoder_whitespace_no_symbol
      (by decide) h, BinDecoder_Decode_Encode _ B hB]
  · rw [BinDecoder.Decode, DecodeLoop_whitespace _ _ BinDecoder_whitespace_no_symbol
      (by decide) h, BinDecoder_Decode_Encode _ B hB]
  · intro hne
    exact DecodeLoop_none_reject _ BinDecoder_whitespace_no_symbol BinDecoder_neverFinishes h
      hne []

/-- The text `"/w =="`, the encoding of `[0xFF]` with a space inserted before
the padding, decodes to `[0xFF]` when whitespace is tolerated. -/
theorem Decode_with_whitespace_example :
    IsBytes [255] ∧ WhitespaceInserted (Base64Encoder.Encode [255]) [47, 119, 32, 61, 61] ∧
      Base64Decoder.Decode [47, 119, 32, 61, 61] DECODE_TOLERANCE_WHITESPACE = some [255] :=
  have hw : WhitespaceInserted (Base64Encoder.Encode [255]) [47, 119, 32, 61, 61] :=
    .keep 47 (.keep 119 (.insert 32 rfl (.keep 61 (.keep 61 .nil))))
  ⟨by decide, hw, ((Decode_with_whitespace [255] (by decide) [47, 119, 32, 61, 61]).1 hw).1⟩

/-- In the model, the text `"/w== "` (the Base64 encoding `"/w=="` of `[0xFF]`
with one space at the end) decodes to the byte `0xFF` also under
`DECODE_TOLERANCE_NONE`: the scan of `DecodeLoop` ends at the group with `=`.
Whether the library does the same is decided by the body of `Decode`, which is
not among the sources. -/
theorem Base64Decoder_Decode_after_padding :
    IsBytes [255] ∧ Base64Encoder.Encode [255] = chars "/w==" ∧
      WhitespaceInserted (Base64Encoder.Encode [255]) (chars "/w== ") ∧
      chars "/w== " ≠ Base64Encoder.Encode [255] ∧
      Base64Decoder.Decode (chars "/w== ") DECODE_TOLERANCE_NONE = some [255] ∧
      Base64Decoder.Decode (chars "/w== ") DECODE_TOLERANCE_NONE ≠ none :=
  ⟨by decide, by decide,
   .keep 47 (.keep 119 (.keep 61 (.keep 61 (.insert 32 rfl .nil)))),
   by decide, by decide, by decide⟩

/-- C4: for every byte sequence `B`, each codec and each tolerance setting,
`DecodeLength` applied to `Encode(B)` succeeds and reports exactly `len(B)`,
which is also the number of bytes `Decode` returns for that string and
tolerance. -/
theorem DecodeLength_Encode (B : List Nat) (hB : IsBytes B) (tol : DECODE_TOLERANCE) :
    (Base64Decoder.DecodeLength (Base64Encoder.Encode B) tol = some B.length ∧
      (Base64Decoder.Decode (Base64Encoder.Encode B) tol).map List.length = some B.length) ∧
    (∀ up, HexDecoder.DecodeLength (HexEncoder.Encode up B) tol = some B.length ∧
      (HexDecoder.Decode (HexEncoder.Encode up B) tol).map List.length = some B.length) ∧
    (BinDecoder.DecodeLength (BinEncoder.Encode B) tol = some B.length ∧
      (BinDecoder.Decode (BinEncoder.Encode B) tol).map List.length = some B.length) := by
  refine ⟨⟨?_, ?_⟩, fun up => ⟨?_, ?_⟩, ⟨?_, ?_⟩⟩
  · rw [Base64Decoder.DecodeLength, DecodeLengthLoop_eq _ _ Base64Decoder_lengthAgrees,
      Base64Decoder_Decode_Encode _ B hB]; rfl
  · rw [Base64Decoder.Decode, Base64Decoder_Decode_Encode _ B hB]; rfl
  · rw [HexDecoder.DecodeLength, DecodeLengthLoop_eq _ _ HexDecoder_lengthAgrees,
      HexDecoder_Decode_Encode _ up B hB]; rfl
  · rw [HexDecoder.Decode, HexDecoder_Decode_Encode _ up B hB]; rfl
  · rw [BinDecoder.DecodeLength, DecodeLengthLoop_eq _ _ BinDecoder_lengthAgrees,
      BinDecoder_Decode_Encode _ B hB]; rfl
  · rw [BinDecoder.Decode, BinDecoder_Decode_Encode _ B hB]; rfl

/-- C4 at a concrete input: the two bytes `[0, 255]`, tolerance `ALL`. -/
theorem DecodeLength_Encode_witness :
    IsBytes [0, 255] ∧
      Base64Decoder.DecodeLength (Base64Encoder.Encode [0, 255]) DECODE_TOLERANCE_ALL = some 2 :=
  ⟨by decide, (DecodeLength_Encode [0, 255] (by decide) DECODE_TOLERANCE_ALL).1.1⟩

/-! ## `Base64Encoder::Finish` -/

/-- C5: `Base64Encoder::Finish` is idempotent, for every encoder state on every
stream. The first `Finish()` (flag not yet set) runs `DoFinish` once and sets
the finished flag; a `Finish()` on a finished encoder returns it unchanged
(encoder state, `CharWriter` buffer and connected stream alike), so that a
second call after a completed first one changes nothing. On an in-memory
stream the first call appends the encoding of the carried bytes with its
padding to the text written, once. -/
theorem Base64Encoder_Finish_idempotent {σ : Type} (S : Stream σ) (BUFFER_SIZE : Nat)
    (e : Base64Encoder σ) :
    (e.m_Finished = false →
      Base64Encoder.Finish S BUFFER_SIZE e =
        (Base64Encoder.DoFinish S BUFFER_SIZE e).map (fun e0 => { e0 with m_Finished := true })) ∧
    (e.m_Finished = true → Base64Encoder.Finish S BUFFER_SIZE e = .ok e) ∧
    (∀ e1, Base64Encoder.Finish S BUFFER_SIZE e = .ok e1 →
      e1.m_Finished = true ∧ Base64Encoder.Finish S BUFFER_SIZE e1 = .ok e1 ∧
      (Base64Encoder.Finish S BUFFER_SIZE e >>= Base64Encoder.Finish S BUFFER_SIZE) =
        Base64Encoder.Finish S BUFFER_SIZE e) ∧
    (∀ m : Base64Encoder (List Nat), Base64Encoder.WellFormed BUFFER_SIZE m →
      m.m_Finished = false →
      ∃ m1, Base64Encoder.Finish MemoryWriter BUFFER_SIZE m = .ok m1 ∧
        Base64Encoder.Finish MemoryWriter BUFFER_SIZE m1 = .ok m1 ∧
        CharWriter.Written m1.m_CharWriter =
          CharWriter.Written m.m_CharWriter ++
            Base64Encoder.Encode (Base64Encoder.Carried m)) := by
  have hfin : ∀ {τ : Type} (T : Stream τ) (x : Base64Encoder τ), x.m_Finished = true →
      Base64Encoder.Finish T BUFFER_SIZE x = .ok x := by
    intro τ T x hx
    simp only [Base64Encoder.Finish, hx, Bool.not_true, Bool.false_eq_true, if_false]
  have hset : ∀ e1, Base64Encoder.Finish S BUFFER_SIZE e = .ok e1 → e1.m_Finished = true := by
    intro e1 h1
    unfold Base64Encoder.Finish at h1
    split at h1
    · cases hd : Base64Encoder.DoFinish S BUFFER_SIZE e with
      | error err => simp [hd] at h1
      | ok e0 =>
        simp only [hd, Except.ok.injEq] at h1
        rw [← h1]
    · rename_i hf
      simp only [Except.ok.injEq] at h1
      rw [← h1]
      simpa using hf
  refine ⟨?_, hfin S e, ?_, ?_⟩
  · intro hf
    simp only [Base64Encoder.Finish, hf, Bool.not_false, if_true]
    cases Base64Encoder.DoFinish S BUFFER_SIZE e <;> rfl
  · intro e1 h1
    have h2 := hfin S e1 (hset e1 h1)
    refine ⟨hset e1 h1, h2, ?_⟩
    rw [h1]
    exact h2
  · intro m hm hf
    obtain ⟨m1, h1, _, hf1, hW1⟩ := Base64Encoder_Finish_memory BUFFER_SIZE m hm hf
    exact ⟨m1, h1, hfin MemoryWriter m1 hf1, hW1⟩

/-- C5 at a concrete input: an encoder on an in-memory stream (`BUFFER_SIZE = 8`)
carrying the byte `0xFF`; the first `Finish` writes `/w==`, the second changes
nothing. -/
theorem Base64Encoder_Finish_idempotent_witness :
    Base64Encoder.Finish MemoryWriter 8
        { m_CharWriter := CharWriter.new 8 [], m_Finished := false, m_Buf := [255, 0],
          m_BufIndex := 1 } =
      .ok { m_CharWriter := { m_Stream := [], m_Buf := [47, 119, 61, 61, 0, 0, 0, 0],
                              m_BufIndex := 4 },
            m_Finished := true, m_Buf := [255, 0], m_BufIndex := 1 } ∧
    Base64Encoder.Finish MemoryWriter 8
        { m_CharWriter := { m_Stream := [], m_Buf := [47, 119, 61, 61, 0, 0, 0, 0],
                            m_BufIndex := 4 },
          m_Finished := true, m_Buf := [255, 0], m_BufIndex := 1 } =
      .ok { m_CharWriter := { m_Stream := [], m_Buf := [47, 119, 61, 61, 0, 0, 0, 0],
                              m_BufIndex := 4 },
            m_Finished := true, m_Buf := [255, 0], m_BufIndex := 1 } :=
  ⟨rfl,
   ((Base64Encoder_Finish_idempotent MemoryWriter 8
      { m_CharWriter := CharWriter.new 8 [], m_Finished := false, m_Buf := [255, 0],
        m_BufIndex := 1 }).2.2.1 _ rfl).2.1⟩

/-! ## `RingBuffer` -/

theorem mod_add_ne (C a i j : Nat) (hij : i < j) (hjC : j - i < C) :
    (a + i) % C ≠ (a + j) % C := by
  intro h
  have h1 : a + i ≡ a + j [MOD C] := h
  have h2 : i ≡ j [MOD C] := Nat.ModEq.add_left_cancel' a h1
  have h3 : C ∣ j - i := (Nat.modEq_iff_dvd' (le_of_lt hij)).mp h2
  have h4 : C ≤ j - i := Nat.le_of_dvd (by omega) h3
  omega

theorem RingBuffer.length_Fetch (C : Nat) (buf : List Nat) (n : Nat) :
    ∀ beg, (RingBuffer.Fetch C buf beg n).length = n := by
  induction n with
  | zero => intro beg; rfl
  | succ n ih => intro beg; simp [RingBuffer.Fetch, ih]

theorem RingBuffer.Fetch_add (C : Nat) (buf : List Nat) (m n : Nat) :
    ∀ beg, beg < C → RingBuffer.Fetch C buf beg (m + n) =
      RingBuffer.Fetch C buf beg m ++ RingBuffer.Fetch C buf ((beg + m) % C) n := by
  induction m with
  | zero =>
    intro beg hb
    rw [Nat.zero_add, Nat.add_zero, Nat.mod_eq_of_lt hb]
    rfl
  | succ m ih =>
    intro beg hb
    have hC : 0 < C := by omega
    have e : m + 1 + n = (m + n) + 1 := by omega
    rw [e, RingBuffer.Fetch, RingBuffer.Fetch, ih _ (Nat.mod_lt _ hC), List.cons_append,
      Nat.mod_add_mod]
    have e2 : beg + 1 + m = beg + (m + 1) := by omega
    rw [e2]

theorem RingBuffer.Fetch_set (C : Nat) (buf : List Nat) (e b : Nat) (n : Nat) :
    ∀ beg, beg < C → (∀ i, i < n → (beg + i) % C ≠ e) →
      RingBuffer.Fetch C (buf.set e b) beg n = RingBuffer.Fetch C buf beg n := by
  induction n with
  | zero => intro beg _ _; rfl
  | succ n ih =>
    intro beg hb hne
    have hC : 0 < C := by omega
    have h0 : e ≠ beg := by
      have := hne 0 (by omega)
      rw [Nat.add_zero, Nat.mod_eq_of_lt hb] at this
      exact fun h => this h.symm
    have hrest : ∀ i, i < n → ((beg + 1) % C + i) % C ≠ e := by
      intro i hi
      rw [Nat.mod_add_mod]
      have := hne (i + 1) (by omega)
      have e2 : beg + 1 + i = beg + (i + 1) := by omega
      rw [e2]
      exact this
    rw [RingBuffer.Fetch, RingBuffer.Fetch, ih _ (Nat.mod_lt _ hC) hrest]
    simp [List.getD_eq_getElem?_getD, List.getElem?_set_ne h0]

theorem RingBuffer.Store_spec (C beg : Nat) (hbeg : beg < C) (Data : List Nat) :
    ∀ (buf : List Nat) (size : Nat), buf.length = C → size + Data.length ≤ C →
      (RingBuffer.Store C buf ((beg + size) % C) Data).1.length = C ∧
      (RingBuffer.Store C buf ((beg + size) % C) Data).2 = (beg + (size + Data.length)) % C ∧
      RingBuffer.Fetch C (RingBuffer.Store C buf ((beg + size) % C) Data).1 beg
          (size + Data.length) =
        RingBuffer.Fetch C buf beg size ++ Data := by
  have hC : 0 < C := by omega
  induction Data with
  | nil => intro buf size hl _; simp [RingBuffer.Store, hl]
  | cons b bs ih =>
    intro buf size hl hsz
    simp only [List.length_cons] at hsz
    have hnext : ((beg + size) % C + 1) % C = (beg + (size + 1)) % C := by
      rw [Nat.mod_add_mod, Nat.add_assoc]
    have hlt : (beg + size) % C < buf.length := by rw [hl]; exact Nat.mod_lt _ hC
    obtain ⟨i1, i2, i3⟩ := ih (buf.set ((beg + size) % C) b) (size + 1)
      (by rw [List.length_set, hl]) (by omega)
    have e1 : size + (bs.length + 1) = size + 1 + bs.length := by omega
    simp only [RingBuffer.Store, List.length_cons, hnext, e1]
    refine ⟨i1, i2, ?_⟩
    rw [i3, RingBuffer.Fetch_add C _ size 1 beg hbeg,
      RingBuffer.Fetch_set C buf _ b size beg hbeg
        (fun i hi => mod_add_ne C beg i size hi (by omega))]
    simp [RingBuffer.Fetch, List.getD_eq_getElem?_getD, List.getElem?_set_self hlt]

/-- A `Write` that fits succeeds, keeps the invariant and appends the data. -/
theorem RingBuffer.Write_spec (rb : RingBuffer) (Data : List Nat) (hI : RingBuffer.Invariant rb)
    (hfit : Data.length ≤ rb.m_Capacity - rb.m_Size) :
    ∃ rb1, RingBuffer.Write rb Data = .ok rb1 ∧ RingBuffer.Invariant rb1 ∧
      rb1.m_Capacity = rb.m_Capacity ∧ rb1.m_Size = rb.m_Size + Data.length ∧
      RingBuffer.Contents rb1 = RingBuffer.Contents rb ++ Data := by
  obtain ⟨hC, hl, hb, hs, he⟩ := hI
  obtain ⟨s1, s2, s3⟩ := RingBuffer.Store_spec rb.m_Capacity rb.m_BegIndex hb Data rb.m_Buf
    rb.m_Size hl (by omega)
  rw [← he] at s1 s2 s3
  refine ⟨{ rb with
      m_Buf := (RingBuffer.Store rb.m_Capacity rb.m_Buf rb.m_EndIndex Data).1,
      m_EndIndex := (RingBuffer.Store rb.m_Capacity rb.m_Buf rb.m_EndIndex Data).2,
      m_Size := rb.m_Size + Data.length }, ?_, ⟨hC, s1, hb, ?_, s2⟩, rfl, rfl, s3⟩
  · simp only [RingBuffer.Write, gt_iff_lt, Nat.not_lt.mpr hfit, if_false]
  · simp only; omega

/-- The call `Read` returns the oldest bytes held, keeps the others and the invariant. -/
theorem RingBuffer.Read_spec (rb : RingBuffer) (MaxLength : Nat)
    (hI : RingBuffer.Invariant rb) :
    (RingBuffer.Read rb MaxLength).1 = (RingBuffer.Contents rb).take MaxLength ∧
      RingBuffer.Contents (RingBuffer.Read rb MaxLength).2 =
        (RingBuffer.Contents rb).drop MaxLength ∧
      RingBuffer.Invariant (RingBuffer.Read rb MaxLength).2 ∧
      (RingBuffer.Read rb MaxLength).2.m_Capacity = rb.m_Capacity ∧
      (RingBuffer.Read rb MaxLength).2.m_Size = rb.m_Size - MaxLength := by
  obtain ⟨hC, hl, hb, hs, he⟩ := hI
  have hk : min MaxLength rb.m_Size ≤ rb.m_Size := Nat.min_le_right _ _
  have hsplit := RingBuffer.Fetch_add rb.m_Capacity rb.m_Buf (min MaxLength rb.m_Size)
    (rb.m_Size - min MaxLength rb.m_Size) rb.m_BegIndex hb
  rw [Nat.add_sub_cancel' hk] at hsplit
  have hlen := RingBuffer.length_Fetch rb.m_Capacity rb.m_Buf (min MaxLength rb.m_Size)
    rb.m_BegIndex
  refine ⟨?_, ?_, ⟨hC, hl, Nat.mod_lt _ hC, by simp only [RingBuffer.Read]; omega, ?_⟩, rfl, ?_⟩
  · simp only [RingBuffer.Read, RingBuffer.Contents]
    rw [hsplit]
    by_cases hle : MaxLength ≤ rb.m_Size
    · rw [Nat.min_eq_left hle] at hlen ⊢
      rw [List.take_left' hlen]
    · have hm : min MaxLength rb.m_Size = rb.m_Size := Nat.min_eq_right (by omega)
      rw [hm, Nat.sub_self]
      simp only [RingBuffer.Fetch, List.append_nil]
      rw [List.take_of_length_le]
      rw [RingBuffer.length_Fetch]; omega
  · simp only [RingBuffer.Read, RingBuffer.Contents]
    rw [hsplit]
    by_cases hle : MaxLength ≤ rb.m_Size
    · rw [Nat.min_eq_left hle] at hlen ⊢
      rw [List.drop_left' hlen]
    · have hm : min MaxLength rb.m_Size = rb.m_Size := Nat.min_eq_right (by omega)
      rw [hm, Nat.sub_self]
      simp only [RingBuffer.Fetch, List.append_nil]
      rw [List.drop_of_length_le]
      rw [RingBuffer.length_Fetch]; omega
  · simp only [RingBuffer.Read]
    rw [Nat.mod_add_mod, he]
    congr 1
    omega
  · simp only [RingBuffer.Read]
    omega

theorem RingBuffer.Invariant_new (Capacity : Nat) (hC : 0 < Capacity) :
    RingBuffer.Invariant (RingBuffer.new Capacity) ∧
      RingBuffer.Contents (RingBuffer.new Capacity) = [] := by
  refine ⟨⟨hC, by simp [RingBuffer.new], hC, Nat.zero_le _, ?_⟩, rfl⟩
  simp [RingBuffer.new]

/-- Every completed call keeps the invariant and the capacity. -/
theorem RingBuffer.Step_Invariant (rb rb1 : RingBuffer) (op : RingBuffer.Op) (out : List Nat)
    (hI : RingBuffer.Invariant rb) (h : RingBuffer.Step rb op = .ok (out, rb1)) :
    RingBuffer.Invariant rb1 ∧ rb1.m_Capacity = rb.m_Capacity := by
  cases op with
  | Write Data =>
    simp only [RingBuffer.Step] at h
    by_cases hfit : Data.length ≤ rb.m_Capacity - rb.m_Size
    · obtain ⟨rb2, h2, hI2, hc2, _⟩ := RingBuffer.Write_spec rb Data hI hfit
      simp only [h2, Except.ok.injEq, Prod.mk.injEq] at h
      rw [← h.2]
      exact ⟨hI2, hc2⟩
    · simp [RingBuffer.Write, Nat.lt_of_not_le hfit] at h
  | Read MaxLength =>
    simp only [RingBuffer.Step, Except.ok.injEq] at h
    obtain ⟨_, _, hI2, hc2, _⟩ := RingBuffer.Read_spec rb MaxLength hI
    rw [h] at hI2 hc2
    exact ⟨hI2, hc2⟩
  | MustRead Length =>
    simp only [RingBuffer.Step, RingBuffer.MustRead] at h
    split at h
    · cases h
    · simp only [Except.ok.injEq] at h
      obtain ⟨_, _, hI2, hc2, _⟩ := RingBuffer.Read_spec rb Length hI
      rw [h] at hI2 hc2
      exact ⟨hI2, hc2⟩
  | Skip MaxLength =>
    simp only [RingBuffer.Step, RingBuffer.Skip, Except.ok.injEq, Prod.mk.injEq] at h
    obtain ⟨_, _, hI2, hc2, _⟩ := RingBuffer.Read_spec rb MaxLength hI
    rw [h.2] at hI2 hc2
    exact ⟨hI2, hc2⟩

/-- First in, first out: after any completed sequence of `Write` and `Read`
calls, the bytes held before followed by the bytes written are the bytes
returned followed by the bytes still held. -/
theorem RingBuffer.Run_spec (ops : List RingBuffer.Op) :
    ∀ (rb rb1 : RingBuffer) (out : List Nat), (∀ op ∈ ops, op.IsWriteOrRead = true) →
      RingBuffer.Invariant rb → RingBuffer.Run rb ops = .ok (out, rb1) →
      RingBuffer.Invariant rb1 ∧
        RingBuffer.Contents rb ++ RingBuffer.WrittenData ops = out ++ RingBuffer.Contents rb1 := by
  induction ops with
  | nil =>
    intro rb rb1 out _ hI h
    simp only [RingBuffer.Run, Except.ok.injEq, Prod.mk.injEq] at h
    rw [← h.1, ← h.2]
    exact ⟨hI, by simp [RingBuffer.WrittenData]⟩
  | cons op ops ih =>
    intro rb rb1 out hops hI h
    have hops2 : ∀ o ∈ ops, o.IsWriteOrRead = true := fun o ho => hops o (List.mem_cons_of_mem _ ho)
    simp only [RingBuffer.Run] at h
    cases hs : RingBuffer.Step rb op with
    | error e => simp [hs] at h
    | ok p =>
      obtain ⟨o1, rb2⟩ := p
      obtain ⟨hI2, _⟩ := RingBuffer.Step_Invariant rb rb2 op o1 hI hs
      cases hr : RingBuffer.Run rb2 ops with
      | error e => simp [hs, hr] at h
      | ok q =>
        obtain ⟨o2, rb3⟩ := q
        simp only [hs, hr, Except.ok.injEq, Prod.mk.injEq] at h
        obtain ⟨ho, hrb⟩ := h
        subst ho hrb
        obtain ⟨hI3, hc3⟩ := ih rb2 rb3 o2 hops2 hI2 hr
        refine ⟨hI3, ?_⟩
        cases op with
        | Write Data =>
          simp only [RingBuffer.Step] at hs
          by_cases hfit : Data.length ≤ rb.m_Capacity - rb.m_Size
          · obtain ⟨rb4, h4, _, _, _, hc4⟩ := RingBuffer.Write_spec rb Data hI hfit
            simp only [h4, Except.ok.injEq, Prod.mk.injEq] at hs
            obtain ⟨ho1, hrb4⟩ := hs
            subst ho1 hrb4
            rw [RingBuffer.WrittenData, ← List.append_assoc, ← hc4, hc3, List.nil_append]
          · simp [RingBuffer.Write, Nat.lt_of_not_le hfit] at hs
        | Read MaxLength =>
          simp only [RingBuffer.Step, Except.ok.injEq] at hs
          obtain ⟨r1, r2, _⟩ := RingBuffer.Read_spec rb MaxLength hI
          rw [hs] at r1 r2
          simp only at r1 r2
          have hw : RingBuffer.WrittenData (RingBuffer.Op.Read MaxLength :: ops) =
              RingBuffer.WrittenData ops := rfl
          rw [hw, List.append_assoc, ← hc3, r1, r2, ← List.append_assoc,
            List.take_append_drop]
        | MustRead Length => simpa [RingBuffer.Op.IsWriteOrRead] using hops _ (List.mem_cons_self _ _)
        | Skip MaxLength => simpa [RingBuffer.Op.IsWriteOrRead] using hops _ (List.mem_cons_self _ _)

/-- A sequence of calls that never holds more than the capacity completes. -/
theorem RingBuffer.Run_of_Fits (ops : List RingBuffer.Op) :
    ∀ (rb : RingBuffer), RingBuffer.Invariant rb →
      RingBuffer.Fits rb.m_Capacity rb.m_Size ops = true →
      ∃ out rb1, RingBuffer.Run rb ops = .ok (out, rb1) := by
  induction ops with
  | nil => intro rb _ _; exact ⟨[], rb, rfl⟩
  | cons op ops ih =>
    intro rb hI hF
    cases op with
    | Write Data =>
      simp only [RingBuffer.Fits, Bool.and_eq_true, decide_eq_true_eq] at hF
      obtain ⟨rb1, h1, hI1, hc1, hs1, _⟩ := RingBuffer.Write_spec rb Data hI (by omega)
      obtain ⟨out, rb2, h2⟩ := ih rb1 hI1 (by rw [hc1, hs1]; exact hF.2)
      exact ⟨[] ++ out, rb2, by simp only [RingBuffer.Run, RingBuffer.Step, h1, h2]⟩
    | Read MaxLength =>
      simp only [RingBuffer.Fits] at hF
      obtain ⟨_, _, hI1, hc1, hs1⟩ := RingBuffer.Read_spec rb MaxLength hI
      obtain ⟨out, rb2, h2⟩ := ih _ hI1 (by rw [hc1, hs1]; exact hF)
      exact ⟨(RingBuffer.Read rb MaxLength).1 ++ out, rb2,
        by simp only [RingBuffer.Run, RingBuffer.Step, h2]⟩
    | MustRead Length =>
      simp only [RingBuffer.Fits, Bool.and_eq_true, decide_eq_true_eq] at hF
      obtain ⟨_, _, hI1, hc1, hs1⟩ := RingBuffer.Read_spec rb Length hI
      obtain ⟨out, rb2, h2⟩ := ih _ hI1 (by rw [hc1, hs1]; exact hF.2)
      exact ⟨(RingBuffer.Read rb Length).1 ++ out, rb2,
        by simp only [RingBuffer.Run, RingBuffer.Step, RingBuffer.MustRead,
        gt_iff_lt, Nat.not_lt.mpr hF.1, if_false, h2]⟩
    | Skip MaxLength =>
      simp only [RingBuffer.Fits] at hF
      obtain ⟨_, _, hI1, hc1, hs1⟩ := RingBuffer.Read_spec rb MaxLength hI
      obtain ⟨out, rb2, h2⟩ := ih _ hI1 (by rw [hc1, hs1]; exact hF)
      exact ⟨[] ++ out, rb2,
        by simp only [RingBuffer.Run, RingBuffer.Step, RingBuffer.Skip, h2]⟩

/-- Filling an empty buffer to its capacity and reading it all back. -/
theorem RingBuffer.fill_drain (rb : RingBuffer) (D : List Nat) (hI : RingBuffer.Invariant rb)
    (h0 : rb.m_Size = 0) (hD : D.length = rb.m_Capacity) :
    ∃ rb1, RingBuffer.Run rb [.Write D, .Read rb.m_Capacity] = .ok (D, rb1) ∧
      RingBuffer.Invariant rb1 ∧ rb1.m_Size = 0 ∧ rb1.m_Capacity = rb.m_Capacity := by
  obtain ⟨rb2, h2, hI2, hc2, hs2, hC2⟩ := RingBuffer.Write_spec rb D hI (by omega)
  obtain ⟨r1, _, hI3, hc3, hs3⟩ := RingBuffer.Read_spec rb2 rb.m_Capacity hI2
  have hcont : RingBuffer.Contents rb = [] := by
    simp only [RingBuffer.Contents, h0, RingBuffer.Fetch]
  rw [hC2, hcont, List.nil_append, List.take_of_length_le (by omega)] at r1
  refine ⟨(RingBuffer.Read rb2 rb.m_Capacity).2, ?_, hI3, by omega, by omega⟩
  simp only [RingBuffer.Run, RingBuffer.Step, h2, List.nil_append, List.append_nil]
  rw [← r1]

/-- C6: `RingBuffer` is a FIFO byte queue. For every capacity `C > 0` and every
sequence of `Write` and `Read` calls on a new buffer that never holds more than
`C` bytes at once, all the calls complete and the bytes returned by the `Read`
calls, followed by the bytes still held, are exactly the bytes written, in the
same order, also when the stored data wraps past the end of the backing array
(the same holds for every sequence that completes, and a sequence can fail
only by overflow). In particular writing `C` bytes and reading `C` bytes
returns them unchanged, after which `IsEmpty()` is true and a fresh `C`-byte
`Write` succeeds and reads back unchanged. -/
theorem RingBuffer_fifo (Capacity : Nat) (hC : 0 < Capacity) :
    (∀ (ops : List RingBuffer.Op), (∀ op ∈ ops, op.IsWriteOrRead = true) →
      RingBuffer.Fits Capacity 0 ops = true →
      ∃ out rb, RingBuffer.Run (RingBuffer.new Capacity) ops = .ok (out, rb) ∧
        out ++ RingBuffer.Contents rb = RingBuffer.WrittenData ops) ∧
    (∀ (ops : List RingBuffer.Op) (out : List Nat) (rb : RingBuffer),
      (∀ op ∈ ops, op.IsWriteOrRead = true) →
      RingBuffer.Run (RingBuffer.new Capacity) ops = .ok (out, rb) →
      out ++ RingBuffer.Contents rb = RingBuffer.WrittenData ops) ∧
    (∀ (ops : List RingBuffer.Op) (e : Error), (∀ op ∈ ops, op.IsWriteOrRead = true) →
      RingBuffer.Run (RingBuffer.new Capacity) ops = .error e → e = Error.Overflow) ∧
    (∀ D D2 : List Nat, D.length = Capacity → D2.length = Capacity →
      ∃ rb1 rb2,
        RingBuffer.Run (RingBuffer.new Capacity) [.Write D, .Read Capacity] = .ok (D, rb1) ∧
        RingBuffer.IsEmpty rb1 = true ∧
        RingBuffer.Run rb1 [.Write D2, .Read Capacity] = .ok (D2, rb2) ∧
        RingBuffer.IsEmpty rb2 = true) := by
  obtain ⟨hI0, hc0⟩ := RingBuffer.Invariant_new Capacity hC
  refine ⟨?_, ?_, ?_, ?_⟩
  · intro ops hops hF
    obtain ⟨out, rb, h⟩ := RingBuffer.Run_of_Fits ops (RingBuffer.new Capacity) hI0 hF
    obtain ⟨_, hfifo⟩ := RingBuffer.Run_spec ops _ rb out hops hI0 h
    rw [hc0, List.nil_append] at hfifo
    exact ⟨out, rb, h, hfifo.symm⟩
  · intro ops out rb hops h
    obtain ⟨_, hfifo⟩ := RingBuffer.Run_spec ops _ rb out hops hI0 h
    rw [hc0, List.nil_append] at hfifo
    exact hfifo.symm
  · intro ops
    generalize RingBuffer.new Capacity = rb0
    induction ops generalizing rb0 with
    | nil => intro e _ h; simp [RingBuffer.Run] at h
    | cons op ops ih =>
      intro e hops h
      simp only [RingBuffer.Run] at h
      cases hs : RingBuffer.Step rb0 op with
      | error e1 =>
        simp only [hs, Except.error.injEq] at h
        subst h
        cases op with
        | Write Data =>
          by_cases hfit : Data.length > rb0.m_Capacity - rb0.m_Size
          · simp only [RingBuffer.Step, RingBuffer.Write, hfit, if_true,
              Except.error.injEq] at hs
            exact hs.symm
          · simp [RingBuffer.Step, RingBuffer.Write, hfit] at hs
        | Read MaxLength => simp [RingBuffer.Step] at hs
        | MustRead Length =>
          simpa [RingBuffer.Op.IsWriteOrRead] using hops _ (List.mem_cons_self _ _)
        | Skip MaxLength => simp [RingBuffer.Step] at hs
      | ok p =>
        obtain ⟨o1, rb2⟩ := p
        cases hr : RingBuffer.Run rb2 ops with
        | error e2 =>
          simp only [hs, hr, Except.error.injEq] at h
          subst h
          exact ih rb2 e2 (fun o ho => hops o (List.mem_cons_of_mem _ ho)) hr
        | ok q => simp [hs, hr] at h
  · intro D D2 hD hD2
    obtain ⟨rb1, h1, hI1, hs1, hcap1⟩ := RingBuffer.fill_drain (RingBuffer.new Capacity) D hI0 rfl hD
    obtain ⟨rb2, h2, _, hs2, _⟩ := RingBuffer.fill_drain rb1 D2 hI1 hs1 (by rw [hcap1]; exact hD2)
    rw [hcap1] at h2
    exact ⟨rb1, rb2, h1, by simp [RingBuffer.IsEmpty, RingBuffer.GetSize, hs1], h2,
      by simp [RingBuffer.IsEmpty, RingBuffer.GetSize, hs2]⟩

/-- C6 at a concrete input: capacity 3; after two bytes have been written and
read, a three-byte write wraps past the end of the array and is read back in
order. -/
theorem RingBuffer_fifo_witness :
    RingBuffer.Run (RingBuffer.new 3) [.Write [1, 2], .Read 2, .Write [3, 4, 5], .Read 2] =
      .ok ([1, 2, 3, 4],
        { m_Capacity := 3, m_Size := 1, m_Buf := [4, 5, 3], m_BegIndex := 1, m_EndIndex := 2 }) ∧
    [1, 2, 3, 4] ++ RingBuffer.Contents
        { m_Capacity := 3, m_Size := 1, m_Buf := [4, 5, 3], m_BegIndex := 1, m_EndIndex := 2 } =
      [1, 2, 3, 4, 5] :=
  ⟨rfl, (RingBuffer_fifo 3 (by decide)).2.1
    [.Write [1, 2], .Read 2, .Write [3, 4, 5], .Read 2] [1, 2, 3, 4]
    { m_Capacity := 3, m_Size := 1, m_Buf := [4, 5, 3], m_BegIndex := 1, m_EndIndex := 2 }
    (by decide) rfl⟩

/-- C8: in every `RingBuffer` state reachable from construction by `Write`,
`Read`, `MustRead` and `Skip`, the size satisfies `0 ≤ size ≤ capacity` (and the
capacity is the one given at construction); `End()` is true exactly when
`size == 0`, which is exactly when `IsEmpty()` is true, and `IsFull()` is true
exactly when `size == capacity`. -/
theorem RingBuffer_size_bounds (Capacity : Nat) (rb : RingBuffer)
    (h : RingBuffer.Reachable Capacity rb) :
    (0 ≤ rb.m_Size ∧ rb.m_Size ≤ rb.m_Capacity) ∧ rb.m_Capacity = Capacity ∧
    (RingBuffer.End rb = true ↔ rb.m_Size = 0) ∧
    (RingBuffer.IsEmpty rb = true ↔ rb.m_Size = 0) ∧
    (RingBuffer.End rb = true ↔ RingBuffer.IsEmpty rb = true) ∧
    (RingBuffer.IsFull rb = true ↔ rb.m_Size = rb.m_Capacity) := by
  have hb : rb.m_Size ≤ rb.m_Capacity ∧ rb.m_Capacity = Capacity := by
    induction h with
    | new => exact ⟨Nat.zero_le _, rfl⟩
    | @step rb0 rb1 op out _ hs ih =>
      obtain ⟨ih1, ih2⟩ := ih
      cases op with
      | Write Data =>
        by_cases hfit : Data.length > rb0.m_Capacity - rb0.m_Size
        · simp [RingBuffer.Step, RingBuffer.Write, hfit] at hs
        · simp only [RingBuffer.Step, RingBuffer.Write, hfit, if_false, Except.ok.injEq,
            Prod.mk.injEq] at hs
          rw [← hs.2]
          exact ⟨by simp only; omega, ih2⟩
      | Read MaxLength =>
        simp only [RingBuffer.Step, RingBuffer.Read, Except.ok.injEq, Prod.mk.injEq] at hs
        rw [← hs.2]
        exact ⟨by simp only; omega, ih2⟩
      | MustRead Length =>
        simp only [RingBuffer.Step, RingBuffer.MustRead] at hs
        split at hs
        · cases hs
        · simp only [RingBuffer.Read, Except.ok.injEq, Prod.mk.injEq] at hs
          rw [← hs.2]
          exact ⟨by simp only; omega, ih2⟩
      | Skip MaxLength =>
        simp only [RingBuffer.Step, RingBuffer.Skip, RingBuffer.Read, Except.ok.injEq,
          Prod.mk.injEq] at hs
        rw [← hs.2]
        exact ⟨by simp only; omega, ih2⟩
  refine ⟨⟨Nat.zero_le _, hb.1⟩, hb.2, ?_, ?_, ?_, ?_⟩
  · simp [RingBuffer.End]
  · simp [RingBuffer.IsEmpty, RingBuffer.GetSize]
  · simp [RingBuffer.End, RingBuffer.IsEmpty, RingBuffer.GetSize]
  · simp [RingBuffer.IsFull, RingBuffer.GetSize, RingBuffer.GetCapacity]

/-- C8 at a concrete input: the buffer of capacity 3 after `Write` of two
bytes, which is not empty and not full. -/
theorem RingBuffer_size_bounds_witness :
    RingBuffer.Reachable 3
        { m_Capacity := 3, m_Size := 2, m_Buf := [7, 8, 0], m_BegIndex := 0, m_EndIndex := 2 } ∧
      (RingBuffer.IsFull
        { m_Capacity := 3, m_Size := 2, m_Buf := [7, 8, 0], m_BegIndex := 0, m_EndIndex := 2 } =
          true ↔ (2 : Nat) = 3) :=
  have hr : RingBuffer.Reachable 3
      { m_Capacity := 3, m_Size := 2, m_Buf := [7, 8, 0], m_BegIndex := 0, m_EndIndex := 2 } :=
    .step (.Write [7, 8]) [] .new rfl
  ⟨hr, (RingBuffer_size_bounds 3 _ hr).2.2.2.2.2⟩

/-! ## `CharWriter`: the calls made on the stream (C12, C13) -/

/-- C12: with `BUFFER_SIZE > 0` and a `CharWriter` holding `k <= BUFFER_SIZE`
buffered bytes (observed through a stream that records every `Write`):
`WriteChar(c)` with `k < BUFFER_SIZE` issues no `Write`, stores `c` at position
`k` and makes the count `k + 1`; with `k == BUFFER_SIZE` it issues exactly one
`Write`, carrying the `BUFFER_SIZE` buffered bytes in order, then stores `c` at
position 0 and makes the count 1. `Flush` issues one `Write` of the `k` buffered
bytes when `k > 0`, none when `k == 0`, and leaves the count at 0. -/
theorem CharWriter_WriteChar_Flush_calls (BUFFER_SIZE : Nat)
    (w : CharWriter (List (List Nat))) (c : Nat) (hw : CharWriter.WellFormed BUFFER_SIZE w) :
    (w.m_BufIndex < BUFFER_SIZE →
      CharWriter.WriteChar RecordingWriter BUFFER_SIZE w c =
        .ok { m_Stream := w.m_Stream, m_Buf := w.m_Buf.set w.m_BufIndex c,
              m_BufIndex := w.m_BufIndex + 1 } ∧
      (w.m_Buf.set w.m_BufIndex c).getD w.m_BufIndex 0 = c) ∧
    (w.m_BufIndex = BUFFER_SIZE →
      CharWriter.WriteChar RecordingWriter BUFFER_SIZE w c =
        .ok { m_Stream := w.m_Stream ++ [w.m_Buf], m_Buf := w.m_Buf.set 0 c, m_BufIndex := 1 } ∧
      w.m_Buf.length = BUFFER_SIZE ∧ (w.m_Buf.set 0 c).getD 0 0 = c) ∧
    (0 < w.m_BufIndex →
      CharWriter.Flush RecordingWriter w =
        .ok { m_Stream := w.m_Stream ++ [w.m_Buf.take w.m_BufIndex], m_Buf := w.m_Buf,
              m_BufIndex := 0 } ∧
      (w.m_Buf.take w.m_BufIndex).length = w.m_BufIndex) ∧
    (w.m_BufIndex = 0 → CharWriter.Flush RecordingWriter w = .ok w) := by
  obtain ⟨hpos, hlen, hidx⟩ := hw
  refine ⟨fun hk => ⟨?_, ?_⟩, fun hk => ⟨?_, hlen, ?_⟩, fun hk => ⟨?_, ?_⟩, fun hk => ?_⟩
  · have hne : w.m_BufIndex ≠ BUFFER_SIZE := by omega
    simp only [CharWriter.WriteChar, hne, if_false]
  · have : w.m_BufIndex < w.m_Buf.length := by omega
    simp [List.getD, this]
  · have htake : w.m_Buf.take BUFFER_SIZE = w.m_Buf := by
      rw [← hlen]; exact List.take_length _
    simp only [CharWriter.WriteChar, hk, if_true, CharWriter.DoFlush, RecordingWriter,
      liftStream, htake, Nat.zero_add]
  · have : 0 < w.m_Buf.length := by omega
    simp [List.getD, this]
  · simp only [CharWriter.Flush, gt_iff_lt, hk, if_true, CharWriter.DoFlush, RecordingWriter,
      liftStream]
  · rw [List.length_take]; omega
  · simp only [CharWriter.Flush, hk, gt_iff_lt, Nat.lt_irrefl, if_false]

/-- C12 at a concrete input: `BUFFER_SIZE = 2`, a writer whose buffer holds the
two bytes `7, 8`, and the character `9`. -/
theorem CharWriter_WriteChar_Flush_calls_witness :
    CharWriter.WriteChar RecordingWriter 2 { m_Stream := [], m_Buf := [7, 8], m_BufIndex := 2 } 9 =
        .ok { m_Stream := [[7, 8]], m_Buf := [9, 8], m_BufIndex := 1 } ∧
      CharWriter.Flush RecordingWriter { m_Stream := [], m_Buf := [7, 8], m_BufIndex := 2 } =
        .ok { m_Stream := [[7, 8]], m_Buf := [7, 8], m_BufIndex := 0 } :=
  have h := CharWriter_WriteChar_Flush_calls 2 { m_Stream := [], m_Buf := [7, 8], m_BufIndex := 2 } 9
    ⟨by decide, rfl, by decide⟩
  ⟨(h.2.1 rfl).1, (h.2.2.1 (by decide)).1⟩

/-- What a `CharWriter` on a recording stream has been given: the blocks passed
to `Write` so far, concatenated, then the bytes still in the buffer. -/
theorem CharWriter_Step_recording (BUFFER_SIZE : Nat) (w : CharWriter (List (List Nat)))
    (op : CharWriter.Op) (hw : CharWriter.WellFormed BUFFER_SIZE w) :
    ∃ w1, CharWriter.Step RecordingWriter BUFFER_SIZE w op = .ok w1 ∧
      CharWriter.WellFormed BUFFER_SIZE w1 ∧
      w1.m_Stream.flatten ++ w1.m_Buf.take w1.m_BufIndex =
        (w.m_Stream.flatten ++ w.m_Buf.take w.m_BufIndex) ++ op.Chars := by
  obtain ⟨hpos, hlen, hidx⟩ := hw
  cases op with
  | WriteChar c =>
    by_cases hfull : w.m_BufIndex = BUFFER_SIZE
    · refine ⟨{ m_Stream := w.m_Stream ++ [w.m_Buf.take w.m_BufIndex], m_Buf := w.m_Buf.set 0 c,
                 m_BufIndex := 0 + 1 }, ?_, ?_, ?_⟩
      · simp only [CharWriter.Step, CharWriter.WriteChar, hfull, if_true, CharWriter.DoFlush,
          RecordingWriter, liftStream]
      · simp only [CharWriter.WellFormed, List.length_set]
        exact ⟨hpos, hlen, by omega⟩
      · have h0 : 0 < w.m_Buf.length := by omega
        have := take_set_succ w.m_Buf 0 c h0
        simp only [Nat.zero_add, List.take_zero, List.nil_append] at this
        simp only [Nat.zero_add, this, CharWriter.Op.Chars, List.flatten_append,
          List.flatten_cons, List.flatten_nil, List.append_nil]
    · refine ⟨{ w with m_Buf := w.m_Buf.set w.m_BufIndex c, m_BufIndex := w.m_BufIndex + 1 },
        ?_, ?_, ?_⟩
      · simp only [CharWriter.Step, CharWriter.WriteChar, hfull, if_false]
      · simp only [CharWriter.WellFormed, List.length_set]
        exact ⟨hpos, hlen, by omega⟩
      · have h0 : w.m_BufIndex < w.m_Buf.length := by omega
        simp only [take_set_succ w.m_Buf _ c h0, CharWriter.Op.Chars, List.append_assoc]
  | Flush =>
    by_cases h0 : w.m_BufIndex > 0
    · refine ⟨{ w with m_Stream := w.m_Stream ++ [w.m_Buf.take w.m_BufIndex], m_BufIndex := 0 },
        ?_, ⟨hpos, hlen, Nat.zero_le _⟩, ?_⟩
      · simp only [CharWriter.Step, CharWriter.Flush, h0, if_true, CharWriter.DoFlush,
          RecordingWriter, liftStream]
      · simp [CharWriter.Op.Chars]
    · exact ⟨w, by simp only [CharWriter.Step, CharWriter.Flush, h0, if_false],
        ⟨hpos, hlen, hidx⟩, by simp [CharWriter.Op.Chars]⟩

theorem CharWriter_RunOps_recording (BUFFER_SIZE : Nat) (ops : List CharWriter.Op) :
    ∀ (w : CharWriter (List (List Nat))), CharWriter.WellFormed BUFFER_SIZE w →
      ∃ w1, CharWriter.RunOps RecordingWriter BUFFER_SIZE w ops = .ok w1 ∧
        CharWriter.WellFormed BUFFER_SIZE w1 ∧
        w1.m_Stream.flatten ++ w1.m_Buf.take w1.m_BufIndex =
          (w.m_Stream.flatten ++ w.m_Buf.take w.m_BufIndex) ++ ops.flatMap CharWriter.Op.Chars := by
  induction ops with
  | nil => intro w hw; exact ⟨w, rfl, hw, by simp⟩
  | cons op ops ih =>
    intro w hw
    obtain ⟨w1, h1, hw1, hS1⟩ := CharWriter_Step_recording BUFFER_SIZE w op hw
    obtain ⟨w2, h2, hw2, hS2⟩ := ih w1 hw1
    refine ⟨w2, ?_, hw2, ?_⟩
    · simp only [CharWriter.RunOps, h1, h2]
    · rw [hS2, hS1, List.flatMap_cons, List.append_assoc]

theorem WriteDirect_recording (cs : List Nat) :
    ∀ (s : List (List Nat)), ∃ s1, WriteDirect RecordingWriter s cs = .ok s1 ∧
      s1.flatten = s.flatten ++ cs ∧ s1.length = s.length + cs.length := by
  induction cs with
  | nil => intro s; exact ⟨s, rfl, by simp, by simp⟩
  | cons c cs ih =>
    intro s
    obtain ⟨s1, h1, h2, h3⟩ := ih (s ++ [[c]])
    refine ⟨s1, ?_, ?_, ?_⟩
    · simp only [WriteDirect, RecordingWriter, liftStream]
      exact h1
    · rw [h2]; simp
    · rw [h3]; simp; omega

/-- C13: for `BUFFER_SIZE > 0` and every finite sequence of `WriteChar` and
`Flush` calls on a fresh `CharWriter`, every call completes, and the blocks
passed to the underlying `Write`, concatenated, followed by the bytes still in
the buffer, are the characters written, in order. A final `Flush` completes and
leaves the buffer empty, and the stream has then received exactly the characters
written: the same bytes as when each character is written directly to the
stream. -/
theorem CharWriter_transparent (BUFFER_SIZE : Nat) (hpos : 0 < BUFFER_SIZE)
    (ops : List CharWriter.Op) :
    ∃ w1 w2 s,
      CharWriter.RunOps RecordingWriter BUFFER_SIZE (CharWriter.new BUFFER_SIZE []) ops = .ok w1 ∧
      w1.m_Stream.flatten ++ w1.m_Buf.take w1.m_BufIndex = ops.flatMap CharWriter.Op.Chars ∧
      CharWriter.Flush RecordingWriter w1 = .ok w2 ∧ w2.m_BufIndex = 0 ∧
      w2.m_Stream.flatten = ops.flatMap CharWriter.Op.Chars ∧
      WriteDirect RecordingWriter [] (ops.flatMap CharWriter.Op.Chars) = .ok s ∧
      s.flatten = w2.m_Stream.flatten := by
  have hnew : CharWriter.WellFormed BUFFER_SIZE
      (CharWriter.new BUFFER_SIZE ([] : List (List Nat))) := by
    simp [CharWriter.WellFormed, CharWriter.new, hpos]
  obtain ⟨w1, h1, hw1, hS1⟩ := CharWriter_RunOps_recording BUFFER_SIZE ops _ hnew
  obtain ⟨w2, h2, hw2, hS2⟩ := CharWriter_Step_recording BUFFER_SIZE w1 .Flush hw1
  obtain ⟨s, h3, h4, _⟩ := WriteDirect_recording (ops.flatMap CharWriter.Op.Chars) []
  have hS1' : w1.m_Stream.flatten ++ w1.m_Buf.take w1.m_BufIndex =
      ops.flatMap CharWriter.Op.Chars := by
    rw [hS1]; simp [CharWriter.new]
  have hidx : w2.m_BufIndex = 0 := by
    simp only [CharWriter.Step, CharWriter.Flush, CharWriter.DoFlush, RecordingWriter,
      liftStream] at h2
    split at h2
    · simp only [Except.ok.injEq] at h2; rw [← h2]
    · simp only [Except.ok.injEq] at h2; rw [← h2]; omega
  have hS2' : w2.m_Stream.flatten = ops.flatMap CharWriter.Op.Chars := by
    have := hS2
    rw [hidx, hS1'] at this
    simpa [CharWriter.Op.Chars] using this
  refine ⟨w1, w2, s, h1, hS1', h2, hidx, hS2', h3, ?_⟩
  rw [h4, hS2']; simp

/-- C13 at a concrete input: `BUFFER_SIZE = 2` and the calls `WriteChar(1)`,
`WriteChar(2)`, `WriteChar(3)`, `Flush()`, `WriteChar(4)`. -/
theorem CharWriter_transparent_witness :
    ∃ w1 w2 s,
      CharWriter.RunOps RecordingWriter 2 (CharWriter.new 2 [])
        [.WriteChar 1, .WriteChar 2, .WriteChar 3, .Flush, .WriteChar 4] = .ok w1 ∧
      w1.m_Stream.flatten ++ w1.m_Buf.take w1.m_BufIndex =
        [CharWriter.Op.WriteChar 1, .WriteChar 2, .WriteChar 3, .Flush, .WriteChar 4].flatMap
          CharWriter.Op.Chars ∧
      CharWriter.Flush RecordingWriter w1 = .ok w2 ∧ w2.m_BufIndex = 0 ∧
      w2.m_Stream.flatten =
        [CharWriter.Op.WriteChar 1, .WriteChar 2, .WriteChar 3, .Flush, .WriteChar 4].flatMap
          CharWriter.Op.Chars ∧
      WriteDirect RecordingWriter []
        ([CharWriter.Op.WriteChar 1, .WriteChar 2, .WriteChar 3, .Flush, .WriteChar 4].flatMap
          CharWriter.Op.Chars) = .ok s ∧
      s.flatten = w2.m_Stream.flatten :=
  CharWriter_transparent 2 (by decide) [.WriteChar 1, .WriteChar 2, .WriteChar 3, .Flush, .WriteChar 4]
/-! ## `CRC32_Calc` (C14, C15) -/

/-- Inverting the 32 bits of a 32-bit value is subtracting it from `0xFFFFFFFF`. -/
theorem xor_ones_32 (r : Nat) (hr : r < 2 ^ 32) : r ^^^ 0xFFFFFFFF = 0xFFFFFFFF - r := by
  apply Nat.eq_of_testBit_eq
  intro i
  have h1 : (0xFFFFFFFF : Nat) = 2 ^ 32 - 1 := by norm_num
  have h2 : (0xFFFFFFFF : Nat) - r = 2 ^ 32 - (r + 1) := by omega
  rw [Nat.testBit_xor, h2, Nat.testBit_two_pow_sub_succ hr, h1, Nat.testBit_two_pow_sub_one]
  by_cases hi : i < 32
  · simp [hi]
  · have : r.testBit i = false := by
      apply Nat.testBit_lt_two_pow
      calc r < 2 ^ 32 := hr
        _ ≤ 2 ^ i := Nat.pow_le_pow_right (by decide) (by omega)
    simp [hi, this]

theorem CRC32_Calc_RunOps_filter (Write : CRC32_Calc → List Nat → CRC32_Calc)
    (ops : List CRC32_Calc.Op) : ∀ (c : CRC32_Calc),
      CRC32_Calc.RunOps Write c ops =
        CRC32_Calc.RunOps Write c (ops.filter (fun op => !op.IsGetResult)) := by
  induction ops with
  | nil => intro c; rfl
  | cons op ops ih =>
    intro c
    cases op with
    | Write Data =>
      simp only [List.filter, CRC32_Calc.Op.IsGetResult, Bool.not_false, CRC32_Calc.RunOps,
        CRC32_Calc.Step]
      exact ih _
    | GetResult =>
      simp only [List.filter, CRC32_Calc.Op.IsGetResult, Bool.not_true, CRC32_Calc.RunOps,
        CRC32_Calc.Step, CRC32_Calc.GetResult]
      exact ih _
    | Reset =>
      simp only [List.filter, CRC32_Calc.Op.IsGetResult, Bool.not_false, CRC32_Calc.RunOps,
        CRC32_Calc.Step]
      exact ih _

/-- C14: for every 32-bit register value `r`, `GetResult()` returns the bitwise
complement of `r`, which is `0xFFFFFFFF - r` and again a 32-bit value, and leaves
the register unchanged; so the object after any sequence of calls is the one
after the same sequence with the `GetResult` calls left out, whatever `Write`
does. `Reset()` sets the register to `0xFFFFFFFF` whatever it was. -/
theorem CRC32_Calc_GetResult_Reset (Write : CRC32_Calc → List Nat → CRC32_Calc)
    (c : CRC32_Calc) (ops : List CRC32_Calc.Op) (hc : c.m_CRC < 2 ^ 32) :
    (CRC32_Calc.GetResult c).1 = 0xFFFFFFFF - c.m_CRC ∧
      (CRC32_Calc.GetResult c).1 < 2 ^ 32 ∧
      (CRC32_Calc.GetResult c).2 = c ∧
      CRC32_Calc.RunOps Write c ops =
        CRC32_Calc.RunOps Write c (ops.filter (fun op => !op.IsGetResult)) ∧
      (CRC32_Calc.Reset c).m_CRC = 0xFFFFFFFF := by
  have h := xor_ones_32 c.m_CRC hc
  refine ⟨h, ?_, rfl, CRC32_Calc_RunOps_filter Write ops c, rfl⟩
  simp only [CRC32_Calc.GetResult, h]
  omega

/-- C14 at a concrete input: the register `0x12345678`, with the modelled
`Write`, and the calls `Write("a")`, `GetResult()`, `Write("b")`. -/
theorem CRC32_Calc_GetResult_Reset_witness :
    (CRC32_Calc.GetResult { m_CRC := 0x12345678 }).1 = 0xFFFFFFFF - 0x12345678 ∧
      (CRC32_Calc.GetResult { m_CRC := 0x12345678 }).1 < 2 ^ 32 ∧
      (CRC32_Calc.GetResult { m_CRC := 0x12345678 }).2 = { m_CRC := 0x12345678 } ∧
      CRC32_Calc.RunOps CRC32_Calc.Write { m_CRC := 0x12345678 }
          [.Write [97], .GetResult, .Write [98]] =
        CRC32_Calc.RunOps CRC32_Calc.Write { m_CRC := 0x12345678 }
          ([CRC32_Calc.Op.Write [97], .GetResult, .Write [98]].filter
            (fun op => !op.IsGetResult)) ∧
      (CRC32_Calc.Reset { m_CRC := 0x12345678 }).m_CRC = 0xFFFFFFFF :=
  CRC32_Calc_GetResult_Reset CRC32_Calc.Write { m_CRC := 0x12345678 }
    [.Write [97], .GetResult, .Write [98]] (by decide)

/-- One bit step keeps the register a 32-bit value. -/
theorem CRC32_Calc_UpdateBit_lt (crc : Nat) (h : crc < 2 ^ 32) :
    CRC32_Calc.UpdateBit crc < 2 ^ 32 := by
  unfold CRC32_Calc.UpdateBit
  have h1 : crc >>> 1 < 2 ^ 32 := by
    rw [Nat.shiftRight_eq_div_pow]; omega
  split
  · exact Nat.xor_lt_two_pow h1 (by decide)
  · exact h1

theorem CRC32_Calc_UpdateByte_lt (crc b : Nat) (h : crc < 2 ^ 32) (hb : b < 256) :
    CRC32_Calc.UpdateByte crc b < 2 ^ 32 := by
  unfold CRC32_Calc.UpdateByte
  have h0 : crc ^^^ b < 2 ^ 32 := Nat.xor_lt_two_pow h (by omega)
  have key : ∀ n x, x < 2 ^ 32 → CRC32_Calc.UpdateBit^[n] x < 2 ^ 32 := by
    intro n
    induction n with
    | zero => intro x hx; simpa using hx
    | succ n ih =>
      intro x hx
      rw [Function.iterate_succ_apply]
      exact ih _ (CRC32_Calc_UpdateBit_lt x hx)
  exact key 8 _ h0

/-- The modelled `Write` keeps the register a 32-bit value. -/
theorem CRC32_Calc_Write_lt (Data : List Nat) (hD : IsBytes Data) : ∀ (c : CRC32_Calc),
    c.m_CRC < 2 ^ 32 → (CRC32_Calc.Write c Data).m_CRC < 2 ^ 32 := by
  induction Data with
  | nil => intro c h; simpa [CRC32_Calc.Write] using h
  | cons b bs ih =>
    intro c h
    have hb : b < 256 := hD b (List.mem_cons_self _ _)
    have hbs : IsBytes bs := fun x hx => hD x (List.mem_cons_of_mem _ hx)
    have := ih hbs { m_CRC := CRC32_Calc.UpdateByte c.m_CRC b }
      (CRC32_Calc_UpdateByte_lt _ _ h hb)
    simpa [CRC32_Calc.Write] using this

/-- The standard check value of CRC-32: the text `"123456789"` gives `0xCBF43926`
(spec, testable properties). -/
theorem CRC32_Calc_check_value :
    CRC32_Calc.Calc [49, 50, 51, 52, 53, 54, 55, 56, 57] = 0xCBF43926 := by
  simp [CRC32_Calc.Calc, CRC32_Calc.GetResult, CRC32_Calc.Write, CRC32_Calc.new,
    CRC32_Calc.UpdateByte, CRC32_Calc.UpdateBit]

/-- C15: the CRC32 of the empty input is `0x00000000`: a `CRC32_Calc` that has
been given no bytes since construction or since the last `Reset` (also after a
`Write` of zero bytes) returns 0 from `GetResult()`, and the static
`CRC32_Calc::Calc` on zero bytes returns the same value. -/
theorem CRC32_Calc_empty (c : CRC32_Calc) :
    (CRC32_Calc.GetResult CRC32_Calc.new).1 = 0 ∧
      (CRC32_Calc.GetResult (CRC32_Calc.Reset c)).1 = 0 ∧
      (CRC32_Calc.GetResult (CRC32_Calc.Write CRC32_Calc.new [])).1 = 0 ∧
      (CRC32_Calc.GetResult (CRC32_Calc.Write (CRC32_Calc.Reset c) [])).1 = 0 ∧
      CRC32_Calc.Calc [] = 0 := by
  refine ⟨?_, ?_, ?_, ?_, ?_⟩ <;>
    simp [CRC32_Calc.GetResult, CRC32_Calc.new, CRC32_Calc.Reset, CRC32_Calc.Write,
      CRC32_Calc.Calc]

/-- C15 at a concrete object: one that has accumulated the text `"123456789"`
and is then reset. -/
theorem CRC32_Calc_empty_witness :
    (CRC32_Calc.GetResult
      (CRC32_Calc.Reset (CRC32_Calc.Write CRC32_Calc.new [49, 50, 51, 52, 53, 54, 55, 56, 57]))).1
      = 0 :=
  (CRC32_Calc_empty (CRC32_Calc.Write CRC32_Calc.new [49, 50, 51, 52, 53, 54, 55, 56, 57])).2.1

/-! ## `SetPos` of the in-memory streams (C16) -/

theorem toPtrdiff_of_int64 (pos : Int) (h1 : -2 ^ 63 ≤ pos) (h2 : pos < 2 ^ 63) :
    toPtrdiff pos = pos := by
  unfold toPtrdiff
  omega

/-- C16 as stated fails: on a `VectorStream` of size 0 the call `SetPos(-1)`
completes normally and leaves the position at -1; on a `StringStream` of size 2
the call `SetPos(3)` completes normally and leaves the position at 3. -/
theorem SetPos_range_counterexample :
    VectorStream.GetSize { m_Data := [], m_Size := 0, m_Capacity := 0, m_Pos := 0 } = 0 ∧
      VectorStream.SetPos { m_Data := [], m_Size := 0, m_Capacity := 0, m_Pos := 0 } (-1) =
        .ok { m_Data := [], m_Size := 0, m_Capacity := 0, m_Pos := -1 } ∧
      StringStream.GetSize { m_Data := [97, 98], m_Pos := 0 } = 2 ∧
      StringStream.SetPos { m_Data := [97, 98], m_Pos := 0 } 3 =
        .ok { m_Data := [97, 98], m_Pos := 3 } := by
  refine ⟨rfl, ?_, rfl, ?_⟩
  · simp only [VectorStream.SetPos, toPtrdiff_of_int64 (-1) (by decide) (by decide)]
  · simp only [StringStream.SetPos, toPtrdiff_of_int64 3 (by decide) (by decide)]

/-- C16 (as amended): for a `VectorStream` and a `StringStream` of size `n`,
`SetPos(pos)` with any `int64` value `pos` completes normally, changes nothing
but the position and sets the position to `pos`, with no range check: after
`SetPos` the position lies in `[0, n]` exactly when `0 <= pos <= n`. -/
theorem SetPos_unchecked (v : VectorStream) (s : StringStream) (pos : Int)
    (h1 : -2 ^ 63 ≤ pos) (h2 : pos < 2 ^ 63) :
    (VectorStream.SetPos v pos = .ok { v with m_Pos := pos } ∧
      ∀ v1, VectorStream.SetPos v pos = .ok v1 →
        VectorStream.GetSize v1 = VectorStream.GetSize v ∧ VectorStream.GetPos v1 = pos ∧
        ((0 ≤ VectorStream.GetPos v1 ∧ VectorStream.GetPos v1 ≤ VectorStream.GetSize v1) ↔
          (0 ≤ pos ∧ pos ≤ VectorStream.GetSize v))) ∧
    (StringStream.SetPos s pos = .ok { s with m_Pos := pos } ∧
      ∀ s1, StringStream.SetPos s pos = .ok s1 →
        StringStream.GetSize s1 = StringStream.GetSize s ∧ StringStream.GetPos s1 = pos ∧
        ((0 ≤ StringStream.GetPos s1 ∧ StringStream.GetPos s1 ≤ StringStream.GetSize s1) ↔
          (0 ≤ pos ∧ pos ≤ StringStream.GetSize s))) := by
  have hp := toPtrdiff_of_int64 pos h1 h2
  refine ⟨⟨by simp only [VectorStream.SetPos, hp], ?_⟩, ⟨by simp only [StringStream.SetPos, hp], ?_⟩⟩
  · intro v1 hv
    simp only [VectorStream.SetPos, hp, Except.ok.injEq] at hv
    subst hv
    simp [VectorStream.GetSize, VectorStream.GetPos]
  · intro s1 hs
    simp only [StringStream.SetPos, hp, Except.ok.injEq] at hs
    subst hs
    simp [StringStream.GetSize, StringStream.GetPos]

/-- C16 (as amended) at a concrete input: `SetPos(5)` on streams of size 2. -/
theorem SetPos_unchecked_witness :
    VectorStream.SetPos { m_Data := [97, 98], m_Size := 2, m_Capacity := 2, m_Pos := 0 } 5 =
        .ok { m_Data := [97, 98], m_Size := 2, m_Capacity := 2, m_Pos := 5 } ∧
      StringStream.SetPos { m_Data := [97, 98], m_Pos := 0 } 5 =
        .ok { m_Data := [97, 98], m_Pos := 5 } :=
  have h := SetPos_unchecked { m_Data := [97, 98], m_Size := 2, m_Capacity := 2, m_Pos := 0 }
    { m_Data := [97, 98], m_Pos := 0 } 5 (by decide) (by decide)
  ⟨h.1.1, h.2.1⟩

/-! ## `CharReader::ReadLine` (C11) -/

/-- On an in-memory stream `PeekChar` shows the next character of the text that
remains and `SkipChar` takes it; both report the end when nothing remains. -/
theorem CharReader_PeekSkip_memory (BUFFER_SIZE : Nat) (hpos : 0 < BUFFER_SIZE)
    (r : CharReader (List Nat)) (Out : Nat) (hr : CharReader.WellFormed r) :
    (∀ c L, CharReader.Remaining r = c :: L →
      (∃ q, CharReader.PeekChar MemoryReader BUFFER_SIZE r Out = .ok (true, c, q) ∧
        CharReader.WellFormed q ∧ CharReader.Remaining q = c :: L) ∧
      (∃ r1, CharReader.SkipChar MemoryReader BUFFER_SIZE r = .ok (true, r1) ∧
        CharReader.WellFormed r1 ∧ CharReader.Remaining r1 = L)) ∧
    (CharReader.Remaining r = [] →
      ∃ q, CharReader.PeekChar MemoryReader BUFFER_SIZE r Out = .ok (false, Out, q) ∧
        CharReader.WellFormed q ∧ CharReader.Remaining q = []) := by
  obtain ⟨hR1, hR2⟩ := CharReader.ReadChar_memory BUFFER_SIZE hpos r Out hr
  constructor
  · intro c L hrem
    obtain ⟨r1, h1, hw1, hrem1⟩ := hR1 c L hrem
    unfold CharReader.ReadChar at h1
    cases ha : CharReader.Available MemoryReader BUFFER_SIZE r with
    | error e => simp [ha] at h1
    | ok p =>
      obtain ⟨b, q⟩ := p
      cases b with
      | false => simp [ha] at h1
      | true =>
        simp only [ha, Except.ok.injEq, Prod.mk.injEq, true_and] at h1
        obtain ⟨hc, hq⟩ := h1
        have hqrem := CharReader.Available_memory BUFFER_SIZE r q true ha
        have hwq : CharReader.WellFormed q := by
          rw [← hq] at hw1
          simp only [CharReader.WellFormed] at hw1 ⊢
          omega
        refine ⟨⟨q, ?_, hwq, by rw [hqrem, hrem]⟩, ⟨r1, ?_, hw1, hrem1⟩⟩
        · simp only [CharReader.PeekChar, ha, hc]
        · simp only [CharReader.SkipChar, ha, hq]
  · intro hrem
    obtain ⟨r1, h1, hw1, hrem1⟩ := hR2 hrem
    have ha := CharReader.ReadChar_false_Available MemoryReader BUFFER_SIZE r r1 Out Out h1
    exact ⟨r1, by simp only [CharReader.PeekChar, ha], hw1, hrem1⟩

theorem SplitLine_length (text : List Nat) : ∀ (Out : List Nat),
    (SplitLine text Out).2.2.length ≤ text.length := by
  induction text with
  | nil => intro Out; simp [SplitLine]
  | cons c cs ih =>
    intro Out
    unfold SplitLine
    by_cases h13 : c = 13
    · simp only [h13, if_true]
      cases cs with
      | nil => simp
      | cons c2 cs2 =>
        by_cases h10 : c2 = 10
        · simp only [h10, if_true, List.length_cons]; omega
        · simp only [h10, if_false, List.length_cons]; omega
    · by_cases h10 : c = 10
      · simp only [h10, if_true, List.length_cons]
        simp
      · simp only [h13, h10, if_false, List.length_cons]
        have := ih (Out ++ [c])
        omega

theorem SplitLine_false (text : List Nat) : ∀ (Out : List Nat),
    (SplitLine text Out).1 = false → text = [] ∧ Out = [] ∧ SplitLine text Out = (false, [], []) := by
  induction text with
  | nil =>
    intro Out h
    simp only [SplitLine, decide_eq_false_iff_not, ne_eq, not_not] at h
    subst h
    exact ⟨rfl, rfl, by simp [SplitLine]⟩
  | cons c cs ih =>
    intro Out h
    unfold SplitLine at h
    by_cases h13 : c = 13
    · simp [h13] at h
    · by_cases h10 : c = 10
      · simp [h10] at h
      · simp only [h13, h10, if_false] at h
        have := (ih _ h).2.1
        simp at this

/-- The loop of `ReadLine` on an in-memory stream does what `SplitLine` says of
the text that remains, with fuel beyond the length of that text. -/
theorem CharReader_ReadLineLoop_memory (BUFFER_SIZE : Nat) (hpos : 0 < BUFFER_SIZE)
    (fuel : Nat) : ∀ (r : CharReader (List Nat)) (Out : List Nat), CharReader.WellFormed r →
    (CharReader.Remaining r).length < fuel →
    ∃ r1, CharReader.ReadLineLoop MemoryReader BUFFER_SIZE fuel r Out =
        some (.ok ((SplitLine (CharReader.Remaining r) Out).1,
          (SplitLine (CharReader.Remaining r) Out).2.1, r1)) ∧
      CharReader.WellFormed r1 ∧
      CharReader.Remaining r1 = (SplitLine (CharReader.Remaining r) Out).2.2 := by
  induction fuel with
  | zero => intro r Out _ h; omega
  | succ fuel ih =>
    intro r Out hr hlen
    obtain ⟨hR1, hR2⟩ := CharReader.ReadChar_memory BUFFER_SIZE hpos r 0 hr
    cases hrem : CharReader.Remaining r with
    | nil =>
      obtain ⟨r1, h1, hw1, hrem1⟩ := hR2 hrem
      refine ⟨r1, ?_, hw1, ?_⟩
      · simp only [CharReader.ReadLineLoop, h1, SplitLine]
      · simp only [SplitLine, hrem1]
    | cons c cs =>
      obtain ⟨r1, h1, hw1, hrem1⟩ := hR1 c cs hrem
      by_cases h13 : c = 13
      · obtain ⟨hP1, hP2⟩ := CharReader_PeekSkip_memory BUFFER_SIZE hpos r1 c hw1
        cases cs with
        | nil =>
          obtain ⟨q, hq, hwq, hqrem⟩ := hP2 hrem1
          refine ⟨q, ?_, hwq, ?_⟩
          · simp only [CharReader.ReadLineLoop, h1, h13, if_true, SplitLine]
            rw [← h13, hq]
          · simp only [SplitLine, h13, if_true, hqrem]
        | cons c2 cs2 =>
          obtain ⟨⟨q, hq, hwq, hqrem⟩, _⟩ := hP1 c2 cs2 hrem1
          by_cases h10 : c2 = 10
          · obtain ⟨hS1, _⟩ := CharReader_PeekSkip_memory BUFFER_SIZE hpos q 0 hwq
            obtain ⟨_, ⟨r3, h3, hw3, hrem3⟩⟩ := hS1 c2 cs2 hqrem
            refine ⟨r3, ?_, hw3, ?_⟩
            · simp only [CharReader.ReadLineLoop, h1, h13, if_true, SplitLine]
              rw [← h13, hq]
              simp only [h10, if_true, h3]
            · simp only [SplitLine, h13, h10, if_true, hrem3]
          · refine ⟨q, ?_, hwq, ?_⟩
            · simp only [CharReader.ReadLineLoop, h1, h13, if_true, SplitLine]
              rw [← h13, hq]
              simp only [h10, if_false]
            · simp only [SplitLine, h13, h10, if_true, if_false, hqrem]
      · by_cases h10 : c = 10
        · refine ⟨r1, ?_, hw1, ?_⟩
          · simp only [CharReader.ReadLineLoop, h1, h13, h10, if_true, if_false, SplitLine]
            simp
          · simp only [SplitLine, h10, if_true, hrem1]
            simp
        · have hlen1 : (CharReader.Remaining r1).length < fuel := by
            rw [hrem1]; rw [hrem] at hlen; simp only [List.length_cons] at hlen; omega
          obtain ⟨r2, h2, hw2, hrem2⟩ := ih r1 (Out ++ [c]) hw1 hlen1
          refine ⟨r2, ?_, hw2, ?_⟩
          · simp only [CharReader.ReadLineLoop, h1, h13, h10, if_false, h2, hrem1, SplitLine]
          · simp only [SplitLine, h13, h10, if_false, hrem2, hrem1]

/-- After a `\r`, a text that does not start with `\n` is split as usual. -/
theorem LinesFrom_afterCR (c : Nat) (cs cur : List Nat) (h : c ≠ 10) :
    LinesFrom (c :: cs) cur true = LinesFrom (c :: cs) cur false := by
  simp only [LinesFrom, h, if_false]

/-- The first line `SplitLine` takes and the text it leaves are the first line
and the source of the other lines of `LinesFrom`. -/
theorem LinesFrom_SplitLine (text : List Nat) : ∀ (Out : List Nat),
    LinesFrom text Out false =
      if (SplitLine text Out).1 then
        (SplitLine text Out).2.1 :: LinesFrom (SplitLine text Out).2.2 [] false
      else [] := by
  induction text with
  | nil =>
    intro Out
    by_cases h : Out = [] <;> simp [LinesFrom, SplitLine, h]
  | cons c cs ih =>
    intro Out
    by_cases h13 : c = 13
    · cases cs with
      | nil => simp [LinesFrom, SplitLine, h13]
      | cons c2 cs2 =>
        by_cases h10 : c2 = 10
        · simp [LinesFrom, SplitLine, h13, h10]
        · simp only [LinesFrom, SplitLine, h13, h10, if_true, if_false]
    · by_cases h10 : c = 10
      · simp [LinesFrom, SplitLine, h10]
      · have := ih (Out ++ [c])
        simp only [LinesFrom, SplitLine, h13, h10, if_false]
        exact this

theorem ExpectedLineCalls_nil (n : Nat) :
    ExpectedLineCalls (n + 1) [] = (false, []) :: ExpectedLineCalls n [] := by
  simp [ExpectedLineCalls, List.replicate_succ]

theorem ExpectedLineCalls_cons (n : Nat) (l : List Nat) (ls : List (List Nat)) :
    ExpectedLineCalls (n + 1) (l :: ls) = (true, l) :: ExpectedLineCalls n ls := by
  simp only [ExpectedLineCalls, List.map_cons, List.cons_append, List.take_succ_cons,
    List.cons.injEq, true_and]
  rw [List.replicate_succ', ← List.append_assoc, List.take_append_of_le_length]
  simp

/-- On an in-memory stream, `n` successive `ReadLine` calls deliver the lines of
the text that remains and then report the end, with fuel beyond the length of
that text. -/
theorem CharReader_ReadLines_memory (BUFFER_SIZE : Nat) (hpos : 0 < BUFFER_SIZE)
    (fuel n : Nat) : ∀ (r : CharReader (List Nat)), CharReader.WellFormed r →
    (CharReader.Remaining r).length < fuel →
    CharReader.ReadLines MemoryReader BUFFER_SIZE fuel n r =
      some (ExpectedLineCalls n (Lines (CharReader.Remaining r))) := by
  induction n with
  | zero => intro r _ _; simp [CharReader.ReadLines, ExpectedLineCalls]
  | succ n ih =>
    intro r hr hlen
    obtain ⟨r1, h1, hw1, hrem1⟩ :=
      CharReader_ReadLineLoop_memory BUFFER_SIZE hpos fuel r [] hr hlen
    have hlen1 : (CharReader.Remaining r1).length < fuel := by
      rw [hrem1]
      have := SplitLine_length (CharReader.Remaining r) []
      omega
    have hL := LinesFrom_SplitLine (CharReader.Remaining r) []
    simp only [CharReader.ReadLines, CharReader.ReadLine, h1, ih r1 hw1 hlen1]
    cases hb : (SplitLine (CharReader.Remaining r) []).1 with
    | false =>
      obtain ⟨ht, _, hs⟩ := SplitLine_false _ _ hb
      have hr1 : CharReader.Remaining r1 = [] := by rw [hrem1, hs]
      rw [hs, hr1, ht]
      simp only [Lines, LinesFrom, if_true]
      rw [ExpectedLineCalls_nil]
    | true =>
      simp only [hb, if_true] at hL
      simp only [Lines, hL, hrem1]
      rw [ExpectedLineCalls_cons]

theorem LinesFrom_no_terminator (text : List Nat) : ∀ (cur : List Nat) (b : Bool),
    (13 ∉ cur ∧ 10 ∉ cur) → ∀ l ∈ LinesFrom text cur b, 13 ∉ l ∧ 10 ∉ l := by
  induction text with
  | nil =>
    intro cur b hcur l hl
    by_cases h : cur = []
    · simp [LinesFrom, h] at hl
    · simp only [LinesFrom, h, if_false, List.mem_singleton] at hl
      rw [hl]; exact hcur
  | cons c cs ih =>
    intro cur b hcur l hl
    have hnil : (13 : Nat) ∉ ([] : List Nat) ∧ (10 : Nat) ∉ ([] : List Nat) := by simp
    by_cases h13 : c = 13
    · simp only [LinesFrom, h13, if_true, List.mem_cons] at hl
      rcases hl with hl | hl
      · rw [hl]; exact hcur
      · exact ih [] true hnil l hl
    · by_cases h10 : c = 10
      · cases b with
        | true =>
          simp only [LinesFrom, h10, if_true] at hl
          simp only [show (10 : Nat) ≠ 13 by decide, if_false] at hl
          exact ih [] false hnil l hl
        | false =>
          simp only [LinesFrom, h10, if_true, show (10 : Nat) ≠ 13 by decide, if_false,
            Bool.false_eq_true, List.mem_cons] at hl
          rcases hl with hl | hl
          · rw [hl]; exact hcur
          · exact ih [] false hnil l hl
      · simp only [LinesFrom, h13, h10, if_false] at hl
        refine ih (cur ++ [c]) false ?_ l hl
        simp only [List.mem_append, List.mem_singleton, not_or]
        exact ⟨⟨hcur.1, fun h => h13 h.symm⟩, ⟨hcur.2, fun h => h10 h.symm⟩⟩

theorem LinesFrom_cons (c : Nat) (cs cur : List Nat) (b : Bool) :
    LinesFrom (c :: cs) cur b =
      if c = 13 then cur :: LinesFrom cs [] true
      else if c = 10 then
        if b then LinesFrom cs [] false else cur :: LinesFrom cs [] false
      else LinesFrom cs (cur ++ [c]) false := by
  simp only [LinesFrom]

theorem LinesFrom_flatten (text : List Nat) : ∀ (cur : List Nat) (b : Bool),
    (b = true → cur = []) →
    (LinesFrom text cur b).flatten =
      cur ++ text.filter (fun c => decide (c ≠ 13 ∧ c ≠ 10)) := by
  induction text with
  | nil =>
    intro cur b _
    by_cases h : cur = [] <;> simp [LinesFrom, h]
  | cons c cs ih =>
    intro cur b hb
    have e1 := ih [] true (fun _ => rfl)
    have e2 := ih [] false (fun _ => rfl)
    have e3 := ih (cur ++ [c]) false (fun h => absurd h (by decide))
    rw [LinesFrom_cons]
    by_cases h13 : c = 13
    · simp [h13, e1]
    · by_cases h10 : c = 10
      · cases b with
        | true => simp [h10, e2, hb rfl]
        | false => simp [h10, e2]
      · simp [h13, h10, e3]

/-- A text without terminators is one line. -/
theorem LinesFrom_plain (l : List Nat) : ∀ (cur : List Nat), 13 ∉ l → 10 ∉ l → cur ++ l ≠ [] →
    LinesFrom l cur false = [cur ++ l] := by
  induction l with
  | nil =>
    intro cur _ _ h
    simp only [List.append_nil] at h ⊢
    simp only [LinesFrom, h, if_false]
  | cons c cs ih =>
    intro cur h13 h10 _
    simp only [List.mem_cons, not_or] at h13 h10
    rw [LinesFrom_cons]
    have c13 : c ≠ 13 := fun h => h13.1 h.symm
    have c10 : c ≠ 10 := fun h => h10.1 h.symm
    simp only [c13, c10, if_false]
    rw [ih (cur ++ [c]) h13.2 h10.2 (by simp)]
    simp

/-- A final unterminated line after a `\n` is one more line. -/
theorem LinesFrom_last (A l : List Nat) (hl : l ≠ []) (h13 : 13 ∉ l) (h10 : 10 ∉ l) :
    ∀ (cur : List Nat) (b : Bool),
    LinesFrom (A ++ 10 :: l) cur b = LinesFrom (A ++ [10]) cur b ++ [l] := by
  have hplain := LinesFrom_plain l [] h13 h10 (by simpa using hl)
  simp only [List.nil_append] at hplain
  induction A with
  | nil =>
    intro cur b
    simp only [List.nil_append]
    rw [LinesFrom_cons, LinesFrom_cons]
    cases b <;> simp [hplain, LinesFrom]
  | cons a as ih =>
    intro cur b
    simp only [List.cons_append]
    rw [LinesFrom_cons, LinesFrom_cons]
    by_cases a13 : a = 13
    · simp only [a13, if_true, ih, List.cons_append]
    · by_cases a10 : a = 10
      · cases b <;> simp [a10, ih]
      · simp only [a13, a10, if_false, ih]

/-- A `\n` right after a `\r` changes nothing: the text with `\r\n` at a place has
the lines of the text with `\r` alone at that place. -/
theorem LinesFrom_crlf (A B : List Nat) (hB : B.head? ≠ some 10) : ∀ (cur : List Nat) (b : Bool),
    LinesFrom (A ++ 13 :: 10 :: B) cur b = LinesFrom (A ++ 13 :: B) cur b := by
  induction A with
  | nil =>
    intro cur b
    cases B with
    | nil => simp [LinesFrom]
    | cons c cs =>
      have hc : c ≠ 10 := by
        intro h; apply hB; simp [h]
      have := LinesFrom_afterCR c cs [] hc
      simp only [List.nil_append]
      rw [LinesFrom_cons, LinesFrom_cons 13, LinesFrom_cons 10, this]
      simp
  | cons a as ih =>
    intro cur b
    simp only [List.cons_append]
    rw [LinesFrom_cons, LinesFrom_cons]
    simp only [ih]

/-- C11: for every input text (read through a `CharReader` on an in-memory
stream, any `BUFFER_SIZE > 0`), repeated `ReadLine` calls return the lines of the
text in order, each with the value true, and false from then on; every call
completes with fuel beyond the length of the text. The lines are the maximal
runs of non-terminator characters: no line holds a `\r` or `\n`, the lines
together are the text without its terminators, a `\r\n` pair counts as the one
terminator `\r` (no extra empty line), and a final unterminated line is returned
once. The text `"a\r\nb\rc\nd"` gives `"a"`, `"b"`, `"c"`, `"d"`. -/
theorem CharReader_ReadLine_lines (BUFFER_SIZE : Nat) (hpos : 0 < BUFFER_SIZE)
    (text : List Nat) (fuel n : Nat) (hfuel : text.length < fuel) :
    CharReader.ReadLines MemoryReader BUFFER_SIZE fuel n (CharReader.new BUFFER_SIZE text) =
        some (ExpectedLineCalls n (Lines text)) ∧
      ExpectedLineCalls ((Lines text).length + n) (Lines text) =
        (Lines text).map (fun l => (true, l)) ++ List.replicate n (false, []) ∧
      (∀ l ∈ Lines text, 13 ∉ l ∧ 10 ∉ l) ∧
      (Lines text).flatten = text.filter (fun c => decide (c ≠ 13 ∧ c ≠ 10)) ∧
      (∀ A B : List Nat, B.head? ≠ some 10 → Lines (A ++ 13 :: 10 :: B) = Lines (A ++ 13 :: B)) ∧
      (∀ l : List Nat, l ≠ [] → 13 ∉ l → 10 ∉ l →
        Lines (text ++ 10 :: l) = Lines (text ++ [10]) ++ [l]) ∧
      Lines (chars "a\r\nb\rc\nd") = [chars "a", chars "b", chars "c", chars "d"] := by
  obtain ⟨hw, hrem⟩ := CharReader_WellFormed_new BUFFER_SIZE text
  refine ⟨?_, ?_, ?_, ?_, ?_, ?_, ?_⟩
  · have := CharReader_ReadLines_memory BUFFER_SIZE hpos fuel n _ hw (by rw [hrem]; exact hfuel)
    rw [this, hrem]
  · unfold ExpectedLineCalls
    rw [List.take_append_eq_append_take]
    simp
  · exact LinesFrom_no_terminator text [] false (by simp)
  · simpa using LinesFrom_flatten text [] false (fun h => absurd h (by decide))
  · intro A B hB
    exact LinesFrom_crlf A B hB [] false
  · intro l hl h13 h10
    exact LinesFrom_last text l hl h13 h10 [] false
  · decide

/-- C11 at a concrete input: the text `"a\r\nb\rc\nd"` read with `BUFFER_SIZE = 2`
(the `\r` of the first line ends a buffer and its `\n` starts the next one), six
calls with fuel 10. -/
theorem CharReader_ReadLine_lines_witness :
    CharReader.ReadLines MemoryReader 2 10 6 (CharReader.new 2 (chars "a\r\nb\rc\nd")) =
      some (ExpectedLineCalls 6 (Lines (chars "a\r\nb\rc\nd"))) :=
  (CharReader_ReadLine_lines 2 (by decide) (chars "a\r\nb\rc\nd") 10 6 (by decide)).1

/-- The expected results of six calls on the text `"a\r\nb\rc\nd"`, spelled out. -/
theorem ExpectedLineCalls_example :
    ExpectedLineCalls 6 (Lines (chars "a\r\nb\rc\nd")) =
      [(true, [97]), (true, [98]), (true, [99]), (true, [100]), (false, []), (false, [])] := by
  decide
/-! ## `FileStream` (C17, C18, C19) -/

theorem toInt32_of_lt (n : Nat) (h : n < 2 ^ 31) : toInt32 (n : Int) = n := by
  unfold toInt32
  omega

theorem toUInt64_of_lt (n : Nat) (h : n < 2 ^ 64) : toUInt64 (n : Int) = n := by
  unfold toUInt64
  omega

/-- On Win32, where positions and sizes are 64-bit values throughout, `End()`
returns true exactly when the position is the size, and leaves the file as it
found it. -/
theorem FileStream_Win32_End (f : OsFile) (hs : f.Size < 2 ^ 63) (hp : f.Pos < 2 ^ 63) :
    FileStream.Win32.End f = .ok (decide (f.Pos = f.Size), f) := by
  have h1 : toUInt64 (f.Size : Int) = f.Size := toUInt64_of_lt _ (by omega)
  have h2 : toUInt64 (f.Pos : Int) = f.Pos := toUInt64_of_lt _ (by omega)
  have h3 : ¬ ((f.Pos : Int) < 0) := by omega
  have hg : FileStream.Win32.GetSize f = .ok (f.Size, f) := by
    simp only [FileStream.Win32.GetSize, GetFileSizeEx, Bool.not_true, Bool.false_eq_true,
      if_false, h1]
  have hq : FileStream.Win32.GetPos f = .ok ((f.Pos : Int), f) := by
    simp only [FileStream.Win32.GetPos, SetFilePointerEx, OsFile.Target, h3, if_false,
      Bool.not_true, Bool.false_eq_true, Int.add_zero, Int.toNat_ofNat]
  unfold FileStream.Win32.End
  rw [hg]
  simp only
  rw [hq]
  simp only [h2]
  by_cases h : f.Pos = f.Size
  · simp [h]
  · have h4 : f.Size ≠ f.Pos := fun e => h e.symm
    simp [h, h4]

theorem FileStream_Posix_GetPos_small (f : OsFile) (hp : f.Pos < 2 ^ 31) :
    FileStream.Posix.GetPos f = .ok ((f.Pos : Int), f) := by
  have h1 : toInt32 (f.Pos : Int) = f.Pos := toInt32_of_lt _ hp
  have h3 : ¬ ((f.Pos : Int) < 0) := by omega
  unfold FileStream.Posix.GetPos ftell
  simp only [h1, h3, if_false]

theorem FileStream_Posix_SetPos_small (f : OsFile) (p : Nat) :
    FileStream.Posix.SetPos f (p : Int) = .ok { f with Pos := p } := by
  have h3 : ¬ ((p : Int) < 0) := by omega
  unfold FileStream.Posix.SetPos fseek
  simp only [OsFile.Target, h3, if_false, Int.toNat_ofNat, Int.lt_irrefl]

theorem FileStream_Posix_SetPosFromEnd_zero (f : OsFile) :
    FileStream.Posix.SetPosFromEnd f 0 = .ok { f with Pos := f.Size } := by
  have h0 : toInt32 0 = 0 := by unfold toInt32; omega
  have h3 : ¬ ((f.Size : Int) < 0) := by omega
  unfold FileStream.Posix.SetPosFromEnd fseek
  simp only [OsFile.Target, h0, Int.add_zero, h3, if_false, Int.toNat_ofNat, Int.lt_irrefl]

/-- On POSIX, for a file of less than `2^31` bytes, `GetSize()` returns the size
and restores the position it found. -/
theorem FileStream_Posix_GetSize (f : OsFile) (hp : f.Pos < 2 ^ 31) (hs : f.Size < 2 ^ 31) :
    FileStream.Posix.GetSize f = .ok (f.Size, f) := by
  unfold FileStream.Posix.GetSize
  rw [FileStream_Posix_GetPos_small f hp]
  simp only
  rw [FileStream_Posix_SetPosFromEnd_zero f]
  simp only
  rw [FileStream_Posix_GetPos_small { Size := f.Size, Pos := f.Size } hs]
  simp only
  rw [FileStream_Posix_SetPos_small]
  simp only [toUInt64_of_lt f.Size (by omega)]

/-- On POSIX, for a file of less than `2^31` bytes and a position within it,
`End()` returns true exactly when the position is the size, and leaves the file
as it found it. -/
theorem FileStream_Posix_End (f : OsFile) (hp : f.Pos ≤ f.Size) (hs : f.Size < 2 ^ 31) :
    FileStream.Posix.End f = .ok (decide (f.Pos = f.Size), f) := by
  have hp1 : f.Pos < 2 ^ 31 := by omega
  unfold FileStream.Posix.End
  rw [FileStream_Posix_GetPos_small f hp1]
  simp only
  rw [FileStream_Posix_GetSize f hp1 hs]
  simp only [toUInt64_of_lt f.Pos (by omega)]
  by_cases h : f.Pos = f.Size <;> simp [h]

/-- For `NullStream` the size is 0, the position is 0, `End()` is true and
`Read` delivers nothing. -/
theorem NullStream_End :
    NullStream.End = decide (NullStream.GetPos = (NullStream.GetSize : Int)) ∧
      NullStream.GetSize = 0 ∧ NullStream.GetPos = 0 ∧ ∀ n, NullStream.Read n = 0 :=
  ⟨by decide, rfl, rfl, fun _ => rfl⟩

theorem toInt32_wrap (x k : Int) (h1 : -2 ^ 31 ≤ x) (h2 : x < 2 ^ 31) :
    toInt32 (x + k * 2 ^ 32) = x := by
  unfold toInt32
  omega

/-- On POSIX, for a file of `2^32 + 5` bytes with the position at `2^32`, `End()`
takes the position for 0 and leaves the file pointer at 0. -/
theorem FileStream_Posix_End_moves :
    FileStream.Posix.End { Size := 2 ^ 32 + 5, Pos := 2 ^ 32 } =
        .ok (false, { Size := 2 ^ 32 + 5, Pos := 0 }) := by
  have e1 : toInt32 (((2 ^ 32 : Nat) : Int)) = 0 := by
    have := toInt32_wrap 0 1 (by norm_num) (by norm_num)
    simpa using this
  have e2 : toInt32 (((2 ^ 32 + 5 : Nat) : Int)) = 5 := by
    have := toInt32_wrap 5 1 (by norm_num) (by norm_num)
    rw [← this]; congr 1
  have e0 : toInt32 0 = 0 := by
    have := toInt32_wrap 0 0 (by norm_num) (by norm_num)
    simpa using this
  have g1 : FileStream.Posix.GetPos { Size := 2 ^ 32 + 5, Pos := 2 ^ 32 } =
      .ok (0, { Size := 2 ^ 32 + 5, Pos := 2 ^ 32 }) := by
    simp only [FileStream.Posix.GetPos, ftell, e1, Int.lt_irrefl, if_false]
  have g2 : FileStream.Posix.SetPosFromEnd { Size := 2 ^ 32 + 5, Pos := 2 ^ 32 } 0 =
      .ok { Size := 2 ^ 32 + 5, Pos := 2 ^ 32 + 5 } :=
    FileStream_Posix_SetPosFromEnd_zero _
  have g3 : FileStream.Posix.GetPos { Size := 2 ^ 32 + 5, Pos := 2 ^ 32 + 5 } =
      .ok (5, { Size := 2 ^ 32 + 5, Pos := 2 ^ 32 + 5 }) := by
    have h5 : ¬ ((5 : Int) < 0) := by decide
    simp only [FileStream.Posix.GetPos, ftell, e2, h5, if_false]
  have g4 : FileStream.Posix.SetPos { Size := 2 ^ 32 + 5, Pos := 2 ^ 32 + 5 } 0 =
      .ok { Size := 2 ^ 32 + 5, Pos := 0 } :=
    FileStream_Posix_SetPos_small _ 0
  have g5 : toUInt64 5 = 5 := toUInt64_of_lt 5 (by norm_num)
  have g6 : toUInt64 0 = 0 := toUInt64_of_lt 0 (by norm_num)
  unfold FileStream.Posix.End
  rw [g1]
  simp only
  unfold FileStream.Posix.GetSize
  rw [g1]
  simp only
  rw [g2]
  simp only
  rw [g3]
  simp only
  rw [g4]
  simp only [g5, g6]
  rfl

/-- C17 fails on the POSIX implementation for a file of `2^31` bytes with the
position at its end (`p == s`): `int r = ftell(...)` in `GetPos` turns the
position `2^31` into a negative `int`, and `End()` throws `ErrnoError` instead of
returning true. For a file of `2^32 + 5` bytes with the position at `2^32` the
call returns, but leaves the position at 0. The Win32 implementation returns
true for the first file and leaves the position where it was. -/
theorem FileStream_End_large_file :
    FileStream.Posix.End { Size := 2 ^ 31, Pos := 2 ^ 31 } = .error .ErrnoError ∧
      FileStream.Posix.End { Size := 2 ^ 32 + 5, Pos := 2 ^ 32 } =
        .ok (false, { Size := 2 ^ 32 + 5, Pos := 0 }) ∧
      FileStream.Win32.End { Size := 2 ^ 31, Pos := 2 ^ 31 } =
        .ok (true, { Size := 2 ^ 31, Pos := 2 ^ 31 }) := by
  refine ⟨?_, FileStream_Posix_End_moves, ?_⟩
  · have h : toInt32 (ftell { Size := 2 ^ 31, Pos := 2 ^ 31 }) < 0 := by
      simp only [toInt32, ftell]
      omega
    simp only [FileStream.Posix.End, FileStream.Posix.GetPos, h, if_true]
  · exact FileStream_Win32_End { Size := 2 ^ 31, Pos := 2 ^ 31 } (by norm_num) (by norm_num)

/-- C18: on both implementations `FileStream::Write` returns normally exactly
when the operating-system call reports no error and transferred all `Size`
bytes; whenever the call reports fewer than `Size` bytes written, or an error,
`Write` throws. On Win32 the call is made for `(DWORD)Size` bytes and delivers at
most what it was asked for. -/
theorem FileStream_Write_all_or_throw (fwrite : Nat → StdioCall) (WriteFile : Nat → Win32Call)
    (Size : Nat) (hOS : ∀ n, (WriteFile n).Count ≤ n) :
    (FileStream.Posix.Write fwrite Size = .ok () ↔
        (fwrite Size).Count = Size ∧ (fwrite Size).ferror = 0) ∧
      ((fwrite Size).Count < Size ∨ (fwrite Size).ferror ≠ 0 →
        FileStream.Posix.Write fwrite Size = .error .Error) ∧
      (FileStream.Win32.Write WriteFile Size = .ok () ↔
        (WriteFile (Size % 2 ^ 32)).Return ≠ 0 ∧ (WriteFile (Size % 2 ^ 32)).Count = Size) ∧
      ((WriteFile (Size % 2 ^ 32)).Return = 0 →
        FileStream.Win32.Write WriteFile Size = .error .Win32Error) ∧
      ((WriteFile (Size % 2 ^ 32)).Return ≠ 0 → (WriteFile (Size % 2 ^ 32)).Count < Size →
        FileStream.Win32.Write WriteFile Size = .error .Error) := by
  have hc := hOS (Size % 2 ^ 32)
  have hlt : Size % 2 ^ 32 < 2 ^ 32 := Nat.mod_lt _ (by decide)
  have hle : Size % 2 ^ 32 ≤ Size := Nat.mod_le _ _
  have hm : (WriteFile (Size % 2 ^ 32)).Count % 2 ^ 32 = (WriteFile (Size % 2 ^ 32)).Count :=
    Nat.mod_eq_of_lt (by omega)
  refine ⟨?_, ?_, ?_, ?_, ?_⟩
  · unfold FileStream.Posix.Write
    by_cases h1 : (fwrite Size).Count = Size <;> by_cases h2 : (fwrite Size).ferror = 0 <;>
      simp [h1, h2]
  · intro h
    unfold FileStream.Posix.Write
    have : (fwrite Size).Count ≠ Size ∨ (fwrite Size).ferror ≠ 0 := by
      rcases h with h | h
      · left; omega
      · right; exact h
    simp only [this, if_true]
  · unfold FileStream.Win32.Write
    simp only [hm]
    generalize WriteFile (Size % 2 ^ 32) = os
    by_cases h1 : os.Return = 0 <;> by_cases h2 : os.Count = Size <;> simp [h1, h2]
  · intro h
    simp only [FileStream.Win32.Write, h, if_true]
  · intro h1 h2
    have h3 : (WriteFile (Size % 2 ^ 32)).Count ≠ Size := by omega
    simp only [FileStream.Win32.Write, h1, if_false, hm, ne_eq, h3, not_false_eq_true, if_true]

/-- C18 at a concrete input: a request of 5 bytes of which the operating system
writes 3 without reporting an error. -/
theorem FileStream_Write_all_or_throw_witness :
    FileStream.Posix.Write (fun _ => { Count := 3, ferror := 0 }) 5 = .error .Error ∧
      FileStream.Win32.Write (fun n => { Return := 1, Count := min n 3 }) 5 = .error .Error :=
  have h := FileStream_Write_all_or_throw (fun _ => { Count := 3, ferror := 0 })
    (fun n => { Return := 1, Count := min n 3 }) 5 (fun n => Nat.min_le_left n 3)
  ⟨h.2.1 (Or.inl (by decide)), h.2.2.2.2 (by decide) (by decide)⟩

/-- C19: on both implementations, with an operating system that delivers at most
what it is asked for, `FileStream::Read` returns the number `n` of bytes the
operating system delivered, `0 <= n <= Size`, whenever the call reports no error,
a short read included; it throws exactly when the call reports an error. -/
theorem FileStream_Read_count (fread : Nat → StdioCall) (ReadFile : Nat → Win32Call) (Size : Nat)
    (hfread : ∀ n, (fread n).Count ≤ n) (hReadFile : ∀ n, (ReadFile n).Count ≤ n) :
    ((fread Size).ferror = 0 →
        FileStream.Posix.Read fread Size = .ok (fread Size).Count ∧ (fread Size).Count ≤ Size) ∧
      ((∃ e, FileStream.Posix.Read fread Size = .error e) ↔ (fread Size).ferror ≠ 0) ∧
      ((ReadFile (Size % 2 ^ 32)).Return ≠ 0 →
        FileStream.Win32.Read ReadFile Size = .ok (ReadFile (Size % 2 ^ 32)).Count ∧
        (ReadFile (Size % 2 ^ 32)).Count ≤ Size) ∧
      ((∃ e, FileStream.Win32.Read ReadFile Size = .error e) ↔
        (ReadFile (Size % 2 ^ 32)).Return = 0) := by
  have hc := hReadFile (Size % 2 ^ 32)
  have hlt : Size % 2 ^ 32 < 2 ^ 32 := Nat.mod_lt _ (by decide)
  have hle : Size % 2 ^ 32 ≤ Size := Nat.mod_le _ _
  have hm : (ReadFile (Size % 2 ^ 32)).Count % 2 ^ 32 = (ReadFile (Size % 2 ^ 32)).Count :=
    Nat.mod_eq_of_lt (by omega)
  refine ⟨?_, ?_, ?_, ?_⟩
  · intro h
    exact ⟨by simp only [FileStream.Posix.Read, h, ne_eq, not_true_eq_false, if_false],
      hfread Size⟩
  · unfold FileStream.Posix.Read
    by_cases h : (fread Size).ferror = 0 <;> simp [h]
  · intro h
    exact ⟨by simp only [FileStream.Win32.Read, h, if_false, hm], by omega⟩
  · unfold FileStream.Win32.Read
    generalize ReadFile (Size % 2 ^ 32) = os
    by_cases h : os.Return = 0 <;> simp [h]

/-- C19 at a concrete input: a request of 5 bytes of which the operating system
delivers 3 without reporting an error (a short read). -/
theorem FileStream_Read_count_witness :
    FileStream.Posix.Read (fun n => { Count := min n 3, ferror := 0 }) 5 = .ok 3 ∧
      FileStream.Win32.Read (fun n => { Return := 1, Count := min n 3 }) 5 = .ok 3 :=
  have h := FileStream_Read_count (fun n => { Count := min n 3, ferror := 0 })
    (fun n => { Return := 1, Count := min n 3 }) 5 (fun n => Nat.min_le_left n 3)
    (fun n => Nat.min_le_left n 3)
  ⟨(h.1 rfl).1, (h.2.2.1 (by decide)).1⟩
/-! ## `DirLister` (C20) -/

theorem DirLister_Posix_ReadNext_none (Entries : List DirEntry)
    (h : Entries.filter (fun e => !e.IsDots) = []) :
    (DirLister.Posix.ReadNext Entries).1 = none ∧
      (DirLister.Posix.ReadNext Entries).2.filter (fun e => !e.IsDots) = [] := by
  induction Entries with
  | nil => exact ⟨rfl, rfl⟩
  | cons e es ih =>
    by_cases hd : e.IsDots = true
    · simp only [List.filter, hd, Bool.not_true] at h
      simp only [DirLister.Posix.ReadNext, hd, if_true]
      exact ih h
    · simp [List.filter, hd] at h

theorem DirLister_Posix_ReadNext_some (Entries : List DirEntry) (x : DirEntry)
    (xs : List DirEntry) (h : Entries.filter (fun e => !e.IsDots) = x :: xs) :
    (DirLister.Posix.ReadNext Entries).1 = some (x.Name, x.Type) ∧
      (DirLister.Posix.ReadNext Entries).2.filter (fun e => !e.IsDots) = xs := by
  induction Entries with
  | nil => simp at h
  | cons e es ih =>
    by_cases hd : e.IsDots = true
    · simp only [List.filter, hd, Bool.not_true] at h
      simp only [DirLister.Posix.ReadNext, hd, if_true]
      exact ih h
    · simp only [List.filter, hd, Bool.not_false, List.cons.injEq] at h
      simp only [DirLister.Posix.ReadNext, hd, if_false, Bool.false_eq_true]
      exact ⟨by rw [h.1], h.2⟩

theorem DirLister_ExpectedCalls_nil (n : Nat) (Entries : List DirEntry)
    (h : Entries.filter (fun e => !e.IsDots) = []) :
    DirLister.ExpectedCalls (n + 1) Entries = none :: DirLister.ExpectedCalls n Entries := by
  simp [DirLister.ExpectedCalls, DirLister.Expected, h, List.replicate_succ]

theorem DirLister_ExpectedCalls_cons (n : Nat) (Entries Rest : List DirEntry) (x : DirEntry)
    (xs : List DirEntry) (h : Entries.filter (fun e => !e.IsDots) = x :: xs)
    (hr : Rest.filter (fun e => !e.IsDots) = xs) :
    DirLister.ExpectedCalls (n + 1) Entries =
      some (x.Name, x.Type) :: DirLister.ExpectedCalls n Rest := by
  simp only [DirLister.ExpectedCalls, DirLister.Expected, h, hr, List.map_cons, List.cons_append,
    List.take_succ_cons, List.cons.injEq, true_and]
  rw [List.replicate_succ', ← List.append_assoc, List.take_append_of_le_length]
  simp

theorem DirLister_Posix_ReadNexts (n : Nat) : ∀ (Entries : List DirEntry),
    DirLister.Posix.ReadNexts n Entries = DirLister.ExpectedCalls n Entries := by
  induction n with
  | zero => intro Entries; simp [DirLister.Posix.ReadNexts, DirLister.ExpectedCalls]
  | succ n ih =>
    intro Entries
    cases hf : Entries.filter (fun e => !e.IsDots) with
    | nil =>
      obtain ⟨h1, h2⟩ := DirLister_Posix_ReadNext_none Entries hf
      rw [DirLister_ExpectedCalls_nil n Entries hf]
      simp only [DirLister.Posix.ReadNexts, h1, ih]
      simp [DirLister.ExpectedCalls, DirLister.Expected, h2, hf]
    | cons x xs =>
      obtain ⟨h1, h2⟩ := DirLister_Posix_ReadNext_some Entries x xs hf
      rw [DirLister_ExpectedCalls_cons n Entries _ x xs hf h2]
      simp only [DirLister.Posix.ReadNexts, h1, ih]

theorem DirLister_Win32_SkipDots_settled (fuel : Nat) (d : DirLister.Win32)
    (h : DirLister.Win32.Settled d) : DirLister.Win32.SkipDots (fuel + 1) d = some d := by
  rcases h with h | h <;> simp [DirLister.Win32.SkipDots, h]

theorem DirLister_Win32_Advance (d : DirLister.Win32) (h : d.m_ReachedEnd = false) :
    DirLister.Win32.Pending (DirLister.Win32.Advance d) =
        d.m_Handle.filter (fun e => !e.IsDots) ∧
      ((DirLister.Win32.Advance d).m_ReachedEnd = true ∨
        ((DirLister.Win32.Advance d).m_ReachedEnd = false ∧
          (DirLister.Win32.Advance d).m_Handle.length + 1 = d.m_Handle.length)) := by
  cases hh : d.m_Handle with
  | nil => simp [DirLister.Win32.Advance, FindNextFile, hh, DirLister.Win32.Pending]
  | cons e es =>
    simp [DirLister.Win32.Advance, FindNextFile, hh, DirLister.Win32.Pending, h]

theorem DirLister_Win32_SkipDots (fuel : Nat) : ∀ (d : DirLister.Win32),
    (if d.m_ReachedEnd then 1 else d.m_Handle.length + 2) ≤ fuel →
    ∃ d1, DirLister.Win32.SkipDots fuel d = some d1 ∧ DirLister.Win32.Settled d1 ∧
      DirLister.Win32.Pending d1 = DirLister.Win32.Pending d ∧
      d1.m_Handle.length ≤ d.m_Handle.length := by
  induction fuel with
  | zero => intro d h; split at h <;> omega
  | succ fuel ih =>
    intro d h
    by_cases hend : d.m_ReachedEnd = true
    · exact ⟨d, DirLister_Win32_SkipDots_settled fuel d (Or.inl hend), Or.inl hend, rfl,
        Nat.le_refl _⟩
    · have hend1 : d.m_ReachedEnd = false := by simpa using hend
      by_cases hd : d.m_FindData.IsDots = true
      · obtain ⟨hp, hlen⟩ := DirLister_Win32_Advance d hend1
        simp only [hend1, Bool.false_eq_true, if_false] at h
        have hneed : (if (DirLister.Win32.Advance d).m_ReachedEnd then 1
            else (DirLister.Win32.Advance d).m_Handle.length + 2) ≤ fuel := by
          rcases hlen with h1 | ⟨h1, h2⟩
          · simp only [h1, if_true]; omega
          · simp only [h1, Bool.false_eq_true, if_false]; omega
        obtain ⟨d1, hs, hset, hpend, hl⟩ := ih _ hneed
        have hfuel : ∃ k, fuel = k + 1 := by
          cases fuel with
          | zero => split at hneed <;> omega
          | succ k => exact ⟨k, rfl⟩
        obtain ⟨k, hk⟩ := hfuel
        refine ⟨d1, ?_, hset, ?_, ?_⟩
        · simp only [DirLister.Win32.SkipDots, hend1, hd, Bool.not_false, Bool.and_self,
            if_true, hs]
          rw [hk]
          exact DirLister_Win32_SkipDots_settled k d1 hset
        · rw [hpend, hp]
          simp [DirLister.Win32.Pending, hend1, List.filter, hd]
        · rcases hlen with h1 | ⟨h1, h2⟩
          · have : (DirLister.Win32.Advance d).m_Handle.length ≤ d.m_Handle.length := by
              cases hh : d.m_Handle with
              | nil => simp [DirLister.Win32.Advance, FindNextFile, hh]
              | cons e es => simp [DirLister.Win32.Advance, FindNextFile, hh]
            omega
          · omega
      · have hd1 : d.m_FindData.IsDots = false := by simpa using hd
        exact ⟨d, DirLister_Win32_SkipDots_settled fuel d (Or.inr hd1), Or.inr hd1, rfl,
          Nat.le_refl _⟩

theorem DirLister_Win32_Pending_filter (d : DirLister.Win32) :
    (DirLister.Win32.Pending d).filter (fun e => !e.IsDots) = DirLister.Win32.Pending d := by
  unfold DirLister.Win32.Pending
  split
  · rfl
  · rw [List.filter_filter]; simp

theorem DirLister_Win32_ReadNexts (fuel n : Nat) : ∀ (d : DirLister.Win32),
    DirLister.Win32.Settled d → d.m_Handle.length + 2 ≤ fuel →
    DirLister.Win32.ReadNexts fuel n d =
      some (DirLister.ExpectedCalls n (DirLister.Win32.Pending d)) := by
  induction n with
  | zero => intro d _ _; simp [DirLister.Win32.ReadNexts, DirLister.ExpectedCalls]
  | succ n ih =>
    intro d hset hfuel
    by_cases hend : d.m_ReachedEnd = true
    · have hp : DirLister.Win32.Pending d = [] := by simp [DirLister.Win32.Pending, hend]
      have hf : (DirLister.Win32.Pending d).filter (fun e => !e.IsDots) = [] := by
        rw [hp]; rfl
      rw [DirLister_ExpectedCalls_nil n _ hf]
      simp only [DirLister.Win32.ReadNexts, DirLister.Win32.ReadNext, hend, if_true,
        ih d hset hfuel]
    · have hend1 : d.m_ReachedEnd = false := by simpa using hend
      have hd : d.m_FindData.IsDots = false := by
        rcases hset with h | h
        · exact absurd h hend
        · exact h
      obtain ⟨hp, hlen⟩ := DirLister_Win32_Advance d hend1
      have hneed : (if (DirLister.Win32.Advance d).m_ReachedEnd then 1
          else (DirLister.Win32.Advance d).m_Handle.length + 2) ≤ fuel := by
        rcases hlen with h1 | ⟨h1, h2⟩
        · simp only [h1, if_true]; omega
        · simp only [h1, Bool.false_eq_true, if_false]; omega
      obtain ⟨d1, hs, hset1, hpend, hl⟩ := DirLister_Win32_SkipDots fuel _ hneed
      have hl1 : d1.m_Handle.length + 2 ≤ fuel := by
        have : (DirLister.Win32.Advance d).m_Handle.length ≤ d.m_Handle.length := by
          cases hh : d.m_Handle with
          | nil => simp [DirLister.Win32.Advance, FindNextFile, hh]
          | cons e es => simp [DirLister.Win32.Advance, FindNextFile, hh]
        omega
      have hP : DirLister.Win32.Pending d =
          d.m_FindData :: d.m_Handle.filter (fun e => !e.IsDots) := by
        simp [DirLister.Win32.Pending, hend1, List.filter, hd]
      have hf : (DirLister.Win32.Pending d).filter (fun e => !e.IsDots) =
          d.m_FindData :: d.m_Handle.filter (fun e => !e.IsDots) := by
        rw [DirLister_Win32_Pending_filter, hP]
      have hr : (DirLister.Win32.Pending d1).filter (fun e => !e.IsDots) =
          d.m_Handle.filter (fun e => !e.IsDots) := by
        rw [DirLister_Win32_Pending_filter, hpend, hp]
      rw [DirLister_ExpectedCalls_cons n _ _ _ _ hf hr]
      simp only [DirLister.Win32.ReadNexts, DirLister.Win32.ReadNext, hend1, Bool.false_eq_true,
        if_false, DirLister.Win32.GetNext, hs, ih d1 hset1 hl1]

theorem DirLister_ExpectedCalls_congr (n : Nat) (A B : List DirEntry)
    (h : A.filter (fun e => !e.IsDots) = B.filter (fun e => !e.IsDots)) :
    DirLister.ExpectedCalls n A = DirLister.ExpectedCalls n B := by
  simp only [DirLister.ExpectedCalls, DirLister.Expected, h]

theorem DirLister_Win32_GetFirst (fuel : Nat) (Previous : DirEntry) (Entries : List DirEntry)
    (hfuel : Entries.length + 2 ≤ fuel) :
    ∃ d, DirLister.Win32.GetFirst fuel Previous Entries = some d ∧ DirLister.Win32.Settled d ∧
      DirLister.Win32.Pending d = Entries.filter (fun e => !e.IsDots) ∧
      d.m_Handle.length + 2 ≤ fuel := by
  cases Entries with
  | nil =>
    obtain ⟨d1, hs, hset, hpend, hl⟩ := DirLister_Win32_SkipDots fuel
      { m_FindData := Previous, m_Handle := [], m_ReachedEnd := true }
      (by simp only [if_true]; omega)
    refine ⟨d1, hs, hset, ?_, ?_⟩
    · rw [hpend]; simp [DirLister.Win32.Pending]
    · simp only [List.length_nil] at hl hfuel; omega
  | cons e es =>
    simp only [List.length_cons] at hfuel
    obtain ⟨d1, hs, hset, hpend, hl⟩ := DirLister_Win32_SkipDots fuel
      { m_FindData := e, m_Handle := es, m_ReachedEnd := false }
      (by simp only [Bool.false_eq_true, if_false]; omega)
    refine ⟨d1, hs, hset, ?_, ?_⟩
    · rw [hpend]; simp [DirLister.Win32.Pending]
    · simp only at hl; omega

/-- C20: for every directory, given as the finite sequence of entries the
operating system enumerates, successive `DirLister::ReadNext` calls return, on
both implementations, exactly the entries whose name is neither `"."` nor
`".."`, each once and in the order of the operating system, and `false` from
then on; no call returns `"."` or `".."`. On Win32 every call completes with
fuel `len + 2`. -/
theorem DirLister_ReadNext_lists (Entries : List DirEntry) (n fuel : Nat) (Previous : DirEntry)
    (hfuel : Entries.length + 2 ≤ fuel) :
    DirLister.Posix.ReadNexts n Entries = DirLister.ExpectedCalls n Entries ∧
      (∃ d, DirLister.Win32.GetFirst fuel Previous Entries = some d ∧
        DirLister.Win32.ReadNexts fuel n d = some (DirLister.ExpectedCalls n Entries)) ∧
      DirLister.ExpectedCalls ((DirLister.Expected Entries).length + n) Entries =
        (DirLister.Expected Entries).map some ++ List.replicate n none ∧
      ∀ x ∈ DirLister.Expected Entries, x.1 ≠ "." ∧ x.1 ≠ ".." := by
  refine ⟨DirLister_Posix_ReadNexts n Entries, ?_, ?_, ?_⟩
  · obtain ⟨d, h1, hset, hp, hl⟩ := DirLister_Win32_GetFirst fuel Previous Entries hfuel
    refine ⟨d, h1, ?_⟩
    rw [DirLister_Win32_ReadNexts fuel n d hset hl]
    congr 1
    apply DirLister_ExpectedCalls_congr
    rw [DirLister_Win32_Pending_filter, hp]
  · unfold DirLister.ExpectedCalls
    rw [List.take_append_eq_append_take]
    simp
  · intro x hx
    simp only [DirLister.Expected, List.mem_map, List.mem_filter] at hx
    obtain ⟨e, ⟨_, he⟩, rfl⟩ := hx
    simp only [DirEntry.IsDots, Bool.not_eq_true', Bool.or_eq_false_iff, beq_eq_false_iff_ne,
      ne_eq] at he
    exact he

/-- C20 at a concrete input: the entries `"."`, `".."`, `"a"` (a file), `"b"` (a
directory) and four calls. -/
theorem DirLister_ReadNext_lists_witness :
    DirLister.Posix.ReadNexts 4
        [⟨".", true⟩, ⟨"..", true⟩, ⟨"a", false⟩, ⟨"b", true⟩] =
      DirLister.ExpectedCalls 4 [⟨".", true⟩, ⟨"..", true⟩, ⟨"a", false⟩, ⟨"b", true⟩] ∧
    ∃ d, DirLister.Win32.GetFirst 6 ⟨"", false⟩
        [⟨".", true⟩, ⟨"..", true⟩, ⟨"a", false⟩, ⟨"b", true⟩] = some d ∧
      DirLister.Win32.ReadNexts 6 4 d =
        some (DirLister.ExpectedCalls 4 [⟨".", true⟩, ⟨"..", true⟩, ⟨"a", false⟩, ⟨"b", true⟩]) :=
  have h := DirLister_ReadNext_lists [⟨".", true⟩, ⟨"..", true⟩, ⟨"a", false⟩, ⟨"b", true⟩] 4 6
    ⟨"", false⟩ (by decide)
  ⟨h.1, h.2.1⟩

/-- The expected results for the entries `"."`, `".."`, `"a"`, `"b"` and four
calls, spelled out. -/
theorem DirLister_ExpectedCalls_example :
    DirLister.ExpectedCalls 4 [⟨".", true⟩, ⟨"..", true⟩, ⟨"a", false⟩, ⟨"b", true⟩] =
      [some ("a", .IT_FILE), some ("b", .IT_DIR), none, none] := by
  decide

/-! ## `Intersection` of rectangles (C23) -/

/-- The rectangle `Intersection` stores is the common part as a set of points,
whatever it returns. -/
theorem Intersection_points (r1 r2 : RECTI) (p : POINT_) :
    PointInRect p (Intersection r1 r2).2 = (PointInRect p r1 && PointInRect p r2) := by
  rw [Bool.eq_iff_iff]
  simp only [PointInRect, Intersection, Bool.and_eq_true, decide_eq_true_eq, ge_iff_le,
    max_le_iff, le_min_iff]
  tauto

/-- For rectangles with `Min <= Max`, having a common point is `RectToRect`. -/
theorem RectToRect_iff_common_point (r1 r2 : RECTI)
    (h1 : r1.Min.x ≤ r1.Max.x ∧ r1.Min.y ≤ r1.Max.y)
    (h2 : r2.Min.x ≤ r2.Max.x ∧ r2.Min.y ≤ r2.Max.y) :
    RectToRect r1 r2 = true ↔ ∃ p, PointInRect p r1 = true ∧ PointInRect p r2 = true := by
  simp only [RectToRect, PointInRect, Bool.and_eq_true, decide_eq_true_eq, ge_iff_le]
  constructor
  · intro h
    refine ⟨{ x := max r1.Min.x r2.Min.x, y := max r1.Min.y r2.Min.y }, ?_, ?_⟩
    · simp only [le_max_iff, max_le_iff]
      omega
    · simp only [le_max_iff, max_le_iff]
      omega
  · rintro ⟨p, hp1, hp2⟩
    omega

/-- C23 as stated fails: the rectangles `(0,0)-(1,1)` and `(1,0)-(2,1)` have
`Min <= Max`, share the point `(1,0)` (and `RectToRect` is true), yet
`Intersection` returns false. -/
theorem Intersection_counterexample :
    PointInRect ⟨1, 0⟩ ⟨⟨0, 0⟩, ⟨1, 1⟩⟩ = true ∧ PointInRect ⟨1, 0⟩ ⟨⟨1, 0⟩, ⟨2, 1⟩⟩ = true ∧
      RectToRect ⟨⟨0, 0⟩, ⟨1, 1⟩⟩ ⟨⟨1, 0⟩, ⟨2, 1⟩⟩ = true ∧
      (Intersection ⟨⟨0, 0⟩, ⟨1, 1⟩⟩ ⟨⟨1, 0⟩, ⟨2, 1⟩⟩).1 = false := by
  decide

/-- C23 (as amended): for all integer rectangles `r1` and `r2` with `Min <= Max`
in both coordinates, `Intersection(&Out, r1, r2)` returns true exactly when the
common part has positive width and height, i.e. when the greater `Min` is below
the smaller `Max` in both coordinates; then the rectangles have a common point
and `RectToRect(r1, r2)` holds. In every case `Out` is the common part:
`PointInRect(p, Out)` holds exactly for the points lying in both `r1` and `r2`. -/
theorem Intersection_positive_area (r1 r2 : RECTI)
    (h1 : r1.Min.x ≤ r1.Max.x ∧ r1.Min.y ≤ r1.Max.y)
    (h2 : r2.Min.x ≤ r2.Max.x ∧ r2.Min.y ≤ r2.Max.y) :
    ((Intersection r1 r2).1 = true ↔
        (max r1.Min.x r2.Min.x < min r1.Max.x r2.Max.x ∧
          max r1.Min.y r2.Min.y < min r1.Max.y r2.Max.y)) ∧
      ((Intersection r1 r2).1 = true →
        RectToRect r1 r2 = true ∧ ∃ p, PointInRect p r1 = true ∧ PointInRect p r2 = true) ∧
      ∀ p, PointInRect p (Intersection r1 r2).2 = true ↔
        (PointInRect p r1 = true ∧ PointInRect p r2 = true) := by
  refine ⟨?_, ?_, ?_⟩
  · simp only [Intersection, RECTI.IsValid, Bool.and_eq_true, decide_eq_true_eq]
  · intro h
    simp only [Intersection, RECTI.IsValid, Bool.and_eq_true, decide_eq_true_eq, max_lt_iff,
      lt_min_iff] at h
    have hr : RectToRect r1 r2 = true := by
      simp only [RectToRect, Bool.and_eq_true, decide_eq_true_eq, ge_iff_le]
      omega
    exact ⟨hr, (RectToRect_iff_common_point r1 r2 h1 h2).1 hr⟩
  · intro p
    rw [Intersection_points, Bool.and_eq_true]

/-- C23 (as amended) at a concrete input: the rectangles `(0,0)-(2,2)` and
`(1,1)-(3,3)`, whose common part is `(1,1)-(2,2)`. -/
theorem Intersection_positive_area_witness :
    (Intersection ⟨⟨0, 0⟩, ⟨2, 2⟩⟩ ⟨⟨1, 1⟩, ⟨3, 3⟩⟩).1 = true ∧
      ∀ p, PointInRect p (Intersection ⟨⟨0, 0⟩, ⟨2, 2⟩⟩ ⟨⟨1, 1⟩, ⟨3, 3⟩⟩).2 = true ↔
        (PointInRect p ⟨⟨0, 0⟩, ⟨2, 2⟩⟩ = true ∧ PointInRect p ⟨⟨1, 1⟩, ⟨3, 3⟩⟩ = true) :=
  have h := Intersection_positive_area ⟨⟨0, 0⟩, ⟨2, 2⟩⟩ ⟨⟨1, 1⟩, ⟨3, 3⟩⟩
    (by decide) (by decide)
  ⟨h.1.2 (by decide), h.2.2⟩

/-! ## The 16-bit colour conversions (C24) -/

/-- Three bit fields of 5, 6 and 5 bits put together with `|` are their sum. -/
theorem or_fields_565 (r g b : Nat) (hg : g < 64) (hb : b < 32) :
    (r <<< 11 ||| g <<< 5 ||| b) = r * 2048 + g * 32 + b := by
  have e1 : r <<< 11 = 2 ^ 11 * r := by rw [Nat.shiftLeft_eq, Nat.mul_comm]
  have e2 : g <<< 5 = g * 32 := by rw [Nat.shiftLeft_eq]
  have h1 : g * 32 < 2 ^ 11 := by omega
  have h2 : b < 2 ^ 5 := by omega
  rw [e1, e2, ← Nat.mul_add_lt_is_or h1 r]
  have e3 : 2 ^ 11 * r + g * 32 = 2 ^ 5 * (64 * r + g) := by omega
  rw [e3, ← Nat.mul_add_lt_is_or h2]
  omega

theorem ColorToR5G6B5_eq (k : COLOR) (hk : k.IsValid) :
    ColorToR5G6B5 k = k.R / 8 * 2048 + k.G / 4 * 32 + k.B / 8 := by
  obtain ⟨_, hR, hG, hB⟩ := hk
  unfold ColorToR5G6B5
  simp only [Nat.shiftRight_eq_div_pow]
  have e1 : k.R / 2 ^ 3 % 2 ^ 16 = k.R / 8 := by omega
  have e2 : k.G / 2 ^ 2 % 2 ^ 16 = k.G / 4 := by omega
  have e3 : k.B / 2 ^ 3 % 2 ^ 16 = k.B / 8 := by omega
  rw [e1, e2, e3, or_fields_565 _ _ _ (by omega) (by omega)]
  omega

theorem R5G6B5ToColor_eq (c : Nat) (hc : c < 2 ^ 16) :
    R5G6B5ToColor c =
      { A := 255, R := c / 2048 * 8, G := c / 32 % 64 * 4, B := c % 32 * 8 } := by
  unfold R5G6B5ToColor
  simp only [Nat.shiftRight_eq_div_pow, Nat.shiftLeft_eq]
  congr 1 <;> omega

/-- C24: for every 16-bit value `c`, `ColorToR5G6B5(R5G6B5ToColor(c)) == c`, and
`R5G6B5ToColor(c)` has alpha 255 and red, green and blue equal to the 5-, 6- and
5-bit fields of `c` shifted left by 3, 2 and 3 bits; for every `COLOR k`,
`R5G6B5ToColor(ColorToR5G6B5(k))` is `k` with alpha 255 and the low 3, 2 and 3
bits of red, green and blue cleared. -/
theorem R5G6B5_round_trip (c : Nat) (k : COLOR) (hc : c < 2 ^ 16) (hk : k.IsValid) :
    ColorToR5G6B5 (R5G6B5ToColor c) = c ∧
      R5G6B5ToColor c =
        { A := 255, R := (c / 2048) <<< 3, G := (c / 32 % 64) <<< 2, B := (c % 32) <<< 3 } ∧
      (R5G6B5ToColor c).IsValid ∧ ColorToR5G6B5 k < 2 ^ 16 ∧
      R5G6B5ToColor (ColorToR5G6B5 k) =
        { A := 255, R := k.R - k.R % 8, G := k.G - k.G % 4, B := k.B - k.B % 8 } := by
  have hc1 := R5G6B5ToColor_eq c hc
  have hv : (R5G6B5ToColor c).IsValid := by
    rw [hc1]
    simp only [COLOR.IsValid]
    omega
  have hk1 := ColorToR5G6B5_eq k hk
  obtain ⟨_, hR, hG, hB⟩ := hk
  have hlt : ColorToR5G6B5 k < 2 ^ 16 := by rw [hk1]; omega
  refine ⟨?_, ?_, hv, hlt, ?_⟩
  · rw [ColorToR5G6B5_eq _ hv, hc1]
    simp only
    omega
  · rw [hc1]
    simp only [Nat.shiftLeft_eq]
  · rw [R5G6B5ToColor_eq _ hlt, hk1]
    congr 1 <;> omega

/-- C24 at a concrete input: the 16-bit value `0xABCD` and the colour
`(A, R, G, B) = (16, 255, 130, 7)`. -/
theorem R5G6B5_round_trip_witness :
    ColorToR5G6B5 (R5G6B5ToColor 0xABCD) = 0xABCD ∧
      R5G6B5ToColor (ColorToR5G6B5 { A := 16, R := 255, G := 130, B := 7 }) =
        { A := 255, R := 248, G := 128, B := 0 } :=
  have h := R5G6B5_round_trip 0xABCD { A := 16, R := 255, G := 130, B := 7 } (by decide)
    ⟨by decide, by decide, by decide, by decide⟩
  ⟨h.1, h.2.2.2.2⟩

/-! ## `Reset` of the checksum accumulators (C25) -/

/-- C25: for `Hash_Calc` and `CRC32_Calc`, the state after `Reset()` is the state
of a freshly constructed accumulator (0 and `0xFFFFFFFF`), whatever was written
before, and `Reset` is idempotent; so, whatever `Write` and `Finish` do, the
digest of any blocks written after `Reset()` is the digest a fresh accumulator
gives for the same blocks (for `CRC32_Calc` also with the modelled `Write`). -/
theorem Reset_is_fresh (h : Hash_Calc) (c : CRC32_Calc)
    (HashWrite : Hash_Calc → List Nat → Hash_Calc) (HashFinish : Hash_Calc → Nat)
    (CrcWrite : CRC32_Calc → List Nat → CRC32_Calc) (Blocks : List (List Nat)) :
    Hash_Calc.Reset h = Hash_Calc.new ∧ (Hash_Calc.Reset h).m_Hash = 0 ∧
      Hash_Calc.Reset (Hash_Calc.Reset h) = Hash_Calc.Reset h ∧
      HashFinish (Hash_Calc.WriteAll HashWrite (Hash_Calc.Reset h) Blocks) =
        HashFinish (Hash_Calc.WriteAll HashWrite Hash_Calc.new Blocks) ∧
      CRC32_Calc.Reset c = CRC32_Calc.new ∧ (CRC32_Calc.Reset c).m_CRC = 0xFFFFFFFF ∧
      CRC32_Calc.Reset (CRC32_Calc.Reset c) = CRC32_Calc.Reset c ∧
      (CRC32_Calc.GetResult (CRC32_Calc.WriteAll CrcWrite (CRC32_Calc.Reset c) Blocks)).1 =
        (CRC32_Calc.GetResult (CRC32_Calc.WriteAll CrcWrite CRC32_Calc.new Blocks)).1 ∧
      (CRC32_Calc.GetResult
          (CRC32_Calc.WriteAll CRC32_Calc.Write (CRC32_Calc.Reset c) Blocks)).1 =
        (CRC32_Calc.GetResult (CRC32_Calc.WriteAll CRC32_Calc.Write CRC32_Calc.new Blocks)).1 :=
  ⟨rfl, rfl, rfl, rfl, rfl, rfl, rfl, rfl, rfl⟩

/-- C25 at a concrete object: a `CRC32_Calc` that has accumulated `"123456789"`
and is reset gives, for the text `"123456789"`, the check value of a fresh one. -/
theorem Reset_is_fresh_witness :
    (CRC32_Calc.GetResult (CRC32_Calc.WriteAll CRC32_Calc.Write
        (CRC32_Calc.Reset (CRC32_Calc.Write CRC32_Calc.new [49, 50, 51, 52, 53, 54, 55, 56, 57]))
        [[49, 50, 51, 52, 53, 54, 55, 56, 57]])).1 =
      (CRC32_Calc.GetResult (CRC32_Calc.WriteAll CRC32_Calc.Write CRC32_Calc.new
        [[49, 50, 51, 52, 53, 54, 55, 56, 57]])).1 :=
  (Reset_is_fresh Hash_Calc.new
    (CRC32_Calc.Write CRC32_Calc.new [49, 50, 51, 52, 53, 54, 55, 56, 57])
    (fun h _ => h) (fun h => h.m_Hash) CRC32_Calc.Write
    [[49, 50, 51, 52, 53, 54, 55, 56, 57]]).2.2.2.2.2.2.2.2
/-! ## `Base64Decoder::GetNextByte` (C26) -/

/-- With `n >= 1` decoded bytes held, `GetNextByte` returns `m_Buf[n-1]` and sets
`m_BufLength` to `n-1`, whatever the stream and the fuel are. -/
theorem Base64Decoder_GetNextByte_held {σ : Type} (S : Stream σ) (BUFFER_SIZE fuel : Nat)
    (d : Base64Decoder σ) (OutByte : Nat) (h : 1 ≤ d.m_BufLength) :
    Base64Decoder.GetNextByte S BUFFER_SIZE fuel d OutByte =
      some (.ok (true, d.m_Buf.getD (d.m_BufLength - 1) 0,
        { d with m_BufLength := d.m_BufLength - 1 })) := by
  have hne : d.m_BufLength ≠ 0 := by omega
  simp only [Base64Decoder.GetNextByte, hne, if_false]

theorem Base64Decoder_GetNextBytes_held {σ : Type} (S : Stream σ) (BUFFER_SIZE fuel : Nat)
    (n : Nat) : ∀ (d : Base64Decoder σ), d.m_BufLength = n → n ≤ d.m_Buf.length →
    Base64Decoder.GetNextBytes S BUFFER_SIZE fuel n d =
      some (.ok ((d.m_Buf.take n).reverse, { d with m_BufLength := 0 })) := by
  induction n with
  | zero =>
    intro d hd _
    simp only [Base64Decoder.GetNextBytes, List.take_zero, List.reverse_nil]
    rw [← hd]
  | succ n ih =>
    intro d hd hlen
    have h1 : 1 ≤ d.m_BufLength := by omega
    have hstep := Base64Decoder_GetNextByte_held S BUFFER_SIZE fuel d 0 h1
    have hrec := ih { d with m_BufLength := d.m_BufLength - 1 } (by simp only; omega)
      (by simp only; omega)
    simp only [Base64Decoder.GetNextBytes, hstep, hrec]
    rw [reverse_take_succ d.m_Buf n (by omega), hd]
    rfl

/-- C26: `Base64Decoder::GetNextByte` asks for a new 4-character group
(`ReadNextBuf`) only when the stack of decoded bytes is empty
(`m_BufLength == 0`), returns false and leaves `*OutByte` alone when that request
returns false, and passes on its exception. With `m_BufLength = n`, `1 <= n`, it
returns `m_Buf[n-1]`, sets `m_BufLength` to `n-1` and leaves the reader alone,
whatever stream is connected and with no fuel at all; so `n <= 3` successive
calls deliver `m_Buf[n-1], ..., m_Buf[0]` and leave the stack empty before the
next group is read. -/
theorem Base64Decoder_GetNextByte_stack {σ : Type} (S S1 : Stream σ) (BUFFER_SIZE fuel : Nat)
    (d : Base64Decoder σ) (OutByte : Nat) :
    (d.m_BufLength = 0 →
      (∀ d1, Base64Decoder.ReadNextBuf S BUFFER_SIZE fuel d = some (.ok (false, d1)) →
        Base64Decoder.GetNextByte S BUFFER_SIZE fuel d OutByte =
          some (.ok (false, OutByte, d1))) ∧
      (∀ e, Base64Decoder.ReadNextBuf S BUFFER_SIZE fuel d = some (.error e) →
        Base64Decoder.GetNextByte S BUFFER_SIZE fuel d OutByte = some (.error e)) ∧
      (∀ d1, Base64Decoder.ReadNextBuf S BUFFER_SIZE fuel d = some (.ok (true, d1)) →
        Base64Decoder.GetNextByte S BUFFER_SIZE fuel d OutByte =
          some (.ok (true, d1.m_Buf.getD (d1.m_BufLength - 1) 0,
            { d1 with m_BufLength := d1.m_BufLength - 1 })))) ∧
    (1 ≤ d.m_BufLength →
      Base64Decoder.GetNextByte S BUFFER_SIZE fuel d OutByte =
          some (.ok (true, d.m_Buf.getD (d.m_BufLength - 1) 0,
            { d with m_BufLength := d.m_BufLength - 1 })) ∧
        Base64Decoder.GetNextByte S1 BUFFER_SIZE 0 d OutByte =
          Base64Decoder.GetNextByte S BUFFER_SIZE fuel d OutByte) ∧
    (d.m_BufLength ≤ d.m_Buf.length →
      Base64Decoder.GetNextBytes S BUFFER_SIZE fuel d.m_BufLength d =
        some (.ok ((d.m_Buf.take d.m_BufLength).reverse, { d with m_BufLength := 0 }))) := by
  refine ⟨fun hz => ⟨?_, ?_, ?_⟩, fun h1 => ⟨?_, ?_⟩, fun hlen => ?_⟩
  · intro d1 hr
    simp only [Base64Decoder.GetNextByte, hz, if_true, hr]
  · intro e hr
    simp only [Base64Decoder.GetNextByte, hz, if_true, hr]
  · intro d1 hr
    simp only [Base64Decoder.GetNextByte, hz, if_true, hr]
  · exact Base64Decoder_GetNextByte_held S BUFFER_SIZE fuel d OutByte h1
  · rw [Base64Decoder_GetNextByte_held S BUFFER_SIZE fuel d OutByte h1,
      Base64Decoder_GetNextByte_held S1 BUFFER_SIZE 0 d OutByte h1]
  · exact Base64Decoder_GetNextBytes_held S BUFFER_SIZE fuel d.m_BufLength d rfl hlen

/-- C26 at a concrete input: a decoder holding the decoded group `"Man"` as
`m_Buf = ['n', 'a', 'M']` with `m_BufLength = 3`, on an empty in-memory stream,
with no fuel: three calls deliver `'M'`, `'a'`, `'n'`. -/
theorem Base64Decoder_GetNextByte_stack_witness :
    Base64Decoder.GetNextBytes MemoryReader 4 0 3
        { m_CharReader := CharReader.new 4 [], m_Tolerance := DECODE_TOLERANCE_NONE,
          m_Buf := [110, 97, 77], m_BufLength := 3, m_Finished := false } =
      some (.ok ([77, 97, 110],
        { m_CharReader := CharReader.new 4 [], m_Tolerance := DECODE_TOLERANCE_NONE,
          m_Buf := [110, 97, 77], m_BufLength := 0, m_Finished := false })) :=
  (Base64Decoder_GetNextByte_stack MemoryReader MemoryReader 4 0
    { m_CharReader := CharReader.new 4 [], m_Tolerance := DECODE_TOLERANCE_NONE,
      m_Buf := [110, 97, 77], m_BufLength := 3, m_Finished := false } 0).2.2 (by decide)

/-! ## `DATETIME::SetMillisecond` (C29) -/

theorem toInt64_of_range (x : Int) (h1 : -2 ^ 63 ≤ x) (h2 : x < 2 ^ 63) : toInt64 x = x := by
  unfold toInt64
  omega

/-- For a moment at or after the epoch (and not within a second of the end of
the `int64` range), `SetMillisecond(ms)` with `ms < 1000` keeps the whole-second
part and makes the millisecond part `ms`. -/
theorem DATETIME_SetMillisecond_nonneg (t : Int) (ms : Nat) (h0 : 0 ≤ t)
    (h1 : t < 2 ^ 63 - 1000) (hms : ms < 1000) :
    (DATETIME.SetMillisecond { m_Time := t } ms).m_Time = t - t % 1000 + ms ∧
      Int.tdiv (DATETIME.SetMillisecond { m_Time := t } ms).m_Time 1000 = Int.tdiv t 1000 ∧
      (DATETIME.SetMillisecond { m_Time := t } ms).m_Time -
        1000 * Int.tdiv (DATETIME.SetMillisecond { m_Time := t } ms).m_Time 1000 = ms := by
  have hm : Int.tmod t 1000 = t % 1000 := Int.tmod_eq_emod h0 (by decide)
  have hms32 : ms % 2 ^ 32 = ms := by omega
  have e1 : toInt64 (t - t % 1000) = t - t % 1000 := toInt64_of_range _ (by omega) (by omega)
  have e2 : toInt64 (t - t % 1000 + (ms : Int)) = t - t % 1000 + ms :=
    toInt64_of_range _ (by omega) (by omega)
  have hval : (DATETIME.SetMillisecond { m_Time := t } ms).m_Time = t - t % 1000 + ms := by
    simp only [DATETIME.SetMillisecond, hm, hms32, e1, e2]
  have hd1 : Int.tdiv (t - t % 1000 + (ms : Int)) 1000 = (t - t % 1000 + (ms : Int)) / 1000 :=
    Int.tdiv_eq_ediv (by omega) (by decide)
  have hd2 : Int.tdiv t 1000 = t / 1000 := Int.tdiv_eq_ediv h0 (by decide)
  rw [hval, hd1, hd2]
  refine ⟨rfl, ?_, ?_⟩ <;> omega

/-- C29 fails for a moment before 1970: for `t = -1500` (1.5 s before the epoch)
and `ms = 250`, `SetMillisecond` gives `-750`; the whole-second part changes
(`-1500 / 1000 == -1`, `-750 / 1000 == 0`, also with the division that rounds
down: `-2` and `-1`) and the millisecond part is `-750`, not `250`. For the
moment `1500` the result is `1250`, as claimed. -/
theorem DATETIME_SetMillisecond_negative :
    (DATETIME.SetMillisecond { m_Time := -1500 } 250).m_Time = -750 ∧
      Int.tdiv (-1500) 1000 = -1 ∧ Int.tdiv (-750) 1000 = 0 ∧
      (-1500 : Int) / 1000 = -2 ∧ (-750 : Int) / 1000 = -1 ∧
      (-750 : Int) - 1000 * Int.tdiv (-750) 1000 = -750 ∧
      (DATETIME.SetMillisecond { m_Time := 1500 } 250).m_Time = 1250 := by
  refine ⟨?_, by decide, by decide, by decide, by decide, by decide, ?_⟩
  · have hm : Int.tmod (-1500) 1000 = -500 := by decide
    have e1 : toInt64 (-1500 - -500) = -1000 := by unfold toInt64; omega
    have e2 : toInt64 (-1000 + ((250 % 2 ^ 32 : Nat) : Int)) = -750 := by
      unfold toInt64; omega
    simp only [DATETIME.SetMillisecond, hm, e1, e2]
  · exact (DATETIME_SetMillisecond_nonneg 1500 250 (by decide) (by decide) (by decide)).1

/-! ## Scaling a box (C30) -/

/-- `Mul` and `Div` on rectangles set both corners, in both forms. -/
theorem RECTF_Scale_both {F : Type} (op : F → F → F) (out rect : RECTF F) (v : VEC2 F) :
    RECTF.Scale op out rect v =
        { Min := VEC2.Scale op rect.Min v, Max := VEC2.Scale op rect.Max v } ∧
      RECTF.ScaleInPlace op rect v =
        { Min := VEC2.Scale op rect.Min v, Max := VEC2.Scale op rect.Max v } :=
  ⟨rfl, rfl⟩

/-- What `Mul` and `Div` on boxes do, for every operation on the components:
the three-argument form leaves `Out.Min` as it was before the call and sets only
`Out.Max`; the in-place form leaves `Min` as it is and applies the operation to
`Max` twice. -/
theorem BOX_Scale_actual {F : Type} (op : F → F → F) (Out b : BOX F) (v : VEC3 F) :
    BOX.Scale op Out b v = { Min := Out.Min, Max := VEC3.Scale op b.Max v } ∧
      BOX.ScaleInPlace op b v =
        { Min := b.Min, Max := VEC3.Scale op (VEC3.Scale op b.Max v) v } :=
  ⟨rfl, rfl⟩

/-- C30 fails: for the box `(1,1,1)-(2,2,2)` and the vector `(2,2,2)` (numbers
that `float` holds and multiplies exactly, here as integers),
`Mul(&Out, b, v)` with `Out` holding `(0,0,0)-(0,0,0)` leaves `Out.Min` at
`(0,0,0)` instead of `(2,2,2)`, and the in-place `Mul(&b, v)` gives
`(1,1,1)-(8,8,8)` instead of `(2,2,2)-(4,4,4)`; the rectangle functions scale
both corners. -/
theorem BOX_Scale_misses_Min :
    BOX.Scale (fun a b : Int => a * b) ⟨⟨0, 0, 0⟩, ⟨0, 0, 0⟩⟩ ⟨⟨1, 1, 1⟩, ⟨2, 2, 2⟩⟩ ⟨2, 2, 2⟩ =
        ⟨⟨0, 0, 0⟩, ⟨4, 4, 4⟩⟩ ∧
      BOX.ScaleExpected (fun a b : Int => a * b) ⟨⟨1, 1, 1⟩, ⟨2, 2, 2⟩⟩ ⟨2, 2, 2⟩ =
        ⟨⟨2, 2, 2⟩, ⟨4, 4, 4⟩⟩ ∧
      BOX.ScaleInPlace (fun a b : Int => a * b) ⟨⟨1, 1, 1⟩, ⟨2, 2, 2⟩⟩ ⟨2, 2, 2⟩ =
        ⟨⟨1, 1, 1⟩, ⟨8, 8, 8⟩⟩ ∧
      RECTF.ScaleInPlace (fun a b : Int => a * b) ⟨⟨1, 1⟩, ⟨2, 2⟩⟩ ⟨2, 2⟩ =
        ⟨⟨2, 2⟩, ⟨4, 4⟩⟩ := by
  decide

/-! ## `SaveUnicodeToStream` (C21) -/

theorem RawBytes_length (Data : List Nat) : (RawBytes Data).length = Data.length * 2 := by
  induction Data with
  | nil => rfl
  | cons w ws ih =>
    simp only [RawBytes, List.flatMap_cons, List.length_append, List.length_cons,
      List.length_nil] at ih ⊢
    omega

theorem RawBytes_take_all (Data : List Nat) :
    (RawBytes Data).take (Data.length * sizeof_wchar_t) = RawBytes Data := by
  apply List.take_of_length_le
  rw [RawBytes_length]
  exact Nat.le_refl _

/-- The overload for a pointer and a length, given the characters of a string
and their number, does what the overload for `wstring` does, on every stream. -/
theorem SaveUnicodeToStreamChars_eq {σ : Type} (S : Stream σ)
    (Convert : List Nat → CodePage → Option (List Nat)) (Dest : σ) (Data : List Nat)
    (Encoding : Nat) :
    SaveUnicodeToStreamChars S Convert Dest Data Data.length Encoding =
      SaveUnicodeToStream S Convert Dest Data Encoding := by
  simp only [SaveUnicodeToStreamChars, SaveUnicodeToStream, Stream.WriteStringFW, List.take_length]

theorem WriteBOM_memory (Dest : List Nat) (test : Bool) (BOM : List Nat) :
    WriteBOM MemoryWriter Dest test BOM =
      .ok (if test then Dest ++ BOM.take (strlen BOM) else Dest) := by
  cases test <;> simp [WriteBOM, MemoryWriter, liftUnicode]

/-- C21: `SaveUnicodeToStream` writes the byte-order mark by the documented
policy, for every text, every `Encoding` value and every content the stream
already has. With `FILE_ENCODING_UTF16_LE` the output is the UTF-16 LE mark and
the raw text, and the raw text alone when `FILE_ENCODING_NO_BOM` is set; with
`FILE_ENCODING_UTF8` it is the UTF-8 conversion of the text, preceded by the
UTF-8 mark exactly when `FILE_ENCODING_FORCE_BOM` is set; with
`FILE_ENCODING_ANSI` it is the conversion alone. The overload for a pointer and
a length writes the same bytes. -/
theorem SaveUnicodeToStream_BOM (Convert : List Nat → CodePage → Option (List Nat))
    (Dest Data : List Nat) (Encoding : Nat) :
    (Encoding &&& 0xFFFF = FILE_ENCODING_UTF16_LE →
      SaveUnicodeToStream MemoryWriter Convert Dest Data Encoding =
        .ok (Dest ++ (if Encoding &&& FILE_ENCODING_NO_BOM = 0 then [0xFF, 0xFE] else []) ++
          RawBytes Data)) ∧
    (Encoding &&& 0xFFFF = FILE_ENCODING_UTF8 → ∀ utf8, Convert Data .CP_UTF8 = some utf8 →
      SaveUnicodeToStream MemoryWriter Convert Dest Data Encoding =
        .ok (Dest ++ (if Encoding &&& FILE_ENCODING_FORCE_BOM ≠ 0 then [0xEF, 0xBB, 0xBF]
          else []) ++ utf8)) ∧
    (Encoding &&& 0xFFFF = FILE_ENCODING_ANSI → ∀ ansi, Convert Data .CP_ACP = some ansi →
      SaveUnicodeToStream MemoryWriter Convert Dest Data Encoding = .ok (Dest ++ ansi)) ∧
    SaveUnicodeToStreamChars MemoryWriter Convert Dest Data Data.length Encoding =
      SaveUnicodeToStream MemoryWriter Convert Dest Data Encoding := by
  have b16 : BOM_UTF16_LE.take (strlen BOM_UTF16_LE) = [0xFF, 0xFE] := by decide
  have b8 : BOM_UTF8.take (strlen BOM_UTF8) = [0xEF, 0xBB, 0xBF] := by decide
  refine ⟨?_, ?_, ?_, SaveUnicodeToStreamChars_eq MemoryWriter Convert Dest Data Encoding⟩
  · intro h
    simp only [SaveUnicodeToStream, h, if_true, WriteBOM_memory, b16, Stream.WriteStringFW,
      RawBytes_take_all]
    by_cases hb : Encoding &&& FILE_ENCODING_NO_BOM = 0 <;>
      simp [hb, MemoryWriter, liftUnicode]
  · intro h utf8 hc
    have h1 : FILE_ENCODING_UTF8 ≠ FILE_ENCODING_UTF16_LE := by decide
    simp only [SaveUnicodeToStream, h, h1, if_true, if_false, WriteBOM_memory, b8, hc,
      Stream.WriteStringF]
    by_cases hb : Encoding &&& FILE_ENCODING_FORCE_BOM = 0 <;>
      simp [hb, MemoryWriter, liftUnicode]
  · intro h ansi hc
    have h1 : FILE_ENCODING_ANSI ≠ FILE_ENCODING_UTF16_LE := by decide
    have h2 : FILE_ENCODING_ANSI ≠ FILE_ENCODING_UTF8 := by decide
    simp only [SaveUnicodeToStream, h, h1, h2, if_true, if_false, hc, Stream.WriteStringF,
      MemoryWriter, liftUnicode]

/-- C21 at a concrete input: the text `"ał"` (`U+0061`, `U+0142`) saved as UTF-16 LE
with and without `FILE_ENCODING_NO_BOM`, and as UTF-8 with
`FILE_ENCODING_FORCE_BOM` for a conversion that gives `61 C5 82`. -/
theorem SaveUnicodeToStream_BOM_witness :
    SaveUnicodeToStream MemoryWriter (fun _ _ => some [0x61, 0xC5, 0x82]) [] [0x61, 0x142] 1 =
        .ok [0xFF, 0xFE, 0x61, 0x00, 0x42, 0x01] ∧
      SaveUnicodeToStream MemoryWriter (fun _ _ => some [0x61, 0xC5, 0x82]) [] [0x61, 0x142]
          0x20001 = .ok [0x61, 0x00, 0x42, 0x01] ∧
      SaveUnicodeToStream MemoryWriter (fun _ _ => some [0x61, 0xC5, 0x82]) [] [0x61, 0x142]
          0x10002 = .ok [0xEF, 0xBB, 0xBF, 0x61, 0xC5, 0x82] :=
  ⟨(SaveUnicodeToStream_BOM (fun _ _ => some [0x61, 0xC5, 0x82]) [] [0x61, 0x142] 1).1
      (by decide),
    (SaveUnicodeToStream_BOM (fun _ _ => some [0x61, 0xC5, 0x82]) [] [0x61, 0x142] 0x20001).1
      (by decide),
    (SaveUnicodeToStream_BOM (fun _ _ => some [0x61, 0xC5, 0x82]) [] [0x61, 0x142]
      0x10002).2.1 (by decide) _ rfl⟩

/-! ## `LoadUnicodeFromStream`, UTF-16 LE given explicitly (C27) -/

/-- The index at which the text starts is 2 when the content starts with the
UTF-16 LE mark and 0 otherwise. -/
theorem LoadUnicodeFromStream_Index_cases (Data : List Nat) :
    (LoadUnicodeFromStream.Index Data = 2 ∧ ∃ rest, Data = 0xFF :: 0xFE :: rest) ∨
      (LoadUnicodeFromStream.Index Data = 0 ∧ ¬ ∃ rest, Data = 0xFF :: 0xFE :: rest) := by
  have hs : strlen BOM_UTF16_LE = 2 := by decide
  unfold LoadUnicodeFromStream.Index
  simp only [hs]
  match Data with
  | [] => right; simp [HasBOM]
  | [a] => right; simp [HasBOM]
  | a :: b :: rest =>
    by_cases ha : a = 0xFF
    · by_cases hb : b = 0xFE
      · left
        subst ha hb
        refine ⟨?_, rest, rfl⟩
        simp [HasBOM, BOM_UTF16_LE, List.range_succ]
      · right
        simp [HasBOM, BOM_UTF16_LE, List.range_succ, hb]
    · right
      simp [HasBOM, BOM_UTF16_LE, List.range_succ, ha]

/-- What the explicit branch computes: a division by zero for every content
without the mark, and a quarter of the size for a content with it. The
`AUTODETECT` branch computes the expected count. -/
theorem LoadUnicodeFromStream_ExplicitCount_cases (Data : List Nat) (hlen : Data.length < 2 ^ 64) :
    (LoadUnicodeFromStream.Index Data = 0 → LoadUnicodeFromStream.ExplicitCount Data = none) ∧
      (LoadUnicodeFromStream.Index Data = 2 →
        LoadUnicodeFromStream.ExplicitCount Data = some (Data.length / 4)) ∧
      (LoadUnicodeFromStream.Index Data ≤ Data.length →
        LoadUnicodeFromStream.AutodetectCount Data (LoadUnicodeFromStream.Index Data) =
          LoadUnicodeFromStream.ExpectedCount Data) := by
  refine ⟨?_, ?_, ?_⟩
  · intro h
    simp only [LoadUnicodeFromStream.ExplicitCount, h, if_true]
  · intro h
    simp only [LoadUnicodeFromStream.ExplicitCount, h, sizeof_wchar_t]
    simp only [show (2 : Nat) ≠ 0 by decide, if_false, Option.some.injEq]
    omega
  · intro h
    simp only [LoadUnicodeFromStream.AutodetectCount, LoadUnicodeFromStream.ExpectedCount,
      sizeof_wchar_t]
    generalize LoadUnicodeFromStream.Index Data = k at h
    omega

/-- C27 fails: in the branch for UTF-16 LE given explicitly, the count handed to
the conversion is `(size / Index) / sizeof(wchar_t)`. For the content `61 00`
(the text `"a"` without a mark) `Index` is 0 and the division is by zero, where
the expected count is 1; for the content `FF FE 61 00 62 00` (`"ab"` with the
mark) the count is 1, where the expected count, which the `AUTODETECT` branch
computes, is 2. -/
theorem LoadUnicodeFromStream_count_divides :
    LoadUnicodeFromStream.ExplicitCount [0x61, 0x00] = none ∧
      LoadUnicodeFromStream.ExpectedCount [0x61, 0x00] = 1 ∧
      LoadUnicodeFromStream.AutodetectCount [0x61, 0x00] 0 = 1 ∧
      LoadUnicodeFromStream.ExplicitCount [0xFF, 0xFE, 0x61, 0x00, 0x62, 0x00] = some 1 ∧
      LoadUnicodeFromStream.ExpectedCount [0xFF, 0xFE, 0x61, 0x00, 0x62, 0x00] = 2 ∧
      LoadUnicodeFromStream.AutodetectCount [0xFF, 0xFE, 0x61, 0x00, 0x62, 0x00] 2 = 2 := by
  decide

/-! ## `FlatProfiler` (C28) -/

theorem toInt64_add (a b : Int) : toInt64 (toInt64 a + b) = toInt64 (a + b) := by
  unfold toInt64
  omega

/-- The entry of a key records the samples `acc`: there is none when `acc` is
empty, else it holds their sum (as an `int64`) and their number (as a `size_t`). -/
theorem FlatProfiler_Run_tracks {KeyT : Type} [DecidableEq KeyT] (key : KeyT)
    (ops : List (FlatProfiler.Op KeyT)) : ∀ (p : FlatProfiler KeyT) (acc : List Int),
    ((acc = [] → p.m_Entries key = none) ∧
      (acc ≠ [] → p.m_Entries key =
        some { SumTime := toInt64 acc.sum, Count := acc.length % 2 ^ 64 })) →
    ((FlatProfiler.Samples key acc ops = [] → (FlatProfiler.Run p ops).m_Entries key = none) ∧
      (FlatProfiler.Samples key acc ops ≠ [] → (FlatProfiler.Run p ops).m_Entries key =
        some { SumTime := toInt64 (FlatProfiler.Samples key acc ops).sum,
               Count := (FlatProfiler.Samples key acc ops).length % 2 ^ 64 })) := by
  induction ops with
  | nil => intro p acc h; exact h
  | cons op ops ih =>
    intro p acc h
    cases op with
    | Clear =>
      simp only [FlatProfiler.Run, FlatProfiler.Samples]
      exact ih (FlatProfiler.Clear p) [] ⟨fun _ => rfl, fun hne => absurd rfl hne⟩
    | AddSample k t =>
      simp only [FlatProfiler.Run, FlatProfiler.Samples]
      apply ih
      by_cases hk : k = key
      · subst hk
        simp only [if_true]
        refine ⟨fun hnil => by simp at hnil, fun _ => ?_⟩
        by_cases hacc : acc = []
        · subst hacc
          simp only [FlatProfiler.AddSample, h.1 rfl, Option.getD_none, FlatProfiler.ENTRY.new,
            if_true, List.nil_append, List.sum_cons, List.sum_nil, List.length_cons,
            List.length_nil, Int.zero_add, Int.add_zero, Nat.zero_add]
        · simp only [FlatProfiler.AddSample, h.2 hacc, Option.getD_some, if_true,
            List.sum_append, List.sum_cons, List.sum_nil, Int.add_zero, List.length_append,
            List.length_cons, List.length_nil, Nat.zero_add, toInt64_add, Option.some.injEq,
            FlatProfiler.ENTRY.mk.injEq, true_and]
          omega
      · have hk1 : key ≠ k := fun e => hk e.symm
        simp only [hk, if_false, FlatProfiler.AddSample, hk1]
        exact h

/-- C28: in every `FlatProfiler` state reached from construction by `Clear` and
`AddSample`, every entry of the map is the entry of a key with at least one
sample since the last `Clear`; its `Count` is the number of these samples (as a
`size_t`; the number itself, and at least 1, when there are fewer than `2^64`)
and its `SumTime` is their sum (as an `int64`; the sum itself when that fits);
so the divisor `(int64)Count` of `GetAvgTime` is not zero. `AddSample(k, t)`
changes only the entry of the key `k`. -/
theorem FlatProfiler_entries {KeyT : Type} [DecidableEq KeyT]
    (ops : List (FlatProfiler.Op KeyT)) (key : KeyT) (e : FlatProfiler.ENTRY)
    (he : (FlatProfiler.Run FlatProfiler.new ops).m_Entries key = some e) :
    FlatProfiler.Samples key [] ops ≠ [] ∧
      e.Count = (FlatProfiler.Samples key [] ops).length % 2 ^ 64 ∧
      e.SumTime = toInt64 (FlatProfiler.Samples key [] ops).sum ∧
      ((FlatProfiler.Samples key [] ops).length < 2 ^ 64 →
        1 ≤ e.Count ∧ e.Count = (FlatProfiler.Samples key [] ops).length ∧
        e.GetAvgTime ≠ none) ∧
      (-2 ^ 63 ≤ (FlatProfiler.Samples key [] ops).sum ∧
        (FlatProfiler.Samples key [] ops).sum < 2 ^ 63 →
        e.SumTime = (FlatProfiler.Samples key [] ops).sum) ∧
      ∀ (p : FlatProfiler KeyT) (k k1 : KeyT) (t : Int), k1 ≠ k →
        (FlatProfiler.AddSample p k t).m_Entries k1 = p.m_Entries k1 := by
  obtain ⟨h1, h2⟩ := FlatProfiler_Run_tracks key ops FlatProfiler.new []
    ⟨fun _ => rfl, fun hne => absurd rfl hne⟩
  have hne : FlatProfiler.Samples key [] ops ≠ [] := by
    intro hnil
    rw [h1 hnil] at he
    exact absurd he (by simp)
  have hv := h2 hne
  rw [he, Option.some.injEq] at hv
  subst hv
  have hpos : 0 < (FlatProfiler.Samples key [] ops).length := List.length_pos.2 hne
  refine ⟨hne, rfl, rfl, ?_, ?_, ?_⟩
  · intro hlt
    have hc : (FlatProfiler.Samples key [] ops).length % 2 ^ 64 =
        (FlatProfiler.Samples key [] ops).length := Nat.mod_eq_of_lt hlt
    refine ⟨by simp only [hc]; omega, hc, ?_⟩
    simp only [FlatProfiler.ENTRY.GetAvgTime, hc]
    have hv0 : toInt64 ((FlatProfiler.Samples key [] ops).length : Int) ≠ 0 := by
      unfold toInt64
      omega
    simp only [hv0, if_false, ne_eq, not_false_eq_true, reduceCtorEq]
  · intro hr
    exact toInt64_of_range _ hr.1 hr.2
  · intro p k k1 t hk
    simp only [FlatProfiler.AddSample, hk, if_false]

/-- C28 at a concrete input: the calls `AddSample(1, 5)`, `AddSample(2, 7)`,
`Clear()`, `AddSample(1, 6)`, `AddSample(1, 4)` and the key 1, whose entry holds
the sum 10 and the count 2. -/
theorem FlatProfiler_entries_witness :
    (FlatProfiler.Run (FlatProfiler.new : FlatProfiler Nat)
        [.AddSample 1 5, .AddSample 2 7, .Clear, .AddSample 1 6, .AddSample 1 4]).m_Entries 1 =
        some { SumTime := 10, Count := 2 } ∧
      (1 ≤ (2 : Nat) ∧ (2 : Nat) = (FlatProfiler.Samples (1 : Nat) []
        [.AddSample 1 5, .AddSample 2 7, .Clear, .AddSample 1 6, .AddSample 1 4]).length ∧
        FlatProfiler.ENTRY.GetAvgTime { SumTime := 10, Count := 2 } ≠ none) :=
  have he : (FlatProfiler.Run (FlatProfiler.new : FlatProfiler Nat)
      [.AddSample 1 5, .AddSample 2 7, .Clear, .AddSample 1 6, .AddSample 1 4]).m_Entries 1 =
      some { SumTime := 10, Count := 2 } := by
    simp [FlatProfiler.Run, FlatProfiler.AddSample, FlatProfiler.Clear, FlatProfiler.new,
      FlatProfiler.ENTRY.new, toInt64]
  ⟨he, (FlatProfiler_entries
    [.AddSample 1 5, .AddSample 2 7, .Clear, .AddSample 1 6, .AddSample 1 4] 1
    { SumTime := 10, Count := 2 } he).2.2.2.1 (by decide)⟩
/-! ## `CreateDirectoryChain` -/

theorem lastIndexBelow_some (s : List Char) (ch : Char) :
    ∀ (n j : Nat), lastIndexBelow s ch n = some j → j < n ∧ s.getD j ' ' = ch := by
  intro n
  induction n with
  | zero => intro j h; simp [lastIndexBelow] at h
  | succ n ih =>
    intro j h
    unfold lastIndexBelow at h
    split at h
    · next hc =>
      have hj : n = j := by simpa using h
      subst hj
      exact ⟨Nat.lt_succ_self _, hc⟩
    · have := ih j h
      exact ⟨Nat.lt_succ_of_lt this.1, this.2⟩

/-- The function `find_last_of` answers `npos` or an index not above `pos`,
inside the string, at which the character stands. -/
theorem find_last_of_cases (s : List Char) (ch : Char) (pos : Nat) :
    find_last_of s ch pos = npos ∨
      (find_last_of s ch pos ≤ pos ∧ find_last_of s ch pos < s.length ∧
        s.getD (find_last_of s ch pos) ' ' = ch) := by
  unfold find_last_of
  cases h : lastIndexBelow s ch (min (pos + 1) s.length) with
  | none => exact Or.inl rfl
  | some j =>
    right
    have := lastIndexBelow_some s ch _ j h
    have h1 : j < min (pos + 1) s.length := this.1
    rw [Nat.lt_min] at h1
    exact ⟨Nat.lt_succ_iff.mp h1.1, h1.2, this.2⟩

/-- As long as the index is not 0 and the path does not begin with the
separator, each round of the loop of `CreateDirectoryChain` finds a strictly
smaller index, so `i` rounds are enough. -/
theorem CreateDirectoryChain_Scan_some {φ : Type} (DIR_SEP : Char) (IsDir : φ → List Char → Bool)
    (fs : φ) (Path : List Char) (h0 : Path.getD 0 ' ' ≠ DIR_SEP) :
    ∀ (fuel i : Nat) (st : List Nat), 1 ≤ i → i ≤ fuel →
      ∃ r, CreateDirectoryChain.Scan DIR_SEP IsDir fs Path fuel i st = some r := by
  intro fuel
  induction fuel with
  | zero => intro i st h1 h2; omega
  | succ fuel ih =>
    intro i st h1 h2
    unfold CreateDirectoryChain.Scan
    have hp : size_t_pred i = i - 1 := by
      unfold size_t_pred
      rw [if_neg (by omega)]
    rw [hp]
    simp only []
    by_cases hn : find_last_of Path DIR_SEP (i - 1) = npos
    · rw [if_pos hn]; exact ⟨st, rfl⟩
    · rw [if_neg hn]
      by_cases hd : IsDir fs (List.take (find_last_of Path DIR_SEP (i - 1)) Path) = true
      · rw [if_pos hd]; exact ⟨st, rfl⟩
      · rw [if_neg hd]
        rcases find_last_of_cases Path DIR_SEP (i - 1) with h | ⟨hle, _, hc⟩
        · exact absurd h hn
        · have hne : find_last_of Path DIR_SEP (i - 1) ≠ 0 := by
            intro hz
            rw [hz] at hc
            exact h0 hc
          exact ih _ _ (by omega) (by omega)

/-- For a path that does not begin with the separator, `CreateDirectoryChain`
and `MustCreateDirectoryChain` come to an end: `Path.length` rounds of the loop
are enough. -/
theorem CreateDirectoryChain_relative_terminates {φ : Type} (DIR_SEP : Char)
    (IsDir : φ → List Char → Bool) (CreateDirectory : φ → List Char → Bool × φ)
    (fs : φ) (Path : List Char) (h0 : Path.getD 0 ' ' ≠ DIR_SEP) :
    (∃ r, CreateDirectoryChain DIR_SEP IsDir CreateDirectory (Path.length + 1) fs Path = some r) ∧
    (∃ r, MustCreateDirectoryChain DIR_SEP IsDir CreateDirectory (Path.length + 1) fs Path
      = some r) := by
  have hs : ∃ st, CreateDirectoryChain.Scan DIR_SEP IsDir fs Path (Path.length + 1)
      (size_t_pred Path.length) [] = some st := by
    by_cases hl : 2 ≤ Path.length
    · have hp : size_t_pred Path.length = Path.length - 1 := by
        unfold size_t_pred
        rw [if_neg (by omega)]
      rw [hp]
      exact CreateDirectoryChain_Scan_some DIR_SEP IsDir fs Path h0 _ _ _ (by omega) (by omega)
    · have hf : find_last_of Path DIR_SEP (size_t_pred (size_t_pred Path.length)) = npos := by
        rcases find_last_of_cases Path DIR_SEP (size_t_pred (size_t_pred Path.length)) with
          h | ⟨_, hlt, hc⟩
        · exact h
        · have hz : find_last_of Path DIR_SEP (size_t_pred (size_t_pred Path.length)) = 0 := by
            omega
          rw [hz] at hc
          exact absurd hc h0
      unfold CreateDirectoryChain.Scan
      simp only []
      rw [if_pos hf]
      exact ⟨[], rfl⟩
  obtain ⟨st, hst⟩ := hs
  unfold CreateDirectoryChain MustCreateDirectoryChain
  rw [hst]
  constructor
  · split
    · exact ⟨_, rfl⟩
    · exact ⟨_, rfl⟩
  · split
    · exact ⟨_, rfl⟩
    · exact ⟨_, rfl⟩

/-- Once the index is 0 on the path `/a`, with the empty prefix not a
directory, the loop of `CreateDirectoryChain` finds index 0 again in every
round and never ends. -/
theorem CreateDirectoryChain_Scan_root {φ : Type} (IsDir : φ → List Char → Bool) (fs : φ)
    (h : IsDir fs [] = false) :
    ∀ (fuel : Nat) (st : List Nat),
      CreateDirectoryChain.Scan '/' IsDir fs ['/', 'a'] fuel 0 st = none := by
  intro fuel
  induction fuel with
  | zero => intro st; rfl
  | succ fuel ih =>
    intro st
    unfold CreateDirectoryChain.Scan
    have hf : find_last_of ['/', 'a'] '/' (size_t_pred 0) = 0 := by decide
    simp only [hf]
    rw [if_neg (by decide)]
    simp only [List.take_zero, h]
    exact ih _

/-- Claim C22, at the input `Path = "/a"` with the separator `/` on a file
system whose only directory is the root `/`, whatever `CreateDirectory` does:
whatever the number of rounds allowed, the ancestor loop of
`CreateDirectoryChain` and of `MustCreateDirectoryChain` does not end. The
first round finds the separator at index 0; the prefix before it is the empty
path, which is no directory; from then on `i - 1` wraps to `npos` and every
round finds index 0 again and pushes it. -/
theorem CreateDirectoryChain_root_child_loops
    (CreateDirectory : List (List Char) → List Char → Bool × List (List Char)) :
    (∀ fuel, CreateDirectoryChain '/' DirList.IsDir CreateDirectory fuel [['/']]
      ['/', 'a'] = none) ∧
    (∀ fuel, MustCreateDirectoryChain '/' DirList.IsDir CreateDirectory fuel [['/']]
      ['/', 'a'] = none) ∧
    find_last_of ['/', 'a'] '/' (size_t_pred 1) = 0 ∧
    find_last_of ['/', 'a'] '/' (size_t_pred 0) = 0 ∧
    CreateDirectoryChain.Scan '/' DirList.IsDir [['/']] ['/', 'a'] 3 1 [] = none := by
  have hs : ∀ fuel, CreateDirectoryChain.Scan '/' DirList.IsDir [['/']] ['/', 'a'] fuel
      (size_t_pred (['/', 'a'] : List Char).length) [] = none := by
    intro fuel
    cases fuel with
    | zero => rfl
    | succ fuel =>
      unfold CreateDirectoryChain.Scan
      have hf : find_last_of ['/', 'a'] '/'
          (size_t_pred (size_t_pred (['/', 'a'] : List Char).length)) = 0 := by decide
      simp only [hf]
      rw [if_neg (by decide)]
      have hd : DirList.IsDir [['/']] (List.take 0 ['/', 'a']) = false := by decide
      simp only [hd]
      exact CreateDirectoryChain_Scan_root DirList.IsDir [['/']] (by decide) fuel _
  have hd : DirList.IsDir [['/']] ['/', 'a'] = false := by decide
  refine ⟨?_, ?_, by decide, by decide, ?_⟩
  · intro fuel
    unfold CreateDirectoryChain
    rw [hs fuel]
    simp only [hd]
    rfl
  · intro fuel
    unfold MustCreateDirectoryChain
    rw [hs fuel]
    simp only [hd]
    rfl
  · exact hs 3

end common
